import Mathlib

/-!
# The viona virtio split-ring engine (`usr/src/uts/i86pc/io/viona/viona_ring.c`)

A shallow embedding of the legacy split-ring code of the viona driver.

* Machine integers are natural numbers; every place where the C code computes in a
  fixed width carries an explicit `% 2 ^ w`.
* Host memory is a map from host virtual addresses to bytes (`Mem`); multi-byte
  accesses are little-endian, as on i86pc.
* A host pointer is a natural number and `NULL` is `0`.
* `vmm_drv_gpa2kva` is external to the file; it is a parameter `gpa2kva` giving the host
  address of a guest page, or `0` when the page does not translate.
* A failed `ASSERT`/`VERIFY` (or an access outside an allocated array) is the outcome
  `panic`; loops whose termination is not structural take a fuel argument and give
  `timeout` when it runs out.
* Locks and memory barriers are not modelled: every function is a sequential step.
-/

namespace Viona

/-! ## Constants of headers that the file includes -/

/-- Modelled from the spec: `PAGESIZE` of i86pc, 4096 bytes; `machparam.h`, which defines
it, is missing from the sources. -/
def PAGESIZE : Nat := 4096

/-- Modelled from the spec: `PAGEOFFSET` of i86pc, `PAGESIZE - 1` (`machparam.h` is
missing from the sources). -/
def PAGEOFFSET : Nat := PAGESIZE - 1

/-- Modelled from the spec: `PAGEMASK` of i86pc, `~PAGEOFFSET` as a 64-bit value
(`machparam.h` is missing from the sources). -/
def PAGEMASK : Nat := 2 ^ 64 - PAGESIZE

/-- Modelled from the spec: `sizeof (struct virtio_desc)`, 16 bytes; `viona_impl.h`, which
declares the structure, is missing from the sources. -/
def SIZEOF_virtio_desc : Nat := 16

/-- Modelled from the spec: `sizeof (struct virtio_used)`, 8 bytes: an id and a length of
32 bits each (`viona_impl.h` is missing from the sources). -/
def SIZEOF_virtio_used : Nat := 8

/-- The size of a `uint16_t`. -/
def SIZEOF_uint16 : Nat := 2

/-- The size of a `uint32_t`. -/
def SIZEOF_uint32 : Nat := 4

/-- Modelled from the spec: the descriptor flag has-next, bit 0 in the legacy virtio
layout (`viona_impl.h`, which defines it, is missing from the sources). -/
def VRING_DESC_F_NEXT : Nat := 1

/-- Modelled from the spec: the descriptor flag device-writable, bit 1 in the legacy
virtio layout (`viona_impl.h` is missing from the sources). -/
def VRING_DESC_F_WRITE : Nat := 2

/-- Modelled from the spec: the descriptor flag is-indirect, bit 2 in the legacy virtio
layout (`viona_impl.h` is missing from the sources). -/
def VRING_DESC_F_INDIRECT : Nat := 4

/-- Modelled from the spec: the no-notify bit of the used-ring flags word, bit 0
(`viona_impl.h` is missing from the sources). -/
def VRING_USED_F_NO_NOTIFY : Nat := 1

/-- Modelled from the spec: the no-interrupt bit of the available-ring flags word, bit 0
(`viona_impl.h` is missing from the sources). -/
def VRING_AVAIL_F_NO_INTERRUPT : Nat := 1

/-- The constant `INT_MAX`. -/
def INT_MAX : Nat := 2 ^ 31 - 1

/-- The constant `UINT64_MAX`. -/
def UINT64_MAX : Nat := 2 ^ 64 - 1

/-- The error number `E2BIG`. -/
def E2BIG : Nat := 7

/-- The error number `EFAULT`. -/
def EFAULT : Nat := 14

/-- The error number `EINVAL`. -/
def EINVAL : Nat := 22

/-! ## Layout and sizing of a legacy-style virtqueue -/

/-- The macro `VRING_MAX_LEN`. -/
def VRING_MAX_LEN : Nat := 32768

/-- The macro `LEGACY_VQ_ALIGN`. -/
def LEGACY_VQ_ALIGN : Nat := PAGESIZE

/-- The macro `P2ROUNDUP(x, align)` of `sysmacros.h`, `-(-(x) & -(align))`, evaluated in
64-bit unsigned arithmetic (its first argument is a `size_t`/`uint64_t` at every use). -/
def P2ROUNDUP (x align : Nat) : Nat :=
  (2 ^ 64 - (((2 ^ 64 - x % 2 ^ 64) % 2 ^ 64) &&& ((2 ^ 64 - align % 2 ^ 64) % 2 ^ 64))) % 2 ^ 64

/-- The macro `LEGACY_DESC_SZ(qsz)`. -/
def LEGACY_DESC_SZ (qsz : Nat) : Nat := (qsz * SIZEOF_virtio_desc) % 2 ^ 64

/-- The macro `LEGACY_AVAIL_SZ(qsz)`. -/
def LEGACY_AVAIL_SZ (qsz : Nat) : Nat := ((qsz + 3) * SIZEOF_uint16) % 2 ^ 64

/-- The macro `LEGACY_USED_SZ(qsz)`. -/
def LEGACY_USED_SZ (qsz : Nat) : Nat :=
  (qsz * SIZEOF_virtio_used + 3 * SIZEOF_uint16) % 2 ^ 64

/-- The macro `LEGACY_AVAIL_FLAGS_OFF(qsz)`. -/
def LEGACY_AVAIL_FLAGS_OFF (qsz : Nat) : Nat := LEGACY_DESC_SZ qsz

/-- The macro `LEGACY_AVAIL_IDX_OFF(qsz)`. -/
def LEGACY_AVAIL_IDX_OFF (qsz : Nat) : Nat := (LEGACY_DESC_SZ qsz + SIZEOF_uint16) % 2 ^ 64

/-- The macro `LEGACY_AVAIL_ENT_OFF(qsz, idx)`. -/
def LEGACY_AVAIL_ENT_OFF (qsz idx : Nat) : Nat :=
  (LEGACY_DESC_SZ qsz + (2 + idx) * SIZEOF_uint16) % 2 ^ 64

/-- The macro `LEGACY_USED_FLAGS_OFF(qsz)`. -/
def LEGACY_USED_FLAGS_OFF (qsz : Nat) : Nat :=
  P2ROUNDUP ((LEGACY_DESC_SZ qsz + LEGACY_AVAIL_SZ qsz) % 2 ^ 64) LEGACY_VQ_ALIGN

/-- The macro `LEGACY_USED_IDX_OFF(qsz)`. -/
def LEGACY_USED_IDX_OFF (qsz : Nat) : Nat :=
  (LEGACY_USED_FLAGS_OFF qsz + SIZEOF_uint16) % 2 ^ 64

/-- The macro `LEGACY_USED_ENT_OFF(qsz, idx)`. -/
def LEGACY_USED_ENT_OFF (qsz idx : Nat) : Nat :=
  (LEGACY_USED_FLAGS_OFF qsz + 2 * SIZEOF_uint16 + idx * SIZEOF_virtio_used) % 2 ^ 64

/-- The macro `LEGACY_VQ_SIZE(qsz)`. -/
def LEGACY_VQ_SIZE (qsz : Nat) : Nat :=
  (LEGACY_USED_FLAGS_OFF qsz + P2ROUNDUP (LEGACY_USED_SZ qsz) LEGACY_VQ_ALIGN) % 2 ^ 64

/-- The macro `LEGACY_VQ_PAGES(qsz)`. -/
def LEGACY_VQ_PAGES (qsz : Nat) : Nat := LEGACY_VQ_SIZE qsz / PAGESIZE

/-! ## Outcomes, host memory and the ring -/

/-- The result of running a piece of kernel code: a value, a failed assertion, or
exhausted fuel. -/
inductive Outcome (α : Type) where
  | done : α → Outcome α
  | panic : Outcome α
  | timeout : Outcome α

/-- Host memory: a byte for every host virtual address. -/
abbrev Mem : Type := Nat → Nat

/-- Read one byte. -/
def rd8 (m : Mem) (a : Nat) : Nat := m a % 256

/-- Read a little-endian `uint16_t`. -/
def rd16 (m : Mem) (a : Nat) : Nat := rd8 m a + 256 * rd8 m (a + 1)

/-- Read a little-endian `uint32_t`. -/
def rd32 (m : Mem) (a : Nat) : Nat := rd16 m a + 65536 * rd16 m (a + 2)

/-- Read a little-endian `uint64_t`. -/
def rd64 (m : Mem) (a : Nat) : Nat := rd32 m a + 4294967296 * rd32 m (a + 4)

/-- Write one byte. -/
def wr8 (m : Mem) (a v : Nat) : Mem := fun x => if x = a then v % 256 else m x

/-- Write a little-endian `uint16_t`. -/
def wr16 (m : Mem) (a v : Nat) : Mem := wr8 (wr8 m a v) (a + 1) (v / 256)

/-- Write a little-endian `uint32_t`. -/
def wr32 (m : Mem) (a v : Nat) : Mem := wr16 (wr16 m a v) (a + 2) (v / 65536)

/-- Modelled from the spec: `struct virtio_desc` (its header `viona_impl.h` is missing
from the sources): guest-physical address (64 bits), length (32 bits), flags and next
index (16 bits each), packed in 16 bytes in that order. -/
structure virtio_desc where
  vd_addr : Nat
  vd_len : Nat
  vd_flags : Nat
  vd_next : Nat
  deriving DecidableEq, Repr

/-- The `struct iovec` of the scatter/gather vector. -/
structure iovec where
  iov_base : Nat
  iov_len : Nat
  deriving DecidableEq, Repr

/-- Modelled from the spec: `used_elem_t`, a completion entry `(id, len)` (`viona_impl.h`
is missing from the sources). -/
structure used_elem_t where
  id : Nat
  len : Nat
  deriving DecidableEq, Repr

/-- Modelled from the spec: the fault counters of `vr_stats` that `viona_ring.c`
increments, each a `uint64_t` (`viona_impl.h` is missing from the sources). -/
structure viona_ring_stats where
  rs_ndesc_too_high : Nat := 0
  rs_bad_idx : Nat := 0
  rs_indir_bad_len : Nat := 0
  rs_indir_bad_nest : Nat := 0
  rs_indir_bad_next : Nat := 0
  rs_too_many_desc : Nat := 0
  rs_desc_bad_len : Nat := 0
  rs_bad_ring_addr : Nat := 0
  deriving DecidableEq, Repr

/-- Modelled from the spec: the ring state `VRS_RESET`, the state of a ring created
empty (`viona_impl.h` is missing from the sources). -/
def VRS_RESET : Nat := 0

/-- Modelled from the spec: the fields of `viona_vring_t` that `viona_ring.c` uses
(`viona_impl.h` is missing from the sources). `vr_lease`, `vr_map_pages`,
`vr_worker_thread` and `vr_txdesb` are pointers (`none` is `NULL`); `vr_map_pages` holds
the host address of every ring page. -/
structure viona_vring_t where
  vr_state : Nat := VRS_RESET
  vr_state_flags : Nat := 0
  vr_size : Nat := 0
  vr_mask : Nat := 0
  vr_pa : Nat := 0
  vr_cur_aidx : Nat := 0
  vr_cur_uidx : Nat := 0
  vr_lease : Option Nat := none
  vr_map_pages : Option (List Nat) := none
  vr_msi_addr : Nat := 0
  vr_msi_msg : Nat := 0
  vr_intr_enabled : Nat := 0
  vr_worker_thread : Option Nat := none
  vr_txdesb : Option Nat := none
  vr_xfer_outstanding : Nat := 0
  vr_stats : viona_ring_stats := {}
  deriving DecidableEq, Repr

/-- The function `viona_hold_page`: both assertions, then the external translation. -/
def viona_hold_page (gpa2kva : Nat → Nat) (ring : viona_vring_t) (gpa : Nat) : Outcome Nat :=
  if ring.vr_lease = none then Outcome.panic
  else if gpa &&& PAGEOFFSET ≠ 0 then Outcome.panic
  else Outcome.done (gpa2kva gpa)

/-- The function `viona_ring_addr`: the host address of byte `off` of the ring. -/
def viona_ring_addr (ring : viona_vring_t) (off : Nat) : Outcome Nat :=
  match ring.vr_map_pages with
  | none => Outcome.panic
  | some pages =>
    if LEGACY_VQ_SIZE ring.vr_size > off then
      let page_num := off / PAGESIZE
      let page_off := off % PAGESIZE
      match pages[page_num]? with
      | some page => Outcome.done (page + page_off)
      | none => Outcome.panic
    else Outcome.panic

/-- The function `vq_read_desc`: a copy of descriptor `idx` of the descriptor table. -/
def vq_read_desc (mem : Mem) (ring : viona_vring_t) (idx : Nat) : Outcome virtio_desc :=
  let entry_off := (idx * SIZEOF_virtio_desc) % 2 ^ 32
  if idx < ring.vr_size then
    match viona_ring_addr ring entry_off with
    | Outcome.done a =>
      Outcome.done
        { vd_addr := rd64 mem a, vd_len := rd32 mem (a + 8),
          vd_flags := rd16 mem (a + 12), vd_next := rd16 mem (a + 14) }
    | Outcome.panic => Outcome.panic
    | Outcome.timeout => Outcome.timeout
  else Outcome.panic

/-- The function `vq_read_avail`: entry `idx` of the available ring. -/
def vq_read_avail (mem : Mem) (ring : viona_vring_t) (idx : Nat) : Outcome Nat :=
  if idx < ring.vr_size then
    match viona_ring_addr ring ((LEGACY_AVAIL_ENT_OFF ring.vr_size idx) % 2 ^ 32) with
    | Outcome.done a => Outcome.done (rd16 mem a)
    | Outcome.panic => Outcome.panic
    | Outcome.timeout => Outcome.timeout
  else Outcome.panic

/-- The function `viona_ring_num_avail`: the guest's available index minus the cursor,
as a `uint16_t`. -/
def viona_ring_num_avail (mem : Mem) (ring : viona_vring_t) : Outcome Nat :=
  match viona_ring_addr ring ((LEGACY_AVAIL_IDX_OFF ring.vr_size) % 2 ^ 32) with
  | Outcome.done a => Outcome.done ((rd16 mem a + 65536 - ring.vr_cur_aidx % 65536) % 65536)
  | Outcome.panic => Outcome.panic
  | Outcome.timeout => Outcome.timeout

/-! ## The descriptor chain walker -/

/-- Modelled from the spec: the macro `VIONA_RING_STAT_INCR` adds one to a 64-bit fault
counter (`viona_impl.h` is missing from the sources). -/
def STAT_INCR (n : Nat) : Nat := (n + 1) % 2 ^ 64

/-- The statement `VIONA_RING_STAT_INCR(ring, ndesc_too_high)`. -/
def incr_ndesc_too_high (ring : viona_vring_t) : viona_vring_t :=
  { ring with vr_stats :=
      { ring.vr_stats with rs_ndesc_too_high := STAT_INCR ring.vr_stats.rs_ndesc_too_high } }

/-- The statement `VIONA_RING_STAT_INCR(ring, bad_idx)`. -/
def incr_bad_idx (ring : viona_vring_t) : viona_vring_t :=
  { ring with vr_stats := { ring.vr_stats with rs_bad_idx := STAT_INCR ring.vr_stats.rs_bad_idx } }

/-- The statement `VIONA_RING_STAT_INCR(ring, indir_bad_len)`. -/
def incr_indir_bad_len (ring : viona_vring_t) : viona_vring_t :=
  { ring with vr_stats :=
      { ring.vr_stats with rs_indir_bad_len := STAT_INCR ring.vr_stats.rs_indir_bad_len } }

/-- The statement `VIONA_RING_STAT_INCR(ring, indir_bad_nest)`. -/
def incr_indir_bad_nest (ring : viona_vring_t) : viona_vring_t :=
  { ring with vr_stats :=
      { ring.vr_stats with rs_indir_bad_nest := STAT_INCR ring.vr_stats.rs_indir_bad_nest } }

/-- The statement `VIONA_RING_STAT_INCR(ring, indir_bad_next)`. -/
def incr_indir_bad_next (ring : viona_vring_t) : viona_vring_t :=
  { ring with vr_stats :=
      { ring.vr_stats with rs_indir_bad_next := STAT_INCR ring.vr_stats.rs_indir_bad_next } }

/-- The statement `VIONA_RING_STAT_INCR(ring, too_many_desc)`. -/
def incr_too_many_desc (ring : viona_vring_t) : viona_vring_t :=
  { ring with vr_stats :=
      { ring.vr_stats with rs_too_many_desc := STAT_INCR ring.vr_stats.rs_too_many_desc } }

/-- The statement `VIONA_RING_STAT_INCR(ring, desc_bad_len)`. -/
def incr_desc_bad_len (ring : viona_vring_t) : viona_vring_t :=
  { ring with vr_stats :=
      { ring.vr_stats with rs_desc_bad_len := STAT_INCR ring.vr_stats.rs_desc_bad_len } }

/-- The statement `VIONA_RING_STAT_INCR(ring, bad_ring_addr)`. -/
def incr_bad_ring_addr (ring : viona_vring_t) : viona_vring_t :=
  { ring with vr_stats :=
      { ring.vr_stats with rs_bad_ring_addr := STAT_INCR ring.vr_stats.rs_bad_ring_addr } }

/-- The assignment `iov[lidx] = v`. -/
def iov_set (iov : Nat → iovec) (lidx : Nat) (v : iovec) : Nat → iovec :=
  fun j => if j = lidx then v else iov j

/-- The 16 bytes at host address `a` as a `struct virtio_desc` (the `bcopy` of
`vq_read_desc` and of `vq_map_indir_desc_bufs`). -/
def desc_at (mem : Mem) (a : Nat) : virtio_desc :=
  { vd_addr := rd64 mem a, vd_len := rd32 mem (a + 8),
    vd_flags := rd16 mem (a + 12), vd_next := rd16 mem (a + 14) }

/-- The locals of the page loop of `vq_map_desc_bufs`; `fault` records that the loop was
left through `return (EFAULT)`. -/
structure MapLoop where
  fault : Bool
  gpa : Nat
  len : Nat
  lidx : Nat
  iov : Nat → iovec

/-- The loop `for (uint_t i = 1; i < pages; i++)` of `vq_map_desc_bufs`, with `n`
iterations left. -/
def vq_map_desc_bufs_loop (gpa2kva : Nat → Nat) (ring : viona_vring_t) :
    Nat → Nat → Nat → Nat → (Nat → iovec) → Outcome MapLoop
  | 0, gpa, len, lidx, iov =>
    Outcome.done { fault := false, gpa := gpa, len := len, lidx := lidx, iov := iov }
  | n + 1, gpa, len, lidx, iov =>
    if gpa &&& PAGEOFFSET ≠ 0 then Outcome.panic
    else
      match viona_hold_page gpa2kva ring gpa with
      | Outcome.done buf =>
        if buf = 0 then
          Outcome.done { fault := true, gpa := gpa, len := len, lidx := lidx, iov := iov }
        else
          let region_len := min len PAGESIZE
          vq_map_desc_bufs_loop gpa2kva ring n ((gpa + region_len) % 2 ^ 64) (len - region_len)
            ((lidx + 1) % 65536) (iov_set iov lidx { iov_base := buf, iov_len := region_len })
      | Outcome.panic => Outcome.panic
      | Outcome.timeout => Outcome.timeout

/-- What `vq_map_desc_bufs` and `vq_map_indir_desc_bufs` leave behind: the error number
returned, the ring (its fault counters), the vector and `*idxp`. -/
structure MapRes where
  err : Nat
  ring : viona_vring_t
  iov : Nat → iovec
  idx : Nat

/-- The number of pages `vq_map_desc_bufs` computes for a descriptor (`pages`). -/
def desc_pages (desc : virtio_desc) : Nat :=
  let len := desc.vd_len
  let front_offset := desc.vd_addr &&& PAGEOFFSET
  let front_len := min len (PAGESIZE - front_offset)
  if front_len < len then (1 + P2ROUNDUP (len - front_len) PAGESIZE / PAGESIZE) % 2 ^ 32 else 1

/-- The function `vq_map_desc_bufs`. -/
def vq_map_desc_bufs (gpa2kva : Nat → Nat) (ring : viona_vring_t) (desc : virtio_desc)
    (iov : Nat → iovec) (niov idx : Nat) : Outcome MapRes :=
  let gpa := desc.vd_addr
  let len := desc.vd_len
  let lidx := idx
  if ¬ lidx < niov then Outcome.panic
  else if desc.vd_len = 0 then
    Outcome.done { err := EINVAL, ring := incr_desc_bad_len ring, iov := iov, idx := idx }
  else
    let front_offset := desc.vd_addr &&& PAGEOFFSET
    let front_len := min len (PAGESIZE - front_offset)
    let pages := desc_pages desc
    if pages > (niov + 2 ^ 32 - lidx) % 2 ^ 32 then
      Outcome.done { err := E2BIG, ring := incr_too_many_desc ring, iov := iov, idx := idx }
    else
      match viona_hold_page gpa2kva ring (gpa &&& PAGEMASK) with
      | Outcome.done buf =>
        if buf = 0 then
          Outcome.done { err := EFAULT, ring := incr_bad_ring_addr ring, iov := iov, idx := idx }
        else
          match vq_map_desc_bufs_loop gpa2kva ring (pages - 1) ((gpa + front_len) % 2 ^ 64)
              (len - front_len) ((lidx + 1) % 65536)
              (iov_set iov lidx { iov_base := buf + front_offset, iov_len := front_len }) with
          | Outcome.done st =>
            if st.fault then
              Outcome.done
                { err := EFAULT, ring := incr_bad_ring_addr ring, iov := st.iov, idx := idx }
            else if st.len ≠ 0 then Outcome.panic
            else if st.gpa ≠ (desc.vd_addr + desc.vd_len) % 2 ^ 64 then Outcome.panic
            else Outcome.done { err := 0, ring := ring, iov := st.iov, idx := st.lidx }
          | Outcome.panic => Outcome.panic
          | Outcome.timeout => Outcome.timeout
      | Outcome.panic => Outcome.panic
      | Outcome.timeout => Outcome.timeout

/-- The loop `for (;;)` of `vq_map_indir_desc_bufs`; the locals carried from one
iteration to the next are `indir_next`, `buf` and `buf_gpa`. -/
def vq_map_indir_desc_bufs_loop (gpa2kva : Nat → Nat) (mem : Mem) (desc : virtio_desc)
    (niov indir_count : Nat) :
    Nat → viona_vring_t → (Nat → iovec) → Nat → Nat → Nat → Nat → Outcome MapRes
  | 0, _, _, _, _, _, _ => Outcome.timeout
  | fuel + 1, ring, iov, idx, indir_next, buf, buf_gpa =>
    let indir_gpa := (desc.vd_addr + indir_next * SIZEOF_virtio_desc) % 2 ^ 64
    let indir_page := indir_gpa &&& PAGEMASK
    match (if indir_page ≠ buf_gpa then viona_hold_page gpa2kva ring indir_page
           else Outcome.done buf) with
    | Outcome.done buf1 =>
      if indir_page ≠ buf_gpa ∧ buf1 = 0 then
        Outcome.done { err := EFAULT, ring := incr_bad_ring_addr ring, iov := iov, idx := idx }
      else
        let vp := desc_at mem (buf1 + (indir_gpa - indir_page))
        if vp.vd_flags &&& VRING_DESC_F_INDIRECT ≠ 0 then
          Outcome.done { err := EINVAL, ring := incr_indir_bad_nest ring, iov := iov, idx := idx }
        else if vp.vd_len = 0 then
          Outcome.done { err := EINVAL, ring := incr_desc_bad_len ring, iov := iov, idx := idx }
        else
          match vq_map_desc_bufs gpa2kva ring vp iov niov idx with
          | Outcome.done r =>
            if r.err ≠ 0 then Outcome.done r
            else if vp.vd_flags &&& VRING_DESC_F_NEXT = 0 then Outcome.done r
            else if r.idx ≥ niov then
              Outcome.done
                { err := E2BIG, ring := incr_too_many_desc r.ring, iov := r.iov, idx := r.idx }
            else if vp.vd_next ≥ indir_count then
              Outcome.done
                { err := EINVAL, ring := incr_indir_bad_next r.ring, iov := r.iov, idx := r.idx }
            else
              vq_map_indir_desc_bufs_loop gpa2kva mem desc niov indir_count fuel r.ring r.iov
                r.idx vp.vd_next buf1 indir_page
          | Outcome.panic => Outcome.panic
          | Outcome.timeout => Outcome.timeout
    | Outcome.panic => Outcome.panic
    | Outcome.timeout => Outcome.timeout

/-- The function `vq_map_indir_desc_bufs`; `fuel` bounds the iterations of its loop. -/
def vq_map_indir_desc_bufs (fuel : Nat) (gpa2kva : Nat → Nat) (mem : Mem)
    (ring : viona_vring_t) (desc : virtio_desc) (iov : Nat → iovec) (niov idx : Nat) :
    Outcome MapRes :=
  let indir_count := (desc.vd_len / SIZEOF_virtio_desc) % 65536
  if desc.vd_len &&& 0xf ≠ 0 ∨ indir_count = 0 ∨ indir_count > ring.vr_size ∨
      desc.vd_addr > (desc.vd_addr + desc.vd_len) % 2 ^ 64 then
    Outcome.done { err := EINVAL, ring := incr_indir_bad_len ring, iov := iov, idx := idx }
  else
    vq_map_indir_desc_bufs_loop gpa2kva mem desc niov indir_count fuel ring iov idx 0 0
      UINT64_MAX

/-- What `vq_popchain` leaves behind: its return value, the ring, the vector and
`*cookie`. -/
structure PopRes where
  ret : Int
  ring : viona_vring_t
  iov : Nat → iovec
  cookie : Nat

/-- The if/else of the loop body of `vq_popchain` that maps descriptor `vdir`; an `err`
other than 0 stands for `break`. -/
def vq_popchain_map (fuel : Nat) (gpa2kva : Nat → Nat) (mem : Mem) (ring : viona_vring_t)
    (vdir : virtio_desc) (iov : Nat → iovec) (niov i : Nat) : Outcome MapRes :=
  if vdir.vd_flags &&& VRING_DESC_F_INDIRECT = 0 then
    vq_map_desc_bufs gpa2kva ring vdir iov niov i
  else if vdir.vd_flags &&& VRING_DESC_F_NEXT ≠ 0 then
    Outcome.done { err := EINVAL, ring := incr_indir_bad_next ring, iov := iov, idx := i }
  else
    vq_map_indir_desc_bufs fuel gpa2kva mem ring vdir iov niov i

/-- The loop `for (i = 0; i < niov; next = vdir.vd_next)` of `vq_popchain` together with
the `return (-1)` behind it; `ifuel` is the fuel given to every walk of an indirect
table. -/
def vq_popchain_loop (ifuel : Nat) (gpa2kva : Nat → Nat) (mem : Mem) (niov head cookie : Nat) :
    Nat → viona_vring_t → (Nat → iovec) → Nat → Nat → Outcome PopRes
  | 0, _, _, _, _ => Outcome.timeout
  | fuel + 1, ring, iov, i, next =>
    if i < niov then
      if next ≥ ring.vr_size then
        Outcome.done { ret := -1, ring := incr_bad_idx ring, iov := iov, cookie := cookie }
      else
        match vq_read_desc mem ring next with
        | Outcome.done vdir =>
          match vq_popchain_map ifuel gpa2kva mem ring vdir iov niov i with
          | Outcome.done r =>
            if r.err ≠ 0 then
              Outcome.done { ret := -1, ring := r.ring, iov := r.iov, cookie := cookie }
            else if vdir.vd_flags &&& VRING_DESC_F_NEXT = 0 then
              Outcome.done
                { ret := (r.idx : Int),
                  ring := { r.ring with vr_cur_aidx := (r.ring.vr_cur_aidx + 1) % 65536 },
                  iov := r.iov, cookie := head }
            else
              vq_popchain_loop ifuel gpa2kva mem niov head cookie fuel r.ring r.iov r.idx
                vdir.vd_next
          | Outcome.panic => Outcome.panic
          | Outcome.timeout => Outcome.timeout
        | Outcome.panic => Outcome.panic
        | Outcome.timeout => Outcome.timeout
    else Outcome.done { ret := -1, ring := ring, iov := iov, cookie := cookie }

/-- The function `vq_popchain`; `fuel` bounds the iterations of each of its loops. -/
def vq_popchain (fuel : Nat) (gpa2kva : Nat → Nat) (mem : Mem) (ring : viona_vring_t)
    (iov : Nat → iovec) (niov cookie : Nat) : Outcome PopRes :=
  if ¬ (niov > 0 ∧ niov < INT_MAX) then Outcome.panic
  else
    let idx := ring.vr_cur_aidx
    match viona_ring_num_avail mem ring with
    | Outcome.done ndesc =>
      if ndesc = 0 then Outcome.done { ret := 0, ring := ring, iov := iov, cookie := cookie }
      else
        let ring1 := if ndesc > ring.vr_size then incr_ndesc_too_high ring else ring
        match vq_read_avail mem ring1 ((idx &&& ring1.vr_mask) % 65536) with
        | Outcome.done head =>
          vq_popchain_loop fuel gpa2kva mem niov head cookie fuel ring1 iov 0 head
        | Outcome.panic => Outcome.panic
        | Outcome.timeout => Outcome.timeout
    | Outcome.panic => Outcome.panic
    | Outcome.timeout => Outcome.timeout

/-! ## The used-ring writer -/

/-- The function `vq_write_used_ent`: both addresses are looked up, then `*idp = cookie`
and `*lenp = len`; the parameter `cookie` is a `uint16_t`. -/
def vq_write_used_ent (mem : Mem) (ring : viona_vring_t) (idx cookie len : Nat) : Outcome Mem :=
  let used_id_off := (LEGACY_USED_ENT_OFF ring.vr_size idx) % 2 ^ 32
  let used_len_off := (used_id_off + SIZEOF_uint32) % 2 ^ 32
  match viona_ring_addr ring used_id_off with
  | Outcome.done idp =>
    match viona_ring_addr ring used_len_off with
    | Outcome.done lenp => Outcome.done (wr32 (wr32 mem idp (cookie % 65536)) lenp len)
    | Outcome.panic => Outcome.panic
    | Outcome.timeout => Outcome.timeout
  | Outcome.panic => Outcome.panic
  | Outcome.timeout => Outcome.timeout

/-- The function `vq_write_used_idx`. -/
def vq_write_used_idx (mem : Mem) (ring : viona_vring_t) (idx : Nat) : Outcome Mem :=
  match viona_ring_addr ring ((LEGACY_USED_IDX_OFF ring.vr_size) % 2 ^ 32) with
  | Outcome.done used_idx => Outcome.done (wr16 mem used_idx (idx % 65536))
  | Outcome.panic => Outcome.panic
  | Outcome.timeout => Outcome.timeout

/-- The function `vq_pushchain`: host memory and the ring after the call. -/
def vq_pushchain (mem : Mem) (ring : viona_vring_t) (len cookie : Nat) :
    Outcome (Mem × viona_vring_t) :=
  let uidx := ring.vr_cur_uidx
  match vq_write_used_ent mem ring ((uidx &&& ring.vr_mask) % 65536) cookie len with
  | Outcome.done mem1 =>
    let uidx1 := (uidx + 1) % 65536
    match vq_write_used_idx mem1 ring uidx1 with
    | Outcome.done mem2 => Outcome.done (mem2, { ring with vr_cur_uidx := uidx1 })
    | Outcome.panic => Outcome.panic
    | Outcome.timeout => Outcome.timeout
  | Outcome.panic => Outcome.panic
  | Outcome.timeout => Outcome.timeout

/-- The loop `for (uint_t i = 0; i < num_bufs; i++)` of `vq_pushchain_many`, with `n`
iterations left; `uidx` is not changed by the loop. -/
def vq_pushchain_many_loop (ring : viona_vring_t) (uidx : Nat) (elem : Nat → used_elem_t) :
    Nat → Nat → Mem → Outcome Mem
  | 0, _, mem => Outcome.done mem
  | n + 1, i, mem =>
    match vq_write_used_ent mem ring ((uidx &&& ring.vr_mask) % 65536) (elem i).id
        (elem i).len with
    | Outcome.done mem1 => vq_pushchain_many_loop ring uidx elem n (i + 1) mem1
    | Outcome.panic => Outcome.panic
    | Outcome.timeout => Outcome.timeout

/-- The function `vq_pushchain_many`: host memory and the ring after the call. -/
def vq_pushchain_many (mem : Mem) (ring : viona_vring_t) (num_bufs : Nat)
    (elem : Nat → used_elem_t) : Outcome (Mem × viona_vring_t) :=
  let uidx := ring.vr_cur_uidx
  match vq_pushchain_many_loop ring uidx elem num_bufs 0 mem with
  | Outcome.done mem1 =>
    let uidx1 := (uidx + num_bufs) % 65536
    match vq_write_used_idx mem1 ring uidx1 with
    | Outcome.done mem2 => Outcome.done (mem2, { ring with vr_cur_uidx := uidx1 })
    | Outcome.panic => Outcome.panic
    | Outcome.timeout => Outcome.timeout
  | Outcome.panic => Outcome.panic
  | Outcome.timeout => Outcome.timeout

/-! ## Ring lifecycle: lease, mapping, initialisation and worker cleanup -/

/-- The error number `ENOMEM`. -/
def ENOMEM : Nat := 12

/-- The error number `EBUSY`. -/
def EBUSY : Nat := 16

/-- Modelled from the spec: the ring state `VRS_SETUP`, entered on thread creation
(`viona_impl.h` is missing from the sources). -/
def VRS_SETUP : Nat := 1

/-- Modelled from the spec: the index `VIONA_VQ_RX` of the receive ring of a link
(`viona_impl.h` is missing from the sources). -/
def VIONA_VQ_RX : Nat := 0

/-- Modelled from the spec: the index `VIONA_VQ_TX` of the transmit ring of a link
(`viona_impl.h` is missing from the sources). -/
def VIONA_VQ_TX : Nat := 1

/-- Modelled from the spec: `VIONA_VQ_MAX`, the small fixed maximum of the queue index: a
link has one receive and one transmit ring (`viona_impl.h` is missing from the sources). -/
def VIONA_VQ_MAX : Nat := 2

/-- Modelled from the spec: the fields of `viona_link_t` that `viona_ring.c` uses, the
hold on the virtual machine and the array of `VIONA_VQ_MAX` rings (`viona_impl.h` is
missing from the sources). -/
structure viona_link_t where
  l_vm_hold : Option Nat := none
  l_vrings : Nat → viona_vring_t := fun _ => {}

/-- The scan of `ffs` over the bits `pos`, `pos + 1`, ... with `k` bits left. -/
def ffs_scan : Nat → Nat → Nat → Nat
  | 0, _, _ => 0
  | k + 1, pos, n => if n.testBit pos then pos + 1 else ffs_scan k (pos + 1) n

/-- Modelled from the spec: the kernel routine `ffs` (not among the sources): the 1-based
position of the least significant set bit of a 32-bit `int`, and 0 for 0. -/
def ffs (n : Nat) : Nat := ffs_scan 32 0 n

/-- Modelled from the spec: `viona_tx_ring_alloc` of `viona_tx.c` (missing from the
sources; transmit processing is an external collaborator): of its effects only the
allocation of `vr_txdesb` is kept. -/
def viona_tx_ring_alloc (ring : viona_vring_t) (_qsz : Nat) : viona_vring_t :=
  { ring with vr_txdesb := some 1 }

/-- Modelled from the spec: `viona_tx_ring_free` of `viona_tx.c` (missing from the
sources): of its effects only the release of `vr_txdesb` is kept. -/
def viona_tx_ring_free (ring : viona_vring_t) (_qsz : Nat) : viona_vring_t :=
  { ring with vr_txdesb := none }

/-- The function `viona_ring_misc_free`. -/
def viona_ring_misc_free (ring : viona_vring_t) : viona_vring_t :=
  let qsz := ring.vr_size
  viona_tx_ring_free ring qsz

/-- The function `viona_ring_unmap`; `kmem_free` of a size other than the allocated one
is a `panic`. -/
def viona_ring_unmap (ring : viona_vring_t) : Outcome viona_vring_t :=
  match ring.vr_map_pages with
  | none => Outcome.done ring
  | some map =>
    let npages := LEGACY_VQ_PAGES ring.vr_size % 2 ^ 32
    if map.length = npages then Outcome.done { ring with vr_map_pages := none }
    else Outcome.panic

/-- The loop `for (uint_t i = 0; i < npages; i++, pa += PAGESIZE)` of `viona_ring_map`,
with `n` iterations left, and the `return (B_TRUE)` behind it. -/
def viona_ring_map_loop (gpa2kva : Nat → Nat) :
    Nat → Nat → Nat → viona_vring_t → Outcome (Bool × viona_vring_t)
  | 0, _, _, ring => Outcome.done (true, ring)
  | n + 1, i, pa, ring =>
    match viona_hold_page gpa2kva ring pa with
    | Outcome.done page =>
      if page = 0 then
        match viona_ring_unmap ring with
        | Outcome.done ring1 => Outcome.done (false, ring1)
        | Outcome.panic => Outcome.panic
        | Outcome.timeout => Outcome.timeout
      else
        match ring.vr_map_pages with
        | some map =>
          if i < map.length then
            viona_ring_map_loop gpa2kva n (i + 1) ((pa + PAGESIZE) % 2 ^ 64)
              { ring with vr_map_pages := some (map.set i page) }
          else Outcome.panic
        | none => Outcome.panic
    | Outcome.panic => Outcome.panic
    | Outcome.timeout => Outcome.timeout

/-- The function `viona_ring_map`: `B_TRUE` or `B_FALSE`, and the ring afterwards. -/
def viona_ring_map (gpa2kva : Nat → Nat) (ring : viona_vring_t) :
    Outcome (Bool × viona_vring_t) :=
  let qsz := ring.vr_size
  let pa := ring.vr_pa
  if qsz = 0 then Outcome.panic
  else if qsz > VRING_MAX_LEN then Outcome.panic
  else if pa = 0 then Outcome.panic
  else if pa &&& (LEGACY_VQ_ALIGN - 1) ≠ 0 then Outcome.panic
  else if LEGACY_VQ_ALIGN ≠ PAGESIZE then Outcome.panic
  else if ring.vr_map_pages ≠ none then Outcome.panic
  else
    let npages := LEGACY_VQ_PAGES qsz % 2 ^ 32
    viona_ring_map_loop gpa2kva npages 0 pa
      { ring with vr_map_pages := some (List.replicate npages 0) }

/-- The function `viona_ring_lease_drop`; `hold` is `ring->vr_link->l_vm_hold`. -/
def viona_ring_lease_drop (hold : Option Nat) (ring : viona_vring_t) : Outcome viona_vring_t :=
  if ring.vr_lease ≠ none then
    if hold = none then Outcome.panic
    else
      match viona_ring_unmap ring with
      | Outcome.done ring1 => Outcome.done { ring1 with vr_lease := none }
      | Outcome.panic => Outcome.panic
      | Outcome.timeout => Outcome.timeout
  else Outcome.done ring

/-- The function `viona_ring_lease_renew`; `sign` is what `vmm_drv_lease_sign` returns
(`none` is `NULL`) and `hold` is `ring->vr_link->l_vm_hold`. -/
def viona_ring_lease_renew (sign : Option Nat) (gpa2kva : Nat → Nat) (hold : Option Nat)
    (ring : viona_vring_t) : Outcome (Bool × viona_vring_t) :=
  if hold = none then Outcome.panic
  else
    match viona_ring_lease_drop hold ring with
    | Outcome.done ring1 =>
      let ring2 := { ring1 with vr_lease := sign }
      if ring2.vr_lease ≠ none then
        if ring2.vr_pa ≠ 0 ∧ ring2.vr_size ≠ 0 then
          match viona_ring_map gpa2kva ring2 with
          | Outcome.done (ok, ring3) =>
            if ¬ ok then
              match viona_ring_lease_drop hold ring3 with
              | Outcome.done ring4 => Outcome.done (false, ring4)
              | Outcome.panic => Outcome.panic
              | Outcome.timeout => Outcome.timeout
            else Outcome.done (ring3.vr_lease.isSome, ring3)
          | Outcome.panic => Outcome.panic
          | Outcome.timeout => Outcome.timeout
        else Outcome.done (ring2.vr_lease.isSome, ring2)
      else Outcome.done (ring2.vr_lease.isSome, ring2)
    | Outcome.panic => Outcome.panic
    | Outcome.timeout => Outcome.timeout

/-- The function `viona_create_worker`; `thread` is the thread of the light-weight
process that `lwp_create` returns (`none` when it fails). -/
def viona_create_worker (thread : Option Nat) (ring : viona_vring_t) : Outcome (Option Nat) :=
  if ring.vr_state ≠ VRS_RESET then Outcome.panic
  else Outcome.done thread

/-- The code of `viona_ring_init` behind the label `fail`. -/
def viona_ring_init_fail (hold : Option Nat) (ring : viona_vring_t) : Outcome viona_vring_t :=
  match viona_ring_lease_drop hold ring with
  | Outcome.done ring1 =>
    let ring2 := viona_ring_misc_free ring1
    Outcome.done { ring2 with vr_size := 0, vr_mask := 0, vr_pa := 0 }
  | Outcome.panic => Outcome.panic
  | Outcome.timeout => Outcome.timeout

/-- The link with ring `idx` replaced. -/
def link_set_ring (link : viona_link_t) (idx : Nat) (ring : viona_vring_t) : viona_link_t :=
  { link with l_vrings := fun j => if j = idx then ring else link.l_vrings j }

/-- The part of `viona_ring_init` that runs on the addressed ring once the arguments
have passed validation: the error number returned and the ring afterwards. -/
def viona_ring_init_ring (sign : Option Nat) (gpa2kva : Nat → Nat) (thread : Option Nat)
    (hold : Option Nat) (ring : viona_vring_t) (idx qsz pa : Nat) :
    Outcome (Nat × viona_vring_t) :=
  if ring.vr_state ≠ VRS_RESET then Outcome.done (EBUSY, ring)
  else if ring.vr_state_flags ≠ 0 then Outcome.panic
  else
    let ring1 := { ring with vr_lease := none }
    match viona_ring_lease_renew sign gpa2kva hold ring1 with
    | Outcome.done (ok, ring2) =>
      if ¬ ok then
        match viona_ring_init_fail hold ring2 with
        | Outcome.done ring9 => Outcome.done (EBUSY, ring9)
        | Outcome.panic => Outcome.panic
        | Outcome.timeout => Outcome.timeout
      else
        let ring3 :=
          { ring2 with vr_size := qsz, vr_mask := (qsz + 65536 - 1) % 65536, vr_pa := pa }
        match viona_ring_map gpa2kva ring3 with
        | Outcome.done (mapped, ring4) =>
          if ¬ mapped then
            match viona_ring_init_fail hold ring4 with
            | Outcome.done ring9 => Outcome.done (EINVAL, ring9)
            | Outcome.panic => Outcome.panic
            | Outcome.timeout => Outcome.timeout
          else
            let ring5 := { ring4 with vr_cur_aidx := 0, vr_cur_uidx := 0 }
            let ring6 := if idx = VIONA_VQ_TX then viona_tx_ring_alloc ring5 qsz else ring5
            let ring7 := { ring6 with vr_msi_addr := 0, vr_msi_msg := 0, vr_stats := {} }
            match viona_create_worker thread ring7 with
            | Outcome.done none =>
              match viona_ring_init_fail hold ring7 with
              | Outcome.done ring9 => Outcome.done (ENOMEM, ring9)
              | Outcome.panic => Outcome.panic
              | Outcome.timeout => Outcome.timeout
            | Outcome.done (some t) =>
              Outcome.done (0, { ring7 with vr_worker_thread := some t, vr_state := VRS_SETUP })
            | Outcome.panic => Outcome.panic
            | Outcome.timeout => Outcome.timeout
        | Outcome.panic => Outcome.panic
        | Outcome.timeout => Outcome.timeout
    | Outcome.panic => Outcome.panic
    | Outcome.timeout => Outcome.timeout

/-- The function `viona_ring_init`: the error number returned and the link afterwards.
`sign`, `gpa2kva` and `thread` are what `vmm_drv_lease_sign`, `vmm_drv_gpa2kva` and
`lwp_create` give during the call. -/
def viona_ring_init (sign : Option Nat) (gpa2kva : Nat → Nat) (thread : Option Nat)
    (link : viona_link_t) (idx qsz pa : Nat) : Outcome (Nat × viona_link_t) :=
  if idx ≥ VIONA_VQ_MAX then Outcome.done (EINVAL, link)
  else if qsz = 0 ∨ qsz > VRING_MAX_LEN ∨ (1 <<< (ffs qsz - 1)) ≠ qsz then
    Outcome.done (EINVAL, link)
  else if pa &&& (LEGACY_VQ_ALIGN - 1) ≠ 0 then Outcome.done (EINVAL, link)
  else
    match viona_ring_init_ring sign gpa2kva thread link.l_vm_hold (link.l_vrings idx) idx qsz
        pa with
    | Outcome.done (err, ring) => Outcome.done (err, link_set_ring link idx ring)
    | Outcome.panic => Outcome.panic
    | Outcome.timeout => Outcome.timeout

/-- The code of `viona_worker` behind the label `cleanup`, up to the wake-up of the
waiters; `hold` is `ring->vr_link->l_vm_hold`. -/
def viona_worker_cleanup (hold : Option Nat) (ring : viona_vring_t) : Outcome viona_vring_t :=
  if ring.vr_txdesb ≠ none ∧ ring.vr_xfer_outstanding ≠ 0 then Outcome.panic
  else
    let ring1 := viona_ring_misc_free ring
    match viona_ring_lease_drop hold ring1 with
    | Outcome.done ring2 =>
      Outcome.done
        { ring2 with vr_cur_aidx := 0, vr_size := 0, vr_mask := 0, vr_pa := 0,
                     vr_state := VRS_RESET, vr_state_flags := 0, vr_worker_thread := none }
    | Outcome.panic => Outcome.panic
    | Outcome.timeout => Outcome.timeout

/-! ## Specification vocabulary and example data -/

/-- The ring `r2` differs from `r1` in its fault counters at most. -/
def stats_only (r1 r2 : viona_vring_t) : Prop := r2 = { r1 with vr_stats := r2.vr_stats }

/-- Write a little-endian `uint64_t` (used to build example memories). -/
def wr64 (m : Mem) (a v : Nat) : Mem := wr32 (wr32 m a v) (a + 4) (v / 4294967296)

/-- Store descriptor `d` at host address `a` (used to build example memories). -/
def wr_desc (m : Mem) (a : Nat) (d : virtio_desc) : Mem :=
  wr16 (wr16 (wr32 (wr64 m a d.vd_addr) (a + 8) d.vd_len) (a + 12) d.vd_flags) (a + 14) d.vd_next

/-- Example: a ring of 256 entries whose three pages are mapped at distinct host pages. -/
def ex_ring : viona_vring_t :=
  { vr_size := 256, vr_mask := 255, vr_pa := 1048576, vr_lease := some 1,
    vr_map_pages := some [65536, 131072, 196608] }

/-- Example: a translation under which the first MiB of guest memory is mapped. -/
def ex_kva (g : Nat) : Nat := if g < 1048576 then 16777216 + g else 0

/-- Example: host memory in which the guest has published one chain of three direct
descriptors, 5 → 7 → 2, headed by available-ring entry 0. -/
def ex_mem : Mem :=
  wr16 (wr16 (wr_desc (wr_desc (wr_desc (fun _ => 0)
    (65536 + 16 * 5) { vd_addr := 20496, vd_len := 100, vd_flags := 1, vd_next := 7 })
    (65536 + 16 * 7) { vd_addr := 24576, vd_len := 4096, vd_flags := 3, vd_next := 2 })
    (65536 + 16 * 2) { vd_addr := 30720, vd_len := 64, vd_flags := 0, vd_next := 0 })
    (131072 + 2) 1) (131072 + 4) 5

/-- Example: the empty vector handed to `vq_popchain`. -/
def ex_iov : Nat → iovec := fun _ => { iov_base := 0, iov_len := 0 }

/-- Example: what `vq_popchain` leaves behind on `ex_mem`. -/
def ex_pop : PopRes :=
  { ret := 3, ring := { ex_ring with vr_cur_aidx := 1 },
    iov := iov_set (iov_set (iov_set ex_iov 0 { iov_base := 16797712, iov_len := 100 })
      1 { iov_base := 16801792, iov_len := 4096 }) 2 { iov_base := 16807936, iov_len := 64 },
    cookie := 5 }

/-- Example: host memory in which the head descriptor 5 of the published chain has
length zero. -/
def ex_mem_zero : Mem :=
  wr16 (wr16 (wr_desc (fun _ => 0)
    (65536 + 16 * 5) { vd_addr := 20496, vd_len := 0, vd_flags := 0, vd_next := 0 })
    (131072 + 2) 1) (131072 + 4) 5

/-- Example: what `vq_popchain` leaves behind on `ex_mem_zero`. -/
def ex_pop_zero : PopRes :=
  { ret := -1, ring := incr_desc_bad_len ex_ring, iov := ex_iov, cookie := 99 }

/-- A chain of `k` direct descriptors in the descriptor table of `ring`: the walk from
`d 0` visits the table indices `d 0`, ..., `d (k - 1)`, descriptor `d j` reads as
`desc j`, every index is below the ring size, no descriptor is indirect, every one but
the last has has-next set and points to its successor, the last has has-next clear, and
every descriptor has non-zero length, lies within one guest page and that page
translates. -/
def direct_chain (gpa2kva : Nat → Nat) (mem : Mem) (ring : viona_vring_t) (k : Nat)
    (d : Nat → Nat) (desc : Nat → virtio_desc) : Prop :=
  (∀ j, j < k →
    d j < ring.vr_size ∧ vq_read_desc mem ring (d j) = Outcome.done (desc j) ∧
    (desc j).vd_flags &&& VRING_DESC_F_INDIRECT = 0 ∧ 0 < (desc j).vd_len ∧
    (desc j).vd_addr % PAGESIZE + (desc j).vd_len ≤ PAGESIZE ∧
    gpa2kva ((desc j).vd_addr &&& PAGEMASK) ≠ 0) ∧
  (∀ j, j + 1 < k →
    (desc j).vd_flags &&& VRING_DESC_F_NEXT ≠ 0 ∧ (desc j).vd_next = d (j + 1)) ∧
  (desc (k - 1)).vd_flags &&& VRING_DESC_F_NEXT = 0

/-- Example: the table indices of the chain published in `ex_mem`. -/
def ex_d (j : Nat) : Nat := if j = 0 then 5 else if j = 1 then 7 else 2

/-- Example: the descriptors of the chain published in `ex_mem`. -/
def ex_desc (j : Nat) : virtio_desc :=
  if j = 0 then { vd_addr := 20496, vd_len := 100, vd_flags := 1, vd_next := 7 }
  else if j = 1 then { vd_addr := 24576, vd_len := 4096, vd_flags := 3, vd_next := 2 }
  else { vd_addr := 30720, vd_len := 64, vd_flags := 0, vd_next := 0 }

/-- Example: a descriptor of 300 bytes that starts 100 bytes below the top of the 64-bit
guest-physical address space, so that `vd_addr + vd_len` wraps. -/
def ex_desc_wrap : virtio_desc :=
  { vd_addr := 18446744073709551516, vd_len := 300, vd_flags := 0, vd_next := 0 }

/-- Example: a translation of the last guest page and of guest page 0. -/
def ex_kva_wrap (g : Nat) : Nat :=
  if g = 18446744073709547520 then 20480 else if g = 0 then 36864 else 0

/-- A mapped ring: a size in `1 .. 65535` with `vr_mask == vr_size - 1`, and a page
table with one page-aligned host page per ring page, no host page used twice. -/
def ring_mapped (ring : viona_vring_t) : Prop :=
  0 < ring.vr_size ∧ ring.vr_size < 65536 ∧ ring.vr_mask = ring.vr_size - 1 ∧
  ∃ pages, ring.vr_map_pages = some pages ∧ pages.length = LEGACY_VQ_PAGES ring.vr_size ∧
    (∀ p, p ∈ pages → p % PAGESIZE = 0) ∧ pages.Nodup

/-- The `uint16_t` the guest sees at byte offset `off` of the ring. -/
def ring_rd16 (mem : Mem) (ring : viona_vring_t) (off : Nat) : Outcome Nat :=
  match viona_ring_addr ring off with
  | Outcome.done a => Outcome.done (rd16 mem a)
  | Outcome.panic => Outcome.panic
  | Outcome.timeout => Outcome.timeout

/-- The `uint32_t` the guest sees at byte offset `off` of the ring. -/
def ring_rd32 (mem : Mem) (ring : viona_vring_t) (off : Nat) : Outcome Nat :=
  match viona_ring_addr ring off with
  | Outcome.done a => Outcome.done (rd32 mem a)
  | Outcome.panic => Outcome.panic
  | Outcome.timeout => Outcome.timeout

/-- Example: the ring `ex_ring` with its used cursor at the last 16-bit value. -/
def ex_ring_last : viona_vring_t := { ex_ring with vr_cur_uidx := 65535 }

/-- Example: two completions, `(5, 100)` and `(7, 200)`. -/
def ex_elem (i : Nat) : used_elem_t :=
  if i = 0 then { id := 5, len := 100 } else { id := 7, len := 200 }

/-- One call of the used-ring writer: `vq_pushchain(len, cookie)` or
`vq_pushchain_many(num_bufs, elem)`. -/
inductive push_op where
  | one (len cookie : Nat) : push_op
  | many (num_bufs : Nat) (elem : Nat → used_elem_t) : push_op

/-- The number of completions a call of the used-ring writer pushes. -/
def push_op.count : push_op → Nat
  | push_op.one _ _ => 1
  | push_op.many num_bufs _ => num_bufs

/-- The number of completions a sequence of calls pushes in total. -/
def push_total : List push_op → Nat
  | [] => 0
  | op :: ops => op.count + push_total ops

/-- Run one call of the used-ring writer. -/
def push_op.run (mem : Mem) (ring : viona_vring_t) : push_op → Outcome (Mem × viona_vring_t)
  | push_op.one len cookie => vq_pushchain mem ring len cookie
  | push_op.many num_bufs elem => vq_pushchain_many mem ring num_bufs elem

/-- Run a sequence of calls of the used-ring writer, one after the other. -/
def run_pushes : List push_op → Mem → viona_vring_t → Outcome (Mem × viona_vring_t)
  | [], mem, ring => Outcome.done (mem, ring)
  | op :: ops, mem, ring =>
    match op.run mem ring with
    | Outcome.done (mem1, ring1) => run_pushes ops mem1 ring1
    | Outcome.panic => Outcome.panic
    | Outcome.timeout => Outcome.timeout

/-- Example: the ring `ex_ring` after 65530 chains have been consumed. -/
def ex_ring_avail : viona_vring_t := { ex_ring with vr_cur_aidx := 65530 }

/-- Example: host memory in which the guest's available index has wrapped to 4. -/
def ex_mem_avail : Mem := wr16 (fun _ => 0) (131072 + 2) 4

/-- The rings that `viona_ring_init` and the cleanup of the worker lead to from a zeroed
ring. `other` stands for the steps of the remaining functions of `viona_ring.c` (the
state changes of the worker, lease renewal, popping, pushing, notification), which
write neither `vr_size` nor `vr_mask`. -/
inductive ring_reachable : viona_vring_t → Prop where
  | zeroed : ring_reachable {}
  | init (sign : Option Nat) (gpa2kva : Nat → Nat) (thread : Option Nat) (link : viona_link_t)
      (idx qsz pa err : Nat) (link1 : viona_link_t) :
      ring_reachable (link.l_vrings idx) →
      viona_ring_init sign gpa2kva thread link idx qsz pa = Outcome.done (err, link1) →
      ring_reachable (link1.l_vrings idx)
  | cleanup (hold : Option Nat) (ring ring1 : viona_vring_t) :
      ring_reachable ring → viona_worker_cleanup hold ring = Outcome.done ring1 →
      ring_reachable ring1
  | other (ring ring1 : viona_vring_t) :
      ring_reachable ring → ring1.vr_size = ring.vr_size → ring1.vr_mask = ring.vr_mask →
      ring_reachable ring1

/-- Example: a link that holds its virtual machine and whose rings are zeroed. -/
def ex_link : viona_link_t := { l_vm_hold := some 1 }

/-- Example: the receive ring of `ex_link` after a successful
`viona_ring_init(link, 0, 256, 65536)`. -/
def ex_ring_inited : viona_vring_t :=
  { vr_state := VRS_SETUP, vr_size := 256, vr_mask := 255, vr_pa := 65536, vr_lease := some 7,
    vr_map_pages := some [16842752, 16846848, 16850944], vr_worker_thread := some 9 }

/-- Example: a link whose receive ring is running. -/
def ex_link_busy : viona_link_t := link_set_ring ex_link 0 ex_ring_inited

/-! ## The walk of a chain, pass by pass -/

/-- How one pass through the body of a loop ends: with a `return` (or a `break` and the
`return` behind the loop), or with the locals for the next pass. -/
inductive Pass (ρ σ : Type) where
  | ret : ρ → Pass ρ σ
  | again : σ → Pass ρ σ

/-- The locals that the loop of `vq_popchain` carries from one pass to the next: the
ring (its fault counters), the vector, `i` and `next`. -/
structure PopState where
  ring : viona_vring_t
  iov : Nat → iovec
  i : Nat
  next : Nat

/-- One pass through the loop `for (i = 0; i < niov; next = vdir.vd_next)` of
`vq_popchain`. -/
def vq_popchain_pass (ifuel : Nat) (gpa2kva : Nat → Nat) (mem : Mem) (niov head cookie : Nat)
    (s : PopState) : Outcome (Pass PopRes PopState) :=
  if s.i < niov then
    if s.next ≥ s.ring.vr_size then
      Outcome.done
        (Pass.ret { ret := -1, ring := incr_bad_idx s.ring, iov := s.iov, cookie := cookie })
    else
      match vq_read_desc mem s.ring s.next with
      | Outcome.done vdir =>
        match vq_popchain_map ifuel gpa2kva mem s.ring vdir s.iov niov s.i with
        | Outcome.done r =>
          if r.err ≠ 0 then
            Outcome.done (Pass.ret { ret := -1, ring := r.ring, iov := r.iov, cookie := cookie })
          else if vdir.vd_flags &&& VRING_DESC_F_NEXT = 0 then
            Outcome.done
              (Pass.ret
                { ret := (r.idx : Int),
                  ring := { r.ring with vr_cur_aidx := (r.ring.vr_cur_aidx + 1) % 65536 },
                  iov := r.iov, cookie := head })
          else
            Outcome.done
              (Pass.again { ring := r.ring, iov := r.iov, i := r.idx, next := vdir.vd_next })
        | Outcome.panic => Outcome.panic
        | Outcome.timeout => Outcome.timeout
      | Outcome.panic => Outcome.panic
      | Outcome.timeout => Outcome.timeout
  else
    Outcome.done (Pass.ret { ret := -1, ring := s.ring, iov := s.iov, cookie := cookie })

/-- The first `n` passes through the loop of `vq_popchain`: `Pass.again s` when all of
them went round again and left the locals `s`. -/
def vq_popchain_walk (ifuel : Nat) (gpa2kva : Nat → Nat) (mem : Mem) (niov head cookie : Nat) :
    Nat → PopState → Outcome (Pass PopRes PopState)
  | 0, s => Outcome.done (Pass.again s)
  | n + 1, s =>
    match vq_popchain_pass ifuel gpa2kva mem niov head cookie s with
    | Outcome.done (Pass.again s1) => vq_popchain_walk ifuel gpa2kva mem niov head cookie n s1
    | Outcome.done (Pass.ret r) => Outcome.done (Pass.ret r)
    | Outcome.panic => Outcome.panic
    | Outcome.timeout => Outcome.timeout

/-- The locals that the loop of `vq_map_indir_desc_bufs` carries from one pass to the
next: the ring (its fault counters), the vector, `*idxp`, `indir_next`, `buf` and
`buf_gpa`. -/
structure IndirState where
  ring : viona_vring_t
  iov : Nat → iovec
  idx : Nat
  indir_next : Nat
  buf : Nat
  buf_gpa : Nat

/-- The guest-physical address of the sub-descriptor that a pass of the loop of
`vq_map_indir_desc_bufs` reads (`indir_gpa`). -/
def indir_gpa (desc : virtio_desc) (t : IndirState) : Nat :=
  (desc.vd_addr + t.indir_next * SIZEOF_virtio_desc) % 2 ^ 64

/-- The guest page of that sub-descriptor (`indir_page`). -/
def indir_page (desc : virtio_desc) (t : IndirState) : Nat :=
  indir_gpa desc t &&& PAGEMASK

/-- The mapping of the page of the sub-descriptor at the start of a pass: a new
translation when the page differs from the one held, the held buffer otherwise. -/
def indir_hold (gpa2kva : Nat → Nat) (desc : virtio_desc) (t : IndirState) : Outcome Nat :=
  if indir_page desc t ≠ t.buf_gpa then viona_hold_page gpa2kva t.ring (indir_page desc t)
  else Outcome.done t.buf

/-- One pass through the loop `for (;;)` of `vq_map_indir_desc_bufs`. -/
def vq_map_indir_pass (gpa2kva : Nat → Nat) (mem : Mem) (desc : virtio_desc)
    (niov indir_count : Nat) (t : IndirState) : Outcome (Pass MapRes IndirState) :=
  match indir_hold gpa2kva desc t with
  | Outcome.done buf1 =>
    if indir_page desc t ≠ t.buf_gpa ∧ buf1 = 0 then
      Outcome.done
        (Pass.ret
          { err := EFAULT, ring := incr_bad_ring_addr t.ring, iov := t.iov, idx := t.idx })
    else
      let vp := desc_at mem (buf1 + (indir_gpa desc t - indir_page desc t))
      if vp.vd_flags &&& VRING_DESC_F_INDIRECT ≠ 0 then
        Outcome.done
          (Pass.ret
            { err := EINVAL, ring := incr_indir_bad_nest t.ring, iov := t.iov, idx := t.idx })
      else if vp.vd_len = 0 then
        Outcome.done
          (Pass.ret
            { err := EINVAL, ring := incr_desc_bad_len t.ring, iov := t.iov, idx := t.idx })
      else
        match vq_map_desc_bufs gpa2kva t.ring vp t.iov niov t.idx with
        | Outcome.done r =>
          if r.err ≠ 0 then Outcome.done (Pass.ret r)
          else if vp.vd_flags &&& VRING_DESC_F_NEXT = 0 then Outcome.done (Pass.ret r)
          else if r.idx ≥ niov then
            Outcome.done
              (Pass.ret
                { err := E2BIG, ring := incr_too_many_desc r.ring, iov := r.iov, idx := r.idx })
          else if vp.vd_next ≥ indir_count then
            Outcome.done
              (Pass.ret
                { err := EINVAL, ring := incr_indir_bad_next r.ring, iov := r.iov,
                  idx := r.idx })
          else
            Outcome.done
              (Pass.again
                { ring := r.ring, iov := r.iov, idx := r.idx, indir_next := vp.vd_next,
                  buf := buf1, buf_gpa := indir_page desc t })
        | Outcome.panic => Outcome.panic
        | Outcome.timeout => Outcome.timeout
  | Outcome.panic => Outcome.panic
  | Outcome.timeout => Outcome.timeout

/-- The first `m` passes through the loop of `vq_map_indir_desc_bufs`. -/
def vq_map_indir_walk (gpa2kva : Nat → Nat) (mem : Mem) (desc : virtio_desc)
    (niov indir_count : Nat) : Nat → IndirState → Outcome (Pass MapRes IndirState)
  | 0, t => Outcome.done (Pass.again t)
  | m + 1, t =>
    match vq_map_indir_pass gpa2kva mem desc niov indir_count t with
    | Outcome.done (Pass.again t1) => vq_map_indir_walk gpa2kva mem desc niov indir_count m t1
    | Outcome.done (Pass.ret r) => Outcome.done (Pass.ret r)
    | Outcome.panic => Outcome.panic
    | Outcome.timeout => Outcome.timeout

/-- The ring with which the loop of `vq_popchain` starts: the ring handed in, with
`ndesc_too_high` counted when the apparent count exceeds the ring size. -/
def pop_ring (ring : viona_vring_t) (ndesc : Nat) : viona_vring_t :=
  if ndesc > ring.vr_size then incr_ndesc_too_high ring else ring

/-- The walk of `vq_popchain` visits descriptor `vdir` in its pass number `n` (counted
from 0) with the locals `s`: the capacity is in range, an entry is available, the head
is read, the first `n` passes go round again and leave `s`, and pass `n` reads `vdir`
from the descriptor table. -/
def pop_visits (fuel : Nat) (gpa2kva : Nat → Nat) (mem : Mem) (ring : viona_vring_t)
    (iov : Nat → iovec) (niov cookie n : Nat) (s : PopState) (vdir : virtio_desc) : Prop :=
  (niov > 0 ∧ niov < INT_MAX) ∧
  ∃ ndesc head, viona_ring_num_avail mem ring = Outcome.done ndesc ∧ ndesc ≠ 0 ∧
    vq_read_avail mem (pop_ring ring ndesc)
      ((ring.vr_cur_aidx &&& (pop_ring ring ndesc).vr_mask) % 65536) = Outcome.done head ∧
    vq_popchain_walk fuel gpa2kva mem niov head cookie n
      { ring := pop_ring ring ndesc, iov := iov, i := 0, next := head } =
        Outcome.done (Pass.again s) ∧
    s.i < niov ∧ s.next < s.ring.vr_size ∧
    vq_read_desc mem s.ring s.next = Outcome.done vdir

/-- The table of an indirect descriptor passes the validation at the head of
`vq_map_indir_desc_bufs`. -/
def indir_valid (ring : viona_vring_t) (desc : virtio_desc) : Prop :=
  ¬ (desc.vd_len &&& 0xf ≠ 0 ∨ (desc.vd_len / SIZEOF_virtio_desc) % 65536 = 0 ∨
      (desc.vd_len / SIZEOF_virtio_desc) % 65536 > ring.vr_size ∨
      desc.vd_addr > (desc.vd_addr + desc.vd_len) % 2 ^ 64)

/-- The walk of the table of the indirect descriptor `desc`, started with the vector
`iov` filled up to `idx`, reaches its pass number `m` (counted from 0) with the locals
`t`: the table passes validation and the first `m` passes go round again and leave
`t`. -/
def indir_reaches (gpa2kva : Nat → Nat) (mem : Mem) (ring : viona_vring_t)
    (desc : virtio_desc) (iov : Nat → iovec) (niov idx m : Nat) (t : IndirState) : Prop :=
  indir_valid ring desc ∧
  vq_map_indir_walk gpa2kva mem desc niov ((desc.vd_len / SIZEOF_virtio_desc) % 65536) m
    { ring := ring, iov := iov, idx := idx, indir_next := 0, buf := 0, buf_gpa := UINT64_MAX } =
      Outcome.done (Pass.again t)

/-- The walk of the table of `desc` visits sub-descriptor `vp` in its pass number `m`:
it reaches that pass, the page of the sub-descriptor is mapped, and `vp` is the copy
made of the sub-descriptor. -/
def indir_visits (gpa2kva : Nat → Nat) (mem : Mem) (ring : viona_vring_t)
    (desc : virtio_desc) (iov : Nat → iovec) (niov idx m : Nat) (t : IndirState)
    (vp : virtio_desc) : Prop :=
  indir_reaches gpa2kva mem ring desc iov niov idx m t ∧
  ∃ buf1, indir_hold gpa2kva desc t = Outcome.done buf1 ∧
    ¬ (indir_page desc t ≠ t.buf_gpa ∧ buf1 = 0) ∧
    vp = desc_at mem (buf1 + (indir_gpa desc t - indir_page desc t))

/-- Example: host memory in which the guest has published one chain whose head is
descriptor `idx` with contents `d`. -/
def ex_mem_top (idx : Nat) (d : virtio_desc) : Mem :=
  wr16 (wr16 (wr_desc (fun _ => 0) (65536 + 16 * idx) d) (131072 + 2) 1) (131072 + 4) idx

/-- Example: host memory in which the guest has published one chain, descriptor 5 (a
valid direct descriptor of 100 bytes with has-next) followed by descriptor 7 with
contents `d`. -/
def ex_mem_second (d : virtio_desc) : Mem :=
  wr16 (wr16 (wr_desc (wr_desc (fun _ => 0)
    (65536 + 16 * 5) { vd_addr := 20496, vd_len := 100, vd_flags := 1, vd_next := 7 })
    (65536 + 16 * 7) d) (131072 + 2) 1) (131072 + 4) 5

/-- Example: the top-level indirect descriptor 9 of `ex_mem_indir`, whose table of `len`
bytes lies at guest address 32768. -/
def ex_indir_desc (len : Nat) : virtio_desc :=
  { vd_addr := 32768, vd_len := len, vd_flags := 4, vd_next := 0 }

/-- Example: host memory in which the guest has published one chain made of the
indirect descriptor 9, whose table of `len` bytes at guest address 32768 (host address
16809984 under `ex_kva`) starts with the sub-descriptors `vp0` and `vp1`. -/
def ex_mem_indir (len : Nat) (vp0 vp1 : virtio_desc) : Mem :=
  wr_desc (wr_desc (ex_mem_top 9 (ex_indir_desc len)) 16809984 vp0) 16810000 vp1

/-- Example: a valid direct sub-descriptor of 100 bytes with has-next, pointing to
sub-descriptor 1. -/
def ex_sub_first : virtio_desc :=
  { vd_addr := 20496, vd_len := 100, vd_flags := 1, vd_next := 1 }

/-- Example: the locals of the loop of `vq_popchain` on the example ring before the
first pass, with head `head`. -/
def ex_pop_state (head : Nat) : PopState :=
  { ring := ex_ring, iov := ex_iov, i := 0, next := head }

/-- Example: the locals of the loop of `vq_popchain` on `ex_mem_second` after the pass
that maps descriptor 5. -/
def ex_pop_state_second : PopState :=
  { ring := ex_ring, iov := iov_set ex_iov 0 { iov_base := 16797712, iov_len := 100 }, i := 1,
    next := 7 }

/-- Example: the locals of the loop of `vq_map_indir_desc_bufs` on `ex_mem_indir` after
the pass that maps sub-descriptor 0. -/
def ex_indir_state_second : IndirState :=
  { ring := ex_ring, iov := iov_set ex_iov 0 { iov_base := 16797712, iov_len := 100 }, idx := 1,
    indir_next := 1, buf := 16809984, buf_gpa := 32768 }

instance indir_valid_decidable (ring : viona_vring_t) (desc : virtio_desc) :
    Decidable (indir_valid ring desc) := by
  unfold indir_valid
  exact inferInstance

/-! ## Notification control and interrupt delivery -/

/-- The function `viona_ring_disable_notify`: `*used_flags |= VRING_USED_F_NO_NOTIFY` on
the 16-bit flags word of the used ring. -/
def viona_ring_disable_notify (mem : Mem) (ring : viona_vring_t) : Outcome Mem :=
  match viona_ring_addr ring ((LEGACY_USED_FLAGS_OFF ring.vr_size) % 2 ^ 32) with
  | Outcome.done used_flags =>
    Outcome.done
      (wr16 mem used_flags ((rd16 mem used_flags ||| VRING_USED_F_NO_NOTIFY) % 65536))
  | Outcome.panic => Outcome.panic
  | Outcome.timeout => Outcome.timeout

/-- The function `viona_ring_enable_notify`: `*used_flags &= ~VRING_USED_F_NO_NOTIFY`;
the complement is taken in `int` and the store keeps the low 16 bits. -/
def viona_ring_enable_notify (mem : Mem) (ring : viona_vring_t) : Outcome Mem :=
  match viona_ring_addr ring ((LEGACY_USED_FLAGS_OFF ring.vr_size) % 2 ^ 32) with
  | Outcome.done used_flags =>
    Outcome.done
      (wr16 mem used_flags
        ((rd16 mem used_flags &&& (2 ^ 32 - 1 - VRING_USED_F_NO_NOTIFY)) % 65536))
  | Outcome.panic => Outcome.panic
  | Outcome.timeout => Outcome.timeout

/-- What `viona_intr_ring` asks of its collaborators: an MSI through `vmm_drv_msi`, or a
wake-up of the pollers of the link through `pollwakeup`. -/
inductive intr_event where
  | msi (addr msg : Nat) : intr_event
  | pollwakeup : intr_event
  deriving DecidableEq, Repr

/-- Modelled from the spec: the kernel routine `atomic_cas_uint(target, cmp, newval)`
(not among the sources): the old value of the target, and the target afterwards, which
is `newval` when the old value equals `cmp`. -/
def atomic_cas_uint (target cmp newval : Nat) : Nat × Nat :=
  (target, if target = cmp then newval else target)

/-- The part of `viona_intr_ring` behind the check of the flags of the guest: the ring
afterwards and the requests made, in order. -/
def viona_intr_ring_deliver (ring : viona_vring_t) : viona_vring_t × List intr_event :=
  let addr := ring.vr_msi_addr
  let msg := ring.vr_msi_msg
  if addr ≠ 0 then (ring, [intr_event.msi addr msg])
  else
    let cas := atomic_cas_uint ring.vr_intr_enabled 0 1
    if cas.1 = 0 then ({ ring with vr_intr_enabled := cas.2 }, [intr_event.pollwakeup])
    else ({ ring with vr_intr_enabled := cas.2 }, [])

/-- The function `viona_intr_ring`: the ring afterwards and the requests made to the
collaborators, in order. -/
def viona_intr_ring (mem : Mem) (ring : viona_vring_t) (skip_flags_check : Bool) :
    Outcome (viona_vring_t × List intr_event) :=
  if ¬ skip_flags_check then
    match viona_ring_addr ring ((LEGACY_AVAIL_FLAGS_OFF ring.vr_size) % 2 ^ 32) with
    | Outcome.done avail_flags =>
      if rd16 mem avail_flags &&& VRING_AVAIL_F_NO_INTERRUPT ≠ 0 then Outcome.done (ring, [])
      else Outcome.done (viona_intr_ring_deliver ring)
    | Outcome.panic => Outcome.panic
    | Outcome.timeout => Outcome.timeout
  else Outcome.done (viona_intr_ring_deliver ring)

/-! ## The worker thread -/

/-- Modelled from the spec: the ring state `VRS_INIT`, in which the worker waits for a
start request (`viona_impl.h` is missing from the sources). -/
def VRS_INIT : Nat := 2

/-- Modelled from the spec: the ring state `VRS_RUN`, in which the worker processes
traffic (`viona_impl.h` is missing from the sources). -/
def VRS_RUN : Nat := 3

/-- Modelled from the spec: the ring state `VRS_STOP`, in which the processing loops
leave the ring (`viona_impl.h` is missing from the sources). -/
def VRS_STOP : Nat := 4

/-- Modelled from the spec: the request flag `VRSF_REQ_START` (`viona_impl.h` is missing
from the sources). -/
def VRSF_REQ_START : Nat := 1

/-- Modelled from the spec: the request flag `VRSF_REQ_STOP` (`viona_impl.h` is missing
from the sources). -/
def VRSF_REQ_STOP : Nat := 2

/-- Modelled from the spec: the macro `VRING_NEED_BAIL(ring, proc)`: a stop request is
pending or the process is exiting (`viona_impl.h` is missing from the sources);
`exiting` is the exit flag of the process. -/
def VRING_NEED_BAIL (ring : viona_vring_t) (exiting : Bool) : Bool :=
  decide (ring.vr_state_flags &&& VRSF_REQ_STOP ≠ 0) || exiting

/-- What the worker observes of its surroundings. For pass `k` of the wait loop:
`expired k` is what `vmm_drv_lease_expired` reports, `sign k` what `vmm_drv_lease_sign`
returns if the lease is renewed, `flags k` the request flags found when `cv_wait_sig`
returns (other threads set them while the lock is released) and `exiting k` the exit
flag of the process then. `exiting0` is the exit flag at the check made in `VRS_SETUP`;
`expired_run` and `sign_run` are the answers to the lease check made on entering
`VRS_RUN`; `work_rx` and `work_tx` are the effects on the ring of `viona_worker_rx` and
`viona_worker_tx`, which are not part of `viona_ring.c`. -/
structure worker_env where
  exiting0 : Bool
  expired : Nat → Bool
  sign : Nat → Option Nat
  flags : Nat → Nat
  exiting : Nat → Bool
  expired_run : Bool
  sign_run : Option Nat
  work_rx : viona_vring_t → viona_vring_t
  work_tx : viona_vring_t → viona_vring_t

/-- How the worker leaves its wait loop: through `goto cleanup`, or through the loop
condition, towards the start of processing. -/
inductive worker_exit where
  | bail : viona_vring_t → worker_exit
  | start : viona_vring_t → worker_exit

/-- The end of a pass through the wait loop of `viona_worker`: `cv_wait_sig` and the
check of `VRING_NEED_BAIL` behind it. -/
def viona_worker_pass_wait (env : worker_env) (k : Nat) (ring : viona_vring_t) :
    Pass worker_exit viona_vring_t :=
  let ring1 := { ring with vr_state_flags := env.flags k }
  if VRING_NEED_BAIL ring1 (env.exiting k) then Pass.ret (worker_exit.bail ring1)
  else Pass.again ring1

/-- Pass `k` through the loop `while (ring->vr_state_flags == 0)` of `viona_worker`;
`hold` is `ring->vr_link->l_vm_hold`. -/
def viona_worker_pass (env : worker_env) (gpa2kva : Nat → Nat) (hold : Option Nat) (k : Nat)
    (ring : viona_vring_t) : Outcome (Pass worker_exit viona_vring_t) :=
  if ring.vr_state_flags = 0 then
    if env.expired k then
      match viona_ring_lease_renew (env.sign k) gpa2kva hold ring with
      | Outcome.done (ok, ring1) =>
        if ¬ ok then Outcome.done (Pass.ret (worker_exit.bail ring1))
        else Outcome.done (viona_worker_pass_wait env k ring1)
      | Outcome.panic => Outcome.panic
      | Outcome.timeout => Outcome.timeout
    else Outcome.done (viona_worker_pass_wait env k ring)
  else Outcome.done (Pass.ret (worker_exit.start ring))

/-- The loop `while (ring->vr_state_flags == 0)` of `viona_worker` from pass `k` on, with
`fuel` passes left. -/
def viona_worker_wait (env : worker_env) (gpa2kva : Nat → Nat) (hold : Option Nat) :
    Nat → Nat → viona_vring_t → Outcome worker_exit
  | 0, _, _ => Outcome.timeout
  | fuel + 1, k, ring =>
    match viona_worker_pass env gpa2kva hold k ring with
    | Outcome.done (Pass.ret e) => Outcome.done e
    | Outcome.done (Pass.again ring1) => viona_worker_wait env gpa2kva hold fuel (k + 1) ring1
    | Outcome.panic => Outcome.panic
    | Outcome.timeout => Outcome.timeout

/-- The first `n` passes through the wait loop of `viona_worker`, from pass `k` on. -/
def viona_worker_walk (env : worker_env) (gpa2kva : Nat → Nat) (hold : Option Nat) :
    Nat → Nat → viona_vring_t → Outcome (Pass worker_exit viona_vring_t)
  | 0, _, ring => Outcome.done (Pass.again ring)
  | n + 1, k, ring =>
    match viona_worker_pass env gpa2kva hold k ring with
    | Outcome.done (Pass.again ring1) => viona_worker_walk env gpa2kva hold n (k + 1) ring1
    | Outcome.done (Pass.ret e) => Outcome.done (Pass.ret e)
    | Outcome.panic => Outcome.panic
    | Outcome.timeout => Outcome.timeout

/-- The three statements of `viona_worker` behind its wait loop: the assertion that a
start was requested, `ring->vr_state = VRS_RUN` and
`ring->vr_state_flags &= ~VRSF_REQ_START` (the complement is taken in `int`). -/
def viona_worker_start (ring : viona_vring_t) : Outcome viona_vring_t :=
  if ring.vr_state_flags &&& VRSF_REQ_START = 0 then Outcome.panic
  else
    Outcome.done
      { ring with vr_state := VRS_RUN,
                  vr_state_flags := ring.vr_state_flags &&& (2 ^ 32 - 1 - VRSF_REQ_START) }

/-- The processing of `viona_worker` in `VRS_RUN`: the ring of which processing is left
in `VRS_STOP`; `idx` is the index of the ring in its link. -/
def viona_worker_work (env : worker_env) (idx : Nat) (ring : viona_vring_t) :
    Outcome viona_vring_t :=
  if idx = VIONA_VQ_RX then
    if (env.work_rx ring).vr_state ≠ VRS_STOP then Outcome.panic
    else Outcome.done (env.work_rx ring)
  else if idx = VIONA_VQ_TX then
    if (env.work_tx ring).vr_state ≠ VRS_STOP then Outcome.panic
    else Outcome.done (env.work_tx ring)
  else Outcome.panic

/-- The part of `viona_worker` between the entry to `VRS_RUN` and the label `cleanup`:
the lease check and the processing; the result is the ring with which the cleanup is
entered. -/
def viona_worker_run (env : worker_env) (gpa2kva : Nat → Nat) (hold : Option Nat) (idx : Nat)
    (ring : viona_vring_t) : Outcome viona_vring_t :=
  if env.expired_run then
    match viona_ring_lease_renew env.sign_run gpa2kva hold ring with
    | Outcome.done (ok, ring1) =>
      if ¬ ok then Outcome.done ring1 else viona_worker_work env idx ring1
    | Outcome.panic => Outcome.panic
    | Outcome.timeout => Outcome.timeout
  else viona_worker_work env idx ring

/-- The cleanup of `viona_worker`, with the values assigned to `vr_state` so far. -/
def viona_worker_finish (hold : Option Nat) (ring : viona_vring_t) (states : List Nat) :
    Outcome (viona_vring_t × List Nat) :=
  match viona_worker_cleanup hold ring with
  | Outcome.done ring1 => Outcome.done (ring1, states ++ [VRS_RESET])
  | Outcome.panic => Outcome.panic
  | Outcome.timeout => Outcome.timeout

/-- The function `viona_worker` up to the release of `vr_lock`: the ring it leaves and
the values it has assigned to `vr_state`, in order. `fuel` bounds the passes through the
wait loop, `idx` is the index of the ring in its link and `hold` is
`ring->vr_link->l_vm_hold`. -/
def viona_worker (env : worker_env) (gpa2kva : Nat → Nat) (hold : Option Nat) (idx fuel : Nat)
    (ring : viona_vring_t) : Outcome (viona_vring_t × List Nat) :=
  if ring.vr_state ≠ VRS_SETUP then Outcome.panic
  else if VRING_NEED_BAIL ring env.exiting0 then viona_worker_finish hold ring []
  else
    let ring1 := { ring with vr_state := VRS_INIT }
    match viona_worker_wait env gpa2kva hold fuel 0 ring1 with
    | Outcome.done (worker_exit.bail ring2) => viona_worker_finish hold ring2 [VRS_INIT]
    | Outcome.done (worker_exit.start ring2) =>
      match viona_worker_start ring2 with
      | Outcome.done ring3 =>
        match viona_worker_run env gpa2kva hold idx ring3 with
        | Outcome.done ring4 => viona_worker_finish hold ring4 [VRS_INIT, VRS_RUN]
        | Outcome.panic => Outcome.panic
        | Outcome.timeout => Outcome.timeout
      | Outcome.panic => Outcome.panic
      | Outcome.timeout => Outcome.timeout
    | Outcome.panic => Outcome.panic
    | Outcome.timeout => Outcome.timeout

/-- The check of the flags of the guest makes `viona_intr_ring` return at once: the flags
are looked at and `VRING_AVAIL_F_NO_INTERRUPT` is set in the flags word of the available
ring. -/
def intr_suppressed (mem : Mem) (ring : viona_vring_t) (skip_flags_check : Bool) : Prop :=
  skip_flags_check = false ∧
  ∃ a, viona_ring_addr ring ((LEGACY_AVAIL_FLAGS_OFF ring.vr_size) % 2 ^ 32) = Outcome.done a ∧
    rd16 mem a &&& VRING_AVAIL_F_NO_INTERRUPT ≠ 0

/-- The check of the flags of the guest lets `viona_intr_ring` go on: the check is
skipped, or `VRING_AVAIL_F_NO_INTERRUPT` is clear in the flags word of the available
ring. -/
def intr_allowed (mem : Mem) (ring : viona_vring_t) (skip_flags_check : Bool) : Prop :=
  skip_flags_check = true ∨
  ∃ a, viona_ring_addr ring ((LEGACY_AVAIL_FLAGS_OFF ring.vr_size) % 2 ^ 32) = Outcome.done a ∧
    rd16 mem a &&& VRING_AVAIL_F_NO_INTERRUPT = 0

/-- Example: the example ring with an MSI configured. -/
def ex_ring_msi : viona_vring_t := { ex_ring with vr_msi_addr := 4276092928, vr_msi_msg := 33 }

/-- Example: host memory in which the guest has set `VRING_AVAIL_F_NO_INTERRUPT`. -/
def ex_mem_noint : Mem := wr16 ex_mem 131072 1

/-- A ring at rest in `VRS_RESET`, as the creation of the link, the cleanup of the worker
and a failed `viona_ring_init` leave it: no request pending, no size, mask or address,
no lease and nothing mapped. -/
def ring_at_reset (ring : viona_vring_t) : Prop :=
  ring.vr_state = VRS_RESET ∧ ring.vr_state_flags = 0 ∧ ring.vr_size = 0 ∧ ring.vr_mask = 0 ∧
  ring.vr_pa = 0 ∧ ring.vr_lease = none ∧ ring.vr_map_pages = none

/-- The mappings of a ring are held under a lease and the page table has the length that
`viona_ring_unmap` frees: what `viona_ring_map` and `viona_ring_lease_drop` maintain. -/
def ring_map_consistent (ring : viona_vring_t) : Prop :=
  ∀ m, ring.vr_map_pages = some m →
    ring.vr_lease ≠ none ∧ m.length = LEGACY_VQ_PAGES ring.vr_size % 2 ^ 32

/-- The ring `r2` differs from `r1` in its lease and its page table at most. -/
def lease_map_only (r1 r2 : viona_vring_t) : Prop :=
  r2 = { r1 with vr_lease := r2.vr_lease, vr_map_pages := r2.vr_map_pages }

/-- What the cleanup of the worker relies on: a held lease belongs to a link that holds
its virtual machine, the mappings are consistent, and transmit descriptors are freed
only when no transfer is outstanding. -/
def cleanup_ready (hold : Option Nat) (ring : viona_vring_t) : Prop :=
  (ring.vr_lease ≠ none → hold ≠ none) ∧ ring_map_consistent ring ∧
  (ring.vr_txdesb ≠ none → ring.vr_xfer_outstanding = 0)

/-- Example: what the worker of the receive ring of `ex_link` observes: the lease never
expires, the process does not exit, a start is requested during the first wait, and
processing consumes and completes three chains before it stops. -/
def ex_env : worker_env :=
  { exiting0 := false, expired := fun _ => false, sign := fun _ => none,
    flags := fun _ => VRSF_REQ_START, exiting := fun _ => false, expired_run := false,
    sign_run := none,
    work_rx := fun r => { r with vr_state := VRS_STOP, vr_cur_aidx := 3, vr_cur_uidx := 3 },
    work_tx := fun r => { r with vr_state := VRS_STOP } }

/-- Example: the receive ring of `ex_link` when processing has stopped under `ex_env`. -/
def ex_ring_stopped : viona_vring_t :=
  { ex_ring_inited with vr_state := VRS_STOP, vr_cur_aidx := 3, vr_cur_uidx := 3 }

/-- The worker started on `ring0` is in its wait loop: it found `ring0` in `VRS_SETUP`
with no reason to bail, and after `n` passes through the loop it is at the loop
condition with ring `r`. -/
def worker_waits (env : worker_env) (gpa2kva : Nat → Nat) (hold : Option Nat)
    (ring0 : viona_vring_t) (n : Nat) (r : viona_vring_t) : Prop :=
  ring0.vr_state = VRS_SETUP ∧ VRING_NEED_BAIL ring0 env.exiting0 = false ∧
  viona_worker_walk env gpa2kva hold n 0 { ring0 with vr_state := VRS_INIT } =
    Outcome.done (Pass.again r)

/-- Example: what a worker observes whose lease is reported expired in its second pass
through the wait loop and cannot be renewed; no request is ever made. -/
def ex_env_expire : worker_env :=
  { ex_env with expired := fun k => decide (k = 1), flags := fun _ => 0 }

/-- Example: what a worker observes for which a stop is requested during its first
wait. -/
def ex_env_stop : worker_env := { ex_env with flags := fun _ => VRSF_REQ_STOP }

/-- Example: the receive ring of `ex_link` while its worker waits in `VRS_INIT`. -/
def ex_ring_init : viona_vring_t := { ex_ring_inited with vr_state := VRS_INIT }

/-- Example: the ring of `ex_ring_init` once a start has been requested. -/
def ex_ring_start : viona_vring_t := { ex_ring_init with vr_state_flags := VRSF_REQ_START }

/-- Two runs end in the same way, with results related by `R`: both return, both fail
an assertion, or both run out of fuel. -/
def outcome_rel {α β : Type} (R : α → β → Prop) : Outcome α → Outcome β → Prop
  | Outcome.done a, Outcome.done b => R a b
  | Outcome.panic, Outcome.panic => True
  | Outcome.timeout, Outcome.timeout => True
  | _, _ => False

/-- Two results of mapping a descriptor agree up to the fault counters: the same error
number and `*idxp`, rings that differ in their fault counters at most and, when `same`
holds (the vectors handed in were the same), the same vector. -/
def map_sim (same : Prop) (m1 m2 : MapRes) : Prop :=
  m2.err = m1.err ∧ m2.idx = m1.idx ∧ stats_only m1.ring m2.ring ∧ (same → m2.iov = m1.iov)

/-- Two results of `vq_popchain` agree up to the fault counters: the same return value,
rings that differ in their fault counters at most and, when `same` holds (the vectors
handed in were the same), the same vector. -/
def pop_sim (same : Prop) (p1 p2 : PopRes) : Prop :=
  p2.ret = p1.ret ∧ stats_only p1.ring p2.ring ∧ (same → p2.iov = p1.iov)

/-- The guest address of entry `k` of the indirect table that `desc` declares
(`indir_gpa` in `vq_map_indir_desc_bufs`). -/
def indir_entry_gpa (desc : virtio_desc) (k : Nat) : Nat :=
  (desc.vd_addr + k * SIZEOF_virtio_desc) % 2 ^ 64

/-- The host address from which `vq_map_indir_desc_bufs` copies entry `k` of the table
that `desc` declares: the translation of the page of the entry plus the offset of the
entry in its page (`buf + (indir_gpa - indir_page)`). -/
def indir_entry_kva (gpa2kva : Nat → Nat) (desc : virtio_desc) (k : Nat) : Nat :=
  gpa2kva (indir_entry_gpa desc k &&& PAGEMASK) +
    (indir_entry_gpa desc k - (indir_entry_gpa desc k &&& PAGEMASK))

/-- The indirect table that `desc` declares reads the same in `mem1` and `mem2`: each of
its `indir_count` entries whose page translates holds the same sub-descriptor. -/
def same_table (gpa2kva : Nat → Nat) (desc : virtio_desc) (mem1 mem2 : Mem) : Prop :=
  ∀ k, k < (desc.vd_len / SIZEOF_virtio_desc) % 65536 →
    gpa2kva (indir_entry_gpa desc k &&& PAGEMASK) ≠ 0 →
    desc_at mem2 (indir_entry_kva gpa2kva desc k) = desc_at mem1 (indir_entry_kva gpa2kva desc k)

/-- The memories `mem1` and `mem2` present the same chains to the walk of `vq_popchain`
on `ring`: the same descriptor table, the same entries of the available ring, and the
same indirect table for every descriptor of the ring that has the indirect flag. Nothing
is required of the available index. -/
def same_chains (gpa2kva : Nat → Nat) (ring : viona_vring_t) (mem1 mem2 : Mem) : Prop :=
  (∀ idx, vq_read_desc mem2 ring idx = vq_read_desc mem1 ring idx) ∧
  (∀ idx, vq_read_avail mem2 ring idx = vq_read_avail mem1 ring idx) ∧
  (∀ idx d, vq_read_desc mem1 ring idx = Outcome.done d →
    d.vd_flags &&& VRING_DESC_F_INDIRECT ≠ 0 → same_table gpa2kva d mem1 mem2)

/-- Example: the memory `ex_mem` with the available index set to 300, which exceeds the
256 entries of the example ring. -/
def ex_mem_high : Mem := wr16 ex_mem (131072 + 2) 300

/-- Example: the translation `ex_kva` extended by the three pages of the example ring at
guest address 1048576: under it the page table of `ex_ring` is the one that
`viona_ring_map` builds. -/
def ex_kva_real (g : Nat) : Nat :=
  if g = 1048576 then 65536 else if g = 1052672 then 131072 else if g = 1056768 then 196608
  else ex_kva g

/-- Example: a valid direct sub-descriptor of 64 bytes that ends its chain. -/
def ex_sub_last : virtio_desc :=
  { vd_addr := 24576, vd_len := 64, vd_flags := 0, vd_next := 0 }

/-- Example: the memory `ex_mem_indir 32 ex_sub_first ex_sub_last` (one chain made of the
indirect descriptor 9, whose table holds two direct sub-descriptors) with the available
index set to 300. -/
def ex_mem_indir_high : Mem :=
  wr16 (ex_mem_indir 32 ex_sub_first ex_sub_last) (131072 + 2) 300

/-- Example: an indirect descriptor whose table of one entry lies at guest address
1052672, the start of the available ring of `ex_ring`. -/
def ex_desc_alias : virtio_desc :=
  { vd_addr := 1052672, vd_len := 16, vd_flags := 4, vd_next := 0 }

/-- Example: host memory in which descriptor 0 is `ex_desc_alias`, the available index
is 300 and the available ring holds the entries 0, 0, 100, 0, 0, 0: the 16 bytes at the
start of the available ring (flags, index and these entries) read as a sub-descriptor
are a direct buffer of 100 bytes at guest address `65536 * index`. -/
def ex_mem_alias : Mem :=
  wr16 (wr16 (wr_desc (fun _ => 0) 65536 ex_desc_alias) (131072 + 2) 300) (131072 + 8) 100

/-- Example: a direct descriptor of 100 bytes with has-next whose `vd_next` is its own
index 5. -/
def ex_desc_cycle : virtio_desc :=
  { vd_addr := 20496, vd_len := 100, vd_flags := 1, vd_next := 5 }

/-- Example: host memory in which the guest has published one chain that is a cycle:
descriptor 5 points to itself. -/
def ex_mem_cycle : Mem := ex_mem_top 5 ex_desc_cycle

/-- Example: the receive ring of `ex_link` configured with 256 entries at guest address 0
and mapped there: the state that the statements of `viona_ring_init(link, 0, 256, 0)`
lead to in a kernel built without `DEBUG`, where the `ASSERT` macros expand to nothing
(the guest pages 0, 4096 and 8192 translate under `ex_kva`). -/
def ex_ring_zero_pa : viona_vring_t :=
  { vr_state := VRS_SETUP, vr_size := 256, vr_mask := 255, vr_pa := 0, vr_lease := some 7,
    vr_map_pages := some [16777216, 16781312, 16785408], vr_worker_thread := some 9 }

/-- The rings that `viona_ring_init`, the cleanup of the worker and
`viona_ring_lease_renew` on a configured ring (`vr_pa != 0` and `vr_size != 0`, as the
worker and the transfer loops call it) lead to from a zeroed ring. `other` stands for the
steps of the remaining functions of `viona_ring.c` (the state changes of the worker
between `VRS_SETUP` and `VRS_STOP`, the request flags, popping, pushing, notification),
which write neither `vr_lease`, `vr_map_pages`, `vr_size` nor `vr_pa` and neither enter
nor leave `VRS_RESET`. -/
inductive lease_reachable : viona_vring_t → Prop where
  | zeroed : lease_reachable {}
  | init (sign : Option Nat) (gpa2kva : Nat → Nat) (thread : Option Nat) (link : viona_link_t)
      (idx qsz pa err : Nat) (link1 : viona_link_t) :
      lease_reachable (link.l_vrings idx) →
      viona_ring_init sign gpa2kva thread link idx qsz pa = Outcome.done (err, link1) →
      lease_reachable (link1.l_vrings idx)
  | renew (sign : Option Nat) (gpa2kva : Nat → Nat) (hold : Option Nat)
      (ring ring1 : viona_vring_t) (ok : Bool) :
      lease_reachable ring → ring.vr_pa ≠ 0 → ring.vr_size ≠ 0 →
      viona_ring_lease_renew sign gpa2kva hold ring = Outcome.done (ok, ring1) →
      lease_reachable ring1
  | cleanup (hold : Option Nat) (ring ring1 : viona_vring_t) :
      lease_reachable ring → viona_worker_cleanup hold ring = Outcome.done ring1 →
      lease_reachable ring1
  | other (ring ring1 : viona_vring_t) :
      lease_reachable ring → ring1.vr_lease = ring.vr_lease →
      ring1.vr_map_pages = ring.vr_map_pages → ring1.vr_size = ring.vr_size →
      ring1.vr_pa = ring.vr_pa → (ring1.vr_state = VRS_RESET ↔ ring.vr_state = VRS_RESET) →
      lease_reachable ring1

/-- What holds of lease and mappings between the calls: the page table is there exactly
when a lease is held, it has the length that `viona_ring_unmap` frees, and a ring in
`VRS_RESET` has neither size, address nor lease. -/
def lease_inv (ring : viona_vring_t) : Prop :=
  (ring.vr_map_pages ≠ none ↔ ring.vr_lease ≠ none) ∧ ring_map_consistent ring ∧
  (ring.vr_state = VRS_RESET → ring.vr_size = 0 ∧ ring.vr_pa = 0 ∧ ring.vr_lease = none)

/-- The memory transformer `W` only stores: every byte it changes is a byte for which `S`
holds, and what a byte holds afterwards is either what it held before or a value that
does not depend on the memory `W` is applied to. -/
def store_only (W : Mem → Mem) (S : Nat → Prop) : Prop :=
  (∀ mem x, W mem x ≠ mem x → S x) ∧
  ∀ mem1 mem2 x, W mem1 x = W mem2 x ∨ (W mem1 x = mem1 x ∧ W mem2 x = mem2 x)

/-- The host byte `x` is a byte of the used ring behind its flags word: of the used index
or of a used entry (or of the padding behind them, up to the end of the ring). -/
def used_ring_byte (ring : viona_vring_t) (x : Nat) : Prop :=
  ∃ off, LEGACY_USED_IDX_OFF ring.vr_size ≤ off ∧ off < LEGACY_VQ_SIZE ring.vr_size ∧
    viona_ring_addr ring off = Outcome.done x

/-- Example: a translation under which every guest page is backed. -/
def ex_kva_all (g : Nat) : Nat := 4294967296 + g

/-- Example: a direct descriptor of 256 MiB at guest address 1048576, which spans 65536
pages. -/
def ex_desc_huge : virtio_desc :=
  { vd_addr := 1048576, vd_len := 268435456, vd_flags := 0, vd_next := 0 }

/-- Example: host memory in which the guest has published one chain made of the
descriptor `ex_desc_huge` at index 5. -/
def ex_mem_huge : Mem := ex_mem_top 5 ex_desc_huge

/-- The walk of `vq_popchain` reaches its pass number `n` (counted from 0) with the
locals `s`: the capacity is in range, an entry is available, the head is read, and the
first `n` passes go round again and leave `s`. -/
def pop_reaches (fuel : Nat) (gpa2kva : Nat → Nat) (mem : Mem) (ring : viona_vring_t)
    (iov : Nat → iovec) (niov cookie n : Nat) (s : PopState) : Prop :=
  (niov > 0 ∧ niov < INT_MAX) ∧
  ∃ ndesc head, viona_ring_num_avail mem ring = Outcome.done ndesc ∧ ndesc ≠ 0 ∧
    vq_read_avail mem (pop_ring ring ndesc)
      ((ring.vr_cur_aidx &&& (pop_ring ring ndesc).vr_mask) % 65536) = Outcome.done head ∧
    vq_popchain_walk fuel gpa2kva mem niov head cookie n
      { ring := pop_ring ring ndesc, iov := iov, i := 0, next := head } =
        Outcome.done (Pass.again s)

/-- Example: a valid direct descriptor of 100 bytes with has-next whose `vd_next` is 300,
beyond the 256 entries of the example ring. -/
def ex_desc_far : virtio_desc :=
  { vd_addr := 20496, vd_len := 100, vd_flags := 1, vd_next := 300 }

/-- Example: the locals of the loop of `vq_popchain` on `ex_mem_top 5 ex_desc_far` after
the pass that maps descriptor 5. -/
def ex_pop_state_far : PopState :=
  { ring := ex_ring, iov := iov_set ex_iov 0 { iov_base := 16797712, iov_len := 100 }, i := 1,
    next := 300 }

/-- Example: a valid direct sub-descriptor of 100 bytes with has-next whose `vd_next` is
5. -/
def ex_sub_far : virtio_desc :=
  { vd_addr := 20496, vd_len := 100, vd_flags := 1, vd_next := 5 }

/-- Example: the locals of the loop of `vq_map_indir_desc_bufs` before the first pass on
the example ring. -/
def ex_indir_state_first : IndirState :=
  { ring := ex_ring, iov := ex_iov, idx := 0, indir_next := 0, buf := 0, buf_gpa := UINT64_MAX }

/-- Example: a translation under which two guest pages are backed, the page at 32768
(an indirect table) and the page at 20480 (a buffer); the page at 36864 that follows the
table is not. -/
def ex_kva_two (g : Nat) : Nat :=
  if g = 32768 then 16809984 else if g = 20480 then 16797696 else 0

/-- Example: an indirect descriptor whose table of one entry lies at guest address 36856,
eight bytes before the end of the guest page at 32768. -/
def ex_indir_unaligned : virtio_desc :=
  { vd_addr := 36856, vd_len := 16, vd_flags := 4, vd_next := 0 }

/-- Example: host memory in which the guest has published one chain made of the indirect
descriptor `ex_indir_unaligned` at index 9, with the 16 bytes of a buffer descriptor of
100 bytes stored from host address 16814072 on: the last eight bytes of the host page
that backs the table, and the eight bytes behind it. -/
def ex_mem_unaligned : Mem :=
  wr_desc (ex_mem_top 9 ex_indir_unaligned) 16814072
    { vd_addr := 20496, vd_len := 100, vd_flags := 0, vd_next := 0 }

/-- Example: the memory `ex_mem_unaligned` with the four bytes behind the host page of
the table set to 0. -/
def ex_mem_unaligned_zero : Mem := wr32 ex_mem_unaligned 16814080 0

/-! ## Lemmas and theorems -/

theorem stats_only_refl (r : viona_vring_t) : stats_only r r := rfl

theorem stats_only_trans {a b c : viona_vring_t} (h1 : stats_only a b) (h2 : stats_only b c) :
    stats_only a c := by
  unfold stats_only at *
  rw [h2, h1]

theorem stats_only_with (r : viona_vring_t) (s : viona_ring_stats) :
    stats_only r { r with vr_stats := s } := rfl

theorem vq_map_desc_bufs_stats_only {gpa2kva : Nat → Nat} {ring : viona_vring_t}
    {desc : virtio_desc} {iov : Nat → iovec} {niov idx : Nat} {r : MapRes}
    (h : vq_map_desc_bufs gpa2kva ring desc iov niov idx = Outcome.done r) :
    stats_only ring r.ring := by
  unfold vq_map_desc_bufs at h
  simp only at h
  split at h
  · cases h
  split at h
  · cases h; exact stats_only_with _ _
  split at h
  · cases h; exact stats_only_with _ _
  split at h
  · split at h
    · cases h; exact stats_only_with _ _
    · split at h
      · split at h
        · cases h; exact stats_only_with _ _
        · split at h
          · cases h
          · split at h
            · cases h
            · cases h; exact stats_only_refl _
      · cases h
      · cases h
  · cases h
  · cases h

theorem vq_map_indir_desc_bufs_loop_stats_only {gpa2kva : Nat → Nat} {mem : Mem}
    {desc : virtio_desc} {niov indir_count : Nat} (fuel : Nat) :
    ∀ {ring : viona_vring_t} {iov : Nat → iovec} {idx indir_next buf buf_gpa : Nat} {r : MapRes},
      vq_map_indir_desc_bufs_loop gpa2kva mem desc niov indir_count fuel ring iov idx indir_next
        buf buf_gpa = Outcome.done r → stats_only ring r.ring := by
  induction fuel with
  | zero => intro ring iov idx indir_next buf buf_gpa r h; simp [vq_map_indir_desc_bufs_loop] at h
  | succ n ih =>
    intro ring iov idx indir_next buf buf_gpa r h
    unfold vq_map_indir_desc_bufs_loop at h
    simp only at h
    split at h
    · split at h
      · cases h; exact stats_only_with _ _
      · split at h
        · cases h; exact stats_only_with _ _
        · split at h
          · cases h; exact stats_only_with _ _
          · split at h
            · rename_i r1 hm
              have f1 := vq_map_desc_bufs_stats_only hm
              split at h
              · cases h; exact f1
              · split at h
                · cases h; exact f1
                · split at h
                  · cases h; exact stats_only_trans f1 (stats_only_with _ _)
                  · split at h
                    · cases h; exact stats_only_trans f1 (stats_only_with _ _)
                    · exact stats_only_trans f1 (ih h)
            · cases h
            · cases h
    · cases h
    · cases h
theorem vq_map_indir_desc_bufs_stats_only {fuel : Nat} {gpa2kva : Nat → Nat} {mem : Mem}
    {ring : viona_vring_t} {desc : virtio_desc} {iov : Nat → iovec} {niov idx : Nat} {r : MapRes}
    (h : vq_map_indir_desc_bufs fuel gpa2kva mem ring desc iov niov idx = Outcome.done r) :
    stats_only ring r.ring := by
  unfold vq_map_indir_desc_bufs at h
  simp only at h
  split at h
  · cases h; exact stats_only_with _ _
  · exact vq_map_indir_desc_bufs_loop_stats_only _ h

theorem vq_popchain_map_stats_only {fuel : Nat} {gpa2kva : Nat → Nat} {mem : Mem}
    {ring : viona_vring_t} {vdir : virtio_desc} {iov : Nat → iovec} {niov i : Nat} {r : MapRes}
    (h : vq_popchain_map fuel gpa2kva mem ring vdir iov niov i = Outcome.done r) :
    stats_only ring r.ring := by
  unfold vq_popchain_map at h
  split at h
  · exact vq_map_desc_bufs_stats_only h
  · split at h
    · cases h; exact stats_only_with _ _
    · exact vq_map_indir_desc_bufs_stats_only h

/-- Every way out of the loop of `vq_popchain`: either `-1` with the cookie as it was and
only fault counters changed, or a count with the cookie set to the head and the
available cursor advanced by one. -/
theorem vq_popchain_loop_exit {ifuel : Nat} {gpa2kva : Nat → Nat} {mem : Mem}
    {niov head cookie : Nat} (fuel : Nat) :
    ∀ {ring : viona_vring_t} {iov : Nat → iovec} {i next : Nat} {r : PopRes},
      vq_popchain_loop ifuel gpa2kva mem niov head cookie fuel ring iov i next = Outcome.done r →
      (r.ret = -1 ∧ r.cookie = cookie ∧ stats_only ring r.ring) ∨
      (0 ≤ r.ret ∧ r.cookie = head ∧
        r.ring = { ring with vr_stats := r.ring.vr_stats,
                             vr_cur_aidx := (ring.vr_cur_aidx + 1) % 65536 }) := by
  induction fuel with
  | zero => intro ring iov i next r h; simp [vq_popchain_loop] at h
  | succ n ih =>
    intro ring iov i next r h
    unfold vq_popchain_loop at h
    split at h
    · split at h
      · cases h; exact Or.inl ⟨rfl, rfl, stats_only_with _ _⟩
      · split at h
        · split at h
          · rename_i vdir _ r1 hm
            have f1 := vq_popchain_map_stats_only hm
            split at h
            · cases h; exact Or.inl ⟨rfl, rfl, f1⟩
            · split at h
              · cases h
                refine Or.inr ⟨Int.natCast_nonneg _, rfl, ?_⟩
                unfold stats_only at f1
                simp only
                rw [f1]
              · rcases ih h with ⟨h1, h2, h3⟩ | ⟨h1, h2, h3⟩
                · exact Or.inl ⟨h1, h2, stats_only_trans f1 h3⟩
                · refine Or.inr ⟨h1, h2, ?_⟩
                  unfold stats_only at f1
                  rw [h3, f1]
          · cases h
          · cases h
        · cases h
        · cases h
    · cases h; exact Or.inl ⟨rfl, rfl, stats_only_refl _⟩

theorem vq_read_avail_stats_only {mem : Mem} {r1 r2 : viona_vring_t} (h : stats_only r1 r2)
    (idx : Nat) : vq_read_avail mem r2 idx = vq_read_avail mem r1 idx := by
  unfold stats_only at h
  rw [h]
  rfl

/-- C1: whenever `vq_popchain` returns a positive count, the available cursor has been
advanced by exactly one modulo 2^16, every other field of the ring except the fault
counters is as before, and the cookie is the head index read from the available-ring
slot `old vr_cur_aidx & vr_mask`. -/
theorem vq_popchain_success_advances_one (fuel : Nat) (gpa2kva : Nat → Nat) (mem : Mem)
    (ring : viona_vring_t) (iov : Nat → iovec) (niov cookie : Nat) (r : PopRes)
    (h : vq_popchain fuel gpa2kva mem ring iov niov cookie = Outcome.done r)
    (hpos : 0 < r.ret) :
    r.ring.vr_cur_aidx = (ring.vr_cur_aidx + 1) % 65536 ∧
    r.ring = { ring with vr_stats := r.ring.vr_stats,
                         vr_cur_aidx := (ring.vr_cur_aidx + 1) % 65536 } ∧
    vq_read_avail mem ring ((ring.vr_cur_aidx &&& ring.vr_mask) % 65536) =
      Outcome.done r.cookie := by
  unfold vq_popchain at h
  split at h
  · cases h
  simp only at h
  split at h
  · rename_i ndesc hna
    split at h
    · cases h; simp at hpos
    · have hs : stats_only ring
          (if ndesc > ring.vr_size then incr_ndesc_too_high ring else ring) := by
        split
        · exact stats_only_with _ _
        · exact stats_only_refl _
      generalize (if ndesc > ring.vr_size then incr_ndesc_too_high ring else ring) = ring1
        at h hs
      split at h
      · rename_i head hra
        rcases vq_popchain_loop_exit _ h with ⟨h1, _, _⟩ | ⟨_, h2, h3⟩
        · rw [h1] at hpos; simp at hpos
        · rw [vq_read_avail_stats_only hs] at hra
          unfold stats_only at hs
          have hm : ring1.vr_mask = ring.vr_mask := by rw [hs]
          have ha : ring1.vr_cur_aidx = ring.vr_cur_aidx := by rw [hs]
          rw [hm] at hra
          refine ⟨by rw [h3, ha], ?_, by rw [hra, h2]⟩
          rw [h3, hs]
      · cases h
      · cases h
  · cases h
  · cases h
theorem land_himask (y : Nat) (hy : y < 2 ^ 64) :
    y &&& (2 ^ 64 - 4096) = y / 4096 * 4096 := by
  apply Nat.eq_of_testBit_eq
  intro i
  have h1 : (2:Nat) ^ 64 - 4096 = 2 ^ 12 * (2 ^ 52 - 1) := by norm_num
  have h2 : y / 4096 * 4096 = 2 ^ 12 * (y / 2 ^ 12) := by norm_num [Nat.mul_comm]
  rw [Nat.testBit_and, h1, h2, Nat.testBit_mul_pow_two, Nat.testBit_mul_pow_two,
    Nat.testBit_two_pow_sub_one, ← Nat.shiftRight_eq_div_pow, Nat.testBit_shiftRight]
  by_cases h : 12 ≤ i
  · by_cases h3 : i < 64
    · have : i - 12 < 52 := by omega
      have e : 12 + (i - 12) = i := by omega
      simp [h, this, e]
    · have hlt : y < 2 ^ i := lt_of_lt_of_le hy (Nat.pow_le_pow_right (by norm_num) (by omega))
      have e : 12 + (i - 12) = i := by omega
      simp [Nat.testBit_lt_two_pow hlt, e]
  · simp [h]

theorem P2ROUNDUP_page (x : Nat) (hx : x ≤ 2 ^ 64 - 4096) :
    P2ROUNDUP x PAGESIZE = (x + 4095) / 4096 * 4096 := by
  unfold P2ROUNDUP PAGESIZE
  by_cases h0 : x = 0
  · subst h0; norm_num
  · have hx1 : x % 2 ^ 64 = x := Nat.mod_eq_of_lt (by omega)
    have hx2 : (2 ^ 64 - x) % 2 ^ 64 = 2 ^ 64 - x := Nat.mod_eq_of_lt (by omega)
    have ha : (2 ^ 64 - 4096 % 2 ^ 64) % 2 ^ 64 = 2 ^ 64 - 4096 := by norm_num
    rw [hx1, hx2, ha, land_himask _ (by omega)]
    omega

theorem land_PAGEOFFSET (x : Nat) : x &&& PAGEOFFSET = x % 4096 := by
  have h : PAGEOFFSET = 2 ^ 12 - 1 := by norm_num [PAGEOFFSET, PAGESIZE]
  rw [h, Nat.and_pow_two_sub_one_eq_mod]

theorem land_PAGEMASK (x : Nat) (hx : x < 2 ^ 64) : x &&& PAGEMASK = x / 4096 * 4096 := by
  have h : PAGEMASK = 2 ^ 64 - 4096 := by norm_num [PAGEMASK, PAGESIZE]
  rw [h, land_himask x hx]

theorem viona_hold_page_ok (gpa2kva : Nat → Nat) (ring : viona_vring_t) (gpa : Nat)
    (hl : ring.vr_lease ≠ none) (ha : gpa % 4096 = 0) :
    viona_hold_page gpa2kva ring gpa = Outcome.done (gpa2kva gpa) := by
  unfold viona_hold_page
  rw [if_neg hl, land_PAGEOFFSET, ha]
  simp

/-- The page loop of `vq_map_desc_bufs` on `n = ceil(len / PAGESIZE)` pages that all
translate. -/
theorem vq_map_desc_bufs_loop_ok (gpa2kva : Nat → Nat) (ring : viona_vring_t)
    (hl : ring.vr_lease ≠ none) (n : Nat) :
    ∀ (gpa len lidx : Nat) (iov : Nat → iovec),
      n = (len + 4095) / 4096 → (0 < n → gpa % 4096 = 0) → lidx + n < 65536 →
      (∀ t, t < n → gpa2kva ((gpa + t * 4096) % 2 ^ 64) ≠ 0) → gpa < 2 ^ 64 →
      ∃ iov1, vq_map_desc_bufs_loop gpa2kva ring n gpa len lidx iov =
          Outcome.done { fault := false, gpa := (gpa + len) % 2 ^ 64, len := 0,
                         lidx := lidx + n, iov := iov1 } ∧
        (∀ t, t < n → iov1 (lidx + t) =
          { iov_base := gpa2kva ((gpa + t * 4096) % 2 ^ 64),
            iov_len := min (len - t * 4096) 4096 }) ∧
        (∀ s, (s < lidx ∨ lidx + n ≤ s) → iov1 s = iov s) := by
  induction n with
  | zero =>
    intro gpa len lidx iov hn _ _ _ hg
    have hlen : len = 0 := by omega
    subst hlen
    have hgm : gpa % 18446744073709551616 = gpa := Nat.mod_eq_of_lt (by norm_num at hg; exact hg)
    refine ⟨iov, ?_, ?_, ?_⟩
    · simp [vq_map_desc_bufs_loop, hgm]
    · intro t ht; omega
    · intro s _; rfl
  | succ n ih =>
    intro gpa len lidx iov hn ha hb ht hg
    have ha1 : gpa % 4096 = 0 := ha (by omega)
    have hgm : gpa % 18446744073709551616 = gpa := Nat.mod_eq_of_lt (by norm_num at hg; exact hg)
    have hk0 : gpa2kva gpa ≠ 0 := by
      have := ht 0 (by omega)
      simpa [hgm] using this
    have e64 : (2:Nat) ^ 64 = 18446744073709551616 := by norm_num
    obtain ⟨iov1, h1, h2, h3⟩ := ih ((gpa + min len PAGESIZE) % 2 ^ 64) (len - min len PAGESIZE)
      ((lidx + 1) % 65536)
      (iov_set iov lidx { iov_base := gpa2kva gpa, iov_len := min len PAGESIZE })
      (by unfold PAGESIZE; omega)
      (by intro hp; unfold PAGESIZE; rw [e64]; omega)
      (by omega)
      (by
        intro t htn
        have := ht (t + 1) (by omega)
        have e : ((gpa + min len PAGESIZE) % 2 ^ 64 + t * 4096) % 2 ^ 64
            = (gpa + (t + 1) * 4096) % 2 ^ 64 := by
          unfold PAGESIZE; rw [e64]; omega
        rw [e]; exact this)
      (Nat.mod_lt _ (by norm_num))
    refine ⟨iov1, ?_, ?_, ?_⟩
    · unfold vq_map_desc_bufs_loop
      rw [land_PAGEOFFSET, ha1, viona_hold_page_ok gpa2kva ring gpa hl ha1]
      simp only [ne_eq, not_true_eq_false, if_false, if_neg hk0]
      rw [h1]
      have e1 : ((gpa + min len PAGESIZE) % 2 ^ 64 + (len - min len PAGESIZE)) % 2 ^ 64
          = (gpa + len) % 2 ^ 64 := by
        unfold PAGESIZE; rw [e64]; omega
      have e2 : (lidx + 1) % 65536 + n = lidx + (n + 1) := by omega
      rw [e1, e2]
    · intro t htn
      have hl1 : (lidx + 1) % 65536 = lidx + 1 := by omega
      rcases Nat.eq_zero_or_pos t with h0 | hpos
      · subst h0
        rw [Nat.add_zero, h3 lidx (Or.inl (by omega))]
        simp [iov_set, PAGESIZE, hgm]
      · have := h2 (t - 1) (by omega)
        rw [hl1] at this
        have e3 : lidx + 1 + (t - 1) = lidx + t := by omega
        rw [e3] at this
        rw [this]
        have e4 : ((gpa + min len PAGESIZE) % 2 ^ 64 + (t - 1) * 4096) % 2 ^ 64
            = (gpa + t * 4096) % 2 ^ 64 := by
          unfold PAGESIZE; rw [e64]; omega
        have e5 : min (len - min len PAGESIZE - (t - 1) * 4096) 4096
            = min (len - t * 4096) 4096 := by
          unfold PAGESIZE; omega
        rw [e4, e5]
    · intro s hs
      have hl1 : (lidx + 1) % 65536 = lidx + 1 := by omega
      rw [h3 s (by omega)]
      simp only [iov_set]
      rw [if_neg (by omega)]
theorem desc_pages_eq (desc : virtio_desc) (hlen0 : 0 < desc.vd_len)
    (hlen : desc.vd_len < 2 ^ 32) :
    desc_pages desc = (desc.vd_addr % 4096 + desc.vd_len + 4095) / 4096 := by
  unfold desc_pages
  simp only [land_PAGEOFFSET]
  have hlen2 : desc.vd_len < 4294967296 := by norm_num at hlen; exact hlen
  split
  · rename_i h
    rw [P2ROUNDUP_page _ (by norm_num; omega)]
    unfold PAGESIZE at *
    have e32 : (2:Nat) ^ 32 = 4294967296 := by norm_num
    rw [e32, Nat.mul_div_cancel _ (by norm_num)]
    omega
  · rename_i h
    unfold PAGESIZE at *
    omega

/-- The function `vq_map_desc_bufs` on a direct descriptor of non-zero length whose
pages all translate and for which the vector has room. -/
theorem vq_map_desc_bufs_ok (gpa2kva : Nat → Nat) (ring : viona_vring_t) (desc : virtio_desc)
    (iov : Nat → iovec) (niov idx : Nat) (hl : ring.vr_lease ≠ none) (hidx : idx < niov)
    (hniov : niov < 2 ^ 32) (haddr : desc.vd_addr < 2 ^ 64) (hlen0 : 0 < desc.vd_len)
    (hlen : desc.vd_len < 2 ^ 32)
    (hroom : (desc.vd_addr % 4096 + desc.vd_len + 4095) / 4096 ≤ niov - idx)
    (hwrap : idx + (desc.vd_addr % 4096 + desc.vd_len + 4095) / 4096 < 65536)
    (htr : ∀ t, t < (desc.vd_addr % 4096 + desc.vd_len + 4095) / 4096 →
      gpa2kva (((desc.vd_addr &&& PAGEMASK) + t * 4096) % 2 ^ 64) ≠ 0) :
    ∃ iov1, vq_map_desc_bufs gpa2kva ring desc iov niov idx =
        Outcome.done { err := 0, ring := ring, iov := iov1,
                       idx := idx + (desc.vd_addr % 4096 + desc.vd_len + 4095) / 4096 } ∧
      iov1 idx = { iov_base := gpa2kva (desc.vd_addr &&& PAGEMASK) + desc.vd_addr % 4096,
                   iov_len := min desc.vd_len (4096 - desc.vd_addr % 4096) } ∧
      (∀ t, 0 < t → t < (desc.vd_addr % 4096 + desc.vd_len + 4095) / 4096 →
        iov1 (idx + t) =
          { iov_base := gpa2kva (((desc.vd_addr &&& PAGEMASK) + t * 4096) % 2 ^ 64),
            iov_len := min (desc.vd_len - (4096 - desc.vd_addr % 4096) - (t - 1) * 4096) 4096 }) ∧
      (∀ s, (s < idx ∨ idx + (desc.vd_addr % 4096 + desc.vd_len + 4095) / 4096 ≤ s) →
        iov1 s = iov s) := by
  have e64 : (2:Nat) ^ 64 = 18446744073709551616 := by norm_num
  have e32 : (2:Nat) ^ 32 = 4294967296 := by norm_num
  have hpm := land_PAGEMASK desc.vd_addr haddr
  rw [e64] at haddr
  rw [e32] at hniov hlen
  rw [hpm] at htr ⊢
  set N := (desc.vd_addr % 4096 + desc.vd_len + 4095) / 4096 with hN
  set addr := desc.vd_addr with haddr_def
  set len := desc.vd_len with hlen_def
  have hpages : desc_pages desc = N := desc_pages_eq desc hlen0 (by rw [e32]; exact hlen)
  have hp0 : gpa2kva (addr / 4096 * 4096) ≠ 0 := by
    have := htr 0 (by omega)
    have e : (addr / 4096 * 4096 + 0 * 4096) % 2 ^ 64 = addr / 4096 * 4096 := by
      rw [e64]; omega
    rw [e] at this; exact this
  obtain ⟨iov1, h1, h2, h3⟩ := vq_map_desc_bufs_loop_ok gpa2kva ring hl (N - 1)
    ((addr + min len (PAGESIZE - addr % 4096)) % 2 ^ 64) (len - min len (PAGESIZE - addr % 4096))
    ((idx + 1) % 65536)
    (iov_set iov idx { iov_base := gpa2kva (addr / 4096 * 4096) + addr % 4096,
                       iov_len := min len (PAGESIZE - addr % 4096) })
    (by unfold PAGESIZE; omega)
    (by intro hp; unfold PAGESIZE; rw [e64]; omega)
    (by omega)
    (by
      intro t ht
      have := htr (t + 1) (by omega)
      have e : ((addr + min len (PAGESIZE - addr % 4096)) % 2 ^ 64 + t * 4096) % 2 ^ 64
          = (addr / 4096 * 4096 + (t + 1) * 4096) % 2 ^ 64 := by
        unfold PAGESIZE; rw [e64]; omega
      rw [e]; exact this)
    (Nat.mod_lt _ (by norm_num))
  refine ⟨iov1, ?_, ?_, ?_, ?_⟩
  · unfold vq_map_desc_bufs
    simp only [land_PAGEOFFSET, hpages]
    rw [← haddr_def, ← hlen_def, hpm]
    rw [if_neg (by omega), if_neg (by omega), if_neg (by rw [e32]; omega),
      viona_hold_page_ok gpa2kva ring _ hl (by omega)]
    simp only [if_neg hp0]
    rw [h1]
    have e1 : ((addr + min len (PAGESIZE - addr % 4096)) % 2 ^ 64
        + (len - min len (PAGESIZE - addr % 4096))) % 2 ^ 64 = (addr + len) % 2 ^ 64 := by
      unfold PAGESIZE; rw [e64]; omega
    have e2 : (idx + 1) % 65536 + (N - 1) = idx + N := by omega
    rw [e1, e2]
    simp
  · rw [h3 idx (Or.inl (by omega))]
    simp [iov_set, PAGESIZE]
  · intro t ht0 htN
    have := h2 (t - 1) (by omega)
    have e3 : (idx + 1) % 65536 + (t - 1) = idx + t := by omega
    rw [e3] at this
    rw [this]
    have e4 : ((addr + min len (PAGESIZE - addr % 4096)) % 2 ^ 64 + (t - 1) * 4096) % 2 ^ 64
        = (addr / 4096 * 4096 + t * 4096) % 2 ^ 64 := by
      unfold PAGESIZE; rw [e64]; omega
    have e5 : len - min len (PAGESIZE - addr % 4096) - (t - 1) * 4096
        = len - (4096 - addr % 4096) - (t - 1) * 4096 := by
      unfold PAGESIZE; omega
    rw [e4, e5]
  · intro s hs
    rw [h3 s (by omega)]
    simp only [iov_set]
    rw [if_neg (by omega)]

/-- Witness for C1 on the example chain of three descriptors. -/
theorem vq_popchain_success_advances_one_witness :
    ex_pop.ring.vr_cur_aidx = (ex_ring.vr_cur_aidx + 1) % 65536 ∧
    ex_pop.ring = { ex_ring with vr_stats := ex_pop.ring.vr_stats,
                                 vr_cur_aidx := (ex_ring.vr_cur_aidx + 1) % 65536 } ∧
    vq_read_avail ex_mem ex_ring ((ex_ring.vr_cur_aidx &&& ex_ring.vr_mask) % 65536) =
      Outcome.done ex_pop.cookie :=
  vq_popchain_success_advances_one 10 ex_kva ex_mem ex_ring ex_iov 8 99 ex_pop rfl (by decide)

/-- C2: whenever `vq_popchain` returns -1, whatever the reason for rejecting the chain,
the available cursor and the cookie are as before the call, and the ring differs from
the one before the call in its fault counters at most. -/
theorem vq_popchain_reject_keeps_cursor (fuel : Nat) (gpa2kva : Nat → Nat) (mem : Mem)
    (ring : viona_vring_t) (iov : Nat → iovec) (niov cookie : Nat) (r : PopRes)
    (h : vq_popchain fuel gpa2kva mem ring iov niov cookie = Outcome.done r)
    (hret : r.ret = -1) :
    r.ring.vr_cur_aidx = ring.vr_cur_aidx ∧ r.cookie = cookie ∧
    r.ring = { ring with vr_stats := r.ring.vr_stats } := by
  unfold vq_popchain at h
  split at h
  · cases h
  simp only at h
  split at h
  · rename_i ndesc hna
    split at h
    · cases h; simp at hret
    · have hs : stats_only ring
          (if ndesc > ring.vr_size then incr_ndesc_too_high ring else ring) := by
        split
        · exact stats_only_with _ _
        · exact stats_only_refl _
      generalize (if ndesc > ring.vr_size then incr_ndesc_too_high ring else ring) = ring1
        at h hs
      split at h
      · rcases vq_popchain_loop_exit _ h with ⟨_, h2, h3⟩ | ⟨h1, _, _⟩
        · have h4 := stats_only_trans hs h3
          unfold stats_only at h4
          exact ⟨by rw [h4], h2, h4⟩
        · rw [hret] at h1; simp at h1
      · cases h
      · cases h
  · cases h
  · cases h

/-- Witness for C2 on the example chain whose head descriptor has length zero. -/
theorem vq_popchain_reject_keeps_cursor_witness :
    ex_pop_zero.ring.vr_cur_aidx = ex_ring.vr_cur_aidx ∧ ex_pop_zero.cookie = 99 ∧
    ex_pop_zero.ring = { ex_ring with vr_stats := ex_pop_zero.ring.vr_stats } :=
  vq_popchain_reject_keeps_cursor 10 ex_kva ex_mem_zero ex_ring ex_iov 8 99 ex_pop_zero rfl rfl

theorem rd8_lt (m : Mem) (a : Nat) : rd8 m a < 256 := Nat.mod_lt _ (by norm_num)

theorem rd16_lt (m : Mem) (a : Nat) : rd16 m a < 65536 := by
  have h1 := rd8_lt m a
  have h2 := rd8_lt m (a + 1)
  unfold rd16; omega

theorem rd32_lt (m : Mem) (a : Nat) : rd32 m a < 4294967296 := by
  have h1 := rd16_lt m a
  have h2 := rd16_lt m (a + 2)
  unfold rd32; omega

theorem rd64_lt (m : Mem) (a : Nat) : rd64 m a < 18446744073709551616 := by
  have h1 := rd32_lt m a
  have h2 := rd32_lt m (a + 4)
  unfold rd64; omega

theorem vq_read_desc_bounds {mem : Mem} {ring : viona_vring_t} {idx : Nat} {v : virtio_desc}
    (h : vq_read_desc mem ring idx = Outcome.done v) :
    v.vd_addr < 2 ^ 64 ∧ v.vd_len < 2 ^ 32 ∧ v.vd_flags < 65536 ∧ v.vd_next < 65536 := by
  unfold vq_read_desc at h
  simp only at h
  split at h
  · split at h
    · cases h
      exact ⟨by norm_num; exact rd64_lt _ _, by norm_num; exact rd32_lt _ _, rd16_lt _ _,
        rd16_lt _ _⟩
    · cases h
    · cases h
  · cases h

theorem vq_read_desc_stats_only {mem : Mem} {r1 r2 : viona_vring_t} (h : stats_only r1 r2)
    (idx : Nat) : vq_read_desc mem r2 idx = vq_read_desc mem r1 idx := by
  unfold stats_only at h
  rw [h]
  rfl

theorem direct_chain_stats_only {gpa2kva : Nat → Nat} {mem : Mem} {r1 r2 : viona_vring_t}
    {k : Nat} {d : Nat → Nat} {desc : Nat → virtio_desc} (hs : stats_only r1 r2)
    (h : direct_chain gpa2kva mem r1 k d desc) : direct_chain gpa2kva mem r2 k d desc := by
  obtain ⟨h1, h2, h3⟩ := h
  refine ⟨?_, h2, h3⟩
  intro j hj
  obtain ⟨a, b, c⟩ := h1 j hj
  have e : r2.vr_size = r1.vr_size := by
    unfold stats_only at hs; rw [hs]
  exact ⟨by rw [e]; exact a, by rw [vq_read_desc_stats_only hs]; exact b, c⟩

/-- The indices of a chain that ends are pairwise distinct. -/
theorem direct_chain_inj {gpa2kva : Nat → Nat} {mem : Mem} {ring : viona_vring_t}
    {k : Nat} {d : Nat → Nat} {desc : Nat → virtio_desc}
    (h : direct_chain gpa2kva mem ring k d desc) :
    ∀ i j, i < j → j < k → d i ≠ d j := by
  obtain ⟨h1, h2, h3⟩ := h
  intro i j hij hjk he
  have key : ∀ m, j + m < k → d (i + m) = d (j + m) := by
    intro m
    induction m with
    | zero => intro _; simpa using he
    | succ m ih =>
      intro hm
      have e := ih (by omega)
      have a := (h1 (i + m) (by omega)).2.1
      have b := (h1 (j + m) (by omega)).2.1
      rw [e, b] at a
      have hd : desc (j + m) = desc (i + m) := by injection a
      have n1 := (h2 (i + m) (by omega)).2
      have n2 := (h2 (j + m) (by omega)).2
      rw [← Nat.add_assoc, ← Nat.add_assoc, ← n1, ← n2, hd]
  have e := key (k - 1 - j) (by omega)
  have a := (h1 (i + (k - 1 - j)) (by omega)).2.1
  have b := (h1 (j + (k - 1 - j)) (by omega)).2.1
  rw [e, b] at a
  have hd : desc (j + (k - 1 - j)) = desc (i + (k - 1 - j)) := by injection a
  have hj : j + (k - 1 - j) = k - 1 := by omega
  rw [hj] at hd
  have n1 := (h2 (i + (k - 1 - j)) (by omega)).1
  rw [← hd] at n1
  exact n1 h3

/-- A chain that ends has at most as many descriptors as the ring has entries. -/
theorem direct_chain_le_size {gpa2kva : Nat → Nat} {mem : Mem} {ring : viona_vring_t}
    {k : Nat} {d : Nat → Nat} {desc : Nat → virtio_desc}
    (h : direct_chain gpa2kva mem ring k d desc) : k ≤ ring.vr_size := by
  have hinj := direct_chain_inj h
  have hc := Finset.card_le_card_of_injOn (s := Finset.range k) (t := Finset.range ring.vr_size) d
    (by
      intro a ha
      simp only [Finset.mem_range] at ha ⊢
      exact (h.1 a ha).1)
    (by
      intro a ha b hb hab
      simp only [Finset.coe_range, Set.mem_Iio] at ha hb
      by_contra hne
      rcases Nat.lt_or_gt_of_ne hne with hlt | hgt
      · exact hinj a b hlt hb hab
      · exact hinj b a hgt ha hab.symm)
  simpa using hc

/-- The function `vq_map_desc_bufs` on a descriptor of non-zero length that lies within
one guest page that translates: one entry is appended. -/
theorem vq_map_desc_bufs_one_page (gpa2kva : Nat → Nat) (ring : viona_vring_t)
    (desc : virtio_desc) (iov : Nat → iovec) (niov idx : Nat) (hl : ring.vr_lease ≠ none)
    (hidx : idx < niov) (hniov : niov < 2 ^ 32) (hw : idx + 1 < 65536)
    (haddr : desc.vd_addr < 2 ^ 64) (hlen0 : 0 < desc.vd_len)
    (hpage : desc.vd_addr % PAGESIZE + desc.vd_len ≤ PAGESIZE)
    (htr : gpa2kva (desc.vd_addr &&& PAGEMASK) ≠ 0) :
    vq_map_desc_bufs gpa2kva ring desc iov niov idx =
      Outcome.done
        { err := 0, ring := ring,
          iov := iov_set iov idx
            { iov_base := gpa2kva (desc.vd_addr &&& PAGEMASK) + desc.vd_addr % PAGESIZE,
              iov_len := desc.vd_len },
          idx := idx + 1 } := by
  unfold PAGESIZE at hpage
  have hN : (desc.vd_addr % 4096 + desc.vd_len + 4095) / 4096 = 1 := by omega
  have e64 : (2:Nat) ^ 64 = 18446744073709551616 := by norm_num
  obtain ⟨iov1, h1, h2, _, h4⟩ := vq_map_desc_bufs_ok gpa2kva ring desc iov niov idx hl hidx hniov
    haddr hlen0 (by norm_num; omega) (by rw [hN]; omega) (by rw [hN]; exact hw)
    (by
      intro t ht
      rw [hN] at ht
      have ht0 : t = 0 := by omega
      subst ht0
      have hpm := land_PAGEMASK desc.vd_addr haddr
      have e : (desc.vd_addr &&& PAGEMASK) + 0 * 4096 < 2 ^ 64 := by
        rw [hpm, e64]; rw [e64] at haddr; omega
      rw [Nat.mod_eq_of_lt e]
      simpa using htr)
  rw [h1, hN]
  have hio : iov1 = iov_set iov idx
      { iov_base := gpa2kva (desc.vd_addr &&& PAGEMASK) + desc.vd_addr % PAGESIZE,
        iov_len := desc.vd_len } := by
    funext s
    by_cases hs : s = idx
    · subst hs
      rw [h2]
      have : min desc.vd_len (4096 - desc.vd_addr % 4096) = desc.vd_len := by omega
      simp [iov_set, PAGESIZE, this]
    · rw [h4 s (by rw [hN]; omega)]
      simp [iov_set, hs]
  rw [hio]

/-- The loop of `vq_popchain` from position `j` of a chain of `k` direct one-page
descriptors. -/
theorem vq_popchain_loop_direct_chain {ifuel : Nat} {gpa2kva : Nat → Nat} {mem : Mem}
    {ring : viona_vring_t} {niov head cookie k : Nat} {d : Nat → Nat}
    {desc : Nat → virtio_desc} (hl : ring.vr_lease ≠ none) (hniov : niov < 2 ^ 32)
    (hk : k ≤ niov) (hk16 : k < 65536) (hc : direct_chain gpa2kva mem ring k d desc) (n : Nat) :
    ∀ (j fuel : Nat) (iov : Nat → iovec), j + n + 1 = k → n + 1 ≤ fuel →
      ∃ r, vq_popchain_loop ifuel gpa2kva mem niov head cookie fuel ring iov j (d j) =
          Outcome.done r ∧
        r.ret = (k : Int) ∧ r.cookie = head ∧
        r.ring = { ring with vr_cur_aidx := (ring.vr_cur_aidx + 1) % 65536 } ∧
        (∀ t, j ≤ t → t < k → r.iov t =
          { iov_base := gpa2kva ((desc t).vd_addr &&& PAGEMASK) + (desc t).vd_addr % PAGESIZE,
            iov_len := (desc t).vd_len }) ∧
        (∀ s, (s < j ∨ k ≤ s) → r.iov s = iov s) := by
  induction n with
  | zero =>
    intro j fuel iov hj hf
    obtain ⟨f, rfl⟩ : ∃ f, fuel = f + 1 := ⟨fuel - 1, by omega⟩
    obtain ⟨h1, h2, h3, h4, h5, h6⟩ := hc.1 j (by omega)
    have hb := vq_read_desc_bounds h2
    have hlast := hc.2.2
    have hjk : k - 1 = j := by omega
    rw [hjk] at hlast
    refine ⟨{ ret := ((j + 1 : Nat) : Int),
              ring := { ring with vr_cur_aidx := (ring.vr_cur_aidx + 1) % 65536 },
              iov := iov_set iov j
                { iov_base := gpa2kva ((desc j).vd_addr &&& PAGEMASK) + (desc j).vd_addr % PAGESIZE,
                  iov_len := (desc j).vd_len },
              cookie := head }, ?_, ?_, rfl, rfl, ?_, ?_⟩
    · unfold vq_popchain_loop
      rw [if_pos (by omega), if_neg (by omega), h2]
      simp only
      unfold vq_popchain_map
      rw [if_pos h3, vq_map_desc_bufs_one_page gpa2kva ring (desc j) iov niov j hl (by omega) hniov
        (by omega) hb.1 h4 h5 h6]
      simp only [ne_eq, not_true_eq_false, if_false, if_pos hlast]
    · simp only; omega
    · intro t ht1 ht2
      have : t = j := by omega
      subst this
      simp [iov_set]
    · intro s hs
      simp only [iov_set]
      rw [if_neg (by omega)]
  | succ n ih =>
    intro j fuel iov hj hf
    obtain ⟨f, rfl⟩ : ∃ f, fuel = f + 1 := ⟨fuel - 1, by omega⟩
    obtain ⟨h1, h2, h3, h4, h5, h6⟩ := hc.1 j (by omega)
    have hb := vq_read_desc_bounds h2
    obtain ⟨hn1, hn2⟩ := hc.2.1 j (by omega)
    obtain ⟨r, g1, g2, g3, g4, g5, g6⟩ := ih (j + 1) f
      (iov_set iov j
        { iov_base := gpa2kva ((desc j).vd_addr &&& PAGEMASK) + (desc j).vd_addr % PAGESIZE,
          iov_len := (desc j).vd_len }) (by omega) (by omega)
    refine ⟨r, ?_, g2, g3, g4, ?_, ?_⟩
    · unfold vq_popchain_loop
      rw [if_pos (by omega), if_neg (by omega), h2]
      simp only
      unfold vq_popchain_map
      rw [if_pos h3, vq_map_desc_bufs_one_page gpa2kva ring (desc j) iov niov j hl (by omega) hniov
        (by omega) hb.1 h4 h5 h6]
      simp only [ne_eq, not_true_eq_false, if_false, if_neg hn1, hn2]
      exact g1
    · intro t ht1 ht2
      rcases Nat.eq_or_lt_of_le ht1 with he | hlt
      · subst he
        rw [g6 j (Or.inl (by omega))]
        simp [iov_set]
      · exact g5 t (by omega) ht2
    · intro s hs
      rw [g6 s (by omega)]
      simp only [iov_set]
      rw [if_neg (by omega)]

/-- C3: on a ring with a lease and a pending available entry whose head starts a chain
of `k <= niov` direct descriptors (each but the last has has-next set and points to
the next, the last has has-next clear, every index is below the ring size, none is
indirect), each of non-zero length, within one guest page that translates,
`vq_popchain` returns `k`, sets the cookie to the head index, advances the available
cursor by one and fills `iov[j]` with the translation of descriptor `j`'s page plus
its page offset and with its length, in chain order; the other entries of the vector
stay as they were. -/
theorem vq_popchain_direct_chain (fuel : Nat) (gpa2kva : Nat → Nat) (mem : Mem)
    (ring : viona_vring_t) (iov : Nat → iovec) (niov cookie k ndesc : Nat) (d : Nat → Nat)
    (desc : Nat → virtio_desc) (hsz : ring.vr_size < 65536) (hl : ring.vr_lease ≠ none)
    (hniov : 0 < niov ∧ niov < INT_MAX)
    (hna : viona_ring_num_avail mem ring = Outcome.done ndesc) (hnd : ndesc ≠ 0)
    (hhead : vq_read_avail mem ring ((ring.vr_cur_aidx &&& ring.vr_mask) % 65536) =
      Outcome.done (d 0))
    (hk0 : 0 < k) (hk : k ≤ niov) (hfuel : k ≤ fuel)
    (hc : direct_chain gpa2kva mem ring k d desc) :
    ∃ r, vq_popchain fuel gpa2kva mem ring iov niov cookie = Outcome.done r ∧
      r.ret = (k : Int) ∧ r.cookie = d 0 ∧
      r.ring.vr_cur_aidx = (ring.vr_cur_aidx + 1) % 65536 ∧
      (∀ j, j < k → r.iov j =
        { iov_base := gpa2kva ((desc j).vd_addr &&& PAGEMASK) + (desc j).vd_addr % PAGESIZE,
          iov_len := (desc j).vd_len }) ∧
      (∀ s, k ≤ s → r.iov s = iov s) := by
  have hks := direct_chain_le_size hc
  have hs : stats_only ring
      (if ndesc > ring.vr_size then incr_ndesc_too_high ring else ring) := by
    split
    · exact stats_only_with _ _
    · exact stats_only_refl _
  unfold vq_popchain
  rw [if_neg (by simpa using hniov), hna]
  simp only [if_neg hnd]
  generalize (if ndesc > ring.vr_size then incr_ndesc_too_high ring else ring) = ring1 at hs
  have hc1 := direct_chain_stats_only hs hc
  have hm : ring1.vr_mask = ring.vr_mask := by unfold stats_only at hs; rw [hs]
  have ha : ring1.vr_cur_aidx = ring.vr_cur_aidx := by unfold stats_only at hs; rw [hs]
  have hl1 : ring1.vr_lease ≠ none := by
    have : ring1.vr_lease = ring.vr_lease := by unfold stats_only at hs; rw [hs]
    rw [this]; exact hl
  rw [vq_read_avail_stats_only hs, hm, hhead]
  simp only
  have hn32 : niov < 2 ^ 32 := by
    have := hniov.2
    unfold INT_MAX at this
    norm_num at this ⊢
    omega
  obtain ⟨r, g1, g2, g3, g4, g5, g6⟩ := @vq_popchain_loop_direct_chain fuel gpa2kva mem
    ring1 niov (d 0) cookie k d desc hl1 hn32 hk (by omega) hc1 (k - 1) 0 fuel iov (by omega)
    (by omega)
  refine ⟨r, g1, g2, g3, ?_, ?_, ?_⟩
  · rw [g4, ha]
  · intro j hj
    exact g5 j (by omega) hj
  · intro s hs
    exact g6 s (Or.inr hs)

theorem ex_direct_chain : direct_chain ex_kva ex_mem ex_ring 3 ex_d ex_desc := by
  refine ⟨?_, ?_, by decide⟩
  · intro j hj
    interval_cases j
    · exact ⟨by decide, rfl, by decide, by decide, by decide, by decide⟩
    · exact ⟨by decide, rfl, by decide, by decide, by decide, by decide⟩
    · exact ⟨by decide, rfl, by decide, by decide, by decide, by decide⟩
  · intro j hj
    have hj2 : j < 2 := by omega
    interval_cases j
    · exact ⟨by decide, rfl⟩
    · exact ⟨by decide, rfl⟩

/-- Witness for C3: ring size 256 and the example chain of three descriptors. -/
theorem vq_popchain_direct_chain_witness :
    ∃ r, vq_popchain 10 ex_kva ex_mem ex_ring ex_iov 8 99 = Outcome.done r ∧
      r.ret = ((3 : Nat) : Int) ∧ r.cookie = ex_d 0 ∧
      r.ring.vr_cur_aidx = (ex_ring.vr_cur_aidx + 1) % 65536 ∧
      (∀ j, j < 3 → r.iov j =
        { iov_base := ex_kva ((ex_desc j).vd_addr &&& PAGEMASK) + (ex_desc j).vd_addr % PAGESIZE,
          iov_len := (ex_desc j).vd_len }) ∧
      (∀ s, 3 ≤ s → r.iov s = ex_iov s) :=
  vq_popchain_direct_chain 10 ex_kva ex_mem ex_ring ex_iov 8 99 3 1 ex_d ex_desc (by decide)
    (by decide) (by decide) rfl (by decide) rfl (by decide) (by decide) (by decide)
    ex_direct_chain

theorem sum_page_chunks (L : Nat) (n : Nat) :
    Finset.sum (Finset.range n) (fun t => min (L - t * 4096) 4096) = min L (n * 4096) := by
  induction n with
  | zero => simp
  | succ n ih =>
    rw [Finset.sum_range_succ, ih]
    omega

/-- C4: for a direct descriptor of non-zero length whose pages all translate and for
which the vector has room (`niov <= 65535`), `vq_map_desc_bufs` returns 0 with every
assertion holding (the outcome is not `panic`) and appends exactly
`ceil((vd_addr mod PAGESIZE + vd_len) / PAGESIZE)` entries: the first is the translation
of the first page plus the page offset, with the length up to the end of that page; each
later one is the separately translated next guest page with `min(remaining, PAGESIZE)`
bytes. Every entry has non-zero length, none crosses a guest page boundary, and the
lengths sum to `vd_len`; nothing is assumed about `vd_addr + vd_len` staying below
2^64. -/
theorem vq_map_desc_bufs_splits_pages (gpa2kva : Nat → Nat) (ring : viona_vring_t)
    (desc : virtio_desc) (iov : Nat → iovec) (niov idx : Nat) (hl : ring.vr_lease ≠ none)
    (hidx : idx < niov) (hniov : niov ≤ 65535) (haddr : desc.vd_addr < 2 ^ 64)
    (hlen0 : 0 < desc.vd_len) (hlen : desc.vd_len < 2 ^ 32)
    (hroom : (desc.vd_addr % PAGESIZE + desc.vd_len + (PAGESIZE - 1)) / PAGESIZE ≤ niov - idx)
    (htr : ∀ t, t < (desc.vd_addr % PAGESIZE + desc.vd_len + (PAGESIZE - 1)) / PAGESIZE →
      gpa2kva (((desc.vd_addr &&& PAGEMASK) + t * PAGESIZE) % 2 ^ 64) ≠ 0) :
    ∃ r, vq_map_desc_bufs gpa2kva ring desc iov niov idx = Outcome.done r ∧
      r.err = 0 ∧ r.ring = ring ∧
      r.idx = idx + (desc.vd_addr % PAGESIZE + desc.vd_len + (PAGESIZE - 1)) / PAGESIZE ∧
      r.iov idx = { iov_base := gpa2kva (desc.vd_addr &&& PAGEMASK) + desc.vd_addr % PAGESIZE,
                    iov_len := min desc.vd_len (PAGESIZE - desc.vd_addr % PAGESIZE) } ∧
      (∀ t, 0 < t → t < (desc.vd_addr % PAGESIZE + desc.vd_len + (PAGESIZE - 1)) / PAGESIZE →
        r.iov (idx + t) =
          { iov_base := gpa2kva (((desc.vd_addr &&& PAGEMASK) + t * PAGESIZE) % 2 ^ 64),
            iov_len := min (desc.vd_len - (PAGESIZE - desc.vd_addr % PAGESIZE)
              - (t - 1) * PAGESIZE) PAGESIZE }) ∧
      (∀ s, (s < idx ∨
          idx + (desc.vd_addr % PAGESIZE + desc.vd_len + (PAGESIZE - 1)) / PAGESIZE ≤ s) →
        r.iov s = iov s) ∧
      (∀ t, t < (desc.vd_addr % PAGESIZE + desc.vd_len + (PAGESIZE - 1)) / PAGESIZE →
        0 < (r.iov (idx + t)).iov_len) ∧
      desc.vd_addr % PAGESIZE + (r.iov idx).iov_len ≤ PAGESIZE ∧
      (∀ t, 0 < t → t < (desc.vd_addr % PAGESIZE + desc.vd_len + (PAGESIZE - 1)) / PAGESIZE →
        (((desc.vd_addr &&& PAGEMASK) + t * PAGESIZE) % 2 ^ 64) % PAGESIZE = 0 ∧
        (r.iov (idx + t)).iov_len ≤ PAGESIZE) ∧
      Finset.sum
        (Finset.range ((desc.vd_addr % PAGESIZE + desc.vd_len + (PAGESIZE - 1)) / PAGESIZE))
        (fun t => (r.iov (idx + t)).iov_len) = desc.vd_len := by
  simp only [PAGESIZE] at hroom htr ⊢
  have e64 : (2:Nat) ^ 64 = 18446744073709551616 := by norm_num
  have hpm := land_PAGEMASK desc.vd_addr haddr
  obtain ⟨iov1, h1, h2, h3, h4⟩ := vq_map_desc_bufs_ok gpa2kva ring desc iov niov idx hl hidx
    (by norm_num; omega) haddr hlen0 hlen hroom (by omega) htr
  have hN : 0 < (desc.vd_addr % 4096 + desc.vd_len + 4095) / 4096 := by omega
  have hlens : ∀ t, 0 < t → t < (desc.vd_addr % 4096 + desc.vd_len + 4095) / 4096 →
      (iov1 (idx + t)).iov_len =
        min (desc.vd_len - (4096 - desc.vd_addr % 4096) - (t - 1) * 4096) 4096 := by
    intro t h0 ht
    rw [h3 t h0 ht]
  have hlen1 : (iov1 idx).iov_len = min desc.vd_len (4096 - desc.vd_addr % 4096) := by
    rw [h2]
  refine ⟨_, h1, rfl, rfl, rfl, h2, h3, h4, ?_, ?_, ?_, ?_⟩
  · intro t ht
    rcases Nat.eq_zero_or_pos t with h0 | hpos
    · subst h0
      simp only [Nat.add_zero]
      rw [hlen1]; omega
    · simp only
      rw [hlens t hpos ht]; omega
  · simp only
    rw [hlen1]; omega
  · intro t h0 ht
    refine ⟨?_, ?_⟩
    · rw [hpm, e64]; omega
    · simp only
      rw [hlens t h0 ht]; omega
  · simp only
    obtain ⟨n, hn⟩ : ∃ n, (desc.vd_addr % 4096 + desc.vd_len + 4095) / 4096 = n + 1 :=
      ⟨(desc.vd_addr % 4096 + desc.vd_len + 4095) / 4096 - 1, by omega⟩
    rw [hn] at hlens
    rw [hn, Finset.sum_range_succ', Nat.add_zero, hlen1]
    have hs : Finset.sum (Finset.range n) (fun k => (iov1 (idx + (k + 1))).iov_len) =
        Finset.sum (Finset.range n)
          (fun t => min (desc.vd_len - (4096 - desc.vd_addr % 4096) - t * 4096) 4096) := by
      apply Finset.sum_congr rfl
      intro t ht
      simp only [Finset.mem_range] at ht
      rw [hlens (t + 1) (by omega) (by omega)]
      simp
    rw [hs, sum_page_chunks]
    omega

/-- Witness for C4: a descriptor of 300 bytes whose address range wraps 2^64 is split in
two entries. -/
theorem vq_map_desc_bufs_splits_pages_witness :
    ∃ r, vq_map_desc_bufs ex_kva_wrap ex_ring ex_desc_wrap ex_iov 8 3 = Outcome.done r ∧
      r.err = 0 ∧ r.ring = ex_ring ∧
      r.idx = 3 + (ex_desc_wrap.vd_addr % PAGESIZE + ex_desc_wrap.vd_len + (PAGESIZE - 1))
        / PAGESIZE ∧
      r.iov 3 =
        { iov_base := ex_kva_wrap (ex_desc_wrap.vd_addr &&& PAGEMASK)
            + ex_desc_wrap.vd_addr % PAGESIZE,
          iov_len := min ex_desc_wrap.vd_len (PAGESIZE - ex_desc_wrap.vd_addr % PAGESIZE) } ∧
      (∀ t, 0 < t →
        t < (ex_desc_wrap.vd_addr % PAGESIZE + ex_desc_wrap.vd_len + (PAGESIZE - 1)) / PAGESIZE →
        r.iov (3 + t) =
          { iov_base := ex_kva_wrap (((ex_desc_wrap.vd_addr &&& PAGEMASK) + t * PAGESIZE) % 2 ^ 64),
            iov_len := min (ex_desc_wrap.vd_len - (PAGESIZE - ex_desc_wrap.vd_addr % PAGESIZE)
              - (t - 1) * PAGESIZE) PAGESIZE }) ∧
      (∀ s, (s < 3 ∨
          3 + (ex_desc_wrap.vd_addr % PAGESIZE + ex_desc_wrap.vd_len + (PAGESIZE - 1))
            / PAGESIZE ≤ s) →
        r.iov s = ex_iov s) ∧
      (∀ t,
        t < (ex_desc_wrap.vd_addr % PAGESIZE + ex_desc_wrap.vd_len + (PAGESIZE - 1)) / PAGESIZE →
        0 < (r.iov (3 + t)).iov_len) ∧
      ex_desc_wrap.vd_addr % PAGESIZE + (r.iov 3).iov_len ≤ PAGESIZE ∧
      (∀ t, 0 < t →
        t < (ex_desc_wrap.vd_addr % PAGESIZE + ex_desc_wrap.vd_len + (PAGESIZE - 1)) / PAGESIZE →
        (((ex_desc_wrap.vd_addr &&& PAGEMASK) + t * PAGESIZE) % 2 ^ 64) % PAGESIZE = 0 ∧
        (r.iov (3 + t)).iov_len ≤ PAGESIZE) ∧
      Finset.sum
        (Finset.range
          ((ex_desc_wrap.vd_addr % PAGESIZE + ex_desc_wrap.vd_len + (PAGESIZE - 1)) / PAGESIZE))
        (fun t => (r.iov (3 + t)).iov_len) = ex_desc_wrap.vd_len :=
  vq_map_desc_bufs_splits_pages ex_kva_wrap ex_ring ex_desc_wrap ex_iov 8 3 (by decide)
    (by decide) (by decide) (by decide) (by decide) (by decide) (by decide)
    (by
      intro t ht
      have ht2 : t < 2 := by
        have e : (ex_desc_wrap.vd_addr % PAGESIZE + ex_desc_wrap.vd_len + (PAGESIZE - 1))
            / PAGESIZE = 2 := by decide
        rw [e] at ht; exact ht
      interval_cases t
      · decide
      · decide)

theorem wr16_apply (m : Mem) (a v x : Nat) :
    wr16 m a v x = if x = a then v % 256 else if x = a + 1 then v / 256 % 256 else m x := by
  unfold wr16 wr8
  by_cases h1 : x = a
  · subst h1; simp
  · by_cases h2 : x = a + 1
    · subst h2; simp
    · simp [h1, h2]

theorem wr32_apply (m : Mem) (a v x : Nat) :
    wr32 m a v x = if x = a then v % 256 else if x = a + 1 then v / 256 % 256
      else if x = a + 2 then v / 65536 % 256 else if x = a + 3 then v / 16777216 % 256
      else m x := by
  unfold wr32
  rw [wr16_apply, wr16_apply]
  have e : v / 65536 / 256 = v / 16777216 := by omega
  by_cases h1 : x = a
  · subst h1
    have h5 : ¬ x = x + 2 + 1 := by omega
    have h6 : ¬ x = x + 2 := by omega
    simp [h5, h6]
  · by_cases h2 : x = a + 1
    · subst h2
      have h5 : ¬ a + 1 = a + 2 + 1 := by omega
      have h6 : ¬ a + 1 = a + 2 := by omega
      simp [h5, h6]
    · by_cases h3 : x = a + 2
      · subst h3
        have h5 : ¬ a + 2 = a + 2 + 1 := by omega
        simp [h5]
      · by_cases h4 : x = a + 3
        · subst h4
          have h5 : a + 3 = a + 2 + 1 := by omega
          have h6 : ¬ a + 2 + 1 = a := by omega
          simp [h5, h6, e]
        · have h5 : ¬ x = a + 2 + 1 := by omega
          simp [h1, h2, h3, h4, h5]

theorem wr16_other (m : Mem) (a v x : Nat) (h : ∀ k, k < 2 → x ≠ a + k) :
    wr16 m a v x = m x := by
  rw [wr16_apply, if_neg (by simpa using h 0 (by omega)), if_neg (h 1 (by omega))]

theorem wr32_other (m : Mem) (a v x : Nat) (h : ∀ k, k < 4 → x ≠ a + k) :
    wr32 m a v x = m x := by
  rw [wr32_apply, if_neg (by simpa using h 0 (by omega)), if_neg (h 1 (by omega)),
    if_neg (h 2 (by omega)), if_neg (h 3 (by omega))]

theorem rd16_congr (m1 m2 : Mem) (b : Nat) (h : ∀ k, k < 2 → m1 (b + k) = m2 (b + k)) :
    rd16 m1 b = rd16 m2 b := by
  have h0 := h 0 (by omega)
  have h1 := h 1 (by omega)
  simp only [Nat.add_zero] at h0
  unfold rd16 rd8
  rw [h0, h1]

theorem rd32_congr (m1 m2 : Mem) (b : Nat) (h : ∀ k, k < 4 → m1 (b + k) = m2 (b + k)) :
    rd32 m1 b = rd32 m2 b := by
  have h0 := h 0 (by omega)
  have h1 := h 1 (by omega)
  have h2 := h 2 (by omega)
  have h3 := h 3 (by omega)
  simp only [Nat.add_zero] at h0
  unfold rd32 rd16 rd8
  rw [h0, h1, h2, show b + 2 + 1 = b + 3 by omega, h3]

theorem rd16_wr16 (m : Mem) (a v : Nat) : rd16 (wr16 m a v) a = v % 65536 := by
  unfold rd16 rd8
  rw [wr16_apply m a v a, if_pos rfl, wr16_apply m a v (a + 1), if_neg (by omega), if_pos rfl]
  simp only [Nat.mod_mod]
  omega

theorem rd32_wr32 (m : Mem) (a v : Nat) : rd32 (wr32 m a v) a = v % 4294967296 := by
  unfold rd32 rd16 rd8
  rw [wr32_apply m a v a, if_pos rfl, wr32_apply m a v (a + 1), if_neg (by omega), if_pos rfl,
    wr32_apply m a v (a + 2), if_neg (by omega), if_neg (by omega), if_pos rfl,
    wr32_apply m a v (a + 2 + 1), if_neg (by omega), if_neg (by omega), if_neg (by omega),
    if_pos (by omega)]
  simp only [Nat.mod_mod]
  omega

theorem LEGACY_USED_FLAGS_OFF_eq (q : Nat) (hq : q ≤ 2 ^ 59) :
    LEGACY_USED_FLAGS_OFF q = (18 * q + 6 + 4095) / 4096 * 4096 := by
  have e59 : (2:Nat) ^ 59 = 576460752303423488 := by norm_num
  have e64 : (2:Nat) ^ 64 = 18446744073709551616 := by norm_num
  rw [e59] at hq
  unfold LEGACY_USED_FLAGS_OFF LEGACY_DESC_SZ LEGACY_AVAIL_SZ LEGACY_VQ_ALIGN SIZEOF_virtio_desc
    SIZEOF_uint16
  have e : (q * 16 % 2 ^ 64 + (q + 3) * 2 % 2 ^ 64) % 2 ^ 64 = 18 * q + 6 := by
    rw [e64]; omega
  rw [e, P2ROUNDUP_page _ (by rw [e64]; omega)]

theorem LEGACY_USED_ENT_OFF_eq (q i : Nat) (hq : q ≤ 2 ^ 59) (hi : i ≤ q) :
    LEGACY_USED_ENT_OFF q i = (18 * q + 6 + 4095) / 4096 * 4096 + 4 + 8 * i := by
  have e59 : (2:Nat) ^ 59 = 576460752303423488 := by norm_num
  have e64 : (2:Nat) ^ 64 = 18446744073709551616 := by norm_num
  unfold LEGACY_USED_ENT_OFF
  rw [LEGACY_USED_FLAGS_OFF_eq q hq]
  rw [e59] at hq
  unfold SIZEOF_virtio_used SIZEOF_uint16
  rw [e64]; omega

theorem LEGACY_USED_IDX_OFF_eq (q : Nat) (hq : q ≤ 2 ^ 59) :
    LEGACY_USED_IDX_OFF q = (18 * q + 6 + 4095) / 4096 * 4096 + 2 := by
  have e59 : (2:Nat) ^ 59 = 576460752303423488 := by norm_num
  have e64 : (2:Nat) ^ 64 = 18446744073709551616 := by norm_num
  unfold LEGACY_USED_IDX_OFF
  rw [LEGACY_USED_FLAGS_OFF_eq q hq]
  rw [e59] at hq
  unfold SIZEOF_uint16
  rw [e64]; omega

theorem LEGACY_VQ_SIZE_eq (q : Nat) (hq : q ≤ 2 ^ 59) :
    LEGACY_VQ_SIZE q =
      (18 * q + 6 + 4095) / 4096 * 4096 + (8 * q + 6 + 4095) / 4096 * 4096 := by
  have e59 : (2:Nat) ^ 59 = 576460752303423488 := by norm_num
  have e64 : (2:Nat) ^ 64 = 18446744073709551616 := by norm_num
  unfold LEGACY_VQ_SIZE
  rw [LEGACY_USED_FLAGS_OFF_eq q hq]
  rw [e59] at hq
  unfold LEGACY_USED_SZ LEGACY_VQ_ALIGN SIZEOF_virtio_used SIZEOF_uint16
  have e : (q * 8 + 3 * 2) % 2 ^ 64 = 8 * q + 6 := by rw [e64]; omega
  rw [e, P2ROUNDUP_page _ (by rw [e64]; omega)]
  rw [e64]; omega

theorem LEGACY_VQ_PAGES_mul (q : Nat) (hq : q ≤ 2 ^ 59) :
    LEGACY_VQ_PAGES q * 4096 = LEGACY_VQ_SIZE q := by
  unfold LEGACY_VQ_PAGES PAGESIZE
  rw [LEGACY_VQ_SIZE_eq q hq]
  omega

/-- On a mapped ring every offset below `LEGACY_VQ_SIZE` has a host address: the page of
the offset plus the offset within the page. -/
theorem viona_ring_addr_mapped {ring : viona_vring_t} {pages : List Nat}
    (hp : ring.vr_map_pages = some pages)
    (hlen : pages.length = LEGACY_VQ_PAGES ring.vr_size) (hq : ring.vr_size < 65536)
    (off : Nat) (hoff : off < LEGACY_VQ_SIZE ring.vr_size) :
    ∃ h : off / 4096 < pages.length,
      viona_ring_addr ring off = Outcome.done (pages.get ⟨off / 4096, h⟩ + off % 4096) := by
  have hq59 : ring.vr_size ≤ 2 ^ 59 := by
    have e59 : (2:Nat) ^ 59 = 576460752303423488 := by norm_num
    rw [e59]; omega
  have hm := LEGACY_VQ_PAGES_mul ring.vr_size hq59
  have hlt : off / 4096 < pages.length := by
    rw [hlen]; omega
  refine ⟨hlt, ?_⟩
  unfold viona_ring_addr
  rw [hp]
  simp only [gt_iff_lt, if_pos hoff, PAGESIZE]
  rw [List.getElem?_eq_getElem hlt]
  rfl

theorem ring_mapped_size59 {ring : viona_vring_t} (hm : ring_mapped ring) :
    ring.vr_size ≤ 2 ^ 59 := by
  have e59 : (2:Nat) ^ 59 = 576460752303423488 := by norm_num
  have := hm.2.1
  rw [e59]; omega

/-- On a mapped ring the host address of an offset is defined and page-consistent. -/
theorem viona_ring_addr_ok {ring : viona_vring_t} (hm : ring_mapped ring) (off : Nat)
    (hoff : off < LEGACY_VQ_SIZE ring.vr_size) :
    ∃ a, viona_ring_addr ring off = Outcome.done a := by
  obtain ⟨_, hq, _, pages, hp, hlen, _, _⟩ := hm
  obtain ⟨h, e⟩ := viona_ring_addr_mapped hp hlen hq off hoff
  exact ⟨_, e⟩

/-- Bytes of one ring page are consecutive in host memory. -/
theorem viona_ring_addr_add {ring : viona_vring_t} (hm : ring_mapped ring) {off a : Nat}
    (hoff : off < LEGACY_VQ_SIZE ring.vr_size)
    (ha : viona_ring_addr ring off = Outcome.done a) (k : Nat) (hk : off % 4096 + k < 4096) :
    off + k < LEGACY_VQ_SIZE ring.vr_size ∧
    viona_ring_addr ring (off + k) = Outcome.done (a + k) := by
  have h59 := ring_mapped_size59 hm
  obtain ⟨_, hq, _, pages, hp, hlen, _, _⟩ := hm
  have hmul := LEGACY_VQ_PAGES_mul ring.vr_size h59
  have hoffk : off + k < LEGACY_VQ_SIZE ring.vr_size := by omega
  obtain ⟨h1, e1⟩ := viona_ring_addr_mapped hp hlen hq off hoff
  obtain ⟨h2, e2⟩ := viona_ring_addr_mapped hp hlen hq (off + k) hoffk
  refine ⟨hoffk, ?_⟩
  rw [e1] at ha
  injection ha with ha
  rw [e2, ← ha]
  have hd : (off + k) / 4096 = off / 4096 := by omega
  have hr : (off + k) % 4096 = off % 4096 + k := by omega
  simp only [hd, hr, Nat.add_assoc]

/-- On a mapped ring two offsets with the same host address are equal. -/
theorem viona_ring_addr_inj {ring : viona_vring_t} (hm : ring_mapped ring) {o1 o2 a : Nat}
    (h1 : o1 < LEGACY_VQ_SIZE ring.vr_size) (h2 : o2 < LEGACY_VQ_SIZE ring.vr_size)
    (e1 : viona_ring_addr ring o1 = Outcome.done a)
    (e2 : viona_ring_addr ring o2 = Outcome.done a) : o1 = o2 := by
  obtain ⟨_, hq, _, pages, hp, hlen, hal, hnd⟩ := hm
  obtain ⟨g1, f1⟩ := viona_ring_addr_mapped hp hlen hq o1 h1
  obtain ⟨g2, f2⟩ := viona_ring_addr_mapped hp hlen hq o2 h2
  rw [f1] at e1
  rw [f2] at e2
  injection e1 with e1
  injection e2 with e2
  have a1 := hal _ (List.get_mem pages (o1 / 4096) g1)
  have a2 := hal _ (List.get_mem pages (o2 / 4096) g2)
  unfold PAGESIZE at a1 a2
  have hp12 : pages.get ⟨o1 / 4096, g1⟩ = pages.get ⟨o2 / 4096, g2⟩ := by omega
  have hi := (List.Nodup.get_inj_iff hnd).1 hp12
  have hi2 : o1 / 4096 = o2 / 4096 := by
    have := congrArg Fin.val hi
    simpa using this
  omega

/-- On a mapped ring, byte ranges of the ring that do not overlap and do not cross a
page boundary occupy different host bytes. -/
theorem viona_ring_addr_disjoint {ring : viona_vring_t} (hm : ring_mapped ring)
    {o1 o2 a1 a2 n m : Nat}
    (h1 : o1 < LEGACY_VQ_SIZE ring.vr_size) (h2 : o2 < LEGACY_VQ_SIZE ring.vr_size)
    (e1 : viona_ring_addr ring o1 = Outcome.done a1)
    (e2 : viona_ring_addr ring o2 = Outcome.done a2)
    (p1 : o1 % 4096 + n ≤ 4096) (p2 : o2 % 4096 + m ≤ 4096)
    (hd : o1 + n ≤ o2 ∨ o2 + m ≤ o1) :
    ∀ k1 k2, k1 < n → k2 < m → a1 + k1 ≠ a2 + k2 := by
  intro k1 k2 hk1 hk2 he
  obtain ⟨b1, c1⟩ := viona_ring_addr_add hm h1 e1 k1 (by omega)
  obtain ⟨b2, c2⟩ := viona_ring_addr_add hm h2 e2 k2 (by omega)
  rw [he] at c1
  have := viona_ring_addr_inj hm b1 b2 c1 c2
  omega

/-- Where the used-ring fields of a mapped ring lie: inside the ring, each within one
page, in the order flags, index, entries. -/
theorem used_layout_bounds {ring : viona_vring_t} (hm : ring_mapped ring) (j : Nat)
    (hj : j < ring.vr_size) :
    LEGACY_USED_FLAGS_OFF ring.vr_size % 4096 = 0 ∧
    LEGACY_USED_IDX_OFF ring.vr_size = LEGACY_USED_FLAGS_OFF ring.vr_size + 2 ∧
    LEGACY_USED_ENT_OFF ring.vr_size j = LEGACY_USED_FLAGS_OFF ring.vr_size + 4 + 8 * j ∧
    LEGACY_USED_ENT_OFF ring.vr_size j + 8 ≤ LEGACY_VQ_SIZE ring.vr_size ∧
    LEGACY_VQ_SIZE ring.vr_size < 4294967296 := by
  have h59 := ring_mapped_size59 hm
  have hq := hm.2.1
  rw [LEGACY_USED_FLAGS_OFF_eq _ h59, LEGACY_USED_IDX_OFF_eq _ h59,
    LEGACY_USED_ENT_OFF_eq _ _ h59 (by omega), LEGACY_VQ_SIZE_eq _ h59]
  omega

/-- The function `vq_write_used_ent` on a mapped ring: the id goes to the first four
bytes of entry `idx` and the length to the next four. -/
theorem vq_write_used_ent_eq {ring : viona_vring_t} (hm : ring_mapped ring) (mem : Mem)
    (idx cookie len : Nat) (hidx : idx < ring.vr_size) :
    ∃ idp lenp,
      viona_ring_addr ring (LEGACY_USED_ENT_OFF ring.vr_size idx) = Outcome.done idp ∧
      viona_ring_addr ring (LEGACY_USED_ENT_OFF ring.vr_size idx + 4) = Outcome.done lenp ∧
      vq_write_used_ent mem ring idx cookie len =
        Outcome.done (wr32 (wr32 mem idp (cookie % 65536)) lenp len) := by
  obtain ⟨_, _, b3, b4, b5⟩ := used_layout_bounds hm idx hidx
  obtain ⟨idp, h1⟩ := viona_ring_addr_ok hm (LEGACY_USED_ENT_OFF ring.vr_size idx) (by omega)
  obtain ⟨lenp, h2⟩ := viona_ring_addr_ok hm (LEGACY_USED_ENT_OFF ring.vr_size idx + 4)
    (by omega)
  refine ⟨idp, lenp, h1, h2, ?_⟩
  unfold vq_write_used_ent SIZEOF_uint32
  have e1 : LEGACY_USED_ENT_OFF ring.vr_size idx % 2 ^ 32 = LEGACY_USED_ENT_OFF ring.vr_size idx :=
    Nat.mod_eq_of_lt (by norm_num; omega)
  have e2 : (LEGACY_USED_ENT_OFF ring.vr_size idx + 4) % 2 ^ 32
      = LEGACY_USED_ENT_OFF ring.vr_size idx + 4 :=
    Nat.mod_eq_of_lt (by norm_num; omega)
  simp only [e1, e2, h1, h2]

/-- The function `vq_write_used_idx` on a mapped ring. -/
theorem vq_write_used_idx_eq {ring : viona_vring_t} (hm : ring_mapped ring) (mem : Mem)
    (idx : Nat) :
    ∃ uip, viona_ring_addr ring (LEGACY_USED_IDX_OFF ring.vr_size) = Outcome.done uip ∧
      vq_write_used_idx mem ring idx = Outcome.done (wr16 mem uip (idx % 65536)) := by
  obtain ⟨_, b2, b3, b4, b5⟩ := used_layout_bounds hm 0 hm.1
  obtain ⟨uip, h1⟩ := viona_ring_addr_ok hm (LEGACY_USED_IDX_OFF ring.vr_size) (by omega)
  refine ⟨uip, h1, ?_⟩
  unfold vq_write_used_idx
  have e1 : LEGACY_USED_IDX_OFF ring.vr_size % 2 ^ 32 = LEGACY_USED_IDX_OFF ring.vr_size :=
    Nat.mod_eq_of_lt (by norm_num; omega)
  simp only [e1, h1]

theorem used_slot_lt {ring : viona_vring_t} (hm : ring_mapped ring) (uidx : Nat) :
    (uidx &&& ring.vr_mask) % 65536 = uidx &&& ring.vr_mask ∧
    uidx &&& ring.vr_mask < ring.vr_size := by
  have h1 : uidx &&& ring.vr_mask ≤ ring.vr_mask := Nat.and_le_right
  have h2 := hm.1
  have h3 := hm.2.1
  have h4 := hm.2.2.1
  omega

/-- The function `vq_pushchain` on a mapped ring, in closed form. -/
theorem vq_pushchain_eq {ring : viona_vring_t} (hm : ring_mapped ring) (mem : Mem)
    (len cookie : Nat) :
    ∃ idp lenp uip,
      viona_ring_addr ring
        (LEGACY_USED_ENT_OFF ring.vr_size (ring.vr_cur_uidx &&& ring.vr_mask)) =
          Outcome.done idp ∧
      viona_ring_addr ring
        (LEGACY_USED_ENT_OFF ring.vr_size (ring.vr_cur_uidx &&& ring.vr_mask) + 4) =
          Outcome.done lenp ∧
      viona_ring_addr ring (LEGACY_USED_IDX_OFF ring.vr_size) = Outcome.done uip ∧
      vq_pushchain mem ring len cookie =
        Outcome.done
          (wr16 (wr32 (wr32 mem idp (cookie % 65536)) lenp len) uip
              ((ring.vr_cur_uidx + 1) % 65536),
            { ring with vr_cur_uidx := (ring.vr_cur_uidx + 1) % 65536 }) := by
  obtain ⟨s1, s2⟩ := used_slot_lt hm ring.vr_cur_uidx
  obtain ⟨idp, lenp, h1, h2, h3⟩ := vq_write_used_ent_eq hm mem
    (ring.vr_cur_uidx &&& ring.vr_mask) cookie len s2
  obtain ⟨uip, h4, h5⟩ := vq_write_used_idx_eq hm
    (wr32 (wr32 mem idp (cookie % 65536)) lenp len) ((ring.vr_cur_uidx + 1) % 65536)
  refine ⟨idp, lenp, uip, h1, h2, h4, ?_⟩
  unfold vq_pushchain
  simp only [s1, h3, h5, Nat.mod_mod]

/-- C5: on a mapped ring `vq_pushchain(len, cookie)` stores the cookie (a 16-bit value,
zero-extended) in the id field and `len` in the length field of used-ring entry
`old vr_cur_uidx & vr_mask`, sets the guest-visible used index and `vr_cur_uidx` to
`old vr_cur_uidx + 1` modulo 2^16 and changes no other field of the ring structure;
every other used-ring entry and the used-ring flags word read as before. -/
theorem vq_pushchain_writes_one (mem : Mem) (ring : viona_vring_t) (len cookie : Nat)
    (hm : ring_mapped ring) :
    ∃ mem1, vq_pushchain mem ring len cookie =
        Outcome.done (mem1, { ring with vr_cur_uidx := (ring.vr_cur_uidx + 1) % 65536 }) ∧
      ring_rd32 mem1 ring
          (LEGACY_USED_ENT_OFF ring.vr_size (ring.vr_cur_uidx &&& ring.vr_mask)) =
        Outcome.done (cookie % 65536) ∧
      ring_rd32 mem1 ring
          (LEGACY_USED_ENT_OFF ring.vr_size (ring.vr_cur_uidx &&& ring.vr_mask) + 4) =
        Outcome.done (len % 2 ^ 32) ∧
      ring_rd16 mem1 ring (LEGACY_USED_IDX_OFF ring.vr_size) =
        Outcome.done ((ring.vr_cur_uidx + 1) % 65536) ∧
      (∀ j, j < ring.vr_size → j ≠ ring.vr_cur_uidx &&& ring.vr_mask →
        ring_rd32 mem1 ring (LEGACY_USED_ENT_OFF ring.vr_size j) =
          ring_rd32 mem ring (LEGACY_USED_ENT_OFF ring.vr_size j) ∧
        ring_rd32 mem1 ring (LEGACY_USED_ENT_OFF ring.vr_size j + 4) =
          ring_rd32 mem ring (LEGACY_USED_ENT_OFF ring.vr_size j + 4)) ∧
      ring_rd16 mem1 ring (LEGACY_USED_FLAGS_OFF ring.vr_size) =
        ring_rd16 mem ring (LEGACY_USED_FLAGS_OFF ring.vr_size) := by
  obtain ⟨s1, s2⟩ := used_slot_lt hm ring.vr_cur_uidx
  obtain ⟨idp, lenp, uip, h1, h2, h3, h4⟩ := vq_pushchain_eq hm mem len cookie
  obtain ⟨b1, b2, b3, b4, b5⟩ := used_layout_bounds hm _ s2
  have d12 := viona_ring_addr_disjoint hm (n := 4) (m := 4) (by omega) (by omega) h1 h2
    (by omega) (by omega) (by omega)
  have d13 := viona_ring_addr_disjoint hm (n := 4) (m := 2) (by omega) (by omega) h1 h3
    (by omega) (by omega) (by omega)
  have d23 := viona_ring_addr_disjoint hm (n := 4) (m := 2) (by omega) (by omega) h2 h3
    (by omega) (by omega) (by omega)
  refine ⟨_, h4, ?_, ?_, ?_, ?_, ?_⟩
  · unfold ring_rd32
    rw [h1]
    simp only
    rw [rd32_congr _ (wr32 mem idp (cookie % 65536)) idp, rd32_wr32]
    · congr 1; omega
    · intro k hk
      rw [wr16_other _ _ _ _ (fun k2 hk2 => d13 k k2 hk hk2),
        wr32_other _ _ _ _ (fun k2 hk2 => d12 k k2 hk hk2)]
  · unfold ring_rd32
    rw [h2]
    simp only
    rw [rd32_congr _ (wr32 (wr32 mem idp (cookie % 65536)) lenp len) lenp, rd32_wr32]
    · norm_num
    · intro k hk
      rw [wr16_other _ _ _ _ (fun k2 hk2 => d23 k k2 hk hk2)]
  · unfold ring_rd16
    rw [h3]
    simp only
    rw [rd16_wr16, Nat.mod_mod]
  · intro j hj hne
    obtain ⟨_, _, c3, c4, _⟩ := used_layout_bounds hm j hj
    obtain ⟨a, ha⟩ := viona_ring_addr_ok hm (LEGACY_USED_ENT_OFF ring.vr_size j) (by omega)
    obtain ⟨b, hb⟩ := viona_ring_addr_ok hm (LEGACY_USED_ENT_OFF ring.vr_size j + 4) (by omega)
    have hcases : LEGACY_USED_ENT_OFF ring.vr_size j + 8 ≤
          LEGACY_USED_ENT_OFF ring.vr_size (ring.vr_cur_uidx &&& ring.vr_mask) ∨
        LEGACY_USED_ENT_OFF ring.vr_size (ring.vr_cur_uidx &&& ring.vr_mask) + 8 ≤
          LEGACY_USED_ENT_OFF ring.vr_size j := by omega
    have ea1 := viona_ring_addr_disjoint hm (n := 4) (m := 4) (by omega) (by omega) ha h1
      (by omega) (by omega) (by omega)
    have ea2 := viona_ring_addr_disjoint hm (n := 4) (m := 4) (by omega) (by omega) ha h2
      (by omega) (by omega) (by omega)
    have ea3 := viona_ring_addr_disjoint hm (n := 4) (m := 2) (by omega) (by omega) ha h3
      (by omega) (by omega) (by omega)
    have eb1 := viona_ring_addr_disjoint hm (n := 4) (m := 4) (by omega) (by omega) hb h1
      (by omega) (by omega) (by omega)
    have eb2 := viona_ring_addr_disjoint hm (n := 4) (m := 4) (by omega) (by omega) hb h2
      (by omega) (by omega) (by omega)
    have eb3 := viona_ring_addr_disjoint hm (n := 4) (m := 2) (by omega) (by omega) hb h3
      (by omega) (by omega) (by omega)
    unfold ring_rd32
    rw [ha, hb]
    simp only
    refine ⟨?_, ?_⟩
    · rw [rd32_congr _ mem a]
      intro k hk
      rw [wr16_other _ _ _ _ (fun k2 hk2 => ea3 k k2 hk hk2),
        wr32_other _ _ _ _ (fun k2 hk2 => ea2 k k2 hk hk2),
        wr32_other _ _ _ _ (fun k2 hk2 => ea1 k k2 hk hk2)]
    · rw [rd32_congr _ mem b]
      intro k hk
      rw [wr16_other _ _ _ _ (fun k2 hk2 => eb3 k k2 hk hk2),
        wr32_other _ _ _ _ (fun k2 hk2 => eb2 k k2 hk hk2),
        wr32_other _ _ _ _ (fun k2 hk2 => eb1 k k2 hk hk2)]
  · obtain ⟨f, hf⟩ := viona_ring_addr_ok hm (LEGACY_USED_FLAGS_OFF ring.vr_size) (by omega)
    have ef1 := viona_ring_addr_disjoint hm (n := 2) (m := 4) (by omega) (by omega) hf h1
      (by omega) (by omega) (by omega)
    have ef2 := viona_ring_addr_disjoint hm (n := 2) (m := 4) (by omega) (by omega) hf h2
      (by omega) (by omega) (by omega)
    have ef3 := viona_ring_addr_disjoint hm (n := 2) (m := 2) (by omega) (by omega) hf h3
      (by omega) (by omega) (by omega)
    unfold ring_rd16
    rw [hf]
    simp only
    rw [rd16_congr _ mem f]
    intro k hk
    rw [wr16_other _ _ _ _ (fun k2 hk2 => ef3 k k2 hk hk2),
      wr32_other _ _ _ _ (fun k2 hk2 => ef2 k k2 hk hk2),
      wr32_other _ _ _ _ (fun k2 hk2 => ef1 k k2 hk hk2)]

/-- Witness for C5: a push on the example ring with the used cursor at 65535 fills
entry 255 and wraps the index to 0. -/
theorem vq_pushchain_writes_one_witness :
    ∃ mem1, vq_pushchain ex_mem ex_ring_last 1514 5 =
        Outcome.done
          (mem1, { ex_ring_last with vr_cur_uidx := (ex_ring_last.vr_cur_uidx + 1) % 65536 }) ∧
      ring_rd32 mem1 ex_ring_last
          (LEGACY_USED_ENT_OFF ex_ring_last.vr_size
            (ex_ring_last.vr_cur_uidx &&& ex_ring_last.vr_mask)) =
        Outcome.done (5 % 65536) ∧
      ring_rd32 mem1 ex_ring_last
          (LEGACY_USED_ENT_OFF ex_ring_last.vr_size
            (ex_ring_last.vr_cur_uidx &&& ex_ring_last.vr_mask) + 4) =
        Outcome.done (1514 % 2 ^ 32) ∧
      ring_rd16 mem1 ex_ring_last (LEGACY_USED_IDX_OFF ex_ring_last.vr_size) =
        Outcome.done ((ex_ring_last.vr_cur_uidx + 1) % 65536) ∧
      (∀ j, j < ex_ring_last.vr_size →
        j ≠ ex_ring_last.vr_cur_uidx &&& ex_ring_last.vr_mask →
        ring_rd32 mem1 ex_ring_last (LEGACY_USED_ENT_OFF ex_ring_last.vr_size j) =
          ring_rd32 ex_mem ex_ring_last (LEGACY_USED_ENT_OFF ex_ring_last.vr_size j) ∧
        ring_rd32 mem1 ex_ring_last (LEGACY_USED_ENT_OFF ex_ring_last.vr_size j + 4) =
          ring_rd32 ex_mem ex_ring_last (LEGACY_USED_ENT_OFF ex_ring_last.vr_size j + 4)) ∧
      ring_rd16 mem1 ex_ring_last (LEGACY_USED_FLAGS_OFF ex_ring_last.vr_size) =
        ring_rd16 ex_mem ex_ring_last (LEGACY_USED_FLAGS_OFF ex_ring_last.vr_size) :=
  vq_pushchain_writes_one ex_mem ex_ring_last 1514 5
    ⟨by decide, by decide, rfl, [65536, 131072, 196608], rfl, rfl, by decide, by decide⟩

/-- C6 at a failing input: `vq_pushchain_many` with the two completions `(5, 100)` and
`(7, 200)` on the example ring (used cursor 0) writes both into used-ring entry 0, so
that entry 0 holds `(7, 200)` and entry 1 is still `(0, 0)`, and publishes index 2; two
successive calls of `vq_pushchain` leave `(5, 100)` in entry 0 and `(7, 200)` in
entry 1. -/
theorem vq_pushchain_many_overwrites_slot :
    (∃ m r, vq_pushchain_many ex_mem ex_ring 2 ex_elem = Outcome.done (m, r) ∧
      r.vr_cur_uidx = 2 ∧
      ring_rd16 m ex_ring (LEGACY_USED_IDX_OFF 256) = Outcome.done 2 ∧
      ring_rd32 m ex_ring (LEGACY_USED_ENT_OFF 256 0) = Outcome.done 7 ∧
      ring_rd32 m ex_ring (LEGACY_USED_ENT_OFF 256 0 + 4) = Outcome.done 200 ∧
      ring_rd32 m ex_ring (LEGACY_USED_ENT_OFF 256 1) = Outcome.done 0 ∧
      ring_rd32 m ex_ring (LEGACY_USED_ENT_OFF 256 1 + 4) = Outcome.done 0) ∧
    (∃ m1 r1 m2 r2, vq_pushchain ex_mem ex_ring 100 5 = Outcome.done (m1, r1) ∧
      vq_pushchain m1 r1 200 7 = Outcome.done (m2, r2) ∧
      r2.vr_cur_uidx = 2 ∧
      ring_rd16 m2 ex_ring (LEGACY_USED_IDX_OFF 256) = Outcome.done 2 ∧
      ring_rd32 m2 ex_ring (LEGACY_USED_ENT_OFF 256 0) = Outcome.done 5 ∧
      ring_rd32 m2 ex_ring (LEGACY_USED_ENT_OFF 256 0 + 4) = Outcome.done 100 ∧
      ring_rd32 m2 ex_ring (LEGACY_USED_ENT_OFF 256 1) = Outcome.done 7 ∧
      ring_rd32 m2 ex_ring (LEGACY_USED_ENT_OFF 256 1 + 4) = Outcome.done 200) :=
  ⟨⟨_, _, rfl, rfl, rfl, rfl, rfl, rfl, rfl⟩, ⟨_, _, _, _, rfl, rfl, rfl, rfl, rfl, rfl, rfl, rfl⟩⟩

theorem ring_mapped_with_uidx {ring : viona_vring_t} (hm : ring_mapped ring) (u : Nat) :
    ring_mapped { ring with vr_cur_uidx := u } := hm

theorem vq_pushchain_many_loop_ok {ring : viona_vring_t} (hm : ring_mapped ring) (uidx : Nat)
    (elem : Nat → used_elem_t) (n : Nat) :
    ∀ (i : Nat) (mem : Mem), ∃ mem1,
      vq_pushchain_many_loop ring uidx elem n i mem = Outcome.done mem1 := by
  induction n with
  | zero => intro i mem; exact ⟨mem, rfl⟩
  | succ n ih =>
    intro i mem
    obtain ⟨s1, s2⟩ := used_slot_lt hm uidx
    obtain ⟨idp, lenp, _, _, h3⟩ := vq_write_used_ent_eq hm mem (uidx &&& ring.vr_mask)
      (elem i).id (elem i).len s2
    obtain ⟨mem1, h⟩ := ih (i + 1) (wr32 (wr32 mem idp ((elem i).id % 65536)) lenp (elem i).len)
    refine ⟨mem1, ?_⟩
    unfold vq_pushchain_many_loop
    simp only [s1, h3, h]

/-- The function `vq_pushchain_many` on a mapped ring: the index published and the
cursor stored are both `old vr_cur_uidx + num_bufs` modulo 2^16. -/
theorem vq_pushchain_many_eq {ring : viona_vring_t} (hm : ring_mapped ring) (mem : Mem)
    (num_bufs : Nat) (elem : Nat → used_elem_t) :
    ∃ mem1 uip, viona_ring_addr ring (LEGACY_USED_IDX_OFF ring.vr_size) = Outcome.done uip ∧
      vq_pushchain_many mem ring num_bufs elem =
        Outcome.done
          (wr16 mem1 uip ((ring.vr_cur_uidx + num_bufs) % 65536),
            { ring with vr_cur_uidx := (ring.vr_cur_uidx + num_bufs) % 65536 }) := by
  obtain ⟨mem1, h1⟩ := vq_pushchain_many_loop_ok hm ring.vr_cur_uidx elem num_bufs 0 mem
  obtain ⟨uip, h2, h3⟩ := vq_write_used_idx_eq hm mem1 ((ring.vr_cur_uidx + num_bufs) % 65536)
  refine ⟨mem1, uip, h2, ?_⟩
  unfold vq_pushchain_many
  simp only [h1, h3, Nat.mod_mod]

/-- One call of the used-ring writer on a mapped ring: it returns, the cursor advances
by the number of completions modulo 2^16, and the published index is the new cursor. -/
theorem push_op_run_ok {ring : viona_vring_t} (hm : ring_mapped ring) (mem : Mem)
    (op : push_op) :
    ∃ mem1, op.run mem ring =
        Outcome.done
          (mem1, { ring with vr_cur_uidx := (ring.vr_cur_uidx + op.count) % 65536 }) ∧
      ring_rd16 mem1 ring (LEGACY_USED_IDX_OFF ring.vr_size) =
        Outcome.done ((ring.vr_cur_uidx + op.count) % 65536) := by
  cases op with
  | one len cookie =>
    obtain ⟨idp, lenp, uip, _, _, h3, h4⟩ := vq_pushchain_eq hm mem len cookie
    refine ⟨_, h4, ?_⟩
    unfold ring_rd16
    rw [h3]
    simp only [push_op.count]
    rw [rd16_wr16, Nat.mod_mod]
  | many num_bufs elem =>
    obtain ⟨mem1, uip, h2, h3⟩ := vq_pushchain_many_eq hm mem num_bufs elem
    refine ⟨_, h3, ?_⟩
    unfold ring_rd16
    rw [h2]
    simp only [push_op.count]
    rw [rd16_wr16, Nat.mod_mod]

/-- A sequence of calls of the used-ring writer on a mapped ring: it returns, the cursor
has advanced by the total number of completions modulo 2^16, and the published index
equals the cursor if it did at the start. -/
theorem run_pushes_ok (ops : List push_op) :
    ∀ (mem : Mem) (ring : viona_vring_t), ring_mapped ring → ring.vr_cur_uidx < 65536 →
      ring_rd16 mem ring (LEGACY_USED_IDX_OFF ring.vr_size) = Outcome.done ring.vr_cur_uidx →
      ∃ mem1, run_pushes ops mem ring =
          Outcome.done
            (mem1, { ring with vr_cur_uidx := (ring.vr_cur_uidx + push_total ops) % 65536 }) ∧
        ring_rd16 mem1 ring (LEGACY_USED_IDX_OFF ring.vr_size) =
          Outcome.done ((ring.vr_cur_uidx + push_total ops) % 65536) := by
  induction ops with
  | nil =>
    intro mem ring _ hu hp
    refine ⟨mem, ?_, ?_⟩
    · simp only [run_pushes, push_total, Nat.add_zero, Nat.mod_eq_of_lt hu]
    · simp only [push_total, Nat.add_zero, Nat.mod_eq_of_lt hu]
      exact hp
  | cons op ops ih =>
    intro mem ring hm hu _
    obtain ⟨mem1, h1, h2⟩ := push_op_run_ok hm mem op
    obtain ⟨mem2, g1, g2⟩ := ih mem1
      { ring with vr_cur_uidx := (ring.vr_cur_uidx + op.count) % 65536 }
      (ring_mapped_with_uidx hm _) (Nat.mod_lt _ (by norm_num)) h2
    have e : ((ring.vr_cur_uidx + op.count) % 65536 + push_total ops) % 65536
        = (ring.vr_cur_uidx + (op.count + push_total ops)) % 65536 := by omega
    refine ⟨mem2, ?_, ?_⟩
    · simp only [run_pushes, push_total, h1, g1, e]
    · simp only [push_total]
      rw [← e]
      exact g2

/-- C7: on a mapped ring `vq_pushchain_many` with `num_bufs` entries advances
`vr_cur_uidx` by `num_bufs` modulo 2^16 and publishes that same value as the
guest-visible used index; hence every sequence of `vq_pushchain` /
`vq_pushchain_many` calls that starts with the published index equal to the cursor
ends with them equal, the cursor having advanced by the total number of entries modulo
2^16; and a sequence pushing 2^16 + k entries in total ends with the same ring
structure (the same cursor) as one pushing k. -/
theorem vq_pushchain_many_cursor (mem : Mem) (ring : viona_vring_t) (num_bufs : Nat)
    (elem : Nat → used_elem_t) (hm : ring_mapped ring) :
    (∃ mem1, vq_pushchain_many mem ring num_bufs elem =
        Outcome.done
          (mem1, { ring with vr_cur_uidx := (ring.vr_cur_uidx + num_bufs) % 65536 }) ∧
      ring_rd16 mem1 ring (LEGACY_USED_IDX_OFF ring.vr_size) =
        Outcome.done ((ring.vr_cur_uidx + num_bufs) % 65536)) ∧
    (∀ ops, ring.vr_cur_uidx < 65536 →
      ring_rd16 mem ring (LEGACY_USED_IDX_OFF ring.vr_size) = Outcome.done ring.vr_cur_uidx →
      ∃ m1 r1, run_pushes ops mem ring = Outcome.done (m1, r1) ∧
        r1.vr_cur_uidx = (ring.vr_cur_uidx + push_total ops) % 65536 ∧
        ring_rd16 m1 r1 (LEGACY_USED_IDX_OFF r1.vr_size) = Outcome.done r1.vr_cur_uidx) ∧
    (∀ ops1 ops2, push_total ops1 = 65536 + push_total ops2 → ring.vr_cur_uidx < 65536 →
      ring_rd16 mem ring (LEGACY_USED_IDX_OFF ring.vr_size) = Outcome.done ring.vr_cur_uidx →
      ∃ m1 m2 r, run_pushes ops1 mem ring = Outcome.done (m1, r) ∧
        run_pushes ops2 mem ring = Outcome.done (m2, r)) := by
  refine ⟨?_, ?_, ?_⟩
  · exact push_op_run_ok hm mem (push_op.many num_bufs elem)
  · intro ops hu hs
    obtain ⟨m1, h1, h2⟩ := run_pushes_ok ops mem ring hm hu hs
    exact ⟨m1, _, h1, rfl, h2⟩
  · intro ops1 ops2 ht hu hs
    obtain ⟨m1, h1, _⟩ := run_pushes_ok ops1 mem ring hm hu hs
    obtain ⟨m2, h2, _⟩ := run_pushes_ok ops2 mem ring hm hu hs
    refine ⟨m1, m2, _, h1, ?_⟩
    rw [h2, ht]
    have e : (ring.vr_cur_uidx + (65536 + push_total ops2)) % 65536
        = (ring.vr_cur_uidx + push_total ops2) % 65536 := by omega
    rw [e]

/-- Witness for C7 on the example ring. -/
theorem vq_pushchain_many_cursor_witness :
    (∃ mem1, vq_pushchain_many ex_mem ex_ring 65539 ex_elem =
        Outcome.done
          (mem1, { ex_ring with vr_cur_uidx := (ex_ring.vr_cur_uidx + 65539) % 65536 }) ∧
      ring_rd16 mem1 ex_ring (LEGACY_USED_IDX_OFF ex_ring.vr_size) =
        Outcome.done ((ex_ring.vr_cur_uidx + 65539) % 65536)) ∧
    (∀ ops, ex_ring.vr_cur_uidx < 65536 →
      ring_rd16 ex_mem ex_ring (LEGACY_USED_IDX_OFF ex_ring.vr_size) =
        Outcome.done ex_ring.vr_cur_uidx →
      ∃ m1 r1, run_pushes ops ex_mem ex_ring = Outcome.done (m1, r1) ∧
        r1.vr_cur_uidx = (ex_ring.vr_cur_uidx + push_total ops) % 65536 ∧
        ring_rd16 m1 r1 (LEGACY_USED_IDX_OFF r1.vr_size) = Outcome.done r1.vr_cur_uidx) ∧
    (∀ ops1 ops2, push_total ops1 = 65536 + push_total ops2 →
      ex_ring.vr_cur_uidx < 65536 →
      ring_rd16 ex_mem ex_ring (LEGACY_USED_IDX_OFF ex_ring.vr_size) =
        Outcome.done ex_ring.vr_cur_uidx →
      ∃ m1 m2 r, run_pushes ops1 ex_mem ex_ring = Outcome.done (m1, r) ∧
        run_pushes ops2 ex_mem ex_ring = Outcome.done (m2, r)) :=
  vq_pushchain_many_cursor ex_mem ex_ring 65539 ex_elem
    ⟨by decide, by decide, rfl, [65536, 131072, 196608], rfl, rfl, by decide, by decide⟩

theorem LEGACY_AVAIL_IDX_OFF_eq (q : Nat) (hq : q ≤ 2 ^ 59) :
    LEGACY_AVAIL_IDX_OFF q = 16 * q + 2 := by
  have e59 : (2:Nat) ^ 59 = 576460752303423488 := by norm_num
  have e64 : (2:Nat) ^ 64 = 18446744073709551616 := by norm_num
  rw [e59] at hq
  unfold LEGACY_AVAIL_IDX_OFF LEGACY_DESC_SZ SIZEOF_virtio_desc SIZEOF_uint16
  rw [e64]; omega

/-- C8: `viona_ring_num_avail` returns the guest's available index minus `vr_cur_aidx`
modulo 2^16. If the guest has published `p` chains in total and `c` have been consumed,
with `0 <= p - c <= 65535`, the result is exactly `p - c` however often either 16-bit
counter has wrapped, and adding the same offset to both counters leaves the result
unchanged. -/
theorem viona_ring_num_avail_wraps (mem : Mem) (ring : viona_vring_t) (avail : Nat)
    (hq : ring.vr_size < 65536)
    (ha : ring_rd16 mem ring (LEGACY_AVAIL_IDX_OFF ring.vr_size) = Outcome.done avail) :
    ∃ n, viona_ring_num_avail mem ring = Outcome.done n ∧
      (n : Int) = ((avail : Int) - (ring.vr_cur_aidx : Int)) % 65536 ∧
      (∀ p c, c ≤ p → p - c ≤ 65535 → avail = p % 65536 → ring.vr_cur_aidx = c % 65536 →
        n = p - c) ∧
      (∀ k mem2,
        ring_rd16 mem2 ring (LEGACY_AVAIL_IDX_OFF ring.vr_size) =
          Outcome.done ((avail + k) % 65536) →
        viona_ring_num_avail mem2 { ring with vr_cur_aidx := (ring.vr_cur_aidx + k) % 65536 } =
          Outcome.done n) := by
  have e32 : (2:Nat) ^ 32 = 4294967296 := by norm_num
  have hoff := LEGACY_AVAIL_IDX_OFF_eq ring.vr_size (by norm_num; omega)
  have hmod : LEGACY_AVAIL_IDX_OFF ring.vr_size % 2 ^ 32 = LEGACY_AVAIL_IDX_OFF ring.vr_size := by
    rw [hoff, e32]; omega
  unfold ring_rd16 at ha
  split at ha
  · rename_i a haddr
    injection ha with ha
    have hlt := rd16_lt mem a
    refine ⟨(avail + 65536 - ring.vr_cur_aidx % 65536) % 65536, ?_, ?_, ?_, ?_⟩
    · unfold viona_ring_num_avail
      rw [hmod, haddr]
      simp only [ha]
    · omega
    · intro p c hcp hpc h1 h2
      omega
    · intro k mem2 h2
      unfold ring_rd16 at h2
      have haddr2 : viona_ring_addr { ring with vr_cur_aidx := (ring.vr_cur_aidx + k) % 65536 }
          (LEGACY_AVAIL_IDX_OFF ring.vr_size) = Outcome.done a := haddr
      rw [haddr] at h2
      injection h2 with h2
      unfold viona_ring_num_avail
      simp only [hmod, haddr2, h2]
      congr 1
      omega
  · cases ha
  · cases ha

/-- Witness for C8: the guest's index has wrapped to 4 while the cursor is at 65530. -/
theorem viona_ring_num_avail_wraps_witness :
    ∃ n, viona_ring_num_avail ex_mem_avail ex_ring_avail = Outcome.done n ∧
      (n : Int) = (((4 : Nat) : Int) - (ex_ring_avail.vr_cur_aidx : Int)) % 65536 ∧
      (∀ p c, c ≤ p → p - c ≤ 65535 → 4 = p % 65536 →
        ex_ring_avail.vr_cur_aidx = c % 65536 → n = p - c) ∧
      (∀ k mem2,
        ring_rd16 mem2 ex_ring_avail (LEGACY_AVAIL_IDX_OFF ex_ring_avail.vr_size) =
          Outcome.done ((4 + k) % 65536) →
        viona_ring_num_avail mem2
            { ex_ring_avail with vr_cur_aidx := (ex_ring_avail.vr_cur_aidx + k) % 65536 } =
          Outcome.done n) :=
  viona_ring_num_avail_wraps ex_mem_avail ex_ring_avail 4 (by decide) rfl

theorem LEGACY_AVAIL_ENT_OFF_eq (q i : Nat) (hq : q ≤ 2 ^ 59) (hi : i ≤ q) :
    LEGACY_AVAIL_ENT_OFF q i = 16 * q + 4 + 2 * i := by
  have e59 : (2:Nat) ^ 59 = 576460752303423488 := by norm_num
  have e64 : (2:Nat) ^ 64 = 18446744073709551616 := by norm_num
  rw [e59] at hq
  unfold LEGACY_AVAIL_ENT_OFF LEGACY_DESC_SZ SIZEOF_virtio_desc SIZEOF_uint16
  rw [e64]; omega

theorem LEGACY_sizes_eq (q : Nat) (hq : q ≤ 2 ^ 59) :
    LEGACY_DESC_SZ q = 16 * q ∧ LEGACY_AVAIL_FLAGS_OFF q = 16 * q ∧
    LEGACY_AVAIL_SZ q = 2 * (q + 3) ∧ LEGACY_USED_SZ q = 8 * q + 6 := by
  have e59 : (2:Nat) ^ 59 = 576460752303423488 := by norm_num
  have e64 : (2:Nat) ^ 64 = 18446744073709551616 := by norm_num
  rw [e59] at hq
  unfold LEGACY_AVAIL_FLAGS_OFF LEGACY_DESC_SZ LEGACY_AVAIL_SZ LEGACY_USED_SZ SIZEOF_virtio_desc
    SIZEOF_virtio_used SIZEOF_uint16
  rw [e64]; omega

/-- C9: for every queue size that is a power of two with `1 <= qsz <= 32768`, the
descriptor table `[0, 16*qsz)`, the available ring `[16*qsz, 16*qsz + 2*(qsz+3))` and
the used ring `[LEGACY_USED_FLAGS_OFF(qsz), LEGACY_USED_FLAGS_OFF(qsz) + 8*qsz + 6)` come
in that order, are pairwise disjoint, and `LEGACY_USED_FLAGS_OFF(qsz)` is a multiple of
`PAGESIZE`. -/
theorem legacy_layout_disjoint (qsz k : Nat) (hpow : qsz = 2 ^ k) (h1 : 1 ≤ qsz)
    (h2 : qsz ≤ VRING_MAX_LEN) :
    LEGACY_DESC_SZ qsz = 16 * qsz ∧
    LEGACY_AVAIL_FLAGS_OFF qsz = 16 * qsz ∧
    LEGACY_AVAIL_SZ qsz = 2 * (qsz + 3) ∧
    LEGACY_USED_SZ qsz = 8 * qsz + 6 ∧
    LEGACY_DESC_SZ qsz ≤ LEGACY_AVAIL_FLAGS_OFF qsz ∧
    LEGACY_AVAIL_FLAGS_OFF qsz + LEGACY_AVAIL_SZ qsz ≤ LEGACY_USED_FLAGS_OFF qsz ∧
    LEGACY_USED_FLAGS_OFF qsz % PAGESIZE = 0 ∧
    Disjoint (Set.Ico 0 (LEGACY_DESC_SZ qsz))
      (Set.Ico (LEGACY_AVAIL_FLAGS_OFF qsz) (LEGACY_AVAIL_FLAGS_OFF qsz + LEGACY_AVAIL_SZ qsz)) ∧
    Disjoint (Set.Ico (LEGACY_AVAIL_FLAGS_OFF qsz) (LEGACY_AVAIL_FLAGS_OFF qsz + LEGACY_AVAIL_SZ qsz))
      (Set.Ico (LEGACY_USED_FLAGS_OFF qsz) (LEGACY_USED_FLAGS_OFF qsz + LEGACY_USED_SZ qsz)) ∧
    Disjoint (Set.Ico 0 (LEGACY_DESC_SZ qsz))
      (Set.Ico (LEGACY_USED_FLAGS_OFF qsz) (LEGACY_USED_FLAGS_OFF qsz + LEGACY_USED_SZ qsz)) := by
  have e59 : (2:Nat) ^ 59 = 576460752303423488 := by norm_num
  unfold VRING_MAX_LEN at h2
  have hq : qsz ≤ 2 ^ 59 := by rw [e59]; omega
  obtain ⟨s1, s2, s3, s4⟩ := LEGACY_sizes_eq qsz hq
  have hu := LEGACY_USED_FLAGS_OFF_eq qsz hq
  rw [s1, s2, s3, s4, hu]
  unfold PAGESIZE
  refine ⟨rfl, rfl, rfl, rfl, le_refl _, by omega, by omega, ?_, ?_, ?_⟩
  · rw [Set.disjoint_left]
    intro x hx hy
    simp only [Set.mem_Ico] at hx hy
    omega
  · rw [Set.disjoint_left]
    intro x hx hy
    simp only [Set.mem_Ico] at hx hy
    omega
  · rw [Set.disjoint_left]
    intro x hx hy
    simp only [Set.mem_Ico] at hx hy
    omega

/-- Witness for C9: queue size 256. -/
theorem legacy_layout_disjoint_witness :
    LEGACY_DESC_SZ 256 = 16 * 256 ∧
    LEGACY_AVAIL_FLAGS_OFF 256 = 16 * 256 ∧
    LEGACY_AVAIL_SZ 256 = 2 * (256 + 3) ∧
    LEGACY_USED_SZ 256 = 8 * 256 + 6 ∧
    LEGACY_DESC_SZ 256 ≤ LEGACY_AVAIL_FLAGS_OFF 256 ∧
    LEGACY_AVAIL_FLAGS_OFF 256 + LEGACY_AVAIL_SZ 256 ≤ LEGACY_USED_FLAGS_OFF 256 ∧
    LEGACY_USED_FLAGS_OFF 256 % PAGESIZE = 0 ∧
    Disjoint (Set.Ico 0 (LEGACY_DESC_SZ 256))
      (Set.Ico (LEGACY_AVAIL_FLAGS_OFF 256) (LEGACY_AVAIL_FLAGS_OFF 256 + LEGACY_AVAIL_SZ 256)) ∧
    Disjoint (Set.Ico (LEGACY_AVAIL_FLAGS_OFF 256) (LEGACY_AVAIL_FLAGS_OFF 256 + LEGACY_AVAIL_SZ 256))
      (Set.Ico (LEGACY_USED_FLAGS_OFF 256) (LEGACY_USED_FLAGS_OFF 256 + LEGACY_USED_SZ 256)) ∧
    Disjoint (Set.Ico 0 (LEGACY_DESC_SZ 256))
      (Set.Ico (LEGACY_USED_FLAGS_OFF 256) (LEGACY_USED_FLAGS_OFF 256 + LEGACY_USED_SZ 256)) :=
  legacy_layout_disjoint 256 8 (by decide) (by decide) (by decide)

/-- On a mapped ring `vq_write_used_ent` returns, and afterwards the guest reads the
cookie in the first four bytes of entry `idx` and the length in the next four. -/
theorem vq_write_used_ent_reads {ring : viona_vring_t} (hm : ring_mapped ring) (mem : Mem)
    (idx cookie len : Nat) (hidx : idx < ring.vr_size) :
    ∃ mem1, vq_write_used_ent mem ring idx cookie len = Outcome.done mem1 ∧
      ring_rd32 mem1 ring (LEGACY_USED_ENT_OFF ring.vr_size idx) =
        Outcome.done (cookie % 65536) ∧
      ring_rd32 mem1 ring (LEGACY_USED_ENT_OFF ring.vr_size idx + 4) =
        Outcome.done (len % 2 ^ 32) := by
  obtain ⟨idp, lenp, h1, h2, h3⟩ := vq_write_used_ent_eq hm mem idx cookie len hidx
  obtain ⟨b1, b2, b3, b4, b5⟩ := used_layout_bounds hm idx hidx
  have d12 := viona_ring_addr_disjoint hm (n := 4) (m := 4) (by omega) (by omega) h1 h2
    (by omega) (by omega) (by omega)
  refine ⟨_, h3, ?_, ?_⟩
  · unfold ring_rd32
    rw [h1]
    simp only
    rw [rd32_congr _ (wr32 mem idp (cookie % 65536)) idp, rd32_wr32]
    · congr 1; omega
    · intro k hk
      rw [wr32_other _ _ _ _ (fun k2 hk2 => d12 k k2 hk hk2)]
  · unfold ring_rd32
    rw [h2]
    simp only
    rw [rd32_wr32]
    norm_num

/-- C10: for every queue size `qsz` (a `uint16_t`) and `idx < qsz` the offset macros
give the legacy split-ring layout: available flags at `16*qsz`, available index at
`16*qsz + 2`, available entry `idx` at `16*qsz + 4 + 2*idx`; used flags at the least
multiple of `PAGESIZE` that is at least `16*qsz + 2*(qsz + 3)`, used index two bytes
further, used entry `idx` at used flags `+ 4 + 8*idx`; and on a mapped ring of that
size `vq_write_used_ent` puts the id in the first four bytes of that entry and the
length in the next four. -/
theorem legacy_offsets_exact (qsz idx : Nat) (hq : qsz < 65536) (hidx : idx < qsz) :
    LEGACY_AVAIL_FLAGS_OFF qsz = 16 * qsz ∧
    LEGACY_AVAIL_IDX_OFF qsz = 16 * qsz + 2 ∧
    LEGACY_AVAIL_ENT_OFF qsz idx = 16 * qsz + 4 + 2 * idx ∧
    LEGACY_USED_FLAGS_OFF qsz % PAGESIZE = 0 ∧
    16 * qsz + 2 * (qsz + 3) ≤ LEGACY_USED_FLAGS_OFF qsz ∧
    (∀ m, m % PAGESIZE = 0 → 16 * qsz + 2 * (qsz + 3) ≤ m → LEGACY_USED_FLAGS_OFF qsz ≤ m) ∧
    LEGACY_USED_IDX_OFF qsz = LEGACY_USED_FLAGS_OFF qsz + 2 ∧
    LEGACY_USED_ENT_OFF qsz idx = LEGACY_USED_FLAGS_OFF qsz + 4 + 8 * idx ∧
    (∀ (mem : Mem) (ring : viona_vring_t) (cookie len : Nat), ring.vr_size = qsz →
      ring_mapped ring →
      ∃ mem1, vq_write_used_ent mem ring idx cookie len = Outcome.done mem1 ∧
        ring_rd32 mem1 ring (LEGACY_USED_FLAGS_OFF qsz + 4 + 8 * idx) =
          Outcome.done (cookie % 65536) ∧
        ring_rd32 mem1 ring (LEGACY_USED_FLAGS_OFF qsz + 4 + 8 * idx + 4) =
          Outcome.done (len % 2 ^ 32)) := by
  have e59 : (2:Nat) ^ 59 = 576460752303423488 := by norm_num
  have hq59 : qsz ≤ 2 ^ 59 := by rw [e59]; omega
  obtain ⟨_, s2, _, _⟩ := LEGACY_sizes_eq qsz hq59
  have hu := LEGACY_USED_FLAGS_OFF_eq qsz hq59
  have hent := LEGACY_USED_ENT_OFF_eq qsz idx hq59 (by omega)
  refine ⟨s2, LEGACY_AVAIL_IDX_OFF_eq qsz hq59, LEGACY_AVAIL_ENT_OFF_eq qsz idx hq59 (by omega),
    ?_, ?_, ?_, ?_, ?_, ?_⟩
  · rw [hu]; unfold PAGESIZE; omega
  · rw [hu]; omega
  · intro m hm1 hm2
    rw [hu]; unfold PAGESIZE at hm1; omega
  · rw [LEGACY_USED_IDX_OFF_eq qsz hq59, hu]
  · rw [hent, hu]
  · intro mem ring cookie len hsz hm
    subst hsz
    obtain ⟨mem1, h1, h2, h3⟩ := vq_write_used_ent_reads hm mem idx cookie len hidx
    rw [hent, ← hu] at h2 h3
    exact ⟨mem1, h1, h2, h3⟩

/-- Witness for C10: queue size 256, entry 255, on the example ring. -/
theorem legacy_offsets_exact_witness :
    LEGACY_AVAIL_FLAGS_OFF 256 = 16 * 256 ∧
    LEGACY_AVAIL_IDX_OFF 256 = 16 * 256 + 2 ∧
    LEGACY_AVAIL_ENT_OFF 256 255 = 16 * 256 + 4 + 2 * 255 ∧
    LEGACY_USED_FLAGS_OFF 256 % PAGESIZE = 0 ∧
    16 * 256 + 2 * (256 + 3) ≤ LEGACY_USED_FLAGS_OFF 256 ∧
    (∀ m, m % PAGESIZE = 0 → 16 * 256 + 2 * (256 + 3) ≤ m → LEGACY_USED_FLAGS_OFF 256 ≤ m) ∧
    LEGACY_USED_IDX_OFF 256 = LEGACY_USED_FLAGS_OFF 256 + 2 ∧
    LEGACY_USED_ENT_OFF 256 255 = LEGACY_USED_FLAGS_OFF 256 + 4 + 8 * 255 ∧
    (∀ (mem : Mem) (ring : viona_vring_t) (cookie len : Nat), ring.vr_size = 256 →
      ring_mapped ring →
      ∃ mem1, vq_write_used_ent mem ring 255 cookie len = Outcome.done mem1 ∧
        ring_rd32 mem1 ring (LEGACY_USED_FLAGS_OFF 256 + 4 + 8 * 255) =
          Outcome.done (cookie % 65536) ∧
        ring_rd32 mem1 ring (LEGACY_USED_FLAGS_OFF 256 + 4 + 8 * 255 + 4) =
          Outcome.done (len % 2 ^ 32)) :=
  legacy_offsets_exact 256 255 (by decide) (by decide)

/-- The example ring is mapped. -/
theorem ex_ring_mapped : ring_mapped ex_ring :=
  ⟨by decide, by decide, rfl, [65536, 131072, 196608], rfl, rfl, by decide, by decide⟩

theorem viona_ring_unmap_fields {ring r : viona_vring_t} (h : viona_ring_unmap ring = Outcome.done r) :
    r = { ring with vr_map_pages := none } := by
  unfold viona_ring_unmap at h
  split at h
  · rename_i hn
    cases h
    cases ring
    simp only at hn
    subst hn
    rfl
  · simp only at h
    split at h
    · cases h; rfl
    · cases h

/-- A successful run of the mapping loop leaves a page table of the allocated length
and touches no other field. -/
theorem viona_ring_map_loop_true (gpa2kva : Nat → Nat) (n : Nat) :
    ∀ (i pa : Nat) (ring r : viona_vring_t) (map : List Nat),
      ring.vr_map_pages = some map →
      viona_ring_map_loop gpa2kva n i pa ring = Outcome.done (true, r) →
      ∃ l, l.length = map.length ∧ r = { ring with vr_map_pages := some l } := by
  induction n with
  | zero =>
    intro i pa ring r map hm h
    simp only [viona_ring_map_loop] at h
    injection h with h
    injection h with _ h
    subst h
    refine ⟨map, rfl, ?_⟩
    cases ring
    simp only at hm
    subst hm
    rfl
  | succ n ih =>
    intro i pa ring r map hm h
    unfold viona_ring_map_loop at h
    split at h
    · split at h
      · split at h
        · injection h with h
          injection h with h _
          cases h
        · cases h
        · cases h
      · rw [hm] at h
        simp only at h
        split at h
        · obtain ⟨l, hl, hr⟩ := ih _ _ _ r _ rfl h
          refine ⟨l, by rw [hl, List.length_set], ?_⟩
          rw [hr]
        · cases h
    · cases h
    · cases h

/-- A successful `viona_ring_map` leaves a page table with `LEGACY_VQ_PAGES(vr_size)`
entries and touches no other field. -/
theorem viona_ring_map_true {gpa2kva : Nat → Nat} {ring r : viona_vring_t}
    (h : viona_ring_map gpa2kva ring = Outcome.done (true, r)) :
    ∃ l, l.length = LEGACY_VQ_PAGES ring.vr_size % 2 ^ 32 ∧
      r = { ring with vr_map_pages := some l } ∧ ring.vr_size ≠ 0 ∧
      ring.vr_size ≤ VRING_MAX_LEN := by
  unfold viona_ring_map at h
  simp only at h
  split at h
  · cases h
  split at h
  · cases h
  split at h
  · cases h
  split at h
  · cases h
  split at h
  · cases h
  split at h
  · cases h
  rename_i h0 h1 _ _ _ _
  obtain ⟨l, hl, hr⟩ := viona_ring_map_loop_true gpa2kva _ _ _ _ r _ rfl h
  refine ⟨l, by rw [hl, List.length_replicate], ?_, h0, by omega⟩
  rw [hr]

/-- C11: for every power-of-two `qsz <= 32768`, `LEGACY_VQ_SIZE(qsz)` is a multiple of
`PAGESIZE`, `LEGACY_VQ_PAGES(qsz) * PAGESIZE == LEGACY_VQ_SIZE(qsz)` is the smallest page
multiple that contains the end of the used ring, and every byte offset the accessors
dereference for `idx < qsz` (the 16 bytes of descriptor `idx`, the available flags,
index and entry `idx`, the used flags and index, the id and the length of used entry
`idx`) is below `LEGACY_VQ_SIZE(qsz)`, which fits the `uint_t` offset; so on a ring
mapped by `viona_ring_map` the assertion of `viona_ring_addr` holds for each of them
and the page index is below the number of mapped pages. -/
theorem legacy_vq_size_covers (qsz k idx : Nat) (hpow : qsz = 2 ^ k)
    (hq : qsz ≤ VRING_MAX_LEN) (hidx : idx < qsz) :
    LEGACY_VQ_SIZE qsz % PAGESIZE = 0 ∧
    LEGACY_VQ_PAGES qsz * PAGESIZE = LEGACY_VQ_SIZE qsz ∧
    LEGACY_USED_FLAGS_OFF qsz + LEGACY_USED_SZ qsz ≤ LEGACY_VQ_SIZE qsz ∧
    (∀ m, m % PAGESIZE = 0 → LEGACY_USED_FLAGS_OFF qsz + LEGACY_USED_SZ qsz ≤ m →
      LEGACY_VQ_SIZE qsz ≤ m) ∧
    LEGACY_VQ_SIZE qsz < 2 ^ 32 ∧
    (∀ b, b < 16 → idx * SIZEOF_virtio_desc + b < LEGACY_VQ_SIZE qsz) ∧
    (∀ b, b < 2 →
      LEGACY_AVAIL_FLAGS_OFF qsz + b < LEGACY_VQ_SIZE qsz ∧
      LEGACY_AVAIL_IDX_OFF qsz + b < LEGACY_VQ_SIZE qsz ∧
      LEGACY_AVAIL_ENT_OFF qsz idx + b < LEGACY_VQ_SIZE qsz ∧
      LEGACY_USED_FLAGS_OFF qsz + b < LEGACY_VQ_SIZE qsz ∧
      LEGACY_USED_IDX_OFF qsz + b < LEGACY_VQ_SIZE qsz) ∧
    (∀ b, b < 4 →
      LEGACY_USED_ENT_OFF qsz idx + b < LEGACY_VQ_SIZE qsz ∧
      LEGACY_USED_ENT_OFF qsz idx + SIZEOF_uint32 + b < LEGACY_VQ_SIZE qsz) ∧
    (∀ off, off < LEGACY_VQ_SIZE qsz → off / PAGESIZE < LEGACY_VQ_PAGES qsz) ∧
    (∀ (gpa2kva : Nat → Nat) (ring ring1 : viona_vring_t) (off : Nat), ring.vr_size = qsz →
      viona_ring_map gpa2kva ring = Outcome.done (true, ring1) → off < LEGACY_VQ_SIZE qsz →
      ∃ pages page, ring1.vr_map_pages = some pages ∧
        pages.length = LEGACY_VQ_PAGES qsz ∧ pages[off / PAGESIZE]? = some page ∧
        viona_ring_addr ring1 off = Outcome.done (page + off % PAGESIZE)) := by
  have e59 : (2:Nat) ^ 59 = 576460752303423488 := by norm_num
  have e32 : (2:Nat) ^ 32 = 4294967296 := by norm_num
  unfold VRING_MAX_LEN at hq
  have hq59 : qsz ≤ 2 ^ 59 := by rw [e59]; omega
  obtain ⟨s1, s2, s3, s4⟩ := LEGACY_sizes_eq qsz hq59
  have hu := LEGACY_USED_FLAGS_OFF_eq qsz hq59
  have hv := LEGACY_VQ_SIZE_eq qsz hq59
  have hpg := LEGACY_VQ_PAGES_mul qsz hq59
  have hai := LEGACY_AVAIL_IDX_OFF_eq qsz hq59
  have hae := LEGACY_AVAIL_ENT_OFF_eq qsz idx hq59 (by omega)
  have hui := LEGACY_USED_IDX_OFF_eq qsz hq59
  have hue := LEGACY_USED_ENT_OFF_eq qsz idx hq59 (by omega)
  have hsz32 : LEGACY_VQ_SIZE qsz < 4294967296 := by rw [hv]; omega
  have hdiv : ∀ off, off < LEGACY_VQ_SIZE qsz → off / PAGESIZE < LEGACY_VQ_PAGES qsz := by
    intro off hoff
    unfold PAGESIZE
    omega
  refine ⟨?_, ?_, ?_, ?_, ?_, ?_, ?_, ?_, hdiv, ?_⟩
  · rw [hv]; unfold PAGESIZE; omega
  · unfold PAGESIZE; exact hpg
  · rw [hu, s4, hv]; omega
  · intro m hm1 hm2
    unfold PAGESIZE at hm1
    rw [hu, s4] at hm2
    rw [hv]; omega
  · rw [e32]; exact hsz32
  · intro b hb
    unfold SIZEOF_virtio_desc
    rw [hv]; omega
  · intro b hb
    rw [s2, hai, hae, hui, hu, hv]
    omega
  · intro b hb
    unfold SIZEOF_uint32
    rw [hue, hv]
    omega
  · intro gpa2kva ring ring1 off hsz hmap hoff
    obtain ⟨l, hl, hr, _, _⟩ := viona_ring_map_true hmap
    rw [hsz] at hl
    have hl2 : l.length = LEGACY_VQ_PAGES qsz := by
      rw [hl, e32]
      have : LEGACY_VQ_PAGES qsz * 4096 < 4294967296 := by rw [hpg]; exact hsz32
      omega
    have hlt : off / PAGESIZE < l.length := by rw [hl2]; exact hdiv off hoff
    refine ⟨l, l.get ⟨off / PAGESIZE, hlt⟩, by rw [hr], hl2, List.getElem?_eq_getElem hlt, ?_⟩
    have hsz1 : ring1.vr_size = qsz := by rw [hr]; exact hsz
    have hmp : ring1.vr_map_pages = some l := by rw [hr]
    unfold viona_ring_addr
    rw [hmp]
    simp only [gt_iff_lt, hsz1, if_pos hoff]
    rw [List.getElem?_eq_getElem hlt]
    rfl
/-- Witness for C11: queue size 256, entry 255. -/
theorem legacy_vq_size_covers_witness :
    LEGACY_VQ_SIZE 256 % PAGESIZE = 0 ∧
    LEGACY_VQ_PAGES 256 * PAGESIZE = LEGACY_VQ_SIZE 256 ∧
    LEGACY_USED_FLAGS_OFF 256 + LEGACY_USED_SZ 256 ≤ LEGACY_VQ_SIZE 256 ∧
    (∀ m, m % PAGESIZE = 0 → LEGACY_USED_FLAGS_OFF 256 + LEGACY_USED_SZ 256 ≤ m →
      LEGACY_VQ_SIZE 256 ≤ m) ∧
    LEGACY_VQ_SIZE 256 < 2 ^ 32 ∧
    (∀ b, b < 16 → 255 * SIZEOF_virtio_desc + b < LEGACY_VQ_SIZE 256) ∧
    (∀ b, b < 2 →
      LEGACY_AVAIL_FLAGS_OFF 256 + b < LEGACY_VQ_SIZE 256 ∧
      LEGACY_AVAIL_IDX_OFF 256 + b < LEGACY_VQ_SIZE 256 ∧
      LEGACY_AVAIL_ENT_OFF 256 255 + b < LEGACY_VQ_SIZE 256 ∧
      LEGACY_USED_FLAGS_OFF 256 + b < LEGACY_VQ_SIZE 256 ∧
      LEGACY_USED_IDX_OFF 256 + b < LEGACY_VQ_SIZE 256) ∧
    (∀ b, b < 4 →
      LEGACY_USED_ENT_OFF 256 255 + b < LEGACY_VQ_SIZE 256 ∧
      LEGACY_USED_ENT_OFF 256 255 + SIZEOF_uint32 + b < LEGACY_VQ_SIZE 256) ∧
    (∀ off, off < LEGACY_VQ_SIZE 256 → off / PAGESIZE < LEGACY_VQ_PAGES 256) ∧
    (∀ (gpa2kva : Nat → Nat) (ring ring1 : viona_vring_t) (off : Nat), ring.vr_size = 256 →
      viona_ring_map gpa2kva ring = Outcome.done (true, ring1) → off < LEGACY_VQ_SIZE 256 →
      ∃ pages page, ring1.vr_map_pages = some pages ∧
        pages.length = LEGACY_VQ_PAGES 256 ∧ pages[off / PAGESIZE]? = some page ∧
        viona_ring_addr ring1 off = Outcome.done (page + off % PAGESIZE)) :=
  legacy_vq_size_covers 256 8 255 (by decide) (by decide) (by decide)

theorem ffs_two_pow (k : Nat) (hk : k ≤ 15) : ffs (2 ^ k) = k + 1 := by
  interval_cases k <;> rfl

/-- The power-of-two test of `viona_ring_init` on a 16-bit queue size. -/
theorem ffs_test_iff (qsz : Nat) (h1 : 1 ≤ qsz) (h2 : qsz ≤ 65535) :
    (1 <<< (ffs qsz - 1)) ≠ qsz ↔ ¬ ∃ k, qsz = 2 ^ k := by
  constructor
  · intro h ⟨k, hk⟩
    apply h
    have hk15 : k ≤ 15 := by
      by_contra hc
      have : 2 ^ 16 ≤ 2 ^ k := Nat.pow_le_pow_right (by norm_num) (by omega)
      omega
    rw [hk, ffs_two_pow k hk15, Nat.add_sub_cancel, Nat.one_shiftLeft]
  · intro h he
    apply h
    exact ⟨ffs qsz - 1, by rw [← Nat.one_shiftLeft]; exact he.symm⟩

theorem link_set_ring_self (link : viona_link_t) (idx : Nat) :
    link_set_ring link idx (link.l_vrings idx) = link := by
  cases link
  simp only [link_set_ring]
  congr 1
  funext j
  split
  · rename_i h; rw [h]
  · rfl

theorem land_align (pa : Nat) : pa &&& (LEGACY_VQ_ALIGN - 1) = pa % 4096 :=
  land_PAGEOFFSET pa

/-- C12: `viona_ring_init` returns `EINVAL` whenever `idx >= VIONA_VQ_MAX`, or `qsz` is
0, greater than 32768 or not a power of two, or `pa` is not a multiple of `PAGESIZE`;
when the arguments pass these checks it returns `EBUSY` whenever the addressed ring is
not in state `VRS_RESET`. In each of these cases the link, and with it every field of
the ring, is as before the call. -/
theorem viona_ring_init_rejects (sign : Option Nat) (gpa2kva : Nat → Nat) (thread : Option Nat)
    (link : viona_link_t) (idx qsz pa : Nat) :
    ((idx ≥ VIONA_VQ_MAX ∨ qsz = 0 ∨ qsz > 32768 ∨ (¬ ∃ k, qsz = 2 ^ k) ∨
        pa % PAGESIZE ≠ 0) →
      viona_ring_init sign gpa2kva thread link idx qsz pa = Outcome.done (EINVAL, link)) ∧
    (idx < VIONA_VQ_MAX → qsz ≠ 0 → qsz ≤ 32768 → (∃ k, qsz = 2 ^ k) → pa % PAGESIZE = 0 →
      (link.l_vrings idx).vr_state ≠ VRS_RESET →
      viona_ring_init sign gpa2kva thread link idx qsz pa = Outcome.done (EBUSY, link)) := by
  constructor
  · intro h
    unfold viona_ring_init
    by_cases h1 : idx ≥ VIONA_VQ_MAX
    · rw [if_pos h1]
    · rw [if_neg h1]
      by_cases h2 : qsz = 0 ∨ qsz > VRING_MAX_LEN ∨ (1 <<< (ffs qsz - 1)) ≠ qsz
      · rw [if_pos h2]
      · rw [if_neg h2]
        have h3 : ¬ (qsz = 0) := fun e => h2 (Or.inl e)
        have h4 : ¬ (qsz > VRING_MAX_LEN) := fun e => h2 (Or.inr (Or.inl e))
        have h5 : ¬ ((1 <<< (ffs qsz - 1)) ≠ qsz) := fun e => h2 (Or.inr (Or.inr e))
        unfold VRING_MAX_LEN at h4
        have h6 : ∃ k, qsz = 2 ^ k := by
          by_contra hc
          exact h5 ((ffs_test_iff qsz (by omega) (by omega)).2 hc)
        have h7 : pa % PAGESIZE ≠ 0 := by
          rcases h with h | h | h | h | h
          · exact absurd h h1
          · exact absurd h h3
          · exact absurd h h4
          · exact absurd h6 h
          · exact h
        rw [if_pos (by rw [land_align]; exact h7)]
  · intro h1 h2 h3 h4 h5 h6
    unfold viona_ring_init
    rw [if_neg (by omega)]
    have ht : ¬ ((1 <<< (ffs qsz - 1)) ≠ qsz) := by
      intro hc
      exact (ffs_test_iff qsz (by omega) (by omega)).1 hc h4
    rw [if_neg (by unfold VRING_MAX_LEN; intro hc; rcases hc with hc | hc | hc
                   · exact h2 hc
                   · omega
                   · exact ht hc)]
    rw [if_neg (by rw [land_align]; unfold PAGESIZE at h5; omega)]
    unfold viona_ring_init_ring
    rw [if_pos h6]
    simp only [link_set_ring_self]

/-- Witness for C12: a queue size that is not a power of two is refused with `EINVAL`,
and a valid request for a ring that is set up is refused with `EBUSY`. -/
theorem viona_ring_init_rejects_witness :
    viona_ring_init (some 7) ex_kva (some 9) ex_link_busy 0 48 65536 =
      Outcome.done (EINVAL, ex_link_busy) ∧
    viona_ring_init (some 7) ex_kva (some 9) ex_link_busy 0 256 65536 =
      Outcome.done (EBUSY, ex_link_busy) :=
  ⟨(viona_ring_init_rejects (some 7) ex_kva (some 9) ex_link_busy 0 48 65536).1
     (Or.inr (Or.inr (Or.inr (Or.inl (by
       intro ⟨k, hk⟩
       have hk6 : k < 6 := by
         by_contra hc
         have : 2 ^ 6 ≤ 2 ^ k := Nat.pow_le_pow_right (by norm_num) (by omega)
         omega
       interval_cases k <;> omega))))),
   (viona_ring_init_rejects (some 7) ex_kva (some 9) ex_link_busy 0 256 65536).2
     (by decide) (by decide) (by decide) ⟨8, rfl⟩ (by decide) (by decide)⟩
/-- The size and mask of a ring that is unconfigured or configured with a power of two
that does not exceed `VRING_MAX_LEN`. -/
theorem viona_ring_lease_drop_fields {hold : Option Nat} {ring r : viona_vring_t}
    (h : viona_ring_lease_drop hold ring = Outcome.done r) :
    r.vr_size = ring.vr_size ∧ r.vr_mask = ring.vr_mask ∧ r.vr_pa = ring.vr_pa ∧
    r.vr_state = ring.vr_state := by
  unfold viona_ring_lease_drop at h
  split at h
  · split at h
    · cases h
    · split at h
      · rename_i r1 hu
        cases h
        have := viona_ring_unmap_fields hu
        rw [this]
        exact ⟨rfl, rfl, rfl, rfl⟩
      · cases h
      · cases h
  · cases h
    exact ⟨rfl, rfl, rfl, rfl⟩

theorem viona_ring_init_fail_fields {hold : Option Nat} {ring r : viona_vring_t}
    (h : viona_ring_init_fail hold ring = Outcome.done r) :
    r.vr_size = 0 ∧ r.vr_mask = 0 ∧ r.vr_pa = 0 ∧ r.vr_state = ring.vr_state := by
  unfold viona_ring_init_fail at h
  split at h
  · rename_i r1 hd
    cases h
    have := (viona_ring_lease_drop_fields hd).2.2.2
    exact ⟨rfl, rfl, rfl, this⟩
  · cases h
  · cases h

/-- What `viona_ring_init` leaves in `vr_size` and `vr_mask` of the addressed ring:
they are as before, or both 0, or the queue size asked for and that size minus one. -/
theorem viona_ring_init_ring_size {sign : Option Nat} {gpa2kva : Nat → Nat}
    {thread : Option Nat} {hold : Option Nat} {ring r : viona_vring_t} {idx qsz pa err : Nat}
    (h : viona_ring_init_ring sign gpa2kva thread hold ring idx qsz pa = Outcome.done (err, r)) :
    r = ring ∨ (r.vr_size = 0 ∧ r.vr_mask = 0) ∨
    (r.vr_size = qsz ∧ r.vr_mask = (qsz + 65536 - 1) % 65536) := by
  unfold viona_ring_init_ring at h
  split at h
  · cases h; exact Or.inl rfl
  split at h
  · cases h
  simp only at h
  split at h
  · rename_i ok ring2 hren
    split at h
    · split at h
      · rename_i r9 hf
        cases h
        have := viona_ring_init_fail_fields hf
        exact Or.inr (Or.inl ⟨this.1, this.2.1⟩)
      · cases h
      · cases h
    · split at h
      · rename_i mapped ring4 hmap
        split at h
        · split at h
          · rename_i r9 hf
            cases h
            have := viona_ring_init_fail_fields hf
            exact Or.inr (Or.inl ⟨this.1, this.2.1⟩)
          · cases h
          · cases h
        · have hmt : mapped = true := by
            cases mapped
            · rename_i hc; exact absurd (by simp) hc
            · rfl
          subst hmt
          obtain ⟨l, _, hr4, _, _⟩ := viona_ring_map_true hmap
          split at h
          · split at h
            · rename_i r9 hf
              cases h
              have := viona_ring_init_fail_fields hf
              exact Or.inr (Or.inl ⟨this.1, this.2.1⟩)
            · cases h
            · cases h
          · cases h
            right; right
            rw [hr4]
            unfold viona_tx_ring_alloc
            split <;> exact ⟨rfl, rfl⟩
          · cases h
          · cases h
      · cases h
      · cases h
  · cases h
  · cases h
theorem viona_worker_cleanup_size {hold : Option Nat} {ring r : viona_vring_t}
    (h : viona_worker_cleanup hold ring = Outcome.done r) :
    r.vr_size = 0 ∧ r.vr_mask = 0 := by
  unfold viona_worker_cleanup at h
  split at h
  · cases h
  · simp only at h
    split at h
    · cases h; exact ⟨rfl, rfl⟩
    · cases h
    · cases h

/-- What `viona_ring_init` leaves in `vr_size` and `vr_mask` of ring `idx` of the link:
they are as before, or both 0, or a power of two up to 32768 and that size minus one. -/
theorem viona_ring_init_size {sign : Option Nat} {gpa2kva : Nat → Nat} {thread : Option Nat}
    {link link1 : viona_link_t} {idx qsz pa err : Nat}
    (h : viona_ring_init sign gpa2kva thread link idx qsz pa = Outcome.done (err, link1)) :
    link1.l_vrings idx = link.l_vrings idx ∨
    ((link1.l_vrings idx).vr_size = 0 ∧ (link1.l_vrings idx).vr_mask = 0) ∨
    ((∃ k, (link1.l_vrings idx).vr_size = 2 ^ k) ∧
      (link1.l_vrings idx).vr_size ≤ VRING_MAX_LEN ∧
      (link1.l_vrings idx).vr_size ≠ 0 ∧
      (link1.l_vrings idx).vr_mask = (link1.l_vrings idx).vr_size - 1) := by
  unfold viona_ring_init at h
  split at h
  · cases h; exact Or.inl rfl
  split at h
  · cases h; exact Or.inl rfl
  split at h
  · cases h; exact Or.inl rfl
  rename_i h1 h2 h3
  split at h
  · rename_i err1 r hir
    cases h
    have hget : (link_set_ring link idx r).l_vrings idx = r := by
      simp [link_set_ring]
    rw [hget]
    rcases viona_ring_init_ring_size hir with e | e | e
    · exact Or.inl e
    · exact Or.inr (Or.inl e)
    · right; right
      have q0 : ¬ qsz = 0 := fun e => h2 (Or.inl e)
      have q1 : ¬ qsz > VRING_MAX_LEN := fun e => h2 (Or.inr (Or.inl e))
      have q2 : ¬ (1 <<< (ffs qsz - 1)) ≠ qsz := fun e => h2 (Or.inr (Or.inr e))
      have q3 : qsz ≤ 32768 := by unfold VRING_MAX_LEN at q1; omega
      have q4 : ∃ k, qsz = 2 ^ k := by
        by_contra hc
        exact q2 ((ffs_test_iff qsz (by omega) (by omega)).2 hc)
      rw [e.1, e.2]
      refine ⟨q4, by unfold VRING_MAX_LEN; exact q3, q0, by omega⟩
  · cases h
  · cases h

/-- C13: in every state reachable from a zeroed ring through `viona_ring_init`
(succeeding or failing), the cleanup of the worker and steps that leave `vr_size` and
`vr_mask` alone, `vr_size` is 0 or a power of two not exceeding 32768, and `vr_mask` is
`vr_size - 1` when `vr_size != 0` and 0 otherwise, so that `idx & vr_mask` is
`idx mod vr_size`; and the test `(1 << (ffs(qsz) - 1)) != qsz` of `viona_ring_init`
rejects exactly the values of 1..65535 that are not powers of two. -/
theorem ring_size_invariant (ring : viona_vring_t) (h : ring_reachable ring) :
    ((ring.vr_size = 0 ∧ ring.vr_mask = 0) ∨
      ((∃ k, ring.vr_size = 2 ^ k) ∧ ring.vr_size ≤ 32768 ∧ ring.vr_size ≠ 0 ∧
        ring.vr_mask = ring.vr_size - 1)) ∧
    (ring.vr_size ≠ 0 → ∀ idx, idx &&& ring.vr_mask = idx % ring.vr_size) ∧
    (∀ qsz, 1 ≤ qsz → qsz ≤ 65535 →
      ((1 <<< (ffs qsz - 1)) ≠ qsz ↔ ¬ ∃ k, qsz = 2 ^ k)) := by
  have inv : (ring.vr_size = 0 ∧ ring.vr_mask = 0) ∨
      ((∃ k, ring.vr_size = 2 ^ k) ∧ ring.vr_size ≤ 32768 ∧ ring.vr_size ≠ 0 ∧
        ring.vr_mask = ring.vr_size - 1) := by
    induction h with
    | zeroed => exact Or.inl ⟨rfl, rfl⟩
    | init sign gpa2kva thread link idx qsz pa err link1 _ hi ih =>
      rcases viona_ring_init_size hi with e | e | e
      · rw [e]; exact ih
      · exact Or.inl e
      · exact Or.inr (by unfold VRING_MAX_LEN at e; exact e)
    | cleanup hold ring ring1 _ hc _ => exact Or.inl (viona_worker_cleanup_size hc)
    | other ring ring1 _ hs hm ih => rw [hs, hm]; exact ih
  refine ⟨inv, ?_, ffs_test_iff⟩
  intro hne idx
  rcases inv with ⟨e, _⟩ | ⟨⟨k, hk⟩, _, _, hm⟩
  · exact absurd e hne
  · rw [hm, hk, Nat.and_pow_two_sub_one_eq_mod]

/-- The example ring after initialisation is reachable. -/
theorem ex_ring_inited_reachable : ring_reachable ex_ring_inited :=
  ring_reachable.init (some 7) ex_kva (some 9) ex_link 0 256 65536 0
    (link_set_ring ex_link 0 ex_ring_inited) ring_reachable.zeroed rfl

/-- Witness for C13: the receive ring after a successful `viona_ring_init` with queue
size 256. -/
theorem ring_size_invariant_witness :
    ((ex_ring_inited.vr_size = 0 ∧ ex_ring_inited.vr_mask = 0) ∨
      ((∃ k, ex_ring_inited.vr_size = 2 ^ k) ∧ ex_ring_inited.vr_size ≤ 32768 ∧
        ex_ring_inited.vr_size ≠ 0 ∧ ex_ring_inited.vr_mask = ex_ring_inited.vr_size - 1)) ∧
    (ex_ring_inited.vr_size ≠ 0 →
      ∀ idx, idx &&& ex_ring_inited.vr_mask = idx % ex_ring_inited.vr_size) ∧
    (∀ qsz, 1 ≤ qsz → qsz ≤ 65535 →
      ((1 <<< (ffs qsz - 1)) ≠ qsz ↔ ¬ ∃ k, qsz = 2 ^ k)) :=
  ring_size_invariant ex_ring_inited
    (ring_reachable.init (some 7) ex_kva (some 9) ex_link 0 256 65536 0
      (link_set_ring ex_link 0 ex_ring_inited) ring_reachable.zeroed rfl)

/-- The loop of `vq_popchain` with fuel for one more pass is that pass followed by the
loop. -/
theorem vq_popchain_loop_pass (ifuel : Nat) (gpa2kva : Nat → Nat) (mem : Mem)
    (niov head cookie f : Nat) (s : PopState) :
    vq_popchain_loop ifuel gpa2kva mem niov head cookie (f + 1) s.ring s.iov s.i s.next =
      match vq_popchain_pass ifuel gpa2kva mem niov head cookie s with
      | Outcome.done (Pass.ret r) => Outcome.done r
      | Outcome.done (Pass.again s1) =>
        vq_popchain_loop ifuel gpa2kva mem niov head cookie f s1.ring s1.iov s1.i s1.next
      | Outcome.panic => Outcome.panic
      | Outcome.timeout => Outcome.timeout := by
  rw [vq_popchain_loop]
  unfold vq_popchain_pass
  by_cases h1 : s.i < niov
  · rw [if_pos h1, if_pos h1]
    by_cases h2 : s.next ≥ s.ring.vr_size
    · rw [if_pos h2, if_pos h2]
    · rw [if_neg h2, if_neg h2]
      cases hrd : vq_read_desc mem s.ring s.next with
      | done vdir =>
        simp only
        cases hmp : vq_popchain_map ifuel gpa2kva mem s.ring vdir s.iov niov s.i with
        | done r =>
          simp only
          by_cases h3 : r.err ≠ 0
          · rw [if_pos h3, if_pos h3]
          · rw [if_neg h3, if_neg h3]
            by_cases h4 : vdir.vd_flags &&& VRING_DESC_F_NEXT = 0
            · rw [if_pos h4, if_pos h4]
            · rw [if_neg h4, if_neg h4]
        | panic => rfl
        | timeout => rfl
      | panic => rfl
      | timeout => rfl
  · rw [if_neg h1, if_neg h1]

/-- When the first `n` passes go round again, the loop continues from the locals they
leave. -/
theorem vq_popchain_loop_walk (ifuel : Nat) (gpa2kva : Nat → Nat) (mem : Mem)
    (niov head cookie : Nat) (n : Nat) :
    ∀ (s s1 : PopState) (f : Nat),
      vq_popchain_walk ifuel gpa2kva mem niov head cookie n s = Outcome.done (Pass.again s1) →
      vq_popchain_loop ifuel gpa2kva mem niov head cookie (n + f) s.ring s.iov s.i s.next =
        vq_popchain_loop ifuel gpa2kva mem niov head cookie f s1.ring s1.iov s1.i s1.next := by
  induction n with
  | zero =>
    intro s s1 f h
    simp only [vq_popchain_walk] at h
    injection h with h
    injection h with h
    subst h
    rw [Nat.zero_add]
  | succ n ih =>
    intro s s1 f h
    unfold vq_popchain_walk at h
    have e : n + 1 + f = (n + f) + 1 := by omega
    rw [e, vq_popchain_loop_pass]
    split at h
    · rename_i s2 hp
      rw [hp]
      exact ih s2 s1 f h
    · cases h
    · cases h
    · cases h

/-- A successful `vq_map_desc_bufs` leaves the ring, fault counters included, as it
was. -/
theorem vq_map_desc_bufs_ring_of_ok {gpa2kva : Nat → Nat} {ring : viona_vring_t}
    {desc : virtio_desc} {iov : Nat → iovec} {niov idx : Nat} {r : MapRes}
    (h : vq_map_desc_bufs gpa2kva ring desc iov niov idx = Outcome.done r) (he : r.err = 0) :
    r.ring = ring := by
  unfold vq_map_desc_bufs at h
  simp only at h
  split at h
  · cases h
  split at h
  · cases h; simp [EINVAL] at he
  split at h
  · cases h; simp [E2BIG] at he
  split at h
  · split at h
    · cases h; simp [EFAULT] at he
    · split at h
      · split at h
        · cases h; simp [EFAULT] at he
        · split at h
          · cases h
          · split at h
            · cases h
            · cases h; rfl
      · cases h
      · cases h
  · cases h
  · cases h

/-- A pass of the loop of `vq_popchain` that goes round again leaves the ring as it
was. -/
theorem vq_popchain_pass_ring {ifuel : Nat} {gpa2kva : Nat → Nat} {mem : Mem}
    {niov head cookie : Nat} {s s1 : PopState}
    (h : vq_popchain_pass ifuel gpa2kva mem niov head cookie s = Outcome.done (Pass.again s1)) :
    s1.ring = s.ring := by
  unfold vq_popchain_pass at h
  split at h
  · split at h
    · cases h
    · split at h
      · rename_i vdir _
        split at h
        · rename_i r hm
          split at h
          · cases h
          · rename_i he
            split at h
            · cases h
            · rename_i hn
              cases h
              simp only
              unfold vq_popchain_map at hm
              split at hm
              · exact vq_map_desc_bufs_ring_of_ok hm (by simpa using he)
              · cases hm
                simp [EINVAL] at he
        · cases h
        · cases h
      · cases h
      · cases h
  · cases h

theorem vq_popchain_walk_ring (ifuel : Nat) (gpa2kva : Nat → Nat) (mem : Mem)
    (niov head cookie : Nat) (n : Nat) :
    ∀ (s s1 : PopState),
      vq_popchain_walk ifuel gpa2kva mem niov head cookie n s = Outcome.done (Pass.again s1) →
      s1.ring = s.ring := by
  induction n with
  | zero =>
    intro s s1 h
    simp only [vq_popchain_walk] at h
    injection h with h
    injection h with h
    rw [h]
  | succ n ih =>
    intro s s1 h
    unfold vq_popchain_walk at h
    split at h
    · rename_i s2 hp
      rw [ih s2 s1 h, vq_popchain_pass_ring hp]
    · cases h
    · cases h
    · cases h
/-- The loop of `vq_map_indir_desc_bufs` with fuel for one more pass is that pass
followed by the loop. -/
theorem vq_map_indir_loop_pass (gpa2kva : Nat → Nat) (mem : Mem) (desc : virtio_desc)
    (niov indir_count f : Nat) (t : IndirState) :
    vq_map_indir_desc_bufs_loop gpa2kva mem desc niov indir_count (f + 1) t.ring t.iov t.idx
        t.indir_next t.buf t.buf_gpa =
      match vq_map_indir_pass gpa2kva mem desc niov indir_count t with
      | Outcome.done (Pass.ret r) => Outcome.done r
      | Outcome.done (Pass.again t1) =>
        vq_map_indir_desc_bufs_loop gpa2kva mem desc niov indir_count f t1.ring t1.iov t1.idx
          t1.indir_next t1.buf t1.buf_gpa
      | Outcome.panic => Outcome.panic
      | Outcome.timeout => Outcome.timeout := by
  rw [vq_map_indir_desc_bufs_loop]
  unfold vq_map_indir_pass indir_hold indir_page indir_gpa
  simp only
  cases hh : (if (desc.vd_addr + t.indir_next * SIZEOF_virtio_desc) % 2 ^ 64 &&& PAGEMASK
      ≠ t.buf_gpa then
        viona_hold_page gpa2kva t.ring
          ((desc.vd_addr + t.indir_next * SIZEOF_virtio_desc) % 2 ^ 64 &&& PAGEMASK)
      else Outcome.done t.buf) with
  | done buf1 =>
    simp only
    by_cases h1 : (desc.vd_addr + t.indir_next * SIZEOF_virtio_desc) % 2 ^ 64 &&& PAGEMASK
        ≠ t.buf_gpa ∧ buf1 = 0
    · rw [if_pos h1, if_pos h1]
    · rw [if_neg h1, if_neg h1]
      by_cases h2 : (desc_at mem (buf1 +
          ((desc.vd_addr + t.indir_next * SIZEOF_virtio_desc) % 2 ^ 64 -
            ((desc.vd_addr + t.indir_next * SIZEOF_virtio_desc) % 2 ^ 64 &&& PAGEMASK)))).vd_flags
          &&& VRING_DESC_F_INDIRECT ≠ 0
      · rw [if_pos h2, if_pos h2]
      · rw [if_neg h2, if_neg h2]
        by_cases h3 : (desc_at mem (buf1 +
            ((desc.vd_addr + t.indir_next * SIZEOF_virtio_desc) % 2 ^ 64 -
              ((desc.vd_addr + t.indir_next * SIZEOF_virtio_desc) % 2 ^ 64 &&& PAGEMASK)))).vd_len
            = 0
        · rw [if_pos h3, if_pos h3]
        · rw [if_neg h3, if_neg h3]
          cases hm : vq_map_desc_bufs gpa2kva t.ring (desc_at mem (buf1 +
            ((desc.vd_addr + t.indir_next * SIZEOF_virtio_desc) % 2 ^ 64 -
              ((desc.vd_addr + t.indir_next * SIZEOF_virtio_desc) % 2 ^ 64 &&& PAGEMASK))))
              t.iov niov t.idx with
          | done r =>
            simp only
            by_cases h4 : r.err ≠ 0
            · rw [if_pos h4, if_pos h4]
            · rw [if_neg h4, if_neg h4]
              by_cases h5 : (desc_at mem (buf1 +
                  ((desc.vd_addr + t.indir_next * SIZEOF_virtio_desc) % 2 ^ 64 -
                    ((desc.vd_addr + t.indir_next * SIZEOF_virtio_desc) % 2 ^ 64
                      &&& PAGEMASK)))).vd_flags &&& VRING_DESC_F_NEXT = 0
              · rw [if_pos h5, if_pos h5]
              · rw [if_neg h5, if_neg h5]
                by_cases h6 : r.idx ≥ niov
                · rw [if_pos h6, if_pos h6]
                · rw [if_neg h6, if_neg h6]
                  by_cases h7 : (desc_at mem (buf1 +
                      ((desc.vd_addr + t.indir_next * SIZEOF_virtio_desc) % 2 ^ 64 -
                        ((desc.vd_addr + t.indir_next * SIZEOF_virtio_desc) % 2 ^ 64
                          &&& PAGEMASK)))).vd_next ≥ indir_count
                  · rw [if_pos h7, if_pos h7]
                  · rw [if_neg h7, if_neg h7]
          | panic => rfl
          | timeout => rfl
  | panic => rfl
  | timeout => rfl
/-- When the first `m` passes through the loop of `vq_map_indir_desc_bufs` go round
again, the loop continues from the locals they leave. -/
theorem vq_map_indir_loop_walk (gpa2kva : Nat → Nat) (mem : Mem) (desc : virtio_desc)
    (niov indir_count : Nat) (m : Nat) :
    ∀ (t t1 : IndirState) (f : Nat),
      vq_map_indir_walk gpa2kva mem desc niov indir_count m t = Outcome.done (Pass.again t1) →
      vq_map_indir_desc_bufs_loop gpa2kva mem desc niov indir_count (m + f) t.ring t.iov t.idx
          t.indir_next t.buf t.buf_gpa =
        vq_map_indir_desc_bufs_loop gpa2kva mem desc niov indir_count f t1.ring t1.iov t1.idx
          t1.indir_next t1.buf t1.buf_gpa := by
  induction m with
  | zero =>
    intro t t1 f h
    simp only [vq_map_indir_walk] at h
    injection h with h
    injection h with h
    subst h
    rw [Nat.zero_add]
  | succ m ih =>
    intro t t1 f h
    unfold vq_map_indir_walk at h
    have e : m + 1 + f = (m + f) + 1 := by omega
    rw [e, vq_map_indir_loop_pass]
    split at h
    · rename_i t2 hp
      rw [hp]
      exact ih t2 t1 f h
    · cases h
    · cases h
    · cases h

/-- A pass of the loop of `vq_map_indir_desc_bufs` that goes round again leaves the
ring as it was. -/
theorem vq_map_indir_pass_ring {gpa2kva : Nat → Nat} {mem : Mem} {desc : virtio_desc}
    {niov indir_count : Nat} {t t1 : IndirState}
    (h : vq_map_indir_pass gpa2kva mem desc niov indir_count t = Outcome.done (Pass.again t1)) :
    t1.ring = t.ring := by
  unfold vq_map_indir_pass at h
  split at h
  · split at h
    · cases h
    · simp only at h
      split at h
      · cases h
      · split at h
        · cases h
        · split at h
          · rename_i r hm
            split at h
            · cases h
            · rename_i he
              split at h
              · cases h
              · split at h
                · cases h
                · split at h
                  · cases h
                  · cases h
                    exact vq_map_desc_bufs_ring_of_ok hm (by simpa using he)
          · cases h
          · cases h
  · cases h
  · cases h

theorem vq_map_indir_walk_ring (gpa2kva : Nat → Nat) (mem : Mem) (desc : virtio_desc)
    (niov indir_count : Nat) (m : Nat) :
    ∀ (t t1 : IndirState),
      vq_map_indir_walk gpa2kva mem desc niov indir_count m t = Outcome.done (Pass.again t1) →
      t1.ring = t.ring := by
  induction m with
  | zero =>
    intro t t1 h
    simp only [vq_map_indir_walk] at h
    injection h with h
    injection h with h
    rw [h]
  | succ m ih =>
    intro t t1 h
    unfold vq_map_indir_walk at h
    split at h
    · rename_i t2 hp
      rw [ih t2 t1 h, vq_map_indir_pass_ring hp]
    · cases h
    · cases h
    · cases h

/-- When the walk of an indirect table reaches a pass that returns, that is what
`vq_map_indir_desc_bufs` returns, given fuel for the passes made. -/
theorem vq_map_indir_desc_bufs_of_reach {gpa2kva : Nat → Nat} {mem : Mem}
    {ring : viona_vring_t} {desc : virtio_desc} {iov : Nat → iovec} {niov idx m fuel : Nat}
    {t : IndirState} {r : MapRes}
    (hr : indir_reaches gpa2kva mem ring desc iov niov idx m t) (hf : m + 1 ≤ fuel)
    (hp : vq_map_indir_pass gpa2kva mem desc niov ((desc.vd_len / SIZEOF_virtio_desc) % 65536) t
      = Outcome.done (Pass.ret r)) :
    vq_map_indir_desc_bufs fuel gpa2kva mem ring desc iov niov idx = Outcome.done r ∧
    t.ring = ring := by
  obtain ⟨hv, hw⟩ := hr
  have hring := vq_map_indir_walk_ring _ _ _ _ _ _ _ _ hw
  refine ⟨?_, hring⟩
  unfold vq_map_indir_desc_bufs
  unfold indir_valid at hv
  simp only
  rw [if_neg hv]
  obtain ⟨f, rfl⟩ : ∃ f, fuel = m + (f + 1) := ⟨fuel - m - 1, by omega⟩
  have := vq_map_indir_loop_walk gpa2kva mem desc niov _ m _ _ (f + 1) hw
  simp only at this
  rw [this, vq_map_indir_loop_pass, hp]

/-- The ring with which the loop of `vq_popchain` starts is the ring handed in, up to
the counter `ndesc_too_high`. -/
theorem pop_ring_cases (ring : viona_vring_t) (ndesc : Nat) :
    pop_ring ring ndesc = ring ∨ pop_ring ring ndesc = incr_ndesc_too_high ring := by
  unfold pop_ring
  split
  · exact Or.inr rfl
  · exact Or.inl rfl

/-- When the walk of `vq_popchain` visits a descriptor whose mapping fails, `vq_popchain`
returns -1 with the ring and vector that the failed mapping leaves and with the cookie
untouched, given fuel for the passes made. -/
theorem vq_popchain_reject_at {fuel : Nat} {gpa2kva : Nat → Nat} {mem : Mem}
    {ring : viona_vring_t} {iov : Nat → iovec} {niov cookie n : Nat} {s : PopState}
    {vdir : virtio_desc} {mr : MapRes}
    (hv : pop_visits fuel gpa2kva mem ring iov niov cookie n s vdir) (hf : n + 1 ≤ fuel)
    (hm : vq_popchain_map fuel gpa2kva mem s.ring vdir s.iov niov s.i = Outcome.done mr)
    (he : mr.err ≠ 0) :
    vq_popchain fuel gpa2kva mem ring iov niov cookie =
      Outcome.done { ret := -1, ring := mr.ring, iov := mr.iov, cookie := cookie } ∧
    (s.ring = ring ∨ s.ring = incr_ndesc_too_high ring) := by
  obtain ⟨hn, ndesc, head, h1, h2, h3, h4, h5, h6, h7⟩ := hv
  have hring := vq_popchain_walk_ring _ _ _ _ _ _ _ _ _ h4
  simp only at hring
  refine ⟨?_, by rw [hring]; exact pop_ring_cases ring ndesc⟩
  unfold vq_popchain
  rw [if_neg (by simpa using hn), h1]
  simp only [if_neg h2]
  unfold pop_ring at h3 h4
  rw [h3]
  simp only
  obtain ⟨f, rfl⟩ : ∃ f, fuel = n + (f + 1) := ⟨fuel - n - 1, by omega⟩
  have := vq_popchain_loop_walk (n + (f + 1)) gpa2kva mem niov head cookie n _ _ (f + 1) h4
  simp only at this
  rw [this, vq_popchain_loop_pass]
  unfold vq_popchain_pass
  rw [if_pos h5, if_neg (by omega), h7]
  simp only
  rw [hm]
  simp only [if_pos he]

/-- C18: if the walk of `vq_popchain` visits a top-level descriptor that has both the
has-next and the is-indirect flag set, `vq_popchain` returns -1, counts
`indir_bad_next`, leaves the vector, the cookie and `vr_cur_aidx` as they are, and the
step that handles the descriptor is the same under every translation and every memory
content: no page of the indirect table is read or translated. -/
theorem vq_popchain_indirect_with_next (fuel : Nat) (gpa2kva : Nat → Nat) (mem : Mem)
    (ring : viona_vring_t) (iov : Nat → iovec) (niov cookie n : Nat) (s : PopState)
    (vdir : virtio_desc)
    (hv : pop_visits fuel gpa2kva mem ring iov niov cookie n s vdir) (hf : n + 1 ≤ fuel)
    (hnext : vdir.vd_flags &&& VRING_DESC_F_NEXT ≠ 0)
    (hind : vdir.vd_flags &&& VRING_DESC_F_INDIRECT ≠ 0) :
    vq_popchain fuel gpa2kva mem ring iov niov cookie =
      Outcome.done
        { ret := -1, ring := incr_indir_bad_next s.ring, iov := s.iov, cookie := cookie } ∧
    (s.ring = ring ∨ s.ring = incr_ndesc_too_high ring) ∧
    (incr_indir_bad_next s.ring).vr_stats.rs_indir_bad_next =
      STAT_INCR ring.vr_stats.rs_indir_bad_next ∧
    (incr_indir_bad_next s.ring).vr_cur_aidx = ring.vr_cur_aidx ∧
    (∀ (fuel1 : Nat) (gpa2kva1 : Nat → Nat) (mem1 : Mem),
      vq_popchain_map fuel1 gpa2kva1 mem1 s.ring vdir s.iov niov s.i =
        Outcome.done
          { err := EINVAL, ring := incr_indir_bad_next s.ring, iov := s.iov, idx := s.i }) := by
  have hmap : ∀ (fuel1 : Nat) (gpa2kva1 : Nat → Nat) (mem1 : Mem),
      vq_popchain_map fuel1 gpa2kva1 mem1 s.ring vdir s.iov niov s.i =
        Outcome.done
          { err := EINVAL, ring := incr_indir_bad_next s.ring, iov := s.iov, idx := s.i } := by
    intro fuel1 gpa2kva1 mem1
    unfold vq_popchain_map
    rw [if_neg hind, if_pos hnext]
  obtain ⟨h1, h2⟩ := vq_popchain_reject_at hv hf (hmap fuel gpa2kva mem) (by simp [EINVAL])
  refine ⟨h1, h2, ?_, ?_, hmap⟩
  · rcases h2 with e | e <;> rw [e] <;> rfl
  · rcases h2 with e | e <;> rw [e] <;> rfl

/-- Witness for C18: descriptor 5 has has-next and is-indirect set. -/
theorem vq_popchain_indirect_with_next_witness :
    vq_popchain 10 ex_kva
        (ex_mem_top 5 { vd_addr := 32768, vd_len := 32, vd_flags := 5, vd_next := 7 })
        ex_ring ex_iov 8 99 =
      Outcome.done
        { ret := -1, ring := incr_indir_bad_next (ex_pop_state 5).ring,
          iov := (ex_pop_state 5).iov, cookie := 99 } ∧
    ((ex_pop_state 5).ring = ex_ring ∨ (ex_pop_state 5).ring = incr_ndesc_too_high ex_ring) ∧
    (incr_indir_bad_next (ex_pop_state 5).ring).vr_stats.rs_indir_bad_next =
      STAT_INCR ex_ring.vr_stats.rs_indir_bad_next ∧
    (incr_indir_bad_next (ex_pop_state 5).ring).vr_cur_aidx = ex_ring.vr_cur_aidx ∧
    (∀ (fuel1 : Nat) (gpa2kva1 : Nat → Nat) (mem1 : Mem),
      vq_popchain_map fuel1 gpa2kva1 mem1 (ex_pop_state 5).ring
          { vd_addr := 32768, vd_len := 32, vd_flags := 5, vd_next := 7 }
          (ex_pop_state 5).iov 8 (ex_pop_state 5).i =
        Outcome.done
          { err := EINVAL, ring := incr_indir_bad_next (ex_pop_state 5).ring,
            iov := (ex_pop_state 5).iov, idx := (ex_pop_state 5).i }) :=
  vq_popchain_indirect_with_next 10 ex_kva
    (ex_mem_top 5 { vd_addr := 32768, vd_len := 32, vd_flags := 5, vd_next := 7 })
    ex_ring ex_iov 8 99 0 (ex_pop_state 5)
    { vd_addr := 32768, vd_len := 32, vd_flags := 5, vd_next := 7 }
    ⟨by decide, 1, 5, rfl, by decide, rfl, rfl, by decide, by decide, rfl⟩
    (by decide) (by decide) (by decide)

theorem land_0xf (x : Nat) : x &&& 0xf = x % 16 := by
  have h : (0xf : Nat) = 2 ^ 4 - 1 := by norm_num
  rw [h, Nat.and_pow_two_sub_one_eq_mod]

/-- C15 fails as stated: on the example ring the walk visits the top-level indirect
descriptor 5, whose `vd_len` of 17 is not a multiple of 16 and which also has has-next
set; `vq_popchain` returns -1 and counts `indir_bad_next`, while `indir_bad_len` stays
as it was. -/
theorem vq_popchain_misaligned_indirect_with_next :
    pop_visits 10 ex_kva
      (ex_mem_top 5 { vd_addr := 32768, vd_len := 17, vd_flags := 5, vd_next := 7 })
      ex_ring ex_iov 8 99 0 (ex_pop_state 5)
      { vd_addr := 32768, vd_len := 17, vd_flags := 5, vd_next := 7 } ∧
    (5 : Nat) &&& VRING_DESC_F_INDIRECT ≠ 0 ∧ 17 % 16 ≠ 0 ∧
    ∃ r, vq_popchain 10 ex_kva
        (ex_mem_top 5 { vd_addr := 32768, vd_len := 17, vd_flags := 5, vd_next := 7 })
        ex_ring ex_iov 8 99 = Outcome.done r ∧
      r.ret = -1 ∧
      r.ring.vr_stats.rs_indir_bad_len = ex_ring.vr_stats.rs_indir_bad_len ∧
      r.ring.vr_stats.rs_indir_bad_len ≠ STAT_INCR ex_ring.vr_stats.rs_indir_bad_len ∧
      r.ring.vr_stats.rs_indir_bad_next = STAT_INCR ex_ring.vr_stats.rs_indir_bad_next :=
  ⟨⟨by decide, 1, 5, rfl, by decide, rfl, rfl, by decide, by decide, rfl⟩, by decide, by decide,
    _, rfl, rfl, rfl, by decide, rfl⟩

/-- C15 as amended: if the walk of `vq_popchain` visits a top-level indirect descriptor
without has-next whose `vd_len` is not a multiple of 16, `vq_popchain` returns -1,
counts `indir_bad_len`, leaves the vector, the cookie and `vr_cur_aidx` as they are, and
`vq_map_indir_desc_bufs` rejects the table in the same way under every translation and
every memory content: nothing of the table is read or mapped. -/
theorem vq_popchain_misaligned_indirect (fuel : Nat) (gpa2kva : Nat → Nat) (mem : Mem)
    (ring : viona_vring_t) (iov : Nat → iovec) (niov cookie n : Nat) (s : PopState)
    (vdir : virtio_desc)
    (hv : pop_visits fuel gpa2kva mem ring iov niov cookie n s vdir) (hf : n + 1 ≤ fuel)
    (hind : vdir.vd_flags &&& VRING_DESC_F_INDIRECT ≠ 0)
    (hnext : vdir.vd_flags &&& VRING_DESC_F_NEXT = 0)
    (hlen : vdir.vd_len % 16 ≠ 0) :
    vq_popchain fuel gpa2kva mem ring iov niov cookie =
      Outcome.done
        { ret := -1, ring := incr_indir_bad_len s.ring, iov := s.iov, cookie := cookie } ∧
    (s.ring = ring ∨ s.ring = incr_ndesc_too_high ring) ∧
    (incr_indir_bad_len s.ring).vr_stats.rs_indir_bad_len =
      STAT_INCR ring.vr_stats.rs_indir_bad_len ∧
    (incr_indir_bad_len s.ring).vr_cur_aidx = ring.vr_cur_aidx ∧
    (∀ (fuel1 : Nat) (gpa2kva1 : Nat → Nat) (mem1 : Mem),
      vq_map_indir_desc_bufs fuel1 gpa2kva1 mem1 s.ring vdir s.iov niov s.i =
        Outcome.done
          { err := EINVAL, ring := incr_indir_bad_len s.ring, iov := s.iov, idx := s.i }) := by
  have hmap : ∀ (fuel1 : Nat) (gpa2kva1 : Nat → Nat) (mem1 : Mem),
      vq_map_indir_desc_bufs fuel1 gpa2kva1 mem1 s.ring vdir s.iov niov s.i =
        Outcome.done
          { err := EINVAL, ring := incr_indir_bad_len s.ring, iov := s.iov, idx := s.i } := by
    intro fuel1 gpa2kva1 mem1
    unfold vq_map_indir_desc_bufs
    simp only
    rw [if_pos (Or.inl (by rw [land_0xf]; exact hlen))]
  have hpm : vq_popchain_map fuel gpa2kva mem s.ring vdir s.iov niov s.i =
      Outcome.done
        { err := EINVAL, ring := incr_indir_bad_len s.ring, iov := s.iov, idx := s.i } := by
    unfold vq_popchain_map
    rw [if_neg hind, if_neg (by simpa using hnext), hmap]
  obtain ⟨h1, h2⟩ := vq_popchain_reject_at hv hf hpm (by simp [EINVAL])
  refine ⟨h1, h2, ?_, ?_, hmap⟩
  · rcases h2 with e | e <;> rw [e] <;> rfl
  · rcases h2 with e | e <;> rw [e] <;> rfl

/-- Witness for C15 as amended: the indirect descriptor 5 has a length of 17 and no
has-next. -/
theorem vq_popchain_misaligned_indirect_witness :
    vq_popchain 10 ex_kva
        (ex_mem_top 5 { vd_addr := 32768, vd_len := 17, vd_flags := 4, vd_next := 0 })
        ex_ring ex_iov 8 99 =
      Outcome.done
        { ret := -1, ring := incr_indir_bad_len (ex_pop_state 5).ring,
          iov := (ex_pop_state 5).iov, cookie := 99 } ∧
    ((ex_pop_state 5).ring = ex_ring ∨ (ex_pop_state 5).ring = incr_ndesc_too_high ex_ring) ∧
    (incr_indir_bad_len (ex_pop_state 5).ring).vr_stats.rs_indir_bad_len =
      STAT_INCR ex_ring.vr_stats.rs_indir_bad_len ∧
    (incr_indir_bad_len (ex_pop_state 5).ring).vr_cur_aidx = ex_ring.vr_cur_aidx ∧
    (∀ (fuel1 : Nat) (gpa2kva1 : Nat → Nat) (mem1 : Mem),
      vq_map_indir_desc_bufs fuel1 gpa2kva1 mem1 (ex_pop_state 5).ring
          { vd_addr := 32768, vd_len := 17, vd_flags := 4, vd_next := 0 }
          (ex_pop_state 5).iov 8 (ex_pop_state 5).i =
        Outcome.done
          { err := EINVAL, ring := incr_indir_bad_len (ex_pop_state 5).ring,
            iov := (ex_pop_state 5).iov, idx := (ex_pop_state 5).i }) :=
  vq_popchain_misaligned_indirect 10 ex_kva
    (ex_mem_top 5 { vd_addr := 32768, vd_len := 17, vd_flags := 4, vd_next := 0 })
    ex_ring ex_iov 8 99 0 (ex_pop_state 5)
    { vd_addr := 32768, vd_len := 17, vd_flags := 4, vd_next := 0 }
    ⟨by decide, 1, 5, rfl, by decide, rfl, rfl, by decide, by decide, rfl⟩
    (by decide) (by decide) (by decide) (by decide)

/-- The ring in the locals of a visited pass is the ring handed to `vq_popchain`, up to
the counter `ndesc_too_high`. -/
theorem pop_visits_ring {fuel : Nat} {gpa2kva : Nat → Nat} {mem : Mem}
    {ring : viona_vring_t} {iov : Nat → iovec} {niov cookie n : Nat} {s : PopState}
    {vdir : virtio_desc}
    (hv : pop_visits fuel gpa2kva mem ring iov niov cookie n s vdir) :
    s.ring = ring ∨ s.ring = incr_ndesc_too_high ring := by
  obtain ⟨_, ndesc, head, _, _, _, h4, _, _, _⟩ := hv
  have hring := vq_popchain_walk_ring _ _ _ _ _ _ _ _ _ h4
  simp only at hring
  rw [hring]
  exact pop_ring_cases ring ndesc

/-- When the walk of `vq_popchain` visits an indirect descriptor without has-next and
the walk of its table reaches a pass that returns an error, `vq_popchain` returns -1
with the ring and vector that pass leaves and with the cookie untouched. -/
theorem vq_popchain_reject_in_table {fuel : Nat} {gpa2kva : Nat → Nat} {mem : Mem}
    {ring : viona_vring_t} {iov : Nat → iovec} {niov cookie n m : Nat} {s : PopState}
    {vdir : virtio_desc} {t : IndirState} {mr : MapRes}
    (hv : pop_visits fuel gpa2kva mem ring iov niov cookie n s vdir) (hf : n + 1 ≤ fuel)
    (hind : vdir.vd_flags &&& VRING_DESC_F_INDIRECT ≠ 0)
    (hnext : vdir.vd_flags &&& VRING_DESC_F_NEXT = 0)
    (hr : indir_reaches gpa2kva mem s.ring vdir s.iov niov s.i m t) (hm : m + 1 ≤ fuel)
    (hp : vq_map_indir_pass gpa2kva mem vdir niov ((vdir.vd_len / SIZEOF_virtio_desc) % 65536) t
      = Outcome.done (Pass.ret mr))
    (he : mr.err ≠ 0) :
    vq_popchain fuel gpa2kva mem ring iov niov cookie =
      Outcome.done { ret := -1, ring := mr.ring, iov := mr.iov, cookie := cookie } ∧
    vq_map_indir_desc_bufs fuel gpa2kva mem s.ring vdir s.iov niov s.i = Outcome.done mr ∧
    t.ring = s.ring := by
  obtain ⟨h1, h2⟩ := vq_map_indir_desc_bufs_of_reach hr hm hp
  have hpm : vq_popchain_map fuel gpa2kva mem s.ring vdir s.iov niov s.i = Outcome.done mr := by
    unfold vq_popchain_map
    rw [if_neg hind, if_neg (by simpa using hnext), h1]
  exact ⟨(vq_popchain_reject_at hv hf hpm he).1, h1, h2⟩

/-- The pass of the loop of `vq_map_indir_desc_bufs` that visits a sub-descriptor with
the is-indirect flag. -/
theorem vq_map_indir_pass_nest {gpa2kva : Nat → Nat} {mem : Mem} {ring : viona_vring_t}
    {desc : virtio_desc} {iov : Nat → iovec} {niov idx m : Nat} {t : IndirState}
    {vp : virtio_desc} (hv : indir_visits gpa2kva mem ring desc iov niov idx m t vp)
    (hind : vp.vd_flags &&& VRING_DESC_F_INDIRECT ≠ 0) (indir_count : Nat) :
    vq_map_indir_pass gpa2kva mem desc niov indir_count t =
      Outcome.done
        (Pass.ret
          { err := EINVAL, ring := incr_indir_bad_nest t.ring, iov := t.iov, idx := t.idx }) := by
  obtain ⟨_, buf1, h1, h2, h3⟩ := hv
  unfold vq_map_indir_pass
  rw [h1]
  simp only
  rw [if_neg h2, ← h3, if_pos hind]

/-- The pass of the loop of `vq_map_indir_desc_bufs` that visits a sub-descriptor of
length zero without the is-indirect flag. -/
theorem vq_map_indir_pass_zero {gpa2kva : Nat → Nat} {mem : Mem} {ring : viona_vring_t}
    {desc : virtio_desc} {iov : Nat → iovec} {niov idx m : Nat} {t : IndirState}
    {vp : virtio_desc} (hv : indir_visits gpa2kva mem ring desc iov niov idx m t vp)
    (hind : vp.vd_flags &&& VRING_DESC_F_INDIRECT = 0) (hlen : vp.vd_len = 0)
    (indir_count : Nat) :
    vq_map_indir_pass gpa2kva mem desc niov indir_count t =
      Outcome.done
        (Pass.ret
          { err := EINVAL, ring := incr_desc_bad_len t.ring, iov := t.iov, idx := t.idx }) := by
  obtain ⟨_, buf1, h1, h2, h3⟩ := hv
  unfold vq_map_indir_pass
  rw [h1]
  simp only
  rw [if_neg h2, ← h3, if_neg (by simpa using hind), if_pos hlen]

/-- The pass of the loop of `vq_map_indir_desc_bufs` that visits a direct sub-descriptor
of non-zero length: the result of `vq_map_desc_bufs`, when that is an error, is
returned. -/
theorem vq_map_indir_pass_err {gpa2kva : Nat → Nat} {mem : Mem} {ring : viona_vring_t}
    {desc : virtio_desc} {iov : Nat → iovec} {niov idx m : Nat} {t : IndirState}
    {vp : virtio_desc} {mr : MapRes}
    (hv : indir_visits gpa2kva mem ring desc iov niov idx m t vp)
    (hind : vp.vd_flags &&& VRING_DESC_F_INDIRECT = 0) (hlen : vp.vd_len ≠ 0)
    (hm : vq_map_desc_bufs gpa2kva t.ring vp t.iov niov t.idx = Outcome.done mr)
    (he : mr.err ≠ 0) (indir_count : Nat) :
    vq_map_indir_pass gpa2kva mem desc niov indir_count t = Outcome.done (Pass.ret mr) := by
  obtain ⟨_, buf1, h1, h2, h3⟩ := hv
  unfold vq_map_indir_pass
  rw [h1]
  simp only
  rw [if_neg h2, ← h3, if_neg (by simpa using hind), if_neg hlen, hm]
  simp only [if_pos he]

/-- C14 fails as stated: on the example ring the walk visits the top-level descriptor
5, which has `vd_len == 0` and the is-indirect flag; `vq_popchain` returns -1 and counts
`indir_bad_len`, while `desc_bad_len` stays as it was. -/
theorem vq_popchain_zero_length_indirect :
    pop_visits 10 ex_kva
      (ex_mem_top 5 { vd_addr := 32768, vd_len := 0, vd_flags := 4, vd_next := 0 })
      ex_ring ex_iov 8 99 0 (ex_pop_state 5)
      { vd_addr := 32768, vd_len := 0, vd_flags := 4, vd_next := 0 } ∧
    ∃ r, vq_popchain 10 ex_kva
        (ex_mem_top 5 { vd_addr := 32768, vd_len := 0, vd_flags := 4, vd_next := 0 })
        ex_ring ex_iov 8 99 = Outcome.done r ∧
      r.ret = -1 ∧
      r.ring.vr_stats.rs_desc_bad_len = ex_ring.vr_stats.rs_desc_bad_len ∧
      r.ring.vr_stats.rs_desc_bad_len ≠ STAT_INCR ex_ring.vr_stats.rs_desc_bad_len ∧
      r.ring.vr_stats.rs_indir_bad_len = STAT_INCR ex_ring.vr_stats.rs_indir_bad_len :=
  ⟨⟨by decide, 1, 5, rfl, by decide, rfl, rfl, by decide, by decide, rfl⟩,
    _, rfl, rfl, rfl, by decide, rfl⟩

/-- C14 as amended: if the walk of `vq_popchain` visits a descriptor with `vd_len == 0`
that does not have the is-indirect flag, at top level (first part) or as a
sub-descriptor of the table of an indirect descriptor (second part), `vq_popchain`
returns -1, counts `desc_bad_len` and leaves the cookie and `vr_cur_aidx` as they are,
whatever the earlier passes of the walk have mapped. -/
theorem vq_popchain_zero_length (fuel : Nat) (gpa2kva : Nat → Nat) (mem : Mem)
    (ring : viona_vring_t) (iov : Nat → iovec) (niov cookie n : Nat) (s : PopState)
    (vdir : virtio_desc)
    (hv : pop_visits fuel gpa2kva mem ring iov niov cookie n s vdir) (hf : n + 1 ≤ fuel) :
    (vdir.vd_flags &&& VRING_DESC_F_INDIRECT = 0 → vdir.vd_len = 0 →
      vq_popchain fuel gpa2kva mem ring iov niov cookie =
        Outcome.done
          { ret := -1, ring := incr_desc_bad_len s.ring, iov := s.iov, cookie := cookie }) ∧
    (∀ (m : Nat) (t : IndirState) (vp : virtio_desc),
      vdir.vd_flags &&& VRING_DESC_F_INDIRECT ≠ 0 → vdir.vd_flags &&& VRING_DESC_F_NEXT = 0 →
      indir_visits gpa2kva mem s.ring vdir s.iov niov s.i m t vp → m + 1 ≤ fuel →
      vp.vd_flags &&& VRING_DESC_F_INDIRECT = 0 → vp.vd_len = 0 →
      vq_popchain fuel gpa2kva mem ring iov niov cookie =
        Outcome.done
          { ret := -1, ring := incr_desc_bad_len s.ring, iov := t.iov, cookie := cookie }) ∧
    (s.ring = ring ∨ s.ring = incr_ndesc_too_high ring) ∧
    (incr_desc_bad_len s.ring).vr_stats.rs_desc_bad_len =
      STAT_INCR ring.vr_stats.rs_desc_bad_len ∧
    (incr_desc_bad_len s.ring).vr_cur_aidx = ring.vr_cur_aidx := by
  have hring := pop_visits_ring hv
  refine ⟨?_, ?_, hring, ?_, ?_⟩
  · intro hind hlen
    have hpm : vq_popchain_map fuel gpa2kva mem s.ring vdir s.iov niov s.i =
        Outcome.done
          { err := EINVAL, ring := incr_desc_bad_len s.ring, iov := s.iov, idx := s.i } := by
      unfold vq_popchain_map
      rw [if_pos hind]
      unfold vq_map_desc_bufs
      simp only
      rw [if_neg (by simpa using hv.2.choose_spec.choose_spec.2.2.2.2.1), if_pos hlen]
    exact (vq_popchain_reject_at hv hf hpm (by simp [EINVAL])).1
  · intro m t vp hind hnext hiv hm hvi hvl
    have hp := vq_map_indir_pass_zero hiv hvi hvl ((vdir.vd_len / SIZEOF_virtio_desc) % 65536)
    obtain ⟨h1, _, h3⟩ := vq_popchain_reject_in_table hv hf hind hnext hiv.1 hm hp
      (by simp [EINVAL])
    rw [h1]
    simp only [h3]
  · rcases hring with e | e <;> rw [e] <;> rfl
  · rcases hring with e | e <;> rw [e] <;> rfl

/-- Witness for C14 as amended: a zero-length descriptor 7 behind the mapped descriptor
5, and a zero-length sub-descriptor 1 behind the mapped sub-descriptor 0 of the table
of the indirect descriptor 9. -/
theorem vq_popchain_zero_length_witness :
    vq_popchain 10 ex_kva
        (ex_mem_second { vd_addr := 24576, vd_len := 0, vd_flags := 0, vd_next := 0 })
        ex_ring ex_iov 8 99 =
      Outcome.done
        { ret := -1, ring := incr_desc_bad_len ex_pop_state_second.ring,
          iov := ex_pop_state_second.iov, cookie := 99 } ∧
    vq_popchain 10 ex_kva
        (ex_mem_indir 32 ex_sub_first
          { vd_addr := 24576, vd_len := 0, vd_flags := 0, vd_next := 0 })
        ex_ring ex_iov 8 99 =
      Outcome.done
        { ret := -1, ring := incr_desc_bad_len (ex_pop_state 9).ring,
          iov := ex_indir_state_second.iov, cookie := 99 } :=
  ⟨(vq_popchain_zero_length 10 ex_kva
      (ex_mem_second { vd_addr := 24576, vd_len := 0, vd_flags := 0, vd_next := 0 })
      ex_ring ex_iov 8 99 1 ex_pop_state_second
      { vd_addr := 24576, vd_len := 0, vd_flags := 0, vd_next := 0 }
      ⟨by decide, 1, 5, rfl, by decide, rfl, rfl, by decide, by decide, rfl⟩
      (by decide)).1 (by decide) rfl,
   (vq_popchain_zero_length 10 ex_kva
      (ex_mem_indir 32 ex_sub_first
        { vd_addr := 24576, vd_len := 0, vd_flags := 0, vd_next := 0 })
      ex_ring ex_iov 8 99 0 (ex_pop_state 9) (ex_indir_desc 32)
      ⟨by decide, 1, 9, rfl, by decide, rfl, rfl, by decide, by decide, rfl⟩
      (by decide)).2.1 1 ex_indir_state_second
      { vd_addr := 24576, vd_len := 0, vd_flags := 0, vd_next := 0 }
      (by decide) (by decide)
      ⟨⟨by decide, rfl⟩, 16809984, rfl, by decide, rfl⟩
      (by decide) (by decide) rfl⟩

/-- C17: if a sub-descriptor visited inside the table of an indirect descriptor has the
is-indirect flag set, `vq_map_indir_desc_bufs` returns `EINVAL` and counts
`indir_bad_nest`, with the vector and `*idxp` as the earlier passes left them (the
sub-descriptor is not followed); and when the indirect descriptor is one that the walk
of `vq_popchain` visits, `vq_popchain` returns -1 and leaves the cookie and
`vr_cur_aidx` as they are. -/
theorem vq_map_indir_rejects_nesting (fuel : Nat) (gpa2kva : Nat → Nat) (mem : Mem)
    (ring0 : viona_vring_t) (desc : virtio_desc) (iov0 : Nat → iovec) (niov idx m : Nat)
    (t : IndirState) (vp : virtio_desc)
    (hiv : indir_visits gpa2kva mem ring0 desc iov0 niov idx m t vp) (hm : m + 1 ≤ fuel)
    (hnest : vp.vd_flags &&& VRING_DESC_F_INDIRECT ≠ 0) :
    vq_map_indir_desc_bufs fuel gpa2kva mem ring0 desc iov0 niov idx =
      Outcome.done
        { err := EINVAL, ring := incr_indir_bad_nest ring0, iov := t.iov, idx := t.idx } ∧
    (incr_indir_bad_nest ring0).vr_stats.rs_indir_bad_nest =
      STAT_INCR ring0.vr_stats.rs_indir_bad_nest ∧
    (∀ (ring : viona_vring_t) (iov : Nat → iovec) (cookie n : Nat) (s : PopState),
      pop_visits fuel gpa2kva mem ring iov niov cookie n s desc → n + 1 ≤ fuel →
      s.ring = ring0 → s.iov = iov0 → s.i = idx →
      desc.vd_flags &&& VRING_DESC_F_INDIRECT ≠ 0 → desc.vd_flags &&& VRING_DESC_F_NEXT = 0 →
      vq_popchain fuel gpa2kva mem ring iov niov cookie =
        Outcome.done
          { ret := -1, ring := incr_indir_bad_nest ring0, iov := t.iov, cookie := cookie } ∧
      (incr_indir_bad_nest ring0).vr_stats.rs_indir_bad_nest =
        STAT_INCR ring.vr_stats.rs_indir_bad_nest ∧
      (incr_indir_bad_nest ring0).vr_cur_aidx = ring.vr_cur_aidx) := by
  have hp := vq_map_indir_pass_nest hiv hnest ((desc.vd_len / SIZEOF_virtio_desc) % 65536)
  obtain ⟨h1, h2⟩ := vq_map_indir_desc_bufs_of_reach hiv.1 hm hp
  refine ⟨by rw [h1, h2], rfl, ?_⟩
  intro ring iov cookie n s hv hf e1 e2 e3 hind hnext
  subst e1 e2 e3
  have hring := pop_visits_ring hv
  obtain ⟨g1, _, g3⟩ := vq_popchain_reject_in_table hv hf hind hnext hiv.1 hm hp
    (by simp [EINVAL])
  refine ⟨by rw [g1]; simp only [g3], ?_, ?_⟩
  · rcases hring with e | e <;> rw [e] <;> rfl
  · rcases hring with e | e <;> rw [e] <;> rfl

/-- Witness for C17: sub-descriptor 1 of the table of the indirect descriptor 9 has the
is-indirect flag. -/
theorem vq_map_indir_rejects_nesting_witness :
    vq_map_indir_desc_bufs 10 ex_kva
        (ex_mem_indir 32 ex_sub_first
          { vd_addr := 36864, vd_len := 32, vd_flags := 4, vd_next := 0 })
        ex_ring (ex_indir_desc 32) ex_iov 8 0 =
      Outcome.done
        { err := EINVAL, ring := incr_indir_bad_nest ex_ring, iov := ex_indir_state_second.iov,
          idx := ex_indir_state_second.idx } ∧
    vq_popchain 10 ex_kva
        (ex_mem_indir 32 ex_sub_first
          { vd_addr := 36864, vd_len := 32, vd_flags := 4, vd_next := 0 })
        ex_ring ex_iov 8 99 =
      Outcome.done
        { ret := -1, ring := incr_indir_bad_nest ex_ring, iov := ex_indir_state_second.iov,
          cookie := 99 } :=
  ⟨(vq_map_indir_rejects_nesting 10 ex_kva
      (ex_mem_indir 32 ex_sub_first
        { vd_addr := 36864, vd_len := 32, vd_flags := 4, vd_next := 0 })
      ex_ring (ex_indir_desc 32) ex_iov 8 0 1 ex_indir_state_second
      { vd_addr := 36864, vd_len := 32, vd_flags := 4, vd_next := 0 }
      ⟨⟨by decide, rfl⟩, 16809984, rfl, by decide, rfl⟩ (by decide) (by decide)).1,
   ((vq_map_indir_rejects_nesting 10 ex_kva
      (ex_mem_indir 32 ex_sub_first
        { vd_addr := 36864, vd_len := 32, vd_flags := 4, vd_next := 0 })
      ex_ring (ex_indir_desc 32) ex_iov 8 0 1 ex_indir_state_second
      { vd_addr := 36864, vd_len := 32, vd_flags := 4, vd_next := 0 }
      ⟨⟨by decide, rfl⟩, 16809984, rfl, by decide, rfl⟩ (by decide) (by decide)).2.2
      ex_ring ex_iov 99 0 (ex_pop_state 9)
      ⟨by decide, 1, 9, rfl, by decide, rfl, rfl, by decide, by decide, rfl⟩
      (by decide) rfl rfl rfl (by decide) (by decide)).1⟩

/-- The page loop of `vq_map_desc_bufs` on `n = ceil(len / PAGESIZE)` pages one of which
does not translate: the loop is left through `return (EFAULT)`. -/
theorem vq_map_desc_bufs_loop_fault (gpa2kva : Nat → Nat) (ring : viona_vring_t)
    (hl : ring.vr_lease ≠ none) (n : Nat) :
    ∀ (gpa len lidx : Nat) (iov : Nat → iovec),
      n = (len + 4095) / 4096 → (0 < n → gpa % 4096 = 0) → gpa < 2 ^ 64 →
      (∃ t, t < n ∧ gpa2kva ((gpa + t * 4096) % 2 ^ 64) = 0) →
      ∃ st, vq_map_desc_bufs_loop gpa2kva ring n gpa len lidx iov = Outcome.done st ∧
        st.fault = true := by
  induction n with
  | zero =>
    intro gpa len lidx iov _ _ _ hb
    obtain ⟨t, ht, _⟩ := hb
    omega
  | succ n ih =>
    intro gpa len lidx iov hn ha hg hb
    have ha1 : gpa % 4096 = 0 := ha (by omega)
    have e64 : (2:Nat) ^ 64 = 18446744073709551616 := by norm_num
    have hgm : gpa % 18446744073709551616 = gpa := Nat.mod_eq_of_lt (by rw [e64] at hg; exact hg)
    unfold vq_map_desc_bufs_loop
    rw [land_PAGEOFFSET, ha1, viona_hold_page_ok gpa2kva ring gpa hl ha1]
    simp only [ne_eq, not_true_eq_false, if_false]
    by_cases hk : gpa2kva gpa = 0
    · rw [if_pos hk]
      exact ⟨_, rfl, rfl⟩
    · rw [if_neg hk]
      obtain ⟨t, ht, hz⟩ := hb
      have ht0 : t ≠ 0 := by
        intro h0
        subst h0
        apply hk
        simpa [hgm] using hz
      apply ih
      · unfold PAGESIZE; omega
      · intro hp; unfold PAGESIZE; rw [e64]; omega
      · exact Nat.mod_lt _ (by norm_num)
      · refine ⟨t - 1, by omega, ?_⟩
        have e : ((gpa + min len PAGESIZE) % 2 ^ 64 + (t - 1) * 4096) % 2 ^ 64
            = (gpa + t * 4096) % 2 ^ 64 := by
          unfold PAGESIZE; rw [e64]; omega
        rw [e]; exact hz

/-- The function `vq_map_desc_bufs` on a direct descriptor of non-zero length for which
the vector has room and one of whose pages does not translate: `EFAULT`, with
`bad_ring_addr` counted once and `*idxp` as it was. -/
theorem vq_map_desc_bufs_efault (gpa2kva : Nat → Nat) (ring : viona_vring_t)
    (desc : virtio_desc) (iov : Nat → iovec) (niov idx : Nat) (hl : ring.vr_lease ≠ none)
    (hidx : idx < niov) (hniov : niov < 2 ^ 32) (haddr : desc.vd_addr < 2 ^ 64)
    (hlen0 : desc.vd_len ≠ 0) (hlen : desc.vd_len < 2 ^ 32)
    (hroom : (desc.vd_addr % 4096 + desc.vd_len + 4095) / 4096 ≤ niov - idx)
    (hbad : ∃ t, t < (desc.vd_addr % 4096 + desc.vd_len + 4095) / 4096 ∧
      gpa2kva (((desc.vd_addr &&& PAGEMASK) + t * 4096) % 2 ^ 64) = 0) :
    ∃ iov1, vq_map_desc_bufs gpa2kva ring desc iov niov idx =
      Outcome.done
        { err := EFAULT, ring := incr_bad_ring_addr ring, iov := iov1, idx := idx } := by
  have e64 : (2:Nat) ^ 64 = 18446744073709551616 := by norm_num
  have e32 : (2:Nat) ^ 32 = 4294967296 := by norm_num
  have hpm := land_PAGEMASK desc.vd_addr haddr
  have hpages : desc_pages desc = (desc.vd_addr % 4096 + desc.vd_len + 4095) / 4096 :=
    desc_pages_eq desc (Nat.pos_of_ne_zero hlen0) hlen
  rw [e64] at haddr
  rw [e32] at hniov hlen
  rw [hpm] at hbad
  set N := (desc.vd_addr % 4096 + desc.vd_len + 4095) / 4096 with hN
  set addr := desc.vd_addr with haddr_def
  set len := desc.vd_len with hlen_def
  unfold vq_map_desc_bufs
  simp only [land_PAGEOFFSET, hpages]
  rw [← haddr_def, ← hlen_def, hpm]
  rw [if_neg (by omega), if_neg hlen0, if_neg (by rw [e32]; omega),
    viona_hold_page_ok gpa2kva ring _ hl (by omega)]
  simp only
  by_cases hp0 : gpa2kva (addr / 4096 * 4096) = 0
  · rw [if_pos hp0]
    exact ⟨_, rfl⟩
  · rw [if_neg hp0]
    obtain ⟨t, ht, hz⟩ := hbad
    have ht0 : t ≠ 0 := by
      intro h0
      subst h0
      apply hp0
      have e : (addr / 4096 * 4096 + 0 * 4096) % 2 ^ 64 = addr / 4096 * 4096 := by
        rw [e64]; omega
      rw [e] at hz; exact hz
    obtain ⟨st, h1, h2⟩ := vq_map_desc_bufs_loop_fault gpa2kva ring hl (N - 1)
      ((addr + min len (PAGESIZE - addr % 4096)) % 2 ^ 64)
      (len - min len (PAGESIZE - addr % 4096)) ((idx + 1) % 65536)
      (iov_set iov idx { iov_base := gpa2kva (addr / 4096 * 4096) + addr % 4096,
                         iov_len := min len (PAGESIZE - addr % 4096) })
      (by unfold PAGESIZE; omega)
      (by intro hp; unfold PAGESIZE; rw [e64]; omega)
      (Nat.mod_lt _ (by norm_num))
      ⟨t - 1, by omega, by
        have e : ((addr + min len (PAGESIZE - addr % 4096)) % 2 ^ 64 + (t - 1) * 4096) % 2 ^ 64
            = (addr / 4096 * 4096 + t * 4096) % 2 ^ 64 := by
          unfold PAGESIZE; rw [e64]; omega
        rw [e]; exact hz⟩
    rw [h1]
    simp only [h2, if_true]
    exact ⟨_, rfl⟩

/-- A pass of the loop of `vq_map_indir_desc_bufs` that goes round again leaves room in
the vector. -/
theorem vq_map_indir_pass_idx {gpa2kva : Nat → Nat} {mem : Mem} {desc : virtio_desc}
    {niov indir_count : Nat} {t t1 : IndirState}
    (h : vq_map_indir_pass gpa2kva mem desc niov indir_count t = Outcome.done (Pass.again t1)) :
    t1.idx < niov := by
  unfold vq_map_indir_pass at h
  split at h
  · split at h
    · cases h
    · simp only at h
      split at h
      · cases h
      · split at h
        · cases h
        · split at h
          · rename_i r hm
            split at h
            · cases h
            · rename_i he
              split at h
              · cases h
              · split at h
                · cases h
                · rename_i hlt
                  split at h
                  · cases h
                  · cases h
                    simpa using hlt
          · cases h
          · cases h
  · cases h
  · cases h

theorem vq_map_indir_walk_idx (gpa2kva : Nat → Nat) (mem : Mem) (desc : virtio_desc)
    (niov indir_count : Nat) (m : Nat) :
    ∀ (t t1 : IndirState), t.idx < niov →
      vq_map_indir_walk gpa2kva mem desc niov indir_count m t = Outcome.done (Pass.again t1) →
      t1.idx < niov := by
  induction m with
  | zero =>
    intro t t1 h0 h
    simp only [vq_map_indir_walk] at h
    injection h with h
    injection h with h
    rw [← h]; exact h0
  | succ m ih =>
    intro t t1 h0 h
    unfold vq_map_indir_walk at h
    split at h
    · rename_i t2 hp
      exact ih t2 t1 (vq_map_indir_pass_idx hp) h
    · cases h
    · cases h
    · cases h

theorem desc_at_bounds (mem : Mem) (a : Nat) :
    (desc_at mem a).vd_addr < 2 ^ 64 ∧ (desc_at mem a).vd_len < 2 ^ 32 :=
  ⟨by norm_num; exact rd64_lt _ _, by norm_num; exact rd32_lt _ _⟩

theorem indir_page_aligned (desc : virtio_desc) (t : IndirState) :
    indir_page desc t % 4096 = 0 := by
  unfold indir_page
  rw [land_PAGEMASK _ (by unfold indir_gpa; exact Nat.mod_lt _ (by norm_num))]
  omega

/-- C20: with the lease held, if the walk of `vq_popchain` needs a guest page whose
translation fails, `vq_popchain` returns -1, counts `bad_ring_addr` once and leaves the
cookie and `vr_cur_aidx` as they are. The page is a data page of a visited top-level
direct descriptor of non-zero length for which the vector has room (first part), the
page of the indirect table that a pass of the table walk has to map (second part), or a
data page of a visited direct sub-descriptor of non-zero length for which the vector has
room (third part). -/
theorem vq_popchain_translation_fails (fuel : Nat) (gpa2kva : Nat → Nat) (mem : Mem)
    (ring : viona_vring_t) (iov : Nat → iovec) (niov cookie n : Nat) (s : PopState)
    (vdir : virtio_desc)
    (hv : pop_visits fuel gpa2kva mem ring iov niov cookie n s vdir) (hf : n + 1 ≤ fuel)
    (hl : ring.vr_lease ≠ none) :
    (vdir.vd_flags &&& VRING_DESC_F_INDIRECT = 0 → vdir.vd_len ≠ 0 →
      (vdir.vd_addr % 4096 + vdir.vd_len + 4095) / 4096 ≤ niov - s.i →
      (∃ k, k < (vdir.vd_addr % 4096 + vdir.vd_len + 4095) / 4096 ∧
        gpa2kva (((vdir.vd_addr &&& PAGEMASK) + k * 4096) % 2 ^ 64) = 0) →
      ∃ iov1, vq_popchain fuel gpa2kva mem ring iov niov cookie =
        Outcome.done
          { ret := -1, ring := incr_bad_ring_addr s.ring, iov := iov1, cookie := cookie }) ∧
    (∀ (m : Nat) (t : IndirState),
      vdir.vd_flags &&& VRING_DESC_F_INDIRECT ≠ 0 → vdir.vd_flags &&& VRING_DESC_F_NEXT = 0 →
      indir_reaches gpa2kva mem s.ring vdir s.iov niov s.i m t → m + 1 ≤ fuel →
      indir_page vdir t ≠ t.buf_gpa → gpa2kva (indir_page vdir t) = 0 →
      vq_popchain fuel gpa2kva mem ring iov niov cookie =
        Outcome.done
          { ret := -1, ring := incr_bad_ring_addr s.ring, iov := t.iov, cookie := cookie }) ∧
    (∀ (m : Nat) (t : IndirState) (vp : virtio_desc),
      vdir.vd_flags &&& VRING_DESC_F_INDIRECT ≠ 0 → vdir.vd_flags &&& VRING_DESC_F_NEXT = 0 →
      indir_visits gpa2kva mem s.ring vdir s.iov niov s.i m t vp → m + 1 ≤ fuel →
      vp.vd_flags &&& VRING_DESC_F_INDIRECT = 0 → vp.vd_len ≠ 0 →
      (vp.vd_addr % 4096 + vp.vd_len + 4095) / 4096 ≤ niov - t.idx →
      (∃ k, k < (vp.vd_addr % 4096 + vp.vd_len + 4095) / 4096 ∧
        gpa2kva (((vp.vd_addr &&& PAGEMASK) + k * 4096) % 2 ^ 64) = 0) →
      ∃ iov1, vq_popchain fuel gpa2kva mem ring iov niov cookie =
        Outcome.done
          { ret := -1, ring := incr_bad_ring_addr s.ring, iov := iov1, cookie := cookie }) ∧
    (s.ring = ring ∨ s.ring = incr_ndesc_too_high ring) ∧
    (incr_bad_ring_addr s.ring).vr_stats.rs_bad_ring_addr =
      STAT_INCR ring.vr_stats.rs_bad_ring_addr ∧
    (incr_bad_ring_addr s.ring).vr_cur_aidx = ring.vr_cur_aidx := by
  have hring := pop_visits_ring hv
  have hls : s.ring.vr_lease ≠ none := by
    rcases hring with e | e <;> rw [e] <;> exact hl
  have hsi : s.i < niov := hv.2.choose_spec.choose_spec.2.2.2.2.1
  have hniov : niov < 2 ^ 32 := by
    have := hv.1.2
    unfold INT_MAX at this
    norm_num
    omega
  refine ⟨?_, ?_, ?_, hring, ?_, ?_⟩
  · intro hind hlen hroom hbad
    have hb := vq_read_desc_bounds hv.2.choose_spec.choose_spec.2.2.2.2.2.2
    obtain ⟨iov1, h1⟩ := vq_map_desc_bufs_efault gpa2kva s.ring vdir s.iov niov s.i hls hsi
      hniov hb.1 hlen hb.2.1 hroom hbad
    have hpm : vq_popchain_map fuel gpa2kva mem s.ring vdir s.iov niov s.i =
        Outcome.done
          { err := EFAULT, ring := incr_bad_ring_addr s.ring, iov := iov1, idx := s.i } := by
      unfold vq_popchain_map
      rw [if_pos hind, h1]
    exact ⟨iov1, (vq_popchain_reject_at hv hf hpm (by simp [EFAULT])).1⟩
  · intro m t hind hnext hr hm hpage hz
    have htr : t.ring = s.ring := vq_map_indir_walk_ring _ _ _ _ _ _ _ _ hr.2
    have hp : vq_map_indir_pass gpa2kva mem vdir niov
        ((vdir.vd_len / SIZEOF_virtio_desc) % 65536) t =
        Outcome.done
          (Pass.ret
            { err := EFAULT, ring := incr_bad_ring_addr t.ring, iov := t.iov, idx := t.idx }) := by
      unfold vq_map_indir_pass indir_hold
      rw [if_pos hpage, viona_hold_page_ok gpa2kva t.ring _ (by rw [htr]; exact hls)
        (indir_page_aligned vdir t)]
      simp only
      rw [if_pos ⟨hpage, hz⟩]
    obtain ⟨h1, _, h3⟩ := vq_popchain_reject_in_table hv hf hind hnext hr hm hp
      (by simp [EFAULT])
    rw [h1]
    simp only [h3]
  · intro m t vp hind hnext hiv hm hvi hvl hroom hbad
    have htr : t.ring = s.ring := vq_map_indir_walk_ring _ _ _ _ _ _ _ _ hiv.1.2
    have hti : t.idx < niov := vq_map_indir_walk_idx _ _ _ _ _ _ _ _ hsi hiv.1.2
    have hb : vp.vd_addr < 2 ^ 64 ∧ vp.vd_len < 2 ^ 32 := by
      obtain ⟨_, buf1, _, _, h3⟩ := hiv
      rw [h3]
      exact desc_at_bounds _ _
    obtain ⟨iov1, h1⟩ := vq_map_desc_bufs_efault gpa2kva t.ring vp t.iov niov t.idx
      (by rw [htr]; exact hls) hti hniov hb.1 hvl hb.2 hroom hbad
    have hp := vq_map_indir_pass_err hiv hvi hvl h1 (by simp [EFAULT])
      ((vdir.vd_len / SIZEOF_virtio_desc) % 65536)
    obtain ⟨g1, _, g3⟩ := vq_popchain_reject_in_table hv hf hind hnext hiv.1 hm hp
      (by simp [EFAULT])
    refine ⟨iov1, ?_⟩
    rw [g1]
    simp only [g3]
  · rcases hring with e | e <;> rw [e] <;> rfl
  · rcases hring with e | e <;> rw [e] <;> rfl

/-- Witness for C20: the second data page of the top-level descriptor 5, the table page
of the indirect descriptor 9, and the data page of sub-descriptor 1 of the table of
descriptor 9 lie above the guest memory that `ex_kva` translates. -/
theorem vq_popchain_translation_fails_witness :
    (∃ iov1, vq_popchain 10 ex_kva
        (ex_mem_top 5 { vd_addr := 1048480, vd_len := 200, vd_flags := 0, vd_next := 0 })
        ex_ring ex_iov 8 99 =
      Outcome.done
        { ret := -1, ring := incr_bad_ring_addr (ex_pop_state 5).ring, iov := iov1,
          cookie := 99 }) ∧
    vq_popchain 10 ex_kva
        (ex_mem_top 9 { vd_addr := 2097152, vd_len := 32, vd_flags := 4, vd_next := 0 })
        ex_ring ex_iov 8 99 =
      Outcome.done
        { ret := -1, ring := incr_bad_ring_addr (ex_pop_state 9).ring, iov := ex_iov,
          cookie := 99 } ∧
    (∃ iov1, vq_popchain 10 ex_kva
        (ex_mem_indir 32 ex_sub_first
          { vd_addr := 2097152, vd_len := 100, vd_flags := 0, vd_next := 0 })
        ex_ring ex_iov 8 99 =
      Outcome.done
        { ret := -1, ring := incr_bad_ring_addr (ex_pop_state 9).ring, iov := iov1,
          cookie := 99 }) :=
  ⟨(vq_popchain_translation_fails 10 ex_kva
      (ex_mem_top 5 { vd_addr := 1048480, vd_len := 200, vd_flags := 0, vd_next := 0 })
      ex_ring ex_iov 8 99 0 (ex_pop_state 5)
      { vd_addr := 1048480, vd_len := 200, vd_flags := 0, vd_next := 0 }
      ⟨by decide, 1, 5, rfl, by decide, rfl, rfl, by decide, by decide, rfl⟩
      (by decide) (by decide)).1 (by decide) (by decide) (by decide)
      ⟨1, by decide, by decide⟩,
   (vq_popchain_translation_fails 10 ex_kva
      (ex_mem_top 9 { vd_addr := 2097152, vd_len := 32, vd_flags := 4, vd_next := 0 })
      ex_ring ex_iov 8 99 0 (ex_pop_state 9)
      { vd_addr := 2097152, vd_len := 32, vd_flags := 4, vd_next := 0 }
      ⟨by decide, 1, 9, rfl, by decide, rfl, rfl, by decide, by decide, rfl⟩
      (by decide) (by decide)).2.1 0
      { ring := ex_ring, iov := ex_iov, idx := 0, indir_next := 0, buf := 0,
        buf_gpa := UINT64_MAX }
      (by decide) (by decide) ⟨by decide, rfl⟩ (by decide) (by decide) (by decide),
   (vq_popchain_translation_fails 10 ex_kva
      (ex_mem_indir 32 ex_sub_first
        { vd_addr := 2097152, vd_len := 100, vd_flags := 0, vd_next := 0 })
      ex_ring ex_iov 8 99 0 (ex_pop_state 9) (ex_indir_desc 32)
      ⟨by decide, 1, 9, rfl, by decide, rfl, rfl, by decide, by decide, rfl⟩
      (by decide) (by decide)).2.2.1 1 ex_indir_state_second
      { vd_addr := 2097152, vd_len := 100, vd_flags := 0, vd_next := 0 }
      (by decide) (by decide)
      ⟨⟨by decide, rfl⟩, 16809984, rfl, by decide, rfl⟩
      (by decide) (by decide) (by decide) (by decide) ⟨0, by decide, by decide⟩⟩

/-- C16 fails on the code: the indirect descriptor 9 of the example has a table of
1048592 bytes, that is 65537 entries, more than the 256 entries of the ring; the 16-bit
`indir_count` is 1, so `vq_map_indir_desc_bufs` accepts the table, maps its first
sub-descriptor and returns 0, and `vq_popchain` returns 1 and advances the cursor. -/
theorem vq_map_indir_desc_bufs_truncates_count :
    (ex_indir_desc 1048592).vd_len < 2 ^ 32 ∧
    (ex_indir_desc 1048592).vd_len / SIZEOF_virtio_desc = 65537 ∧
    (ex_indir_desc 1048592).vd_len / SIZEOF_virtio_desc > ex_ring.vr_size ∧
    vq_map_indir_desc_bufs 10 ex_kva
        (ex_mem_indir 1048592 { vd_addr := 20496, vd_len := 100, vd_flags := 0, vd_next := 0 }
          { vd_addr := 0, vd_len := 0, vd_flags := 0, vd_next := 0 })
        ex_ring (ex_indir_desc 1048592) ex_iov 8 0 =
      Outcome.done
        { err := 0, ring := ex_ring,
          iov := iov_set ex_iov 0 { iov_base := 16797712, iov_len := 100 }, idx := 1 } ∧
    vq_popchain 10 ex_kva
        (ex_mem_indir 1048592 { vd_addr := 20496, vd_len := 100, vd_flags := 0, vd_next := 0 }
          { vd_addr := 0, vd_len := 0, vd_flags := 0, vd_next := 0 })
        ex_ring ex_iov 8 99 =
      Outcome.done
        { ret := 1, ring := { ex_ring with vr_cur_aidx := (ex_ring.vr_cur_aidx + 1) % 65536 },
          iov := iov_set ex_iov 0 { iov_base := 16797712, iov_len := 100 }, cookie := 9 } :=
  ⟨by decide, by decide, by decide, rfl, rfl⟩

/-- C19 fails on the code: on the example chain 5, 7, 2 with a vector of one entry,
descriptor 5 fills the vector and has has-next set; the loop of `vq_popchain` ends on
its condition `i < niov` and -1 is returned with no fault counter changed, so
`too_many_desc` is not incremented. -/
theorem vq_popchain_full_vector_uncounted :
    (∃ d, vq_read_desc ex_mem ex_ring 5 = Outcome.done d ∧
      d.vd_flags &&& VRING_DESC_F_NEXT ≠ 0 ∧ d.vd_flags &&& VRING_DESC_F_INDIRECT = 0 ∧
      vq_popchain_walk 10 ex_kva ex_mem 1 5 99 1 (ex_pop_state 5) =
        Outcome.done
          (Pass.again
            { ring := ex_ring, iov := iov_set ex_iov 0 (ex_pop.iov 0), i := 1,
              next := d.vd_next })) ∧
    ∃ r, vq_popchain 10 ex_kva ex_mem ex_ring ex_iov 1 99 = Outcome.done r ∧
      r.ret = -1 ∧ r.cookie = 99 ∧ r.ring = ex_ring ∧
      r.ring.vr_stats.rs_too_many_desc = ex_ring.vr_stats.rs_too_many_desc ∧
      r.ring.vr_stats.rs_too_many_desc ≠ STAT_INCR ex_ring.vr_stats.rs_too_many_desc :=
  ⟨⟨_, rfl, by decide, by decide, rfl⟩, _, rfl, rfl, rfl, rfl, rfl, by decide⟩

/-- The part of C16 that holds: a table of fewer than 65536 entries (`vd_len < 2^20`)
that is empty or has more entries than the ring is rejected with `EINVAL` and counted
in `indir_bad_len`. -/
theorem vq_map_indir_desc_bufs_rejects_count (fuel : Nat) (gpa2kva : Nat → Nat) (mem : Mem)
    (ring : viona_vring_t) (desc : virtio_desc) (iov : Nat → iovec) (niov idx : Nat)
    (hlen : desc.vd_len < 1048576)
    (h : desc.vd_len = 0 ∨ desc.vd_len / SIZEOF_virtio_desc > ring.vr_size) :
    vq_map_indir_desc_bufs fuel gpa2kva mem ring desc iov niov idx =
      Outcome.done { err := EINVAL, ring := incr_indir_bad_len ring, iov := iov, idx := idx } := by
  unfold vq_map_indir_desc_bufs
  simp only
  rw [if_pos]
  unfold SIZEOF_virtio_desc at *
  rcases h with h | h
  · right; left; omega
  · right; right; left; omega

/-- The part of C19 that holds at top level: a visited direct descriptor of non-zero
length that spans more pages than the vector has left is rejected with `too_many_desc`
counted. -/
theorem vq_popchain_too_many_pages {fuel : Nat} {gpa2kva : Nat → Nat} {mem : Mem}
    {ring : viona_vring_t} {iov : Nat → iovec} {niov cookie n : Nat} {s : PopState}
    {vdir : virtio_desc}
    (hv : pop_visits fuel gpa2kva mem ring iov niov cookie n s vdir) (hf : n + 1 ≤ fuel)
    (hind : vdir.vd_flags &&& VRING_DESC_F_INDIRECT = 0) (hlen : vdir.vd_len ≠ 0)
    (hroom : desc_pages vdir > niov - s.i) :
    vq_popchain fuel gpa2kva mem ring iov niov cookie =
      Outcome.done
        { ret := -1, ring := incr_too_many_desc s.ring, iov := s.iov, cookie := cookie } := by
  have hsi : s.i < niov := hv.2.choose_spec.choose_spec.2.2.2.2.1
  have hniov : niov < 4294967296 := by
    have := hv.1.2
    unfold INT_MAX at this
    omega
  have hpm : vq_popchain_map fuel gpa2kva mem s.ring vdir s.iov niov s.i =
      Outcome.done
        { err := E2BIG, ring := incr_too_many_desc s.ring, iov := s.iov, idx := s.i } := by
    unfold vq_popchain_map
    rw [if_pos hind]
    unfold vq_map_desc_bufs
    simp only
    rw [if_neg (by simpa using hsi), if_neg hlen, if_pos]
    have e32 : (2:Nat) ^ 32 = 4294967296 := by norm_num
    rw [e32]
    omega
  exact (vq_popchain_reject_at hv hf hpm (by simp [E2BIG])).1

/-- C21: if the available index of the guest equals `vr_cur_aidx`, `vq_popchain` returns
0 and leaves the ring (cursor and fault counters), the vector and the cookie as they
are. Only the available index is constrained: the result is the same for every other
content of memory, for every translation and with no fuel at all, so no entry of the
available ring and no descriptor is read. -/
theorem vq_popchain_nothing_available (fuel : Nat) (gpa2kva : Nat → Nat) (mem : Mem)
    (ring : viona_vring_t) (iov : Nat → iovec) (niov cookie a : Nat)
    (hn : niov > 0 ∧ niov < INT_MAX)
    (ha : viona_ring_addr ring ((LEGACY_AVAIL_IDX_OFF ring.vr_size) % 2 ^ 32) = Outcome.done a)
    (he : rd16 mem a = ring.vr_cur_aidx) :
    vq_popchain fuel gpa2kva mem ring iov niov cookie =
      Outcome.done { ret := 0, ring := ring, iov := iov, cookie := cookie } ∧
    vq_popchain 0 gpa2kva mem ring iov niov cookie =
      Outcome.done { ret := 0, ring := ring, iov := iov, cookie := cookie } ∧
    ∀ (gpa2kva1 : Nat → Nat) (mem1 : Mem), rd16 mem1 a = rd16 mem a →
      vq_popchain fuel gpa2kva1 mem1 ring iov niov cookie =
        Outcome.done { ret := 0, ring := ring, iov := iov, cookie := cookie } := by
  have key : ∀ (f : Nat) (g : Nat → Nat) (m : Mem), rd16 m a = rd16 mem a →
      vq_popchain f g m ring iov niov cookie =
        Outcome.done { ret := 0, ring := ring, iov := iov, cookie := cookie } := by
    intro f g m hm
    have hlt := rd16_lt mem a
    unfold vq_popchain viona_ring_num_avail
    rw [if_neg (by simpa using hn), ha]
    simp only
    rw [if_pos]
    rw [hm, he]
    rw [he] at hlt
    omega
  exact ⟨key fuel gpa2kva mem rfl, key 0 gpa2kva mem rfl, fun g m hm => key fuel g m hm⟩

/-- Witness for C21: the example ring after the one published chain has been popped. -/
theorem vq_popchain_nothing_available_witness :
    vq_popchain 10 ex_kva ex_mem ex_pop.ring ex_iov 8 99 =
      Outcome.done { ret := 0, ring := ex_pop.ring, iov := ex_iov, cookie := 99 } :=
  (vq_popchain_nothing_available 10 ex_kva ex_mem ex_pop.ring ex_iov 8 99 131074 (by decide)
    rfl rfl).1

theorem or_one_lt (x : Nat) (hx : x < 65536) : x ||| 1 < 65536 := by
  have h : x ||| 1 < 2 ^ 16 := Nat.or_lt_two_pow (by norm_num; exact hx) (by norm_num)
  norm_num at h
  exact h

theorem and_not_one_lt (x : Nat) (hx : x < 65536) : x &&& 4294967294 < 65536 :=
  lt_of_le_of_lt Nat.and_le_left hx

theorem or_one_and_one (x : Nat) : (x ||| 1) &&& 1 = 1 := by
  apply Nat.eq_of_testBit_eq
  intro i
  simp only [Nat.testBit_and, Nat.testBit_or]
  cases i with
  | zero => simp
  | succ j => simp [Nat.testBit_succ]

theorem and_not_one_and_one (x : Nat) : (x &&& 4294967294) &&& 1 = 0 := by
  apply Nat.eq_of_testBit_eq
  intro i
  simp only [Nat.testBit_and]
  cases i with
  | zero => simp
  | succ j => simp [Nat.testBit_succ]

theorem or_one_testBit (x i : Nat) (hi : 0 < i) : (x ||| 1).testBit i = x.testBit i := by
  rw [Nat.testBit_or]
  cases i with
  | zero => omega
  | succ j => simp [Nat.testBit_succ]

theorem and_not_one_testBit (x i : Nat) (hx : x < 65536) (hi : 0 < i) :
    (x &&& 4294967294).testBit i = x.testBit i := by
  rw [Nat.testBit_and]
  by_cases h : i < 32
  · have e : (4294967294 : Nat) = 2 ^ 32 - 2 := by norm_num
    have hb : (4294967294 : Nat).testBit i = true := by
      interval_cases i <;> first | omega | decide
    rw [hb, Bool.and_true]
  · have hxi : x.testBit i = false := by
      apply Nat.testBit_lt_two_pow
      calc x < 65536 := hx
        _ = 2 ^ 16 := by norm_num
        _ ≤ 2 ^ i := Nat.pow_le_pow_right (by norm_num) (by omega)
    rw [hxi, Bool.false_and]

theorem or_one_or_one (x : Nat) : (x ||| 1) ||| 1 = x ||| 1 := by
  rw [Nat.or_assoc, Nat.or_self]

theorem and_not_one_twice (x : Nat) : (x &&& 4294967294) &&& 4294967294 = x &&& 4294967294 := by
  rw [Nat.and_assoc, Nat.and_self]

theorem or_one_and_not_one (x : Nat) : (x ||| 1) &&& 4294967294 = x &&& 4294967294 := by
  apply Nat.eq_of_testBit_eq
  intro i
  simp only [Nat.testBit_and, Nat.testBit_or]
  cases i with
  | zero => simp
  | succ j => simp [Nat.testBit_succ]

theorem and_not_one_or_one (x : Nat) (hx : x < 65536) :
    (x &&& 4294967294) ||| 1 = x ||| 1 := by
  apply Nat.eq_of_testBit_eq
  intro i
  rw [Nat.testBit_or, Nat.testBit_or]
  cases i with
  | zero => simp
  | succ j => rw [and_not_one_testBit x (j + 1) hx (by omega)]

theorem wr16_wr16 (m : Mem) (a v w : Nat) : wr16 (wr16 m a v) a w = wr16 m a w := by
  funext x
  simp only [wr16_apply]
  split
  · rfl
  · split
    · rfl
    · rfl

theorem viona_ring_disable_notify_eq (mem : Mem) (ring : viona_vring_t) (a : Nat)
    (ha : viona_ring_addr ring ((LEGACY_USED_FLAGS_OFF ring.vr_size) % 2 ^ 32) = Outcome.done a) :
    viona_ring_disable_notify mem ring = Outcome.done (wr16 mem a (rd16 mem a ||| 1)) := by
  unfold viona_ring_disable_notify
  rw [ha]
  simp only [VRING_USED_F_NO_NOTIFY]
  rw [Nat.mod_eq_of_lt (or_one_lt _ (rd16_lt mem a))]

theorem viona_ring_enable_notify_eq (mem : Mem) (ring : viona_vring_t) (a : Nat)
    (ha : viona_ring_addr ring ((LEGACY_USED_FLAGS_OFF ring.vr_size) % 2 ^ 32) = Outcome.done a) :
    viona_ring_enable_notify mem ring = Outcome.done (wr16 mem a (rd16 mem a &&& 4294967294)) := by
  unfold viona_ring_enable_notify
  rw [ha]
  simp only [VRING_USED_F_NO_NOTIFY]
  have e : (2 : Nat) ^ 32 - 1 - 1 = 4294967294 := by norm_num
  rw [e, Nat.mod_eq_of_lt (and_not_one_lt _ (rd16_lt mem a))]

theorem rd16_wr16_or (mem : Mem) (a : Nat) :
    rd16 (wr16 mem a (rd16 mem a ||| 1)) a = rd16 mem a ||| 1 := by
  rw [rd16_wr16, Nat.mod_eq_of_lt (or_one_lt _ (rd16_lt mem a))]

theorem rd16_wr16_and (mem : Mem) (a : Nat) :
    rd16 (wr16 mem a (rd16 mem a &&& 4294967294)) a = rd16 mem a &&& 4294967294 := by
  rw [rd16_wr16, Nat.mod_eq_of_lt (and_not_one_lt _ (rd16_lt mem a))]

/-- C25: on a ring whose used-ring flags word is mapped at host address `a`,
`viona_ring_disable_notify` sets the bit `VRING_USED_F_NO_NOTIFY` of that word and
`viona_ring_enable_notify` clears it; each leaves the other bits of the word and every
other byte of memory as they are, and doing either a second time changes nothing;
enabling after disabling gives the memory that enabling alone gives (bit clear), and
disabling after enabling the memory that disabling alone gives (bit set). -/
theorem viona_ring_notify_flags (mem : Mem) (ring : viona_vring_t) (a : Nat)
    (ha : viona_ring_addr ring ((LEGACY_USED_FLAGS_OFF ring.vr_size) % 2 ^ 32) = Outcome.done a) :
    ∃ md me, viona_ring_disable_notify mem ring = Outcome.done md ∧
      viona_ring_enable_notify mem ring = Outcome.done me ∧
      rd16 md a &&& VRING_USED_F_NO_NOTIFY = VRING_USED_F_NO_NOTIFY ∧
      rd16 me a &&& VRING_USED_F_NO_NOTIFY = 0 ∧
      (∀ i, 0 < i → (rd16 md a).testBit i = (rd16 mem a).testBit i ∧
        (rd16 me a).testBit i = (rd16 mem a).testBit i) ∧
      (∀ x, x ≠ a → x ≠ a + 1 → md x = mem x ∧ me x = mem x) ∧
      viona_ring_disable_notify md ring = Outcome.done md ∧
      viona_ring_enable_notify me ring = Outcome.done me ∧
      viona_ring_enable_notify md ring = Outcome.done me ∧
      viona_ring_disable_notify me ring = Outcome.done md := by
  refine ⟨wr16 mem a (rd16 mem a ||| 1), wr16 mem a (rd16 mem a &&& 4294967294),
    viona_ring_disable_notify_eq mem ring a ha, viona_ring_enable_notify_eq mem ring a ha,
    ?_, ?_, ?_, ?_, ?_, ?_, ?_, ?_⟩
  · rw [rd16_wr16_or]
    exact or_one_and_one _
  · rw [rd16_wr16_and]
    exact and_not_one_and_one _
  · intro i hi
    rw [rd16_wr16_or, rd16_wr16_and]
    exact ⟨or_one_testBit _ i hi, and_not_one_testBit _ i (rd16_lt mem a) hi⟩
  · intro x h1 h2
    have h : ∀ k, k < 2 → x ≠ a + k := by
      intro k hk
      interval_cases k
      · simpa using h1
      · exact h2
    exact ⟨wr16_other mem a _ x h, wr16_other mem a _ x h⟩
  · rw [viona_ring_disable_notify_eq _ ring a ha, rd16_wr16_or, or_one_or_one, wr16_wr16]
  · rw [viona_ring_enable_notify_eq _ ring a ha, rd16_wr16_and, and_not_one_twice, wr16_wr16]
  · rw [viona_ring_enable_notify_eq _ ring a ha, rd16_wr16_or, or_one_and_not_one, wr16_wr16]
  · rw [viona_ring_disable_notify_eq _ ring a ha, rd16_wr16_and,
      and_not_one_or_one _ (rd16_lt mem a), wr16_wr16]

/-- Witness for C25: the used-ring flags word of the example ring lies at host address
196608. -/
theorem viona_ring_notify_flags_witness :
    ∃ md me, viona_ring_disable_notify ex_mem ex_ring = Outcome.done md ∧
      viona_ring_enable_notify ex_mem ex_ring = Outcome.done me ∧
      rd16 md 196608 &&& VRING_USED_F_NO_NOTIFY = VRING_USED_F_NO_NOTIFY ∧
      rd16 me 196608 &&& VRING_USED_F_NO_NOTIFY = 0 ∧
      (∀ i, 0 < i → (rd16 md 196608).testBit i = (rd16 ex_mem 196608).testBit i ∧
        (rd16 me 196608).testBit i = (rd16 ex_mem 196608).testBit i) ∧
      (∀ x, x ≠ 196608 → x ≠ 196608 + 1 → md x = ex_mem x ∧ me x = ex_mem x) ∧
      viona_ring_disable_notify md ex_ring = Outcome.done md ∧
      viona_ring_enable_notify me ex_ring = Outcome.done me ∧
      viona_ring_enable_notify md ex_ring = Outcome.done me ∧
      viona_ring_disable_notify me ex_ring = Outcome.done md :=
  viona_ring_notify_flags ex_mem ex_ring 196608 rfl

theorem viona_intr_ring_of_allowed {mem : Mem} {ring : viona_vring_t} {skip_flags_check : Bool}
    (h : intr_allowed mem ring skip_flags_check) :
    viona_intr_ring mem ring skip_flags_check = Outcome.done (viona_intr_ring_deliver ring) := by
  unfold viona_intr_ring
  rcases h with h | ⟨a, ha, hz⟩
  · rw [h]; simp
  · cases skip_flags_check
    · simp only [Bool.false_eq_true, not_false_eq_true, if_true]
      rw [ha]
      simp only
      rw [if_neg (by simpa using hz)]
    · simp

/-- C26: `viona_intr_ring(ring, skip_flags_check)`. When the flags are looked at and the
guest has `VRING_AVAIL_F_NO_INTERRUPT` set, the ring is unchanged and nothing is
requested. Otherwise, with `vr_msi_addr != 0` exactly one MSI with
`(vr_msi_addr, vr_msi_msg)` is requested and the ring, with its pending flag, is
unchanged; with `vr_msi_addr == 0` only `vr_intr_enabled` may change: it is 1 afterwards
when it was 0 or 1, exactly one poll wake-up is requested when it was 0 and none
otherwise, and a second signal on the ring thus left requests nothing and changes
nothing. -/
theorem viona_intr_ring_exact (mem : Mem) (ring : viona_vring_t) (skip_flags_check : Bool) :
    (intr_suppressed mem ring skip_flags_check →
      viona_intr_ring mem ring skip_flags_check = Outcome.done (ring, [])) ∧
    (intr_allowed mem ring skip_flags_check → ring.vr_msi_addr ≠ 0 →
      viona_intr_ring mem ring skip_flags_check =
        Outcome.done (ring, [intr_event.msi ring.vr_msi_addr ring.vr_msi_msg])) ∧
    (intr_allowed mem ring skip_flags_check → ring.vr_msi_addr = 0 →
      ∃ r ev, viona_intr_ring mem ring skip_flags_check = Outcome.done (r, ev) ∧
        r = { ring with vr_intr_enabled := r.vr_intr_enabled } ∧
        r.vr_intr_enabled = (if ring.vr_intr_enabled = 0 then 1 else ring.vr_intr_enabled) ∧
        (ring.vr_intr_enabled ≤ 1 → r.vr_intr_enabled = 1) ∧
        ev = (if ring.vr_intr_enabled = 0 then [intr_event.pollwakeup] else []) ∧
        (intr_event.pollwakeup ∈ ev ↔ ring.vr_intr_enabled = 0) ∧
        viona_intr_ring mem r skip_flags_check = Outcome.done (r, [])) := by
  refine ⟨?_, ?_, ?_⟩
  · rintro ⟨hs, a, ha, hf⟩
    unfold viona_intr_ring
    rw [hs]
    simp only [Bool.false_eq_true, not_false_eq_true, if_true]
    rw [ha]
    simp only
    rw [if_pos hf]
  · intro h hm
    rw [viona_intr_ring_of_allowed h]
    unfold viona_intr_ring_deliver
    simp only
    rw [if_pos hm]
  · intro h hm
    rw [viona_intr_ring_of_allowed h]
    by_cases h0 : ring.vr_intr_enabled = 0
    · refine ⟨{ ring with vr_intr_enabled := 1 }, [intr_event.pollwakeup], ?_, rfl, ?_, ?_, ?_,
        ?_, ?_⟩
      · unfold viona_intr_ring_deliver atomic_cas_uint
        simp [hm, h0]
      · simp [h0]
      · intro _; rfl
      · simp [h0]
      · simp [h0]
      · have h2 : intr_allowed mem { ring with vr_intr_enabled := 1 } skip_flags_check := h
        rw [viona_intr_ring_of_allowed h2]
        unfold viona_intr_ring_deliver atomic_cas_uint
        simp [hm]
    · refine ⟨ring, [], ?_, rfl, ?_, ?_, ?_, ?_, ?_⟩
      · unfold viona_intr_ring_deliver atomic_cas_uint
        simp only
        rw [if_neg (not_not.mpr hm), if_neg h0, if_neg h0]
      · simp [h0]
      · intro hle; omega
      · simp [h0]
      · simp [h0]
      · rw [viona_intr_ring_of_allowed h]
        unfold viona_intr_ring_deliver atomic_cas_uint
        simp only
        rw [if_neg (not_not.mpr hm), if_neg h0, if_neg h0]

/-- Witness for C26 on the example ring: the guest has `VRING_AVAIL_F_NO_INTERRUPT` set;
an MSI is configured; neither, with the pending flag clear. -/
theorem viona_intr_ring_exact_witness :
    viona_intr_ring ex_mem_noint ex_ring false = Outcome.done (ex_ring, []) ∧
    viona_intr_ring ex_mem ex_ring_msi false =
      Outcome.done (ex_ring_msi, [intr_event.msi 4276092928 33]) ∧
    ∃ r ev, viona_intr_ring ex_mem ex_ring false = Outcome.done (r, ev) ∧
        r = { ex_ring with vr_intr_enabled := r.vr_intr_enabled } ∧
        r.vr_intr_enabled = (if ex_ring.vr_intr_enabled = 0 then 1 else ex_ring.vr_intr_enabled) ∧
        (ex_ring.vr_intr_enabled ≤ 1 → r.vr_intr_enabled = 1) ∧
        ev = (if ex_ring.vr_intr_enabled = 0 then [intr_event.pollwakeup] else []) ∧
        (intr_event.pollwakeup ∈ ev ↔ ex_ring.vr_intr_enabled = 0) ∧
        viona_intr_ring ex_mem r false = Outcome.done (r, []) :=
  ⟨(viona_intr_ring_exact ex_mem_noint ex_ring false).1 ⟨rfl, 131072, rfl, by decide⟩,
   (viona_intr_ring_exact ex_mem ex_ring_msi false).2.1 (Or.inr ⟨131072, rfl, by decide⟩)
     (by decide),
   (viona_intr_ring_exact ex_mem ex_ring false).2.2 (Or.inr ⟨131072, rfl, by decide⟩) rfl⟩

/-- The mapping loop of `viona_ring_map` on pages that all translate: `B_TRUE`, with a
page table of the allocated length and no other field touched. -/
theorem viona_ring_map_loop_ok (gpa2kva : Nat → Nat) (n : Nat) :
    ∀ (i pa : Nat) (ring : viona_vring_t) (map : List Nat),
      ring.vr_map_pages = some map → i + n ≤ map.length → ring.vr_lease ≠ none →
      pa % 4096 = 0 → pa < 2 ^ 64 →
      (∀ t, t < n → gpa2kva ((pa + t * 4096) % 2 ^ 64) ≠ 0) →
      ∃ l, l.length = map.length ∧
        viona_ring_map_loop gpa2kva n i pa ring =
          Outcome.done (true, { ring with vr_map_pages := some l }) := by
  induction n with
  | zero =>
    intro i pa ring map hm _ _ _ _ _
    refine ⟨map, rfl, ?_⟩
    simp only [viona_ring_map_loop]
    rw [← hm]
  | succ n ih =>
    intro i pa ring map hm hi hl ha hp ht
    have e64 : (2:Nat) ^ 64 = 18446744073709551616 := by norm_num
    have h0 : gpa2kva pa ≠ 0 := by
      have := ht 0 (by omega)
      rw [Nat.zero_mul, Nat.add_zero, Nat.mod_eq_of_lt hp] at this
      exact this
    obtain ⟨l, hl1, hl2⟩ := ih (i + 1) ((pa + PAGESIZE) % 2 ^ 64)
      { ring with vr_map_pages := some (map.set i (gpa2kva pa)) } (map.set i (gpa2kva pa)) rfl
      (by rw [List.length_set]; omega) hl
      (by unfold PAGESIZE; rw [e64]; omega) (Nat.mod_lt _ (by norm_num))
      (by
        intro t htn
        have := ht (t + 1) (by omega)
        have e : ((pa + PAGESIZE) % 2 ^ 64 + t * 4096) % 2 ^ 64 =
            (pa + (t + 1) * 4096) % 2 ^ 64 := by
          unfold PAGESIZE; rw [e64]; omega
        rw [e]; exact this)
    refine ⟨l, by rw [hl1, List.length_set], ?_⟩
    unfold viona_ring_map_loop
    rw [viona_hold_page_ok gpa2kva ring pa hl ha]
    simp only [if_neg h0, hm]
    rw [if_pos (by omega), hl2]

/-- The mapping loop of `viona_ring_map` when one of the pages does not translate:
`B_FALSE`, with the page table released and no other field touched. -/
theorem viona_ring_map_loop_false (gpa2kva : Nat → Nat) (n : Nat) :
    ∀ (i pa : Nat) (ring : viona_vring_t) (map : List Nat),
      ring.vr_map_pages = some map → map.length = LEGACY_VQ_PAGES ring.vr_size % 2 ^ 32 →
      i + n ≤ map.length → ring.vr_lease ≠ none → pa % 4096 = 0 → pa < 2 ^ 64 →
      (∃ t, t < n ∧ gpa2kva ((pa + t * 4096) % 2 ^ 64) = 0) →
      viona_ring_map_loop gpa2kva n i pa ring =
        Outcome.done (false, { ring with vr_map_pages := none }) := by
  induction n with
  | zero =>
    intro i pa ring map _ _ _ _ _ _ hb
    obtain ⟨t, ht, _⟩ := hb
    omega
  | succ n ih =>
    intro i pa ring map hm hlen hi hl ha hp hb
    have e64 : (2:Nat) ^ 64 = 18446744073709551616 := by norm_num
    unfold viona_ring_map_loop
    rw [viona_hold_page_ok gpa2kva ring pa hl ha]
    simp only
    by_cases h0 : gpa2kva pa = 0
    · rw [if_pos h0]
      unfold viona_ring_unmap
      simp only [hm]
      rw [if_pos hlen]
    · rw [if_neg h0]
      simp only [hm]
      rw [if_pos (by omega)]
      obtain ⟨t, ht, hz⟩ := hb
      have ht0 : t ≠ 0 := by
        intro e
        subst e
        rw [Nat.zero_mul, Nat.add_zero, Nat.mod_eq_of_lt hp] at hz
        exact h0 hz
      exact ih (i + 1) ((pa + PAGESIZE) % 2 ^ 64)
        { ring with vr_map_pages := some (map.set i (gpa2kva pa)) } (map.set i (gpa2kva pa)) rfl
        (by rw [List.length_set]; exact hlen)
        (by rw [List.length_set]; omega) hl
        (by unfold PAGESIZE; rw [e64]; omega) (Nat.mod_lt _ (by norm_num))
        ⟨t - 1, by omega, by
          have e : ((pa + PAGESIZE) % 2 ^ 64 + (t - 1) * 4096) % 2 ^ 64 =
              (pa + t * 4096) % 2 ^ 64 := by
            unfold PAGESIZE; rw [e64]; omega
          rw [e]; exact hz⟩

/-- The preconditions that `viona_ring_map` asserts, for a ring that holds a lease, has
nothing mapped and has been given a valid size and address. -/
theorem viona_ring_map_eq (gpa2kva : Nat → Nat) (ring : viona_vring_t)
    (hq0 : ring.vr_size ≠ 0) (hq : ring.vr_size ≤ 32768) (hpa0 : ring.vr_pa ≠ 0)
    (hpa : ring.vr_pa % 4096 = 0) (hm : ring.vr_map_pages = none) :
    viona_ring_map gpa2kva ring =
      viona_ring_map_loop gpa2kva (LEGACY_VQ_PAGES ring.vr_size % 2 ^ 32) 0 ring.vr_pa
        { ring with
          vr_map_pages := some (List.replicate (LEGACY_VQ_PAGES ring.vr_size % 2 ^ 32) 0) } := by
  unfold viona_ring_map
  simp only
  rw [if_neg hq0, if_neg (by unfold VRING_MAX_LEN; omega), if_neg hpa0,
    if_neg (by rw [land_align]; simpa using hpa), if_neg (by simp [LEGACY_VQ_ALIGN]),
    if_neg (by simpa using hm)]

/-- The function `viona_ring_map` when every page of the ring translates. -/
theorem viona_ring_map_ok (gpa2kva : Nat → Nat) (ring : viona_vring_t)
    (hq0 : ring.vr_size ≠ 0) (hq : ring.vr_size ≤ 32768) (hpa0 : ring.vr_pa ≠ 0)
    (hpa : ring.vr_pa % 4096 = 0) (hp64 : ring.vr_pa < 2 ^ 64) (hm : ring.vr_map_pages = none)
    (hl : ring.vr_lease ≠ none)
    (ht : ∀ t, t < LEGACY_VQ_PAGES ring.vr_size →
      gpa2kva ((ring.vr_pa + t * 4096) % 2 ^ 64) ≠ 0) :
    ∃ l, l.length = LEGACY_VQ_PAGES ring.vr_size % 2 ^ 32 ∧
      viona_ring_map gpa2kva ring =
        Outcome.done (true, { ring with vr_map_pages := some l }) := by
  rw [viona_ring_map_eq gpa2kva ring hq0 hq hpa0 hpa hm]
  obtain ⟨l, h1, h2⟩ := viona_ring_map_loop_ok gpa2kva (LEGACY_VQ_PAGES ring.vr_size % 2 ^ 32) 0
    ring.vr_pa
    { ring with
      vr_map_pages := some (List.replicate (LEGACY_VQ_PAGES ring.vr_size % 2 ^ 32) 0) }
    _ rfl (by simp) hl hpa hp64
    (fun t htn => ht t (lt_of_lt_of_le htn (Nat.mod_le _ _)))
  exact ⟨l, by rw [h1]; simp, h2⟩

/-- The function `viona_ring_map` when one of the pages of the ring does not
translate. -/
theorem viona_ring_map_false (gpa2kva : Nat → Nat) (ring : viona_vring_t)
    (hq0 : ring.vr_size ≠ 0) (hq : ring.vr_size ≤ 32768) (hpa0 : ring.vr_pa ≠ 0)
    (hpa : ring.vr_pa % 4096 = 0) (hp64 : ring.vr_pa < 2 ^ 64) (hm : ring.vr_map_pages = none)
    (hl : ring.vr_lease ≠ none)
    (hb : ∃ t, t < LEGACY_VQ_PAGES ring.vr_size ∧
      gpa2kva ((ring.vr_pa + t * 4096) % 2 ^ 64) = 0) :
    viona_ring_map gpa2kva ring = Outcome.done (false, ring) := by
  rw [viona_ring_map_eq gpa2kva ring hq0 hq hpa0 hpa hm]
  have hsmall : LEGACY_VQ_PAGES ring.vr_size % 2 ^ 32 = LEGACY_VQ_PAGES ring.vr_size := by
    apply Nat.mod_eq_of_lt
    have h1 := LEGACY_VQ_PAGES_mul ring.vr_size (by omega)
    have h2 := LEGACY_VQ_SIZE_eq ring.vr_size (by omega)
    omega
  rw [viona_ring_map_loop_false gpa2kva (LEGACY_VQ_PAGES ring.vr_size % 2 ^ 32) 0 ring.vr_pa
    { ring with
      vr_map_pages := some (List.replicate (LEGACY_VQ_PAGES ring.vr_size % 2 ^ 32) 0) }
    _ rfl (by simp) (by simp) hl hpa hp64 (by rw [hsmall]; exact hb)]
  cases ring
  simp only at hm
  subst hm
  rfl

/-- The function `viona_ring_lease_drop` on a ring whose mappings are consistent: lease
and page table are released and no other field is touched. -/
theorem viona_ring_lease_drop_eq (hold : Option Nat) (ring : viona_vring_t)
    (hh : ring.vr_lease ≠ none → hold ≠ none) (hc : ring_map_consistent ring) :
    viona_ring_lease_drop hold ring =
      Outcome.done { ring with vr_lease := none, vr_map_pages := none } := by
  unfold viona_ring_lease_drop
  by_cases hl : ring.vr_lease = none
  · rw [if_neg (by simpa using hl)]
    have hm : ring.vr_map_pages = none := by
      cases hmm : ring.vr_map_pages with
      | none => rfl
      | some m => exact absurd hl (hc m hmm).1
    cases ring
    simp only at hl hm
    subst hl hm
    rfl
  · rw [if_pos hl, if_neg (hh hl)]
    unfold viona_ring_unmap
    cases hmm : ring.vr_map_pages with
    | none =>
      simp only
      cases ring
      simp only at hmm
      subst hmm
      rfl
    | some m =>
      simp only
      rw [if_pos (hc m hmm).2]

/-- The code of `viona_ring_init` behind the label `fail`, on a ring whose mappings are
consistent. -/
theorem viona_ring_init_fail_eq (hold : Option Nat) (ring : viona_vring_t)
    (hh : ring.vr_lease ≠ none → hold ≠ none) (hc : ring_map_consistent ring) :
    viona_ring_init_fail hold ring =
      Outcome.done
        { ring with vr_lease := none, vr_map_pages := none, vr_txdesb := none, vr_size := 0,
                    vr_mask := 0, vr_pa := 0 } := by
  unfold viona_ring_init_fail
  rw [viona_ring_lease_drop_eq hold ring hh hc]
  rfl

/-- The function `viona_ring_lease_renew` on a ring without lease, mappings and size, as
`viona_ring_init` calls it: the lease is what `vmm_drv_lease_sign` returns. -/
theorem viona_ring_lease_renew_fresh (sign : Option Nat) (gpa2kva : Nat → Nat)
    (hold : Option Nat) (ring : viona_vring_t) (hh : hold ≠ none)
    (hl : ring.vr_lease = none) (hm : ring.vr_map_pages = none) (hs : ring.vr_size = 0) :
    viona_ring_lease_renew sign gpa2kva hold ring =
      Outcome.done (sign.isSome, { ring with vr_lease := sign }) := by
  unfold viona_ring_lease_renew
  rw [if_neg hh, viona_ring_lease_drop_eq hold ring (fun h => absurd hl h)
    (by intro m h; rw [hm] at h; cases h)]
  simp only
  cases sign with
  | none => simp [hm]
  | some l => simp [hs, hm]

/-- The function `viona_ring_init` on arguments that pass its validation: what is done
on the addressed ring decides. -/
theorem viona_ring_init_valid (sign : Option Nat) (gpa2kva : Nat → Nat) (thread : Option Nat)
    (link : viona_link_t) (idx qsz pa : Nat) (hidx : idx < VIONA_VQ_MAX) (hq0 : qsz ≠ 0)
    (hq : qsz ≤ 32768) (hpow : ∃ k, qsz = 2 ^ k) (hpa : pa % PAGESIZE = 0) {err : Nat}
    {r : viona_vring_t}
    (h : viona_ring_init_ring sign gpa2kva thread link.l_vm_hold (link.l_vrings idx) idx qsz pa =
      Outcome.done (err, r)) :
    viona_ring_init sign gpa2kva thread link idx qsz pa =
      Outcome.done (err, link_set_ring link idx r) := by
  unfold viona_ring_init
  rw [if_neg (by omega)]
  have ht : ¬ ((1 <<< (ffs qsz - 1)) ≠ qsz) := by
    intro hc
    exact (ffs_test_iff qsz (by omega) (by omega)).1 hc hpow
  rw [if_neg (by unfold VRING_MAX_LEN; intro hc; rcases hc with hc | hc | hc
                 · exact hq0 hc
                 · omega
                 · exact ht hc)]
  rw [if_neg (by rw [land_align]; unfold PAGESIZE at hpa; omega), h]

/-- On a ring in `VRS_RESET` without size and mappings, `viona_ring_init` fails with
`EBUSY` when no lease is signed, and leaves the ring at rest. -/
theorem viona_ring_init_ring_no_lease (gpa2kva : Nat → Nat) (thread hold : Option Nat)
    (ring : viona_vring_t) (idx qsz pa : Nat) (hh : hold ≠ none)
    (hst : ring.vr_state = VRS_RESET) (hfl : ring.vr_state_flags = 0)
    (hsz : ring.vr_size = 0) (hmap : ring.vr_map_pages = none) :
    ∃ r, viona_ring_init_ring none gpa2kva thread hold ring idx qsz pa =
        Outcome.done (EBUSY, r) ∧ ring_at_reset r := by
  unfold viona_ring_init_ring
  rw [if_neg (by simpa using hst), if_neg (by simpa using hfl)]
  simp only
  rw [viona_ring_lease_renew_fresh none gpa2kva hold { ring with vr_lease := none } hh rfl hmap
    hsz]
  simp only [Option.isSome_none, Bool.false_eq_true, not_false_eq_true, if_true]
  rw [viona_ring_init_fail_eq hold { ring with vr_lease := none } (fun h => absurd rfl h)
    (by intro m h; simp only at h; rw [hmap] at h; cases h)]
  exact ⟨_, rfl, hst, hfl, rfl, rfl, rfl, rfl, rfl⟩

/-- On a ring in `VRS_RESET` without size and mappings, `viona_ring_init` fails with
`EINVAL` when a lease is signed and a page of the ring does not translate, and leaves
the ring at rest. -/
theorem viona_ring_init_ring_no_map (l : Nat) (gpa2kva : Nat → Nat) (thread hold : Option Nat)
    (ring : viona_vring_t) (idx qsz pa : Nat) (hh : hold ≠ none)
    (hst : ring.vr_state = VRS_RESET) (hfl : ring.vr_state_flags = 0)
    (hsz : ring.vr_size = 0) (hmap : ring.vr_map_pages = none)
    (hq0 : qsz ≠ 0) (hq : qsz ≤ 32768) (hpa0 : pa ≠ 0) (hpa : pa % 4096 = 0) (hp64 : pa < 2 ^ 64)
    (hb : ∃ t, t < LEGACY_VQ_PAGES qsz ∧ gpa2kva ((pa + t * 4096) % 2 ^ 64) = 0) :
    ∃ r, viona_ring_init_ring (some l) gpa2kva thread hold ring idx qsz pa =
        Outcome.done (EINVAL, r) ∧ ring_at_reset r := by
  unfold viona_ring_init_ring
  rw [if_neg (by simpa using hst), if_neg (by simpa using hfl)]
  simp only
  rw [viona_ring_lease_renew_fresh (some l) gpa2kva hold { ring with vr_lease := none } hh rfl
    hmap hsz]
  simp only [Option.isSome_some, not_true_eq_false, if_false]
  rw [viona_ring_map_false gpa2kva
    { ring with vr_lease := some l, vr_size := qsz, vr_mask := (qsz + 65536 - 1) % 65536,
                vr_pa := pa }
    hq0 hq hpa0 hpa hp64 hmap (by simp) hb]
  simp only [Bool.false_eq_true, not_false_eq_true, if_true]
  rw [viona_ring_init_fail_eq hold
    { ring with vr_lease := some l, vr_size := qsz, vr_mask := (qsz + 65536 - 1) % 65536,
                vr_pa := pa }
    (fun _ => hh) (by intro m h; simp only at h; rw [hmap] at h; cases h)]
  exact ⟨_, rfl, hst, hfl, rfl, rfl, rfl, rfl, rfl⟩

/-- On a ring in `VRS_RESET` without size and mappings, `viona_ring_init` fails with
`ENOMEM` when a lease is signed, every page of the ring translates and no worker is
created, and leaves the ring at rest. -/
theorem viona_ring_init_ring_no_worker (l : Nat) (gpa2kva : Nat → Nat) (hold : Option Nat)
    (ring : viona_vring_t) (idx qsz pa : Nat) (hh : hold ≠ none)
    (hst : ring.vr_state = VRS_RESET) (hfl : ring.vr_state_flags = 0)
    (hsz : ring.vr_size = 0) (hmap : ring.vr_map_pages = none)
    (hq0 : qsz ≠ 0) (hq : qsz ≤ 32768) (hpa0 : pa ≠ 0) (hpa : pa % 4096 = 0) (hp64 : pa < 2 ^ 64)
    (ht : ∀ t, t < LEGACY_VQ_PAGES qsz → gpa2kva ((pa + t * 4096) % 2 ^ 64) ≠ 0) :
    ∃ r, viona_ring_init_ring (some l) gpa2kva none hold ring idx qsz pa =
        Outcome.done (ENOMEM, r) ∧ ring_at_reset r := by
  unfold viona_ring_init_ring
  rw [if_neg (by simpa using hst), if_neg (by simpa using hfl)]
  simp only
  rw [viona_ring_lease_renew_fresh (some l) gpa2kva hold { ring with vr_lease := none } hh rfl
    hmap hsz]
  simp only [Option.isSome_some, not_true_eq_false, if_false]
  obtain ⟨pages, hlen, hok⟩ := viona_ring_map_ok gpa2kva
    { ring with vr_lease := some l, vr_size := qsz, vr_mask := (qsz + 65536 - 1) % 65536,
                vr_pa := pa }
    hq0 hq hpa0 hpa hp64 hmap (by simp) ht
  rw [hok]
  simp only [not_true_eq_false, if_false]
  unfold viona_create_worker
  by_cases htx : idx = VIONA_VQ_TX
  · simp only [if_pos htx, viona_tx_ring_alloc]
    rw [if_neg (by simpa using hst)]
    simp only
    rw [viona_ring_init_fail_eq hold _ (fun _ => hh)
      (by intro m h; simp only at h; cases h; exact ⟨by simp, hlen⟩)]
    exact ⟨_, rfl, hst, hfl, rfl, rfl, rfl, rfl, rfl⟩
  · simp only [if_neg htx]
    rw [if_neg (by simpa using hst)]
    simp only
    rw [viona_ring_init_fail_eq hold _ (fun _ => hh)
      (by intro m h; simp only at h; cases h; exact ⟨by simp, hlen⟩)]
    exact ⟨_, rfl, hst, hfl, rfl, rfl, rfl, rfl, rfl⟩

/-- The failures of `viona_ring_init` behind its validation, with the base address 0 set
aside where the ring is mapped: on arguments that pass validation and a ring in
`VRS_RESET` (no request pending, no size, nothing mapped) of a link that holds its
virtual machine, `viona_ring_init` returns `EBUSY` when no lease is signed, and for
`pa != 0` it returns `EINVAL` when a lease is signed and a page of the ring does not
translate, and `ENOMEM` when the ring is mapped and no worker is created. In each case
the ring is left at rest: `vr_state` is `VRS_RESET`, `vr_size`, `vr_mask` and `vr_pa` are
0 and `vr_lease` and `vr_map_pages` are `NULL`; the other rings and the hold of the link
are untouched. -/
theorem viona_ring_init_failure (sign : Option Nat) (gpa2kva : Nat → Nat) (thread : Option Nat)
    (link : viona_link_t) (idx qsz pa : Nat) (hidx : idx < VIONA_VQ_MAX) (hq0 : qsz ≠ 0)
    (hq : qsz ≤ 32768) (hpow : ∃ k, qsz = 2 ^ k) (hpa : pa % PAGESIZE = 0) (hp64 : pa < 2 ^ 64)
    (hh : link.l_vm_hold ≠ none) (hst : (link.l_vrings idx).vr_state = VRS_RESET)
    (hfl : (link.l_vrings idx).vr_state_flags = 0) (hsz : (link.l_vrings idx).vr_size = 0)
    (hmap : (link.l_vrings idx).vr_map_pages = none) :
    (sign = none →
      ∃ link1, viona_ring_init sign gpa2kva thread link idx qsz pa = Outcome.done (EBUSY, link1) ∧
        ring_at_reset (link1.l_vrings idx) ∧
        (∀ j, j ≠ idx → link1.l_vrings j = link.l_vrings j) ∧ link1.l_vm_hold = link.l_vm_hold) ∧
    (sign ≠ none → pa ≠ 0 →
      (∃ t, t < LEGACY_VQ_PAGES qsz ∧ gpa2kva ((pa + t * 4096) % 2 ^ 64) = 0) →
      ∃ link1, viona_ring_init sign gpa2kva thread link idx qsz pa =
          Outcome.done (EINVAL, link1) ∧
        ring_at_reset (link1.l_vrings idx) ∧
        (∀ j, j ≠ idx → link1.l_vrings j = link.l_vrings j) ∧ link1.l_vm_hold = link.l_vm_hold) ∧
    (sign ≠ none → pa ≠ 0 →
      (∀ t, t < LEGACY_VQ_PAGES qsz → gpa2kva ((pa + t * 4096) % 2 ^ 64) ≠ 0) → thread = none →
      ∃ link1, viona_ring_init sign gpa2kva thread link idx qsz pa =
          Outcome.done (ENOMEM, link1) ∧
        ring_at_reset (link1.l_vrings idx) ∧
        (∀ j, j ≠ idx → link1.l_vrings j = link.l_vrings j) ∧ link1.l_vm_hold = link.l_vm_hold) := by
  have hpa4 : pa % 4096 = 0 := hpa
  have post : ∀ (err : Nat) (r : viona_vring_t),
      viona_ring_init_ring sign gpa2kva thread link.l_vm_hold (link.l_vrings idx) idx qsz pa =
        Outcome.done (err, r) → ring_at_reset r →
      ∃ link1, viona_ring_init sign gpa2kva thread link idx qsz pa = Outcome.done (err, link1) ∧
        ring_at_reset (link1.l_vrings idx) ∧
        (∀ j, j ≠ idx → link1.l_vrings j = link.l_vrings j) ∧
        link1.l_vm_hold = link.l_vm_hold := by
    intro err r h hr
    refine ⟨link_set_ring link idx r,
      viona_ring_init_valid sign gpa2kva thread link idx qsz pa hidx hq0 hq hpow hpa h, ?_, ?_,
      rfl⟩
    · simp only [link_set_ring, if_true]
      exact hr
    · intro j hj
      simp only [link_set_ring, if_neg hj]
  refine ⟨?_, ?_, ?_⟩
  · intro hs
    subst hs
    obtain ⟨r, h1, h2⟩ := viona_ring_init_ring_no_lease gpa2kva thread link.l_vm_hold
      (link.l_vrings idx) idx qsz pa hh hst hfl hsz hmap
    exact post EBUSY r h1 h2
  · intro hs hpa0 hb
    obtain ⟨l, hl⟩ := Option.ne_none_iff_exists'.1 hs
    subst hl
    obtain ⟨r, h1, h2⟩ := viona_ring_init_ring_no_map l gpa2kva thread link.l_vm_hold
      (link.l_vrings idx) idx qsz pa hh hst hfl hsz hmap hq0 hq hpa0 hpa4 hp64 hb
    exact post EINVAL r h1 h2
  · intro hs hpa0 ht hth
    obtain ⟨l, hl⟩ := Option.ne_none_iff_exists'.1 hs
    subst hl hth
    obtain ⟨r, h1, h2⟩ := viona_ring_init_ring_no_worker l gpa2kva link.l_vm_hold
      (link.l_vrings idx) idx qsz pa hh hst hfl hsz hmap hq0 hq hpa0 hpa4 hp64 ht
    exact post ENOMEM r h1 h2

/-- The three failures on the example link, for a ring of 256 entries at guest address
65536: no lease is signed; a lease is signed and no page translates; the three pages
translate and no worker is created. -/
theorem viona_ring_init_failure_witness :
    (∃ link1, viona_ring_init none ex_kva (some 9) ex_link 0 256 65536 =
        Outcome.done (EBUSY, link1) ∧
      ring_at_reset (link1.l_vrings 0) ∧
      (∀ j, j ≠ 0 → link1.l_vrings j = ex_link.l_vrings j) ∧
      link1.l_vm_hold = ex_link.l_vm_hold) ∧
    (∃ link1, viona_ring_init (some 7) (fun _ => 0) (some 9) ex_link 0 256 65536 =
        Outcome.done (EINVAL, link1) ∧
      ring_at_reset (link1.l_vrings 0) ∧
      (∀ j, j ≠ 0 → link1.l_vrings j = ex_link.l_vrings j) ∧
      link1.l_vm_hold = ex_link.l_vm_hold) ∧
    (∃ link1, viona_ring_init (some 7) ex_kva none ex_link 1 256 65536 =
        Outcome.done (ENOMEM, link1) ∧
      ring_at_reset (link1.l_vrings 1) ∧
      (∀ j, j ≠ 1 → link1.l_vrings j = ex_link.l_vrings j) ∧
      link1.l_vm_hold = ex_link.l_vm_hold) :=
  ⟨(viona_ring_init_failure none ex_kva (some 9) ex_link 0 256 65536 (by decide) (by decide)
      (by decide) ⟨8, by decide⟩ (by decide) (by decide) (by decide) rfl rfl rfl rfl).1 rfl,
   (viona_ring_init_failure (some 7) (fun _ => 0) (some 9) ex_link 0 256 65536 (by decide)
      (by decide) (by decide) ⟨8, by decide⟩ (by decide) (by decide) (by decide) rfl rfl rfl
      rfl).2.1 (by decide) (by decide) ⟨0, by decide, rfl⟩,
   (viona_ring_init_failure (some 7) ex_kva none ex_link 1 256 65536 (by decide) (by decide)
      (by decide) ⟨8, by decide⟩ (by decide) (by decide) (by decide) rfl rfl rfl rfl).2.2
      (by decide) (by decide)
      (by
        intro t ht
        have h3 : LEGACY_VQ_PAGES 256 = 3 := by decide
        rw [h3] at ht
        interval_cases t <;> decide)
      rfl⟩

/-- C30 fails at the address 0. `viona_ring_init(link, 0, 256, 0)` on a ring at rest
passes the validation, 0 being page-aligned: when no lease is signed it returns `EBUSY`.
When a lease is signed, `viona_ring_map` is entered with `vr_pa == 0` and its assertion
`pa != 0` fails before a page is looked up: where no page translates, the call does not
return `EINVAL`, and where the pages translate and no worker is created, it does not
return `ENOMEM`. At the address 4096 the same calls return `EINVAL` and `ENOMEM`. -/
theorem viona_ring_init_asserts_at_zero :
    (0 < VIONA_VQ_MAX ∧ 256 ≠ 0 ∧ 256 ≤ VRING_MAX_LEN ∧ 256 = 2 ^ 8 ∧
      0 &&& (LEGACY_VQ_ALIGN - 1) = 0) ∧
    (ex_link.l_vrings 0).vr_state = VRS_RESET ∧
    (∃ link1, viona_ring_init none (fun _ => 0) (some 9) ex_link 0 256 0 =
      Outcome.done (EBUSY, link1)) ∧
    viona_ring_init (some 7) (fun _ => 0) (some 9) ex_link 0 256 0 = Outcome.panic ∧
    viona_ring_init (some 7) ex_kva none ex_link 0 256 0 = Outcome.panic ∧
    (∃ link1, viona_ring_init (some 7) (fun _ => 0) (some 9) ex_link 0 256 4096 =
      Outcome.done (EINVAL, link1)) ∧
    (∃ link1, viona_ring_init (some 7) ex_kva none ex_link 0 256 4096 =
      Outcome.done (ENOMEM, link1)) :=
  ⟨by decide, rfl, ⟨_, rfl⟩, rfl, rfl, ⟨_, rfl⟩, ⟨_, rfl⟩⟩

theorem lease_map_only_refl (r : viona_vring_t) : lease_map_only r r := rfl

theorem lease_map_only_trans {a b c : viona_vring_t} (h1 : lease_map_only a b)
    (h2 : lease_map_only b c) : lease_map_only a c := by
  unfold lease_map_only at *
  rw [h2, h1]

theorem lease_map_only_with (r : viona_vring_t) (l : Option Nat) (m : Option (List Nat)) :
    lease_map_only r { r with vr_lease := l, vr_map_pages := m } := rfl

theorem viona_ring_unmap_lease_map_only {ring r : viona_vring_t}
    (h : viona_ring_unmap ring = Outcome.done r) : lease_map_only ring r := by
  rw [viona_ring_unmap_fields h]
  exact lease_map_only_with ring ring.vr_lease none

theorem viona_ring_map_loop_lease_map_only (gpa2kva : Nat → Nat) (n : Nat) :
    ∀ (i pa : Nat) (ring r : viona_vring_t) (b : Bool),
      viona_ring_map_loop gpa2kva n i pa ring = Outcome.done (b, r) →
      lease_map_only ring r ∧ (b = false → r.vr_map_pages = none) := by
  induction n with
  | zero =>
    intro i pa ring r b h
    simp only [viona_ring_map_loop] at h
    injection h with h
    injection h with h1 h2
    subst h1 h2
    exact ⟨lease_map_only_refl _, fun h => by cases h⟩
  | succ n ih =>
    intro i pa ring r b h
    unfold viona_ring_map_loop at h
    split at h
    · split at h
      · split at h
        · rename_i r1 hu
          injection h with h
          injection h with h1 h2
          subst h1 h2
          refine ⟨viona_ring_unmap_lease_map_only hu, fun _ => ?_⟩
          rw [viona_ring_unmap_fields hu]
        · cases h
        · cases h
      · split at h
        · split at h
          · obtain ⟨h1, h2⟩ := ih _ _ _ r b h
            exact ⟨lease_map_only_trans (lease_map_only_with ring ring.vr_lease _) h1, h2⟩
          · cases h
        · cases h
    · cases h
    · cases h

theorem viona_ring_map_lease_map_only {gpa2kva : Nat → Nat} {ring r : viona_vring_t} {b : Bool}
    (h : viona_ring_map gpa2kva ring = Outcome.done (b, r)) :
    lease_map_only ring r ∧ (b = false → r.vr_map_pages = none) := by
  unfold viona_ring_map at h
  simp only at h
  split at h
  · cases h
  split at h
  · cases h
  split at h
  · cases h
  split at h
  · cases h
  split at h
  · cases h
  split at h
  · cases h
  obtain ⟨h1, h2⟩ := viona_ring_map_loop_lease_map_only gpa2kva _ _ _ _ r b h
  exact ⟨lease_map_only_trans (lease_map_only_with ring ring.vr_lease _) h1, h2⟩

theorem viona_ring_lease_drop_lease_map_only {hold : Option Nat} {ring r : viona_vring_t}
    (h : viona_ring_lease_drop hold ring = Outcome.done r) :
    lease_map_only ring r ∧ r.vr_lease = none := by
  unfold viona_ring_lease_drop at h
  split at h
  · split at h
    · cases h
    · split at h
      · rename_i r1 hu
        cases h
        rw [viona_ring_unmap_fields hu]
        exact ⟨lease_map_only_with ring none none, rfl⟩
      · cases h
      · cases h
  · rename_i hl
    cases h
    exact ⟨lease_map_only_refl _, by simpa using hl⟩

/-- The function `viona_ring_lease_renew` changes the lease and the page table only, and
when it returns `B_FALSE` the ring holds no lease. -/
theorem viona_ring_lease_renew_lease_map_only {sign : Option Nat} {gpa2kva : Nat → Nat}
    {hold : Option Nat} {ring r : viona_vring_t} {ok : Bool}
    (h : viona_ring_lease_renew sign gpa2kva hold ring = Outcome.done (ok, r)) :
    lease_map_only ring r ∧ (ok = false → r.vr_lease = none) := by
  unfold viona_ring_lease_renew at h
  split at h
  · cases h
  split at h
  · rename_i r1 hd
    have f1 := (viona_ring_lease_drop_lease_map_only hd).1
    simp only at h
    split at h
    · split at h
      · split at h
        · rename_i b r3 hm
          have f2 := (viona_ring_map_lease_map_only hm).1
          have f12 : lease_map_only ring r3 :=
            lease_map_only_trans (lease_map_only_trans f1 (lease_map_only_with r1 sign _)) f2
          split at h
          · split at h
            · rename_i r4 hd4
              injection h with h
              injection h with h1 h2
              subst h1 h2
              obtain ⟨f3, f4⟩ := viona_ring_lease_drop_lease_map_only hd4
              exact ⟨lease_map_only_trans f12 f3, fun _ => f4⟩
            · cases h
            · cases h
          · injection h with h
            injection h with h1 h2
            subst h1 h2
            refine ⟨f12, fun hf => ?_⟩
            cases hl : r3.vr_lease with
            | none => rfl
            | some l => rw [hl] at hf; cases hf
        · cases h
        · cases h
      · injection h with h
        injection h with h1 h2
        subst h1 h2
        refine ⟨lease_map_only_trans f1 (lease_map_only_with r1 sign _), fun hf => ?_⟩
        simp only at hf
        cases sign with
        | none => rfl
        | some l => cases hf
    · rename_i hl
      injection h with h
      injection h with h1 h2
      subst h1 h2
      refine ⟨lease_map_only_trans f1 (lease_map_only_with r1 sign _), fun _ => ?_⟩
      simpa using hl
  · cases h
  · cases h

/-- The cleanup of the worker on a ring that is ready for it: the fields it leaves. -/
theorem viona_worker_cleanup_eq (hold : Option Nat) (ring : viona_vring_t)
    (h : cleanup_ready hold ring) :
    viona_worker_cleanup hold ring =
      Outcome.done
        { ring with vr_txdesb := none, vr_lease := none, vr_map_pages := none, vr_cur_aidx := 0,
                    vr_size := 0, vr_mask := 0, vr_pa := 0, vr_state := VRS_RESET,
                    vr_state_flags := 0, vr_worker_thread := none } := by
  obtain ⟨h1, h2, h3⟩ := h
  unfold viona_worker_cleanup
  rw [if_neg (by
    rintro ⟨ha, hb⟩
    exact hb (h3 ha))]
  simp only
  rw [viona_ring_lease_drop_eq hold (viona_ring_misc_free ring) h1 h2]
  rfl

/-- C27 fails as stated: under `ex_env` the worker of the example receive ring waits,
is started, processes three chains and stops; its cleanup releases lease and mappings and
zeroes `vr_cur_aidx`, size, mask and address, and `vr_cur_uidx` is still 3. -/
theorem viona_worker_cleanup_keeps_uidx :
    ∃ r, viona_worker ex_env ex_kva (some 1) 0 10 ex_ring_inited =
        Outcome.done (r, [VRS_INIT, VRS_RUN, VRS_RESET]) ∧
      viona_worker_cleanup (some 1) ex_ring_stopped = Outcome.done r ∧
      r.vr_state = VRS_RESET ∧ r.vr_lease = none ∧ r.vr_map_pages = none ∧ r.vr_cur_aidx = 0 ∧
      r.vr_cur_uidx = 3 ∧ r.vr_cur_uidx ≠ 0 :=
  ⟨_, rfl, rfl, rfl, rfl, rfl, rfl, rfl, by decide⟩

/-- C27 as amended: on a ring that is ready for it, the cleanup of the worker completes
and leaves `vr_lease` and `vr_map_pages` `NULL`, `vr_cur_aidx`, `vr_size`, `vr_mask` and
`vr_pa` 0, `vr_state` `VRS_RESET` and `vr_state_flags` 0, so the ring is at rest;
`vr_cur_uidx` is left as it was. -/
theorem viona_worker_cleanup_resets (hold : Option Nat) (ring : viona_vring_t)
    (h : cleanup_ready hold ring) :
    ∃ r, viona_worker_cleanup hold ring = Outcome.done r ∧
      r.vr_lease = none ∧ r.vr_map_pages = none ∧ r.vr_cur_aidx = 0 ∧ r.vr_size = 0 ∧
      r.vr_mask = 0 ∧ r.vr_pa = 0 ∧ r.vr_state = VRS_RESET ∧ r.vr_state_flags = 0 ∧
      r.vr_cur_uidx = ring.vr_cur_uidx ∧ ring_at_reset r :=
  ⟨_, viona_worker_cleanup_eq hold ring h, rfl, rfl, rfl, rfl, rfl, rfl, rfl, rfl, rfl,
    rfl, rfl, rfl, rfl, rfl, rfl, rfl⟩

/-- Witness for C27 as amended: the example receive ring when processing has stopped. -/
theorem viona_worker_cleanup_resets_witness :
    ∃ r, viona_worker_cleanup (some 1) ex_ring_stopped = Outcome.done r ∧
      r.vr_lease = none ∧ r.vr_map_pages = none ∧ r.vr_cur_aidx = 0 ∧ r.vr_size = 0 ∧
      r.vr_mask = 0 ∧ r.vr_pa = 0 ∧ r.vr_state = VRS_RESET ∧ r.vr_state_flags = 0 ∧
      r.vr_cur_uidx = ex_ring_stopped.vr_cur_uidx ∧ ring_at_reset r :=
  viona_worker_cleanup_resets (some 1) ex_ring_stopped
    ⟨fun _ => by decide,
     fun m hm => by
       have e : m = [16842752, 16846848, 16850944] := by
         have := Option.some.inj hm
         exact this.symm
       subst e
       exact ⟨by decide, by decide⟩,
     fun hx => absurd rfl hx⟩

theorem viona_ring_lease_renew_hold {sign : Option Nat} {gpa2kva : Nat → Nat}
    {hold : Option Nat} {ring r : viona_vring_t} {ok : Bool}
    (h : viona_ring_lease_renew sign gpa2kva hold ring = Outcome.done (ok, r)) :
    hold ≠ none := by
  unfold viona_ring_lease_renew at h
  split at h
  · cases h
  · assumption

theorem viona_ring_lease_drop_consistent {hold : Option Nat} {ring r : viona_vring_t}
    (hc : ring_map_consistent ring)
    (h : viona_ring_lease_drop hold ring = Outcome.done r) :
    r.vr_map_pages = none := by
  unfold viona_ring_lease_drop at h
  split at h
  · split at h
    · cases h
    · split at h
      · rename_i r1 hu
        cases h
        rw [viona_ring_unmap_fields hu]
      · cases h
      · cases h
  · rename_i hl
    cases h
    cases hm : ring.vr_map_pages with
    | none => rfl
    | some m => exact absurd (hc m hm).1 hl

/-- The function `viona_ring_lease_renew` keeps the mappings of a ring consistent. -/
theorem viona_ring_lease_renew_consistent {sign : Option Nat} {gpa2kva : Nat → Nat}
    {hold : Option Nat} {ring r : viona_vring_t} {ok : Bool}
    (hc : ring_map_consistent ring)
    (h : viona_ring_lease_renew sign gpa2kva hold ring = Outcome.done (ok, r)) :
    ring_map_consistent r := by
  unfold viona_ring_lease_renew at h
  split at h
  · cases h
  split at h
  · rename_i r1 hd
    have f1 := viona_ring_lease_drop_consistent hc hd
    simp only at h
    split at h
    · rename_i hs
      split at h
      · split at h
        · rename_i b r3 hm
          split at h
          · rename_i hb
            split at h
            · rename_i r4 hd4
              injection h with h
              injection h with h1 h2
              subst h1 h2
              have f3 := viona_ring_map_lease_map_only hm
              have f4 : ring_map_consistent r3 := by
                intro m hmm
                have : b = false := by simpa using hb
                rw [f3.2 this] at hmm
                cases hmm
              have f5 := viona_ring_lease_drop_consistent f4 hd4
              intro m hmm
              rw [f5] at hmm
              cases hmm
            · cases h
            · cases h
          · rename_i hb
            injection h with h
            injection h with h1 h2
            subst h1 h2
            have hb1 : b = true := by simpa using hb
            subst hb1
            obtain ⟨l, hl1, hl2, _, _⟩ := viona_ring_map_true hm
            rw [hl2]
            intro m hmm
            simp only at hmm
            cases hmm
            exact ⟨by simpa using hs, hl1⟩
        · cases h
        · cases h
      · injection h with h
        injection h with h1 h2
        subst h1 h2
        intro m hmm
        simp only at hmm
        rw [f1] at hmm
        cases hmm
    · injection h with h
      injection h with h1 h2
      subst h1 h2
      intro m hmm
      simp only at hmm
      rw [f1] at hmm
      cases hmm
  · cases h
  · cases h

/-- The function `viona_ring_lease_renew` leaves a ring that is ready for cleanup ready
for cleanup. -/
theorem viona_ring_lease_renew_ready {sign : Option Nat} {gpa2kva : Nat → Nat}
    {hold : Option Nat} {ring r : viona_vring_t} {ok : Bool}
    (hc : cleanup_ready hold ring)
    (h : viona_ring_lease_renew sign gpa2kva hold ring = Outcome.done (ok, r)) :
    cleanup_ready hold r := by
  obtain ⟨_, h2, h3⟩ := hc
  have f := (viona_ring_lease_renew_lease_map_only h).1
  refine ⟨fun _ => viona_ring_lease_renew_hold h, viona_ring_lease_renew_consistent h2 h, ?_⟩
  unfold lease_map_only at f
  rw [f]
  exact h3

theorem cleanup_ready_flags {hold : Option Nat} {ring : viona_vring_t}
    (hc : cleanup_ready hold ring) (f s : Nat) :
    cleanup_ready hold { ring with vr_state_flags := f, vr_state := s } := hc

/-- A pass through the wait loop of the worker that goes round again: no request was
pending, and the ring differs in lease, page table and request flags at most; the flags
are those found after the wait, and they and the exit flag give no reason to bail. -/
theorem viona_worker_pass_again {env : worker_env} {gpa2kva : Nat → Nat} {hold : Option Nat}
    {k : Nat} {ring r : viona_vring_t}
    (h : viona_worker_pass env gpa2kva hold k ring = Outcome.done (Pass.again r)) :
    ring.vr_state_flags = 0 ∧ r.vr_state = ring.vr_state ∧ r.vr_state_flags = env.flags k ∧
    VRING_NEED_BAIL r (env.exiting k) = false ∧
    (cleanup_ready hold ring → cleanup_ready hold r) := by
  have hw : ∀ (x : viona_vring_t),
      Outcome.done (viona_worker_pass_wait env k x) = Outcome.done (Pass.again r) →
      r.vr_state = x.vr_state ∧ r.vr_state_flags = env.flags k ∧
      VRING_NEED_BAIL r (env.exiting k) = false ∧
      (cleanup_ready hold x → cleanup_ready hold r) := by
    intro x hx
    unfold viona_worker_pass_wait at hx
    simp only at hx
    split at hx
    · cases hx
    · rename_i hb
      cases hx
      exact ⟨rfl, rfl, by simpa using hb, fun hc => hc⟩
  unfold viona_worker_pass at h
  split at h
  · rename_i h0
    split at h
    · split at h
      · rename_i b r1 hr
        split at h
        · cases h
        · obtain ⟨g1, g2, g3, g4⟩ := hw r1 h
          have f := (viona_ring_lease_renew_lease_map_only hr).1
          unfold lease_map_only at f
          refine ⟨h0, ?_, g2, g3, fun hc => g4 (viona_ring_lease_renew_ready hc hr)⟩
          rw [g1, f]
      · cases h
      · cases h
    · obtain ⟨g1, g2, g3, g4⟩ := hw ring h
      exact ⟨h0, g1, g2, g3, g4⟩
  · cases h

/-- The passes through the wait loop, split at the last one. -/
theorem viona_worker_walk_succ (env : worker_env) (gpa2kva : Nat → Nat) (hold : Option Nat)
    (n : Nat) :
    ∀ (k : Nat) (ring r : viona_vring_t),
      viona_worker_walk env gpa2kva hold (n + 1) k ring = Outcome.done (Pass.again r) →
      ∃ r1, viona_worker_walk env gpa2kva hold n k ring = Outcome.done (Pass.again r1) ∧
        viona_worker_pass env gpa2kva hold (k + n) r1 = Outcome.done (Pass.again r) := by
  induction n with
  | zero =>
    intro k ring r h
    refine ⟨ring, rfl, ?_⟩
    unfold viona_worker_walk at h
    split at h
    · rename_i r1 hp
      simp only [viona_worker_walk] at h
      injection h with h
      injection h with h
      subst h
      exact hp
    · cases h
    · cases h
    · cases h
  | succ n ih =>
    intro k ring r h
    rw [viona_worker_walk] at h
    split at h
    · rename_i r1 hp
      obtain ⟨r2, h1, h2⟩ := ih (k + 1) r1 r h
      refine ⟨r2, ?_, ?_⟩
      · rw [viona_worker_walk, hp]
        exact h1
      · have e : k + (n + 1) = k + 1 + n := by omega
        rw [e]
        exact h2
    · cases h
    · cases h
    · cases h

/-- The ring with which the worker is in its wait loop: in `VRS_INIT`, with flags and
exit flag that gave no reason to bail at the last check, and ready for cleanup when the
ring the worker started on was. -/
theorem worker_waits_fields {env : worker_env} {gpa2kva : Nat → Nat} {hold : Option Nat}
    {ring0 : viona_vring_t} (n : Nat) :
    ∀ {r : viona_vring_t}, worker_waits env gpa2kva hold ring0 n r →
      r.vr_state = VRS_INIT ∧
      VRING_NEED_BAIL r (if n = 0 then env.exiting0 else env.exiting (n - 1)) = false ∧
      (n = 0 → r.vr_state_flags = ring0.vr_state_flags) ∧
      (0 < n → r.vr_state_flags = env.flags (n - 1)) ∧
      (cleanup_ready hold ring0 → cleanup_ready hold r) := by
  induction n with
  | zero =>
    intro r h
    obtain ⟨_, h2, h3⟩ := h
    simp only [viona_worker_walk] at h3
    injection h3 with h3
    injection h3 with h3
    subst h3
    exact ⟨rfl, h2, fun _ => rfl, fun h => absurd h (by omega), fun hc => hc⟩
  | succ n ih =>
    intro r h
    obtain ⟨h1, h2, h3⟩ := h
    obtain ⟨r1, g1, g2⟩ := viona_worker_walk_succ env gpa2kva hold n 0 _ r h3
    obtain ⟨i1, _, _, _, i5⟩ := ih ⟨h1, h2, g1⟩
    obtain ⟨_, j2, j3, j4, j5⟩ := viona_worker_pass_again g2
    rw [Nat.zero_add] at j3 j4
    refine ⟨by rw [j2, i1], ?_, fun h => absurd h (by omega), fun _ => ?_, fun hc => j5 (i5 hc)⟩
    · simpa using j4
    · simpa using j3

/-- When the walk of the wait loop reaches a pass that leaves the loop, that is how
`viona_worker_wait` leaves it, given fuel for the passes made. -/
theorem viona_worker_wait_of_walk (env : worker_env) (gpa2kva : Nat → Nat) (hold : Option Nat)
    (n : Nat) :
    ∀ (fuel k : Nat) (ring r : viona_vring_t) (e : worker_exit),
      viona_worker_walk env gpa2kva hold n k ring = Outcome.done (Pass.again r) →
      viona_worker_pass env gpa2kva hold (k + n) r = Outcome.done (Pass.ret e) →
      n + 1 ≤ fuel → viona_worker_wait env gpa2kva hold fuel k ring = Outcome.done e := by
  induction n with
  | zero =>
    intro fuel k ring r e hw hp hf
    simp only [viona_worker_walk] at hw
    injection hw with hw
    injection hw with hw
    subst hw
    obtain ⟨f, rfl⟩ : ∃ f, fuel = f + 1 := ⟨fuel - 1, by omega⟩
    rw [Nat.add_zero] at hp
    rw [viona_worker_wait, hp]
  | succ n ih =>
    intro fuel k ring r e hw hp hf
    obtain ⟨f, rfl⟩ : ∃ f, fuel = f + 1 := ⟨fuel - 1, by omega⟩
    rw [viona_worker_walk] at hw
    split at hw
    · rename_i r1 hp1
      rw [viona_worker_wait, hp1]
      have e1 : k + (n + 1) = k + 1 + n := by omega
      rw [e1] at hp
      exact ih f (k + 1) r1 r e hw hp (by omega)
    · cases hw
    · cases hw
    · cases hw

/-- However `viona_worker_wait` leaves the loop, the walk of the loop reaches the pass
that does so. -/
theorem viona_worker_walk_of_wait (env : worker_env) (gpa2kva : Nat → Nat) (hold : Option Nat)
    (fuel : Nat) :
    ∀ (k : Nat) (ring : viona_vring_t) (e : worker_exit),
      viona_worker_wait env gpa2kva hold fuel k ring = Outcome.done e →
      ∃ n r, n + 1 ≤ fuel ∧
        viona_worker_walk env gpa2kva hold n k ring = Outcome.done (Pass.again r) ∧
        viona_worker_pass env gpa2kva hold (k + n) r = Outcome.done (Pass.ret e) := by
  induction fuel with
  | zero =>
    intro k ring e h
    simp [viona_worker_wait] at h
  | succ f ih =>
    intro k ring e h
    rw [viona_worker_wait] at h
    split at h
    · rename_i e1 hp
      cases h
      exact ⟨0, ring, by omega, rfl, hp⟩
    · rename_i r1 hp
      obtain ⟨n, r, h1, h2, h3⟩ := ih (k + 1) r1 e h
      refine ⟨n + 1, r, by omega, ?_, ?_⟩
      · rw [viona_worker_walk, hp]
        exact h2
      · have e1 : k + (n + 1) = k + 1 + n := by omega
        rw [e1]
        exact h3
    · cases h
    · cases h

theorem VRING_NEED_BAIL_iff (ring : viona_vring_t) (exiting : Bool) :
    VRING_NEED_BAIL ring exiting = true ↔
      (ring.vr_state_flags &&& VRSF_REQ_STOP ≠ 0 ∨ exiting = true) := by
  unfold VRING_NEED_BAIL
  simp

/-- The cleanup of the worker with the values assigned to `vr_state` so far, on a ring
that is ready for cleanup. -/
theorem viona_worker_finish_eq (hold : Option Nat) (ring : viona_vring_t) (states : List Nat)
    (h : cleanup_ready hold ring) :
    ∃ rf, viona_worker_finish hold ring states = Outcome.done (rf, states ++ [VRS_RESET]) ∧
      viona_worker_cleanup hold ring = Outcome.done rf ∧ ring_at_reset rf := by
  unfold viona_worker_finish
  rw [viona_worker_cleanup_eq hold ring h]
  exact ⟨_, rfl, rfl, rfl, rfl, rfl, rfl, rfl, rfl, rfl⟩

/-- When a pass through the wait loop leaves it through `goto cleanup`, the worker runs
the cleanup next: it has assigned `VRS_INIT` and `VRS_RESET` to `vr_state` and nothing
else. -/
theorem viona_worker_of_bail {env : worker_env} {gpa2kva : Nat → Nat} {hold : Option Nat}
    {ring0 r rb : viona_vring_t} {n : Nat} (idx fuel : Nat)
    (hw : worker_waits env gpa2kva hold ring0 n r)
    (hp : viona_worker_pass env gpa2kva hold n r = Outcome.done (Pass.ret (worker_exit.bail rb)))
    (hf : n + 1 ≤ fuel) (hc : cleanup_ready hold rb) :
    ∃ rf, viona_worker env gpa2kva hold idx fuel ring0 =
        Outcome.done (rf, [VRS_INIT, VRS_RESET]) ∧ ring_at_reset rf := by
  obtain ⟨h1, h2, h3⟩ := hw
  obtain ⟨rf, g1, _, g3⟩ := viona_worker_finish_eq hold rb [VRS_INIT] hc
  refine ⟨rf, ?_, g3⟩
  unfold viona_worker
  rw [if_neg (by simpa using h1), h2]
  simp only [Bool.false_eq_true, if_false]
  rw [viona_worker_wait_of_walk env gpa2kva hold n fuel 0 _ r _ h3
    (by rw [Nat.zero_add]; exact hp) hf]
  exact g1

/-- C28: the worker started on a ring in `VRS_SETUP` that is ready for cleanup goes
straight to the cleanup, leaving the ring at rest in `VRS_RESET` without ever assigning
`VRS_RUN` to `vr_state`, in each of these cases: a stop request or the exit of the
process is seen in `VRS_SETUP` (first part); and, with the worker in its wait loop with
no request pending and fuel for the passes made: the lease is reported expired and
`viona_ring_lease_renew` fails (second part), or a stop request or the exit of the
process is seen after the wait (third part). -/
theorem viona_worker_straight_to_cleanup (env : worker_env) (gpa2kva : Nat → Nat)
    (hold : Option Nat) (idx fuel : Nat) (ring0 : viona_vring_t)
    (hst : ring0.vr_state = VRS_SETUP) (hr : cleanup_ready hold ring0) :
    ((ring0.vr_state_flags &&& VRSF_REQ_STOP ≠ 0 ∨ env.exiting0 = true) →
      ∃ rf, viona_worker env gpa2kva hold idx fuel ring0 = Outcome.done (rf, [VRS_RESET]) ∧
        ring_at_reset rf) ∧
    (∀ (n : Nat) (r : viona_vring_t), worker_waits env gpa2kva hold ring0 n r →
      r.vr_state_flags = 0 → n + 1 ≤ fuel →
      (env.expired n = true →
        (∃ r1, viona_ring_lease_renew (env.sign n) gpa2kva hold r = Outcome.done (false, r1)) →
        ∃ rf, viona_worker env gpa2kva hold idx fuel ring0 =
            Outcome.done (rf, [VRS_INIT, VRS_RESET]) ∧ ring_at_reset rf) ∧
      ((env.expired n = false ∨
          ∃ r1, viona_ring_lease_renew (env.sign n) gpa2kva hold r = Outcome.done (true, r1)) →
        (env.flags n &&& VRSF_REQ_STOP ≠ 0 ∨ env.exiting n = true) →
        ∃ rf, viona_worker env gpa2kva hold idx fuel ring0 =
            Outcome.done (rf, [VRS_INIT, VRS_RESET]) ∧ ring_at_reset rf)) ∧
    VRS_RUN ∉ [VRS_RESET] ∧ VRS_RUN ∉ [VRS_INIT, VRS_RESET] := by
  refine ⟨?_, ?_, by decide, by decide⟩
  · intro hb
    obtain ⟨rf, g1, _, g3⟩ := viona_worker_finish_eq hold ring0 [] hr
    refine ⟨rf, ?_, g3⟩
    unfold viona_worker
    rw [if_neg (by simpa using hst), (VRING_NEED_BAIL_iff ring0 env.exiting0).2 hb]
    simp only [if_true]
    exact g1
  · intro n r hw h0 hf
    have hcr : cleanup_ready hold r := (worker_waits_fields n hw).2.2.2.2 hr
    refine ⟨?_, ?_⟩
    · rintro he ⟨r1, hren⟩
      have hp : viona_worker_pass env gpa2kva hold n r =
          Outcome.done (Pass.ret (worker_exit.bail r1)) := by
        unfold viona_worker_pass
        rw [if_pos h0, if_pos he, hren]
        simp
      exact viona_worker_of_bail idx fuel hw hp hf (viona_ring_lease_renew_ready hcr hren)
    · intro hx hobs
      have hwait : ∀ (x : viona_vring_t),
          viona_worker_pass_wait env n x =
            Pass.ret (worker_exit.bail { x with vr_state_flags := env.flags n }) := by
        intro x
        unfold viona_worker_pass_wait
        simp only
        rw [(VRING_NEED_BAIL_iff _ (env.exiting n)).2 hobs]
        simp
      have hplain : env.expired n = false →
          ∃ rf, viona_worker env gpa2kva hold idx fuel ring0 =
            Outcome.done (rf, [VRS_INIT, VRS_RESET]) ∧ ring_at_reset rf := by
        intro he
        have hp : viona_worker_pass env gpa2kva hold n r =
            Outcome.done
              (Pass.ret (worker_exit.bail { r with vr_state_flags := env.flags n })) := by
          unfold viona_worker_pass
          rw [if_pos h0, he]
          simp only [Bool.false_eq_true, if_false]
          rw [hwait]
        exact viona_worker_of_bail idx fuel hw hp hf hcr
      by_cases he : env.expired n = true
      · rcases hx with hx | ⟨r1, hren⟩
        · rw [he] at hx
          cases hx
        · have hp : viona_worker_pass env gpa2kva hold n r =
              Outcome.done
                (Pass.ret (worker_exit.bail { r1 with vr_state_flags := env.flags n })) := by
            unfold viona_worker_pass
            rw [if_pos h0, if_pos he, hren]
            simp only [not_true_eq_false, if_false]
            rw [hwait]
          have hc1 : cleanup_ready hold r1 := viona_ring_lease_renew_ready hcr hren
          exact viona_worker_of_bail idx fuel hw hp hf hc1
      · exact hplain (by simpa using he)

theorem ex_ring_inited_ready : cleanup_ready (some 1) ex_ring_inited :=
  ⟨fun _ => by decide,
   fun m hm => by
     have e : m = [16842752, 16846848, 16850944] := (Option.some.inj hm).symm
     subst e
     exact ⟨by decide, by decide⟩,
   fun hx => absurd rfl hx⟩

/-- Witness for C28 on the example receive ring: a stop request is pending when the
worker starts; the lease expires in the second pass of the wait loop and is not renewed;
a stop is requested during the first wait. -/
theorem viona_worker_straight_to_cleanup_witness :
    (∃ rf, viona_worker ex_env ex_kva (some 1) 0 10
        { ex_ring_inited with vr_state_flags := VRSF_REQ_STOP } =
        Outcome.done (rf, [VRS_RESET]) ∧ ring_at_reset rf) ∧
    (∃ rf, viona_worker ex_env_expire ex_kva (some 1) 0 10 ex_ring_inited =
        Outcome.done (rf, [VRS_INIT, VRS_RESET]) ∧ ring_at_reset rf) ∧
    (∃ rf, viona_worker ex_env_stop ex_kva (some 1) 0 10 ex_ring_inited =
        Outcome.done (rf, [VRS_INIT, VRS_RESET]) ∧ ring_at_reset rf) :=
  ⟨(viona_worker_straight_to_cleanup ex_env ex_kva (some 1) 0 10
      { ex_ring_inited with vr_state_flags := VRSF_REQ_STOP } rfl ex_ring_inited_ready).1
      (Or.inl (by decide)),
   ((viona_worker_straight_to_cleanup ex_env_expire ex_kva (some 1) 0 10 ex_ring_inited rfl
      ex_ring_inited_ready).2.1 1 ex_ring_init ⟨rfl, rfl, rfl⟩ rfl (by decide)).1 rfl
      ⟨{ ex_ring_init with vr_lease := none, vr_map_pages := none }, rfl⟩,
   ((viona_worker_straight_to_cleanup ex_env_stop ex_kva (some 1) 0 10 ex_ring_inited rfl
      ex_ring_inited_ready).2.1 0 ex_ring_init ⟨rfl, rfl, rfl⟩ rfl (by decide)).2 (Or.inl rfl)
      (Or.inl (by decide))⟩

theorem viona_worker_pass_start {env : worker_env} {gpa2kva : Nat → Nat} {hold : Option Nat}
    {k : Nat} {ring r : viona_vring_t}
    (h : viona_worker_pass env gpa2kva hold k ring =
      Outcome.done (Pass.ret (worker_exit.start r))) :
    r = ring ∧ ring.vr_state_flags ≠ 0 := by
  have hw : ∀ (x : viona_vring_t),
      Outcome.done (viona_worker_pass_wait env k x) ≠
        Outcome.done (Pass.ret (worker_exit.start r)) := by
    intro x hx
    unfold viona_worker_pass_wait at hx
    simp only at hx
    split at hx
    · cases hx
    · cases hx
  unfold viona_worker_pass at h
  split at h
  · split at h
    · split at h
      · split at h
        · cases h
        · exact absurd h (hw _)
      · cases h
      · cases h
    · exact absurd h (hw _)
  · rename_i h0
    cases h
    exact ⟨rfl, h0⟩

theorem viona_worker_start_eq {ring r : viona_vring_t}
    (h : viona_worker_start ring = Outcome.done r) :
    ring.vr_state_flags &&& VRSF_REQ_START ≠ 0 ∧
    r = { ring with vr_state := VRS_RUN,
                    vr_state_flags := ring.vr_state_flags &&& 4294967294 } := by
  unfold viona_worker_start at h
  split at h
  · cases h
  · rename_i h0
    cases h
    exact ⟨h0, rfl⟩

theorem viona_worker_finish_states {hold : Option Nat} {ring rf : viona_vring_t}
    {states tr : List Nat}
    (h : viona_worker_finish hold ring states = Outcome.done (rf, tr)) :
    tr = states ++ [VRS_RESET] := by
  unfold viona_worker_finish at h
  split at h
  · cases h; rfl
  · cases h
  · cases h

/-- C29: when the worker started on `ring0` is in its wait loop and finds a request
pending, with request flags drawn from `VRSF_REQ_START` and `VRSF_REQ_STOP`, the ring is
in `VRS_INIT`, the last check found neither a stop request nor the exit of the process,
`VRSF_REQ_START` is set, so the loop is left towards the start and the assertion holds:
`vr_state` becomes `VRS_RUN` and `VRSF_REQ_START` is cleared. Conversely, whenever a
completed run of the worker has assigned `VRS_RUN`, it did so from such a ring, between
`VRS_INIT` and `VRS_RESET`. -/
theorem viona_worker_enters_run (env : worker_env) (gpa2kva : Nat → Nat) (hold : Option Nat)
    (ring0 : viona_vring_t) (n : Nat) (r : viona_vring_t)
    (hw : worker_waits env gpa2kva hold ring0 n r) (hpend : r.vr_state_flags ≠ 0)
    (hdom0 : ring0.vr_state_flags ≤ VRSF_REQ_START ||| VRSF_REQ_STOP)
    (hdom : ∀ k, env.flags k ≤ VRSF_REQ_START ||| VRSF_REQ_STOP) :
    r.vr_state = VRS_INIT ∧
    VRING_NEED_BAIL r (if n = 0 then env.exiting0 else env.exiting (n - 1)) = false ∧
    r.vr_state_flags &&& VRSF_REQ_STOP = 0 ∧ r.vr_state_flags &&& VRSF_REQ_START ≠ 0 ∧
    viona_worker_pass env gpa2kva hold n r = Outcome.done (Pass.ret (worker_exit.start r)) ∧
    viona_worker_start r =
      Outcome.done
        { r with vr_state := VRS_RUN,
                 vr_state_flags := r.vr_state_flags &&& (2 ^ 32 - 1 - VRSF_REQ_START) } ∧
    (r.vr_state_flags &&& (2 ^ 32 - 1 - VRSF_REQ_START)) &&& VRSF_REQ_START = 0 ∧
    (∀ (idx fuel : Nat) (rf : viona_vring_t) (tr : List Nat),
      viona_worker env gpa2kva hold idx fuel ring0 = Outcome.done (rf, tr) → VRS_RUN ∈ tr →
      tr = [VRS_INIT, VRS_RUN, VRS_RESET] ∧
      ∃ m r1, worker_waits env gpa2kva hold ring0 m r1 ∧ r1.vr_state = VRS_INIT ∧
        r1.vr_state_flags &&& VRSF_REQ_START ≠ 0 ∧
        VRING_NEED_BAIL r1 (if m = 0 then env.exiting0 else env.exiting (m - 1)) = false) := by
  obtain ⟨f1, f2, f3, f4, _⟩ := worker_waits_fields n hw
  have hstop : r.vr_state_flags &&& VRSF_REQ_STOP = 0 := by
    have := f2
    unfold VRING_NEED_BAIL at this
    simp only [Bool.or_eq_false_iff, decide_eq_false_iff_not, not_not] at this
    exact this.1
  have hle : r.vr_state_flags ≤ 3 := by
    have e3 : VRSF_REQ_START ||| VRSF_REQ_STOP = 3 := by decide
    rw [e3] at hdom0 hdom
    rcases Nat.eq_zero_or_pos n with h0 | hp
    · rw [f3 h0]; exact hdom0
    · rw [f4 hp]; exact hdom _
  have hstart : r.vr_state_flags &&& VRSF_REQ_START ≠ 0 := by
    unfold VRSF_REQ_START
    unfold VRSF_REQ_STOP at hstop
    generalize r.vr_state_flags = f at hpend hstop hle
    interval_cases f
    · exact absurd rfl hpend
    · decide
    · revert hstop; decide
    · revert hstop; decide
  refine ⟨f1, f2, hstop, hstart, ?_, ?_, ?_, ?_⟩
  · unfold viona_worker_pass
    rw [if_neg hpend]
  · unfold viona_worker_start
    rw [if_neg hstart]
  · have e : (2 : Nat) ^ 32 - 1 - VRSF_REQ_START = 4294967294 := by decide
    rw [e]
    exact and_not_one_and_one _
  · intro idx fuel rf tr h hrun
    unfold viona_worker at h
    split at h
    · cases h
    · split at h
      · have := viona_worker_finish_states h
        rw [this] at hrun
        exact absurd hrun (by decide)
      · rename_i hst hnb
        simp only at h
        split at h
        · have := viona_worker_finish_states h
          rw [this] at hrun
          exact absurd hrun (by decide)
        · rename_i r2 hwt
          split at h
          · rename_i r3 hs
            split at h
            · refine ⟨viona_worker_finish_states h, ?_⟩
              obtain ⟨m, r1, _, g2, g3⟩ := viona_worker_walk_of_wait env gpa2kva hold fuel 0 _ _ hwt
              rw [Nat.zero_add] at g3
              obtain ⟨e1, _⟩ := viona_worker_pass_start g3
              subst e1
              have hw1 : worker_waits env gpa2kva hold ring0 m r2 :=
                ⟨by simpa using hst, by simpa using hnb, g2⟩
              obtain ⟨i1, i2, _, _, _⟩ := worker_waits_fields m hw1
              exact ⟨m, r2, hw1, i1, (viona_worker_start_eq hs).1, i2⟩
            · cases h
            · cases h
          · cases h
          · cases h
        · cases h
        · cases h

/-- Witness for C29: under `ex_env` a start is requested during the first wait of the
worker of the example receive ring. -/
theorem viona_worker_enters_run_witness :
    ex_ring_start.vr_state = VRS_INIT ∧
    ex_ring_start.vr_state_flags &&& VRSF_REQ_STOP = 0 ∧
    ex_ring_start.vr_state_flags &&& VRSF_REQ_START ≠ 0 ∧
    viona_worker_start ex_ring_start =
      Outcome.done
        { ex_ring_start with
          vr_state := VRS_RUN,
          vr_state_flags := ex_ring_start.vr_state_flags &&& (2 ^ 32 - 1 - VRSF_REQ_START) } ∧
    (ex_ring_start.vr_state_flags &&& (2 ^ 32 - 1 - VRSF_REQ_START)) &&& VRSF_REQ_START = 0 :=
  (fun h => ⟨h.1, h.2.2.1, h.2.2.2.1, h.2.2.2.2.2.1, h.2.2.2.2.2.2.1⟩)
    (viona_worker_enters_run ex_env ex_kva (some 1) ex_ring_inited 1 ex_ring_start
      ⟨rfl, rfl, rfl⟩ (by decide) (by decide)
      (fun _ => (by decide : VRSF_REQ_START ≤ VRSF_REQ_START ||| VRSF_REQ_STOP)))

theorem stats_only_restat {r1 r2 : viona_vring_t} (h : stats_only r1 r2)
    (s1 s2 : viona_ring_stats) :
    stats_only { r1 with vr_stats := s1 } { r2 with vr_stats := s2 } := by
  unfold stats_only at *
  rw [h]

theorem viona_hold_page_stats_only {r1 r2 : viona_vring_t} (h : stats_only r1 r2)
    (gpa2kva : Nat → Nat) (gpa : Nat) :
    viona_hold_page gpa2kva r2 gpa = viona_hold_page gpa2kva r1 gpa := by
  unfold stats_only at h
  rw [h]
  rfl

theorem outcome_rel_done {α β : Type} {R : α → β → Prop} {a : α} {b : β} (h : R a b) :
    outcome_rel R (Outcome.done a) (Outcome.done b) := h

/-- The page loop of `vq_map_desc_bufs` does not look at the fault counters or at what
the vector holds. -/
theorem vq_map_desc_bufs_loop_sim (gpa2kva : Nat → Nat) {r1 r2 : viona_vring_t}
    (h : stats_only r1 r2) (n : Nat) :
    ∀ (gpa len lidx : Nat) (iov1 iov2 : Nat → iovec),
      outcome_rel
        (fun s1 s2 => s2.fault = s1.fault ∧ s2.gpa = s1.gpa ∧ s2.len = s1.len ∧
          s2.lidx = s1.lidx ∧ (iov1 = iov2 → s2.iov = s1.iov))
        (vq_map_desc_bufs_loop gpa2kva r1 n gpa len lidx iov1)
        (vq_map_desc_bufs_loop gpa2kva r2 n gpa len lidx iov2) := by
  induction n with
  | zero =>
    intro gpa len lidx iov1 iov2
    exact outcome_rel_done ⟨rfl, rfl, rfl, rfl, fun e => e.symm⟩
  | succ n ih =>
    intro gpa len lidx iov1 iov2
    rw [vq_map_desc_bufs_loop, vq_map_desc_bufs_loop]
    by_cases ha : gpa &&& PAGEOFFSET ≠ 0
    · rw [if_pos ha, if_pos ha]
      trivial
    · rw [if_neg ha, if_neg ha, viona_hold_page_stats_only h]
      cases viona_hold_page gpa2kva r1 gpa with
      | done buf =>
        simp only
        by_cases hb : buf = 0
        · rw [if_pos hb, if_pos hb]
          exact outcome_rel_done ⟨rfl, rfl, rfl, rfl, fun e => e.symm⟩
        · rw [if_neg hb, if_neg hb]
          have := ih ((gpa + min len PAGESIZE) % 2 ^ 64) (len - min len PAGESIZE)
            ((lidx + 1) % 65536)
            (iov_set iov1 lidx { iov_base := buf, iov_len := min len PAGESIZE })
            (iov_set iov2 lidx { iov_base := buf, iov_len := min len PAGESIZE })
          revert this
          cases vq_map_desc_bufs_loop gpa2kva r1 n ((gpa + min len PAGESIZE) % 2 ^ 64)
              (len - min len PAGESIZE) ((lidx + 1) % 65536)
              (iov_set iov1 lidx { iov_base := buf, iov_len := min len PAGESIZE }) <;>
            cases vq_map_desc_bufs_loop gpa2kva r2 n ((gpa + min len PAGESIZE) % 2 ^ 64)
              (len - min len PAGESIZE) ((lidx + 1) % 65536)
              (iov_set iov2 lidx { iov_base := buf, iov_len := min len PAGESIZE }) <;>
            intro this
          all_goals first
            | exact this
            | (obtain ⟨a1, a2, a3, a4, a5⟩ := this
               exact ⟨a1, a2, a3, a4, fun e => a5 (by rw [e])⟩)
      | panic => trivial
      | timeout => trivial

theorem outcome_rel_mono {α β : Type} {R S : α → β → Prop} {x : Outcome α} {y : Outcome β}
    (h : outcome_rel R x y) (hrs : ∀ a b, R a b → S a b) : outcome_rel S x y := by
  cases x <;> cases y <;> first | exact hrs _ _ h | exact h

theorem stats_only_symm {r1 r2 : viona_vring_t} (h : stats_only r1 r2) : stats_only r2 r1 := by
  unfold stats_only at *
  rw [h]

/-- The function `vq_map_desc_bufs` does not look at the fault counters or at what the
vector holds. -/
theorem vq_map_desc_bufs_sim (gpa2kva : Nat → Nat) {r1 r2 : viona_vring_t}
    (h : stats_only r1 r2) (desc : virtio_desc) (iov1 iov2 : Nat → iovec) (niov idx : Nat) :
    outcome_rel (map_sim (iov1 = iov2)) (vq_map_desc_bufs gpa2kva r1 desc iov1 niov idx)
      (vq_map_desc_bufs gpa2kva r2 desc iov2 niov idx) := by
  unfold vq_map_desc_bufs
  simp only
  by_cases c1 : ¬ idx < niov
  · rw [if_pos c1, if_pos c1]
    trivial
  rw [if_neg c1, if_neg c1]
  by_cases c2 : desc.vd_len = 0
  · rw [if_pos c2, if_pos c2]
    exact outcome_rel_done ⟨rfl, rfl, stats_only_restat h _ _, fun e => e.symm⟩
  rw [if_neg c2, if_neg c2]
  by_cases c3 : desc_pages desc > (niov + 2 ^ 32 - idx) % 2 ^ 32
  · rw [if_pos c3, if_pos c3]
    exact outcome_rel_done ⟨rfl, rfl, stats_only_restat h _ _, fun e => e.symm⟩
  rw [if_neg c3, if_neg c3, viona_hold_page_stats_only h]
  cases viona_hold_page gpa2kva r1 (desc.vd_addr &&& PAGEMASK) with
  | panic => trivial
  | timeout => trivial
  | done buf =>
    simp only
    by_cases hb : buf = 0
    · rw [if_pos hb, if_pos hb]
      exact outcome_rel_done ⟨rfl, rfl, stats_only_restat h _ _, fun e => e.symm⟩
    rw [if_neg hb, if_neg hb]
    have hl := vq_map_desc_bufs_loop_sim gpa2kva h (desc_pages desc - 1)
      ((desc.vd_addr + min desc.vd_len (PAGESIZE - (desc.vd_addr &&& PAGEOFFSET))) % 2 ^ 64)
      (desc.vd_len - min desc.vd_len (PAGESIZE - (desc.vd_addr &&& PAGEOFFSET)))
      ((idx + 1) % 65536)
      (iov_set iov1 idx
        { iov_base := buf + (desc.vd_addr &&& PAGEOFFSET),
          iov_len := min desc.vd_len (PAGESIZE - (desc.vd_addr &&& PAGEOFFSET)) })
      (iov_set iov2 idx
        { iov_base := buf + (desc.vd_addr &&& PAGEOFFSET),
          iov_len := min desc.vd_len (PAGESIZE - (desc.vd_addr &&& PAGEOFFSET)) })
    revert hl
    generalize vq_map_desc_bufs_loop gpa2kva r1 _ _ _ _ _ = x
    generalize vq_map_desc_bufs_loop gpa2kva r2 _ _ _ _ _ = y
    intro hl
    cases x <;> cases y <;> first | exact False.elim hl | trivial | skip
    rename_i s1 s2
    obtain ⟨a1, a2, a3, a4, a5⟩ := hl
    simp only [a1, a2, a3, a4]
    by_cases f1 : s1.fault = true
    · rw [if_pos f1, if_pos f1]
      exact outcome_rel_done
        ⟨rfl, rfl, stats_only_restat h _ _, fun e => a5 (by rw [e])⟩
    rw [if_neg f1, if_neg f1]
    by_cases f2 : s1.len ≠ 0
    · rw [if_pos f2, if_pos f2]
      trivial
    rw [if_neg f2, if_neg f2]
    by_cases f3 : s1.gpa ≠ (desc.vd_addr + desc.vd_len) % 2 ^ 64
    · rw [if_pos f3, if_pos f3]
      trivial
    rw [if_neg f3, if_neg f3]
    exact outcome_rel_done ⟨rfl, rfl, h, fun e => a5 (by rw [e])⟩

theorem map_sim_weaken {p q : Prop} {m1 m2 : MapRes} (hpq : p → q) (h : map_sim q m1 m2) :
    map_sim p m1 m2 :=
  ⟨h.1, h.2.1, h.2.2.1, fun e => h.2.2.2 (hpq e)⟩

/-- The loop of `vq_map_indir_desc_bufs` does not look at the fault counters or at what
the vector holds, and of memory it reads entries of the table of `desc` only, each from
the translation of its page. -/
theorem vq_map_indir_desc_bufs_loop_sim (gpa2kva : Nat → Nat) (mem1 mem2 : Mem)
    (desc : virtio_desc) (niov indir_count : Nat)
    (hm : ∀ k, k < indir_count → gpa2kva (indir_entry_gpa desc k &&& PAGEMASK) ≠ 0 →
      desc_at mem2 (indir_entry_kva gpa2kva desc k) =
        desc_at mem1 (indir_entry_kva gpa2kva desc k))
    (fuel : Nat) :
    ∀ (r1 r2 : viona_vring_t) (iov1 iov2 : Nat → iovec) (idx indir_next buf buf_gpa : Nat),
      stats_only r1 r2 → indir_next < indir_count →
      (buf_gpa % 4096 ≠ 0 ∨ (buf = gpa2kva buf_gpa ∧ gpa2kva buf_gpa ≠ 0)) →
      outcome_rel (map_sim (iov1 = iov2))
        (vq_map_indir_desc_bufs_loop gpa2kva mem1 desc niov indir_count fuel r1 iov1 idx
          indir_next buf buf_gpa)
        (vq_map_indir_desc_bufs_loop gpa2kva mem2 desc niov indir_count fuel r2 iov2 idx
          indir_next buf buf_gpa) := by
  induction fuel with
  | zero =>
    intro r1 r2 iov1 iov2 idx indir_next buf buf_gpa _ _ _
    trivial
  | succ fuel ih =>
    intro r1 r2 iov1 iov2 idx indir_next buf buf_gpa h hnext hinv
    rw [vq_map_indir_desc_bufs_loop, vq_map_indir_desc_bufs_loop]
    simp only
    have hmk := hm indir_next hnext
    unfold indir_entry_kva indir_entry_gpa at hmk
    generalize hgpa : (desc.vd_addr + indir_next * SIZEOF_virtio_desc) % 2 ^ 64 = igpa
    rw [hgpa] at hmk
    have hlt : igpa < 2 ^ 64 := by rw [← hgpa]; exact Nat.mod_lt _ (by norm_num)
    have hpage : igpa &&& PAGEMASK = igpa / 4096 * 4096 := land_PAGEMASK igpa hlt
    have hoff : igpa - (igpa &&& PAGEMASK) < PAGESIZE := by
      rw [hpage]; unfold PAGESIZE; omega
    rw [viona_hold_page_stats_only h]
    have key : ∀ (buf1 : Nat),
        (buf1 = gpa2kva (igpa &&& PAGEMASK) ∧ gpa2kva (igpa &&& PAGEMASK) ≠ 0) →
        outcome_rel (map_sim (iov1 = iov2))
          (if (desc_at mem1 (buf1 + (igpa - (igpa &&& PAGEMASK)))).vd_flags &&&
              VRING_DESC_F_INDIRECT ≠ 0 then
            Outcome.done
              { err := EINVAL, ring := incr_indir_bad_nest r1, iov := iov1, idx := idx }
          else if (desc_at mem1 (buf1 + (igpa - (igpa &&& PAGEMASK)))).vd_len = 0 then
            Outcome.done
              { err := EINVAL, ring := incr_desc_bad_len r1, iov := iov1, idx := idx }
          else
            match vq_map_desc_bufs gpa2kva r1
                (desc_at mem1 (buf1 + (igpa - (igpa &&& PAGEMASK)))) iov1 niov idx with
            | Outcome.done r =>
              if r.err ≠ 0 then Outcome.done r
              else if (desc_at mem1 (buf1 + (igpa - (igpa &&& PAGEMASK)))).vd_flags &&&
                  VRING_DESC_F_NEXT = 0 then Outcome.done r
              else if r.idx ≥ niov then
                Outcome.done
                  { err := E2BIG, ring := incr_too_many_desc r.ring, iov := r.iov,
                    idx := r.idx }
              else if (desc_at mem1 (buf1 + (igpa - (igpa &&& PAGEMASK)))).vd_next ≥
                  indir_count then
                Outcome.done
                  { err := EINVAL, ring := incr_indir_bad_next r.ring, iov := r.iov,
                    idx := r.idx }
              else
                vq_map_indir_desc_bufs_loop gpa2kva mem1 desc niov indir_count fuel r.ring
                  r.iov r.idx (desc_at mem1 (buf1 + (igpa - (igpa &&& PAGEMASK)))).vd_next
                  buf1 (igpa &&& PAGEMASK)
            | Outcome.panic => Outcome.panic
            | Outcome.timeout => Outcome.timeout)
          (if (desc_at mem2 (buf1 + (igpa - (igpa &&& PAGEMASK)))).vd_flags &&&
              VRING_DESC_F_INDIRECT ≠ 0 then
            Outcome.done
              { err := EINVAL, ring := incr_indir_bad_nest r2, iov := iov2, idx := idx }
          else if (desc_at mem2 (buf1 + (igpa - (igpa &&& PAGEMASK)))).vd_len = 0 then
            Outcome.done
              { err := EINVAL, ring := incr_desc_bad_len r2, iov := iov2, idx := idx }
          else
            match vq_map_desc_bufs gpa2kva r2
                (desc_at mem2 (buf1 + (igpa - (igpa &&& PAGEMASK)))) iov2 niov idx with
            | Outcome.done r =>
              if r.err ≠ 0 then Outcome.done r
              else if (desc_at mem2 (buf1 + (igpa - (igpa &&& PAGEMASK)))).vd_flags &&&
                  VRING_DESC_F_NEXT = 0 then Outcome.done r
              else if r.idx ≥ niov then
                Outcome.done
                  { err := E2BIG, ring := incr_too_many_desc r.ring, iov := r.iov,
                    idx := r.idx }
              else if (desc_at mem2 (buf1 + (igpa - (igpa &&& PAGEMASK)))).vd_next ≥
                  indir_count then
                Outcome.done
                  { err := EINVAL, ring := incr_indir_bad_next r.ring, iov := r.iov,
                    idx := r.idx }
              else
                vq_map_indir_desc_bufs_loop gpa2kva mem2 desc niov indir_count fuel r.ring
                  r.iov r.idx (desc_at mem2 (buf1 + (igpa - (igpa &&& PAGEMASK)))).vd_next
                  buf1 (igpa &&& PAGEMASK)
            | Outcome.panic => Outcome.panic
            | Outcome.timeout => Outcome.timeout) := by
      intro buf1 hb1
      obtain ⟨hg1, hg2⟩ := hb1
      have hvp : desc_at mem2 (buf1 + (igpa - (igpa &&& PAGEMASK))) =
          desc_at mem1 (buf1 + (igpa - (igpa &&& PAGEMASK))) := by
        rw [hg1]
        exact hmk hg2
      rw [hvp]
      generalize desc_at mem1 (buf1 + (igpa - (igpa &&& PAGEMASK))) = vp
      by_cases c1 : vp.vd_flags &&& VRING_DESC_F_INDIRECT ≠ 0
      · rw [if_pos c1, if_pos c1]
        exact outcome_rel_done ⟨rfl, rfl, stats_only_restat h _ _, fun e => e.symm⟩
      rw [if_neg c1, if_neg c1]
      by_cases c2 : vp.vd_len = 0
      · rw [if_pos c2, if_pos c2]
        exact outcome_rel_done ⟨rfl, rfl, stats_only_restat h _ _, fun e => e.symm⟩
      rw [if_neg c2, if_neg c2]
      have hs := vq_map_desc_bufs_sim gpa2kva h vp iov1 iov2 niov idx
      revert hs
      generalize vq_map_desc_bufs gpa2kva r1 vp iov1 niov idx = x
      generalize vq_map_desc_bufs gpa2kva r2 vp iov2 niov idx = y
      intro hs
      cases x <;> cases y <;> first | exact False.elim hs | trivial | skip
      rename_i m1 m2
      obtain ⟨a1, a2, a3, a4⟩ := hs
      simp only [a1, a2]
      by_cases d1 : m1.err ≠ 0
      · rw [if_pos d1, if_pos d1]
        exact outcome_rel_done ⟨a1, a2, a3, a4⟩
      rw [if_neg d1, if_neg d1]
      by_cases d2 : vp.vd_flags &&& VRING_DESC_F_NEXT = 0
      · rw [if_pos d2, if_pos d2]
        exact outcome_rel_done ⟨a1, a2, a3, a4⟩
      rw [if_neg d2, if_neg d2]
      by_cases d3 : m1.idx ≥ niov
      · rw [if_pos d3, if_pos d3]
        exact outcome_rel_done ⟨rfl, rfl, stats_only_restat a3 _ _, a4⟩
      rw [if_neg d3, if_neg d3]
      by_cases d4 : vp.vd_next ≥ indir_count
      · rw [if_pos d4, if_pos d4]
        exact outcome_rel_done ⟨rfl, rfl, stats_only_restat a3 _ _, a4⟩
      rw [if_neg d4, if_neg d4]
      have hrec := ih m1.ring m2.ring m1.iov m2.iov m1.idx vp.vd_next buf1 (igpa &&& PAGEMASK) a3
        (by omega) (Or.inr ⟨hg1, hg2⟩)
      exact outcome_rel_mono hrec (fun _ _ hr => map_sim_weaken (fun e => (a4 e).symm) hr)
    by_cases hp : igpa &&& PAGEMASK ≠ buf_gpa
    · simp only [if_pos hp]
      cases hh : viona_hold_page gpa2kva r1 (igpa &&& PAGEMASK) with
      | panic => trivial
      | timeout => trivial
      | done buf1 =>
        simp only
        by_cases hz : buf1 = 0
        · rw [if_pos ⟨hp, hz⟩, if_pos ⟨hp, hz⟩]
          exact outcome_rel_done ⟨rfl, rfl, stats_only_restat h _ _, fun e => e.symm⟩
        · have hn : ¬ (igpa &&& PAGEMASK ≠ buf_gpa ∧ buf1 = 0) := fun c => hz c.2
          rw [if_neg hn, if_neg hn]
          have hk : buf1 = gpa2kva (igpa &&& PAGEMASK) := by
            unfold viona_hold_page at hh
            split at hh
            · cases hh
            · split at hh
              · cases hh
              · cases hh; rfl
          exact key buf1 ⟨hk, by rw [← hk]; exact hz⟩
    · simp only [if_neg hp]
      have hn : ¬ (igpa &&& PAGEMASK ≠ buf_gpa ∧ buf = 0) := fun c => hp c.1
      rw [if_neg hn, if_neg hn]
      have hpe : igpa &&& PAGEMASK = buf_gpa := by simpa using hp
      have hal : buf_gpa % 4096 = 0 := by
        rw [← hpe, hpage]
        omega
      rcases hinv with hi | hi
      · exact absurd hal hi
      · exact key buf (by rw [hpe]; exact hi)

theorem stats_only_size {r1 r2 : viona_vring_t} (h : stats_only r1 r2) :
    r2.vr_size = r1.vr_size ∧ r2.vr_mask = r1.vr_mask ∧ r2.vr_cur_aidx = r1.vr_cur_aidx := by
  unfold stats_only at h
  rw [h]
  exact ⟨rfl, rfl, rfl⟩

/-- The function `vq_map_indir_desc_bufs` does not look at the fault counters or at what
the vector holds, and of memory it reads entries of the table of `desc` only. -/
theorem vq_map_indir_desc_bufs_sim (fuel : Nat) (gpa2kva : Nat → Nat) (mem1 mem2 : Mem)
    {r1 r2 : viona_vring_t} (h : stats_only r1 r2) (desc : virtio_desc)
    (hm : same_table gpa2kva desc mem1 mem2)
    (iov1 iov2 : Nat → iovec) (niov idx : Nat) :
    outcome_rel (map_sim (iov1 = iov2))
      (vq_map_indir_desc_bufs fuel gpa2kva mem1 r1 desc iov1 niov idx)
      (vq_map_indir_desc_bufs fuel gpa2kva mem2 r2 desc iov2 niov idx) := by
  unfold vq_map_indir_desc_bufs
  simp only [(stats_only_size h).1]
  by_cases c : desc.vd_len &&& 0xf ≠ 0 ∨ (desc.vd_len / SIZEOF_virtio_desc) % 65536 = 0 ∨
      (desc.vd_len / SIZEOF_virtio_desc) % 65536 > r1.vr_size ∨
      desc.vd_addr > (desc.vd_addr + desc.vd_len) % 2 ^ 64
  · rw [if_pos c, if_pos c]
    exact outcome_rel_done ⟨rfl, rfl, stats_only_restat h _ _, fun e => e.symm⟩
  · rw [if_neg c, if_neg c]
    have hpos : 0 < (desc.vd_len / SIZEOF_virtio_desc) % 65536 :=
      Nat.pos_of_ne_zero (fun e => c (Or.inr (Or.inl e)))
    exact vq_map_indir_desc_bufs_loop_sim gpa2kva mem1 mem2 desc niov _ hm fuel r1 r2 iov1 iov2
      idx 0 0 UINT64_MAX h hpos (Or.inl (by decide))

/-- The mapping of one descriptor by `vq_popchain` does not look at the fault counters or
at what the vector holds. -/
theorem vq_popchain_map_sim (fuel : Nat) (gpa2kva : Nat → Nat) (mem1 mem2 : Mem)
    {r1 r2 : viona_vring_t} (h : stats_only r1 r2) (vdir : virtio_desc)
    (hm : vdir.vd_flags &&& VRING_DESC_F_INDIRECT ≠ 0 → same_table gpa2kva vdir mem1 mem2)
    (iov1 iov2 : Nat → iovec) (niov i : Nat) :
    outcome_rel (map_sim (iov1 = iov2))
      (vq_popchain_map fuel gpa2kva mem1 r1 vdir iov1 niov i)
      (vq_popchain_map fuel gpa2kva mem2 r2 vdir iov2 niov i) := by
  unfold vq_popchain_map
  by_cases c1 : vdir.vd_flags &&& VRING_DESC_F_INDIRECT = 0
  · rw [if_pos c1, if_pos c1]
    exact vq_map_desc_bufs_sim gpa2kva h vdir iov1 iov2 niov i
  rw [if_neg c1, if_neg c1]
  by_cases c2 : vdir.vd_flags &&& VRING_DESC_F_NEXT ≠ 0
  · rw [if_pos c2, if_pos c2]
    exact outcome_rel_done ⟨rfl, rfl, stats_only_restat h _ _, fun e => e.symm⟩
  rw [if_neg c2, if_neg c2]
  exact vq_map_indir_desc_bufs_sim fuel gpa2kva mem1 mem2 h vdir (hm c1) iov1 iov2 niov i

theorem stats_only_of_base {ring r1 r2 : viona_vring_t} (h1 : stats_only ring r1)
    (h2 : stats_only ring r2) : stats_only r1 r2 :=
  stats_only_trans (stats_only_symm h1) h2

theorem stats_only_aidx {r1 r2 : viona_vring_t} (h : stats_only r1 r2) (a1 a2 : Nat)
    (e : a2 = a1) :
    stats_only { r1 with vr_cur_aidx := a1 } { r2 with vr_cur_aidx := a2 } := by
  unfold stats_only at *
  rw [h, e]

theorem pop_sim_weaken {p q : Prop} {m1 m2 : PopRes} (hpq : p → q) (h : pop_sim q m1 m2) :
    pop_sim p m1 m2 :=
  ⟨h.1, h.2.1, fun e => h.2.2 (hpq e)⟩

/-- The loop of `vq_popchain` does not look at the fault counters, at what the vector
holds or at the cookie handed in; of memory it reads the descriptor table and the
indirect tables that descriptors of the ring declare. -/
theorem vq_popchain_loop_sim (gpa2kva : Nat → Nat) (mem1 mem2 : Mem) (ring : viona_vring_t)
    (hc : same_chains gpa2kva ring mem1 mem2) (ifuel niov head cookie1 cookie2 : Nat)
    (fuel : Nat) :
    ∀ (r1 r2 : viona_vring_t) (iov1 iov2 : Nat → iovec) (i next : Nat),
      stats_only ring r1 → stats_only ring r2 →
      outcome_rel (pop_sim (iov1 = iov2))
        (vq_popchain_loop ifuel gpa2kva mem1 niov head cookie1 fuel r1 iov1 i next)
        (vq_popchain_loop ifuel gpa2kva mem2 niov head cookie2 fuel r2 iov2 i next) := by
  induction fuel with
  | zero =>
    intro r1 r2 iov1 iov2 i next _ _
    trivial
  | succ fuel ih =>
    intro r1 r2 iov1 iov2 i next h1 h2
    have h12 := stats_only_of_base h1 h2
    rw [vq_popchain_loop, vq_popchain_loop]
    by_cases c1 : i < niov
    swap
    · rw [if_neg c1, if_neg c1]
      exact outcome_rel_done ⟨rfl, h12, fun e => e.symm⟩
    rw [if_pos c1, if_pos c1]
    rw [(stats_only_size h12).1]
    by_cases c2 : next ≥ r1.vr_size
    · rw [if_pos c2, if_pos c2]
      exact outcome_rel_done ⟨rfl, stats_only_restat h12 _ _, fun e => e.symm⟩
    rw [if_neg c2, if_neg c2]
    have hrd : vq_read_desc mem2 r2 next = vq_read_desc mem1 r1 next := by
      rw [vq_read_desc_stats_only h2, vq_read_desc_stats_only h1]
      exact hc.1 next
    rw [hrd]
    cases hvd : vq_read_desc mem1 r1 next with
    | panic => trivial
    | timeout => trivial
    | done vdir =>
      simp only
      have hvd1 : vq_read_desc mem1 ring next = Outcome.done vdir := by
        rw [← vq_read_desc_stats_only h1 next]
        exact hvd
      have hs := vq_popchain_map_sim ifuel gpa2kva mem1 mem2 h12 vdir (hc.2.2 next vdir hvd1)
        iov1 iov2 niov i
      revert hs
      generalize hx : vq_popchain_map ifuel gpa2kva mem1 r1 vdir iov1 niov i = x
      generalize hy : vq_popchain_map ifuel gpa2kva mem2 r2 vdir iov2 niov i = y
      intro hs
      cases x <;> cases y <;> first | exact False.elim hs | trivial | skip
      rename_i m1 m2
      obtain ⟨a1, a2, a3, a4⟩ := hs
      simp only [a1, a2]
      by_cases d1 : m1.err ≠ 0
      · rw [if_pos d1, if_pos d1]
        exact outcome_rel_done ⟨rfl, a3, a4⟩
      rw [if_neg d1, if_neg d1]
      by_cases d2 : vdir.vd_flags &&& VRING_DESC_F_NEXT = 0
      · rw [if_pos d2, if_pos d2]
        exact outcome_rel_done
          ⟨rfl, stats_only_aidx a3 _ _ (by rw [(stats_only_size a3).2.2]), a4⟩
      rw [if_neg d2, if_neg d2]
      have hrec := ih m1.ring m2.ring m1.iov m2.iov m1.idx vdir.vd_next
        (stats_only_trans h1 (vq_popchain_map_stats_only hx))
        (stats_only_trans h2 (vq_popchain_map_stats_only hy))
      exact outcome_rel_mono hrec (fun _ _ hr => pop_sim_weaken (fun e => (a4 e).symm) hr)

theorem vq_map_desc_bufs_keeps_ndesc {gpa2kva : Nat → Nat} {ring : viona_vring_t}
    {desc : virtio_desc} {iov : Nat → iovec} {niov idx : Nat} {r : MapRes}
    (h : vq_map_desc_bufs gpa2kva ring desc iov niov idx = Outcome.done r) :
    r.ring.vr_stats.rs_ndesc_too_high = ring.vr_stats.rs_ndesc_too_high := by
  unfold vq_map_desc_bufs at h
  simp only at h
  split at h
  · cases h
  split at h
  · cases h; rfl
  split at h
  · cases h; rfl
  split at h
  · split at h
    · cases h; rfl
    · split at h
      · split at h
        · cases h; rfl
        · split at h
          · cases h
          · split at h
            · cases h
            · cases h; rfl
      · cases h
      · cases h
  · cases h
  · cases h

theorem vq_map_indir_desc_bufs_loop_keeps_ndesc {gpa2kva : Nat → Nat} {mem : Mem}
    {desc : virtio_desc} {niov indir_count : Nat} (fuel : Nat) :
    ∀ {ring : viona_vring_t} {iov : Nat → iovec} {idx indir_next buf buf_gpa : Nat} {r : MapRes},
      vq_map_indir_desc_bufs_loop gpa2kva mem desc niov indir_count fuel ring iov idx indir_next
        buf buf_gpa = Outcome.done r →
      r.ring.vr_stats.rs_ndesc_too_high = ring.vr_stats.rs_ndesc_too_high := by
  induction fuel with
  | zero => intro ring iov idx indir_next buf buf_gpa r h; simp [vq_map_indir_desc_bufs_loop] at h
  | succ n ih =>
    intro ring iov idx indir_next buf buf_gpa r h
    unfold vq_map_indir_desc_bufs_loop at h
    simp only at h
    split at h
    · split at h
      · cases h; rfl
      · split at h
        · cases h; rfl
        · split at h
          · cases h; rfl
          · split at h
            · rename_i r1 hm
              have f1 := vq_map_desc_bufs_keeps_ndesc hm
              split at h
              · cases h; exact f1
              · split at h
                · cases h; exact f1
                · split at h
                  · cases h; exact f1
                  · split at h
                    · cases h; exact f1
                    · exact (ih h).trans f1
            · cases h
            · cases h
    · cases h
    · cases h

theorem vq_popchain_map_keeps_ndesc {fuel : Nat} {gpa2kva : Nat → Nat} {mem : Mem}
    {ring : viona_vring_t} {vdir : virtio_desc} {iov : Nat → iovec} {niov i : Nat} {r : MapRes}
    (h : vq_popchain_map fuel gpa2kva mem ring vdir iov niov i = Outcome.done r) :
    r.ring.vr_stats.rs_ndesc_too_high = ring.vr_stats.rs_ndesc_too_high := by
  unfold vq_popchain_map at h
  split at h
  · exact vq_map_desc_bufs_keeps_ndesc h
  · split at h
    · cases h; rfl
    · unfold vq_map_indir_desc_bufs at h
      simp only at h
      split at h
      · cases h; rfl
      · exact vq_map_indir_desc_bufs_loop_keeps_ndesc _ h

/-- The loop of `vq_popchain` does not count `ndesc_too_high`. -/
theorem vq_popchain_loop_keeps_ndesc {ifuel : Nat} {gpa2kva : Nat → Nat} {mem : Mem}
    {niov head cookie : Nat} (fuel : Nat) :
    ∀ {ring : viona_vring_t} {iov : Nat → iovec} {i next : Nat} {r : PopRes},
      vq_popchain_loop ifuel gpa2kva mem niov head cookie fuel ring iov i next = Outcome.done r →
      r.ring.vr_stats.rs_ndesc_too_high = ring.vr_stats.rs_ndesc_too_high := by
  induction fuel with
  | zero => intro ring iov i next r h; simp [vq_popchain_loop] at h
  | succ n ih =>
    intro ring iov i next r h
    unfold vq_popchain_loop at h
    split at h
    · split at h
      · cases h; rfl
      · split at h
        · split at h
          · rename_i vdir _ r1 hm
            have f1 := vq_popchain_map_keeps_ndesc hm
            split at h
            · cases h; exact f1
            · split at h
              · cases h; exact f1
              · exact (ih h).trans f1
          · cases h
          · cases h
        · cases h
        · cases h
    · cases h; rfl

/-- Two memories that present the same chains to `vq_popchain` on `ring` and differ in
the available index: in the first the apparent count exceeds `vr_size`, in the second it
lies between 1 and `vr_size`. The two calls end in the same way, and when they return,
return value, cookie, vector and `vr_cur_aidx` are the same, the rings differ in their
fault counters at most, and `ndesc_too_high` is one more than before the call in the
first run and as before the call in the second. -/
theorem vq_popchain_same_chains_count (fuel : Nat) (gpa2kva : Nat → Nat) (mem1 mem2 : Mem)
    (ring : viona_vring_t) (iov : Nat → iovec) (niov cookie n1 n2 : Nat)
    (hc : same_chains gpa2kva ring mem1 mem2)
    (h1 : viona_ring_num_avail mem1 ring = Outcome.done n1) (hhigh : n1 > ring.vr_size)
    (h2 : viona_ring_num_avail mem2 ring = Outcome.done n2)
    (hin : 1 ≤ n2 ∧ n2 ≤ ring.vr_size) :
    outcome_rel
      (fun p1 p2 => p1.ret = p2.ret ∧ p1.cookie = p2.cookie ∧ p1.iov = p2.iov ∧
        p1.ring.vr_cur_aidx = p2.ring.vr_cur_aidx ∧ stats_only p2.ring p1.ring ∧
        p1.ring.vr_stats.rs_ndesc_too_high = STAT_INCR ring.vr_stats.rs_ndesc_too_high ∧
        p2.ring.vr_stats.rs_ndesc_too_high = ring.vr_stats.rs_ndesc_too_high)
      (vq_popchain fuel gpa2kva mem1 ring iov niov cookie)
      (vq_popchain fuel gpa2kva mem2 ring iov niov cookie) := by
  unfold vq_popchain
  by_cases hn : ¬ (niov > 0 ∧ niov < INT_MAX)
  · rw [if_pos hn, if_pos hn]
    trivial
  rw [if_neg hn, if_neg hn]
  simp only [h1, h2]
  have hn1 : ¬ n1 = 0 := by omega
  have hn2 : ¬ n2 = 0 := by omega
  have hn3 : ¬ n2 > ring.vr_size := by omega
  rw [if_neg hn1, if_pos hhigh, if_neg hn2, if_neg hn3]
  have hs : stats_only ring (incr_ndesc_too_high ring) := stats_only_with _ _
  have hav : vq_read_avail mem1 (incr_ndesc_too_high ring)
        ((ring.vr_cur_aidx &&& (incr_ndesc_too_high ring).vr_mask) % 65536) =
      vq_read_avail mem2 ring ((ring.vr_cur_aidx &&& ring.vr_mask) % 65536) := by
    rw [vq_read_avail_stats_only hs, hc.2.1]
    rfl
  rw [hav]
  cases vq_read_avail mem2 ring ((ring.vr_cur_aidx &&& ring.vr_mask) % 65536) with
  | panic => trivial
  | timeout => trivial
  | done head =>
    simp only
    have hl := vq_popchain_loop_sim gpa2kva mem1 mem2 ring hc fuel niov head cookie cookie fuel
      (incr_ndesc_too_high ring) ring iov iov 0 head hs (stats_only_refl _)
    revert hl
    generalize hx : vq_popchain_loop fuel gpa2kva mem1 niov head cookie fuel
      (incr_ndesc_too_high ring) iov 0 head = x
    generalize hy : vq_popchain_loop fuel gpa2kva mem2 niov head cookie fuel ring iov 0 head = y
    intro hl
    cases x <;> cases y <;> first | exact False.elim hl | trivial | skip
    rename_i p1 p2
    obtain ⟨a1, a2, a3⟩ := hl
    have k1 := vq_popchain_loop_keeps_ndesc _ hx
    have k2 := vq_popchain_loop_keeps_ndesc _ hy
    have e1 := vq_popchain_loop_exit _ hx
    have e2 := vq_popchain_loop_exit _ hy
    refine ⟨a1.symm, ?_, (a3 rfl).symm, ((stats_only_size a2).2.2).symm, stats_only_symm a2, k1,
      k2⟩
    rcases e1 with ⟨b1, b2, _⟩ | ⟨b1, b2, _⟩ <;> rcases e2 with ⟨c1, c2, _⟩ | ⟨c1, c2, _⟩
    · rw [b2, c2]
    · rw [a1, b1] at c1; exact absurd c1 (by decide)
    · rw [← a1, c1] at b1; exact absurd b1 (by decide)
    · rw [b2, c2]

theorem rd64_congr (m1 m2 : Mem) (b : Nat) (h : ∀ k, k < 8 → m1 (b + k) = m2 (b + k)) :
    rd64 m1 b = rd64 m2 b := by
  unfold rd64
  rw [rd32_congr m1 m2 b (fun k hk => h k (by omega)),
    rd32_congr m1 m2 (b + 4) (fun k hk => by
      have := h (4 + k) (by omega)
      rw [← Nat.add_assoc] at this
      exact this)]

theorem desc_at_congr (m1 m2 : Mem) (b : Nat) (h : ∀ k, k < 16 → m1 (b + k) = m2 (b + k)) :
    desc_at m1 b = desc_at m2 b := by
  unfold desc_at
  rw [rd64_congr m1 m2 b (fun k hk => h k (by omega)),
    rd32_congr m1 m2 (b + 8) (fun k hk => by
      have := h (8 + k) (by omega)
      rw [← Nat.add_assoc] at this
      exact this),
    rd16_congr m1 m2 (b + 12) (fun k hk => by
      have := h (12 + k) (by omega)
      rw [← Nat.add_assoc] at this
      exact this),
    rd16_congr m1 m2 (b + 14) (fun k hk => by
      have := h (14 + k) (by omega)
      rw [← Nat.add_assoc] at this
      exact this)]

theorem vq_read_desc_eq_desc_at {mem : Mem} {ring : viona_vring_t} {idx b : Nat}
    (hi : idx < ring.vr_size)
    (hb : viona_ring_addr ring ((idx * SIZEOF_virtio_desc) % 2 ^ 32) = Outcome.done b) :
    vq_read_desc mem ring idx = Outcome.done (desc_at mem b) := by
  unfold vq_read_desc
  simp only
  rw [if_pos hi, hb]
  rfl

/-- Two memories that differ in the two bytes of the available index only present the
same chains, on a mapped ring, when no entry of an indirect table that a descriptor of
the ring declares includes one of those two bytes. -/
theorem same_chains_of_avail_idx (gpa2kva : Nat → Nat) (ring : viona_vring_t)
    (mem1 mem2 : Mem) (a : Nat) (hm : ring_mapped ring)
    (ha : viona_ring_addr ring ((LEGACY_AVAIL_IDX_OFF ring.vr_size) % 2 ^ 32) = Outcome.done a)
    (hmem : ∀ x, x ≠ a → x ≠ a + 1 → mem2 x = mem1 x)
    (hno : ∀ idx d k, vq_read_desc mem1 ring idx = Outcome.done d →
      d.vd_flags &&& VRING_DESC_F_INDIRECT ≠ 0 →
      k < (d.vd_len / SIZEOF_virtio_desc) % 65536 →
      gpa2kva (indir_entry_gpa d k &&& PAGEMASK) ≠ 0 →
      a + 2 ≤ indir_entry_kva gpa2kva d k ∨ indir_entry_kva gpa2kva d k + 16 ≤ a) :
    same_chains gpa2kva ring mem1 mem2 := by
  have hq : ring.vr_size ≤ 2 ^ 59 := ring_mapped_size59 hm
  have hq16 : ring.vr_size < 65536 := hm.2.1
  have hsize := LEGACY_VQ_SIZE_eq ring.vr_size hq
  have e32 : (2 : Nat) ^ 32 = 4294967296 := by norm_num
  have hao : LEGACY_AVAIL_IDX_OFF ring.vr_size % 2 ^ 32 = 16 * ring.vr_size + 2 := by
    rw [LEGACY_AVAIL_IDX_OFF_eq _ hq, e32]
    omega
  rw [hao] at ha
  have hoa : 16 * ring.vr_size + 2 < LEGACY_VQ_SIZE ring.vr_size := by omega
  refine ⟨?_, ?_, ?_⟩
  · intro idx
    by_cases hi : idx < ring.vr_size
    · have ho : (idx * SIZEOF_virtio_desc) % 2 ^ 32 = 16 * idx := by
        unfold SIZEOF_virtio_desc
        rw [e32]
        omega
      have hlt : 16 * idx < LEGACY_VQ_SIZE ring.vr_size := by omega
      obtain ⟨b, hb⟩ := viona_ring_addr_ok hm (16 * idx) hlt
      have hd := viona_ring_addr_disjoint hm (n := 16) (m := 2) hlt hoa hb ha (by omega)
        (by omega) (Or.inl (by omega))
      rw [vq_read_desc_eq_desc_at hi (by rw [ho]; exact hb),
        vq_read_desc_eq_desc_at hi (by rw [ho]; exact hb)]
      congr 1
      apply desc_at_congr
      intro k hk
      exact hmem _ (by have := hd k 0 hk (by omega); simpa using this) (hd k 1 hk (by omega))
    · unfold vq_read_desc
      simp only
      rw [if_neg hi, if_neg hi]
  · intro idx
    unfold vq_read_avail
    by_cases hi : idx < ring.vr_size
    · rw [if_pos hi, if_pos hi]
      have ho : LEGACY_AVAIL_ENT_OFF ring.vr_size idx % 2 ^ 32 = 16 * ring.vr_size + 4 + 2 * idx := by
        rw [LEGACY_AVAIL_ENT_OFF_eq _ _ hq (by omega), e32]
        omega
      rw [ho]
      have hlt : 16 * ring.vr_size + 4 + 2 * idx < LEGACY_VQ_SIZE ring.vr_size := by omega
      obtain ⟨b, hb⟩ := viona_ring_addr_ok hm _ hlt
      have hd := viona_ring_addr_disjoint hm (n := 2) (m := 2) hlt hoa hb ha (by omega)
        (by omega) (Or.inr (by omega))
      rw [hb]
      simp only
      congr 1
      apply rd16_congr
      intro k hk
      exact hmem _ (by have := hd k 0 hk (by omega); simpa using this) (hd k 1 hk (by omega))
    · rw [if_neg hi, if_neg hi]
  · intro idx d hd hf k hk hg
    apply desc_at_congr
    intro j hj
    rcases hno idx d k hd hf hk hg with h | h
    · exact hmem _ (by omega) (by omega)
    · exact hmem _ (by omega) (by omega)

/-- On the example ring, descriptor `idx` is read from host address `65536 + 16 * idx`. -/
theorem ex_ring_read_desc (mem : Mem) (idx : Nat) (d : virtio_desc)
    (h : vq_read_desc mem ex_ring idx = Outcome.done d) :
    idx < 256 ∧ d = desc_at mem (65536 + 16 * idx) := by
  unfold vq_read_desc at h
  simp only at h
  split at h
  · rename_i hi
    have hi1 : idx < 256 := hi
    have e : (idx * SIZEOF_virtio_desc) % 2 ^ 32 = 16 * idx := by
      unfold SIZEOF_virtio_desc
      norm_num
      omega
    have hb : viona_ring_addr ex_ring (16 * idx) = Outcome.done (65536 + 16 * idx) := by
      unfold viona_ring_addr
      have h1 : LEGACY_VQ_SIZE 256 > 16 * idx := by
        have : LEGACY_VQ_SIZE 256 = 12288 := by decide
        rw [this]
        omega
      have h2 : 16 * idx / PAGESIZE = 0 := by unfold PAGESIZE; omega
      have h3 : 16 * idx % PAGESIZE = 16 * idx := by unfold PAGESIZE; omega
      simp only [ex_ring, h2, h3]
      rw [if_pos h1]
      rfl
    rw [e, hb] at h
    simp only at h
    cases h
    exact ⟨hi1, rfl⟩
  · cases h

/-- C22 fails as stated when the guest lets an indirect table cover the available index.
The ring `ex_ring` is mapped as `viona_ring_map` maps it under `ex_kva_real`. Descriptor
0, the head of the one published chain, is indirect, and its table of one entry is the
start of the available ring, so bytes 2 and 3 of the sub-descriptor are the available
index. With the index at 300 (a count above the 256 entries of the ring) the
sub-descriptor is a buffer at guest address 19660800, which does not translate:
`vq_popchain` returns -1. In the memory that differs in the available index only, which
is 1 there, the buffer is at 65536 and `vq_popchain` returns 1 with the cookie set. -/
theorem vq_popchain_index_inside_table :
    viona_ring_map ex_kva_real { ex_ring with vr_map_pages := none } =
      Outcome.done (true, ex_ring) ∧
    viona_ring_addr ex_ring (LEGACY_AVAIL_IDX_OFF ex_ring.vr_size % 2 ^ 32) =
      Outcome.done 131074 ∧
    viona_ring_num_avail ex_mem_alias ex_ring = Outcome.done 300 ∧
    viona_ring_num_avail (wr16 ex_mem_alias 131074 1) ex_ring = Outcome.done 1 ∧
    vq_read_desc ex_mem_alias ex_ring 0 = Outcome.done ex_desc_alias ∧
    indir_entry_kva ex_kva_real ex_desc_alias 0 = 131072 ∧
    vq_popchain 10 ex_kva_real ex_mem_alias ex_ring ex_iov 8 99 =
      Outcome.done { ret := -1, ring := incr_bad_ring_addr (incr_ndesc_too_high ex_ring),
                     iov := ex_iov, cookie := 99 } ∧
    vq_popchain 10 ex_kva_real (wr16 ex_mem_alias 131074 1) ex_ring ex_iov 8 99 =
      Outcome.done { ret := 1, ring := { ex_ring with vr_cur_aidx := 1 },
                     iov := iov_set ex_iov 0 { iov_base := 16842752, iov_len := 100 },
                     cookie := 0 } :=
  ⟨rfl, rfl, rfl, rfl, rfl, rfl, rfl, rfl⟩

/-- C22, amended: take a mapped ring and two memories that differ in the two bytes of
the available index only, where no entry of an indirect table that a descriptor of the
ring declares includes one of those two bytes. In the first memory the apparent count
exceeds `vr_size`, in the second it lies between 1 and `vr_size`. The two calls of
`vq_popchain` end in the same way, and when they return, return value, cookie, vector
and `vr_cur_aidx` are the same, the rings differ in their fault counters at most, and
`ndesc_too_high` is one more than before the call in the first run and as before the
call in the second. -/
theorem vq_popchain_count_too_high (fuel : Nat) (gpa2kva : Nat → Nat) (mem1 mem2 : Mem)
    (ring : viona_vring_t) (iov : Nat → iovec) (niov cookie n1 n2 a : Nat)
    (hm : ring_mapped ring)
    (ha : viona_ring_addr ring ((LEGACY_AVAIL_IDX_OFF ring.vr_size) % 2 ^ 32) = Outcome.done a)
    (hmem : ∀ x, x ≠ a → x ≠ a + 1 → mem2 x = mem1 x)
    (hno : ∀ idx d k, vq_read_desc mem1 ring idx = Outcome.done d →
      d.vd_flags &&& VRING_DESC_F_INDIRECT ≠ 0 →
      k < (d.vd_len / SIZEOF_virtio_desc) % 65536 →
      gpa2kva (indir_entry_gpa d k &&& PAGEMASK) ≠ 0 →
      a + 2 ≤ indir_entry_kva gpa2kva d k ∨ indir_entry_kva gpa2kva d k + 16 ≤ a)
    (h1 : viona_ring_num_avail mem1 ring = Outcome.done n1) (hhigh : n1 > ring.vr_size)
    (h2 : viona_ring_num_avail mem2 ring = Outcome.done n2)
    (hin : 1 ≤ n2 ∧ n2 ≤ ring.vr_size) :
    outcome_rel
      (fun p1 p2 => p1.ret = p2.ret ∧ p1.cookie = p2.cookie ∧ p1.iov = p2.iov ∧
        p1.ring.vr_cur_aidx = p2.ring.vr_cur_aidx ∧ stats_only p2.ring p1.ring ∧
        p1.ring.vr_stats.rs_ndesc_too_high = STAT_INCR ring.vr_stats.rs_ndesc_too_high ∧
        p2.ring.vr_stats.rs_ndesc_too_high = ring.vr_stats.rs_ndesc_too_high)
      (vq_popchain fuel gpa2kva mem1 ring iov niov cookie)
      (vq_popchain fuel gpa2kva mem2 ring iov niov cookie) :=
  vq_popchain_same_chains_count fuel gpa2kva mem1 mem2 ring iov niov cookie n1 n2
    (same_chains_of_avail_idx gpa2kva ring mem1 mem2 a hm ha hmem hno) h1 hhigh h2 hin

set_option maxRecDepth 100000 in
/-- In `ex_mem_indir_high` descriptor 9 is the only one with the indirect flag. -/
theorem ex_mem_indir_high_flags :
    ∀ idx, idx < 256 →
      (desc_at ex_mem_indir_high (65536 + 16 * idx)).vd_flags &&& VRING_DESC_F_INDIRECT ≠ 0 →
      idx = 9 := by
  decide

/-- The two entries of the table of descriptor 9 of `ex_mem_indir_high` lie at host
addresses 16809984 and 16810000, away from the available index of the example ring at
131074. -/
theorem ex_mem_indir_high_apart (idx : Nat) (d : virtio_desc) (k : Nat)
    (h : vq_read_desc ex_mem_indir_high ex_ring idx = Outcome.done d)
    (hf : d.vd_flags &&& VRING_DESC_F_INDIRECT ≠ 0)
    (hk : k < (d.vd_len / SIZEOF_virtio_desc) % 65536) :
    131074 + 2 ≤ indir_entry_kva ex_kva_real d k ∨
      indir_entry_kva ex_kva_real d k + 16 ≤ 131074 := by
  obtain ⟨hi, hd⟩ := ex_ring_read_desc _ _ _ h
  subst hd
  have h9 := ex_mem_indir_high_flags idx hi hf
  subst h9
  have hk2 : k < 2 := hk
  interval_cases k
  · exact Or.inl (by decide)
  · exact Or.inl (by decide)

/-- Witness for C22, amended, on the example ring, whose page table is the one
`viona_ring_map` builds under `ex_kva_real`: the guest has published the indirect
descriptor 9 with a table of two buffers. With the available index at 300 the count
exceeds the 256 entries of the ring, with the index at 1 it is 1; both calls return the
two buffers of the table. -/
theorem vq_popchain_count_too_high_witness :
    viona_ring_map ex_kva_real { ex_ring with vr_map_pages := none } =
      Outcome.done (true, ex_ring) ∧
    outcome_rel
      (fun p1 p2 => p1.ret = p2.ret ∧ p1.cookie = p2.cookie ∧ p1.iov = p2.iov ∧
        p1.ring.vr_cur_aidx = p2.ring.vr_cur_aidx ∧ stats_only p2.ring p1.ring ∧
        p1.ring.vr_stats.rs_ndesc_too_high = STAT_INCR ex_ring.vr_stats.rs_ndesc_too_high ∧
        p2.ring.vr_stats.rs_ndesc_too_high = ex_ring.vr_stats.rs_ndesc_too_high)
      (vq_popchain 10 ex_kva_real ex_mem_indir_high ex_ring ex_iov 8 99)
      (vq_popchain 10 ex_kva_real (ex_mem_indir 32 ex_sub_first ex_sub_last) ex_ring ex_iov 8
        99) ∧
    vq_popchain 10 ex_kva_real ex_mem_indir_high ex_ring ex_iov 8 99 =
      Outcome.done
        { ret := 2, ring := { incr_ndesc_too_high ex_ring with vr_cur_aidx := 1 },
          iov := iov_set (iov_set ex_iov 0 { iov_base := 16797712, iov_len := 100 })
            1 { iov_base := 16801792, iov_len := 64 },
          cookie := 9 } ∧
    vq_popchain 10 ex_kva_real (ex_mem_indir 32 ex_sub_first ex_sub_last) ex_ring ex_iov 8 99 =
      Outcome.done
        { ret := 2, ring := { ex_ring with vr_cur_aidx := 1 },
          iov := iov_set (iov_set ex_iov 0 { iov_base := 16797712, iov_len := 100 })
            1 { iov_base := 16801792, iov_len := 64 },
          cookie := 9 } :=
  ⟨rfl,
    vq_popchain_count_too_high 10 ex_kva_real ex_mem_indir_high
      (ex_mem_indir 32 ex_sub_first ex_sub_last) ex_ring ex_iov 8 99 300 1 131074
      ex_ring_mapped rfl
      (fun x h1 h2 => (wr16_other _ _ _ x (by
        intro k hk
        interval_cases k
        · simpa using h1
        · exact h2)).symm)
      (fun idx d k h hf hk _ => ex_mem_indir_high_apart idx d k h hf hk)
      rfl (by decide) rfl (by decide),
    rfl, rfl⟩

/-- The descriptor of the cyclic chain is mapped at every `i` below 2^16 when the vector
has 65536 entries; at `i = 65535` the 16-bit `*idxp` wraps to 0. -/
theorem ex_cycle_map (ifuel i : Nat) (iov : Nat → iovec) (hi : i < 65536) :
    vq_popchain_map ifuel ex_kva ex_mem_cycle ex_ring ex_desc_cycle iov 65536 i =
      Outcome.done
        { err := 0, ring := ex_ring,
          iov := iov_set iov i { iov_base := 16797712, iov_len := 100 },
          idx := (i + 1) % 65536 } := by
  unfold vq_popchain_map
  rw [if_pos (by decide)]
  by_cases h : i + 1 < 65536
  · rw [vq_map_desc_bufs_one_page ex_kva ex_ring ex_desc_cycle iov 65536 i (by decide) hi
      (by norm_num) h (by decide) (by decide) (by decide) (by decide)]
    rw [Nat.mod_eq_of_lt h]
    rfl
  · have e : i = 65535 := by omega
    subst e
    rfl

/-- On the cyclic chain with a vector of 65536 entries the loop of `vq_popchain` does
not end: whatever the fuel, it is used up. -/
theorem ex_cycle_loop (ifuel : Nat) (fuel : Nat) :
    ∀ (i : Nat) (iov : Nat → iovec), i < 65536 →
      vq_popchain_loop ifuel ex_kva ex_mem_cycle 65536 5 99 fuel ex_ring iov i 5 =
        Outcome.timeout := by
  induction fuel with
  | zero =>
    intro i iov _
    rfl
  | succ fuel ih =>
    intro i iov hi
    rw [vq_popchain_loop, if_pos hi, if_neg (by decide)]
    have hrd : vq_read_desc ex_mem_cycle ex_ring 5 = Outcome.done ex_desc_cycle := rfl
    rw [hrd]
    simp only
    rw [ex_cycle_map ifuel i iov hi]
    simp only
    rw [if_neg (by decide), if_neg (by decide)]
    exact ih _ _ (Nat.mod_lt _ (by norm_num))

/-- C24 fails on the code: the guest has published a chain that is a cycle (descriptor 5
points to itself) and `vq_popchain` is called with `niov = 65536`, which satisfies the
asserted `0 < niov < INT_MAX`. The counter `i` is a `uint16_t`: each visit adds one, at
65535 it wraps to 0, so `i < niov` holds for ever and the walk never ends: for every
amount of fuel the call uses it up. -/
theorem vq_popchain_cycle_never_ends :
    (0 < 65536 ∧ 65536 < INT_MAX) ∧
    vq_read_desc ex_mem_cycle ex_ring 5 = Outcome.done ex_desc_cycle ∧
    ex_desc_cycle.vd_next = 5 ∧ ex_desc_cycle.vd_flags &&& VRING_DESC_F_NEXT ≠ 0 ∧
    ∀ fuel, vq_popchain fuel ex_kva ex_mem_cycle ex_ring ex_iov 65536 99 = Outcome.timeout := by
  refine ⟨by decide, rfl, rfl, by decide, ?_⟩
  intro fuel
  unfold vq_popchain
  rw [if_neg (by decide)]
  have h1 : viona_ring_num_avail ex_mem_cycle ex_ring = Outcome.done 1 := rfl
  simp only [h1]
  rw [if_neg (by decide), if_neg (by decide)]
  have h2 : vq_read_avail ex_mem_cycle ex_ring ((ex_ring.vr_cur_aidx &&& ex_ring.vr_mask) % 65536)
      = Outcome.done 5 := rfl
  rw [h2]
  exact ex_cycle_loop fuel fuel 0 ex_iov (by norm_num)

theorem viona_hold_page_ne_timeout (gpa2kva : Nat → Nat) (ring : viona_vring_t) (gpa : Nat) :
    viona_hold_page gpa2kva ring gpa ≠ Outcome.timeout := by
  unfold viona_hold_page
  split
  · intro h; cases h
  · split
    · intro h; cases h
    · intro h; cases h

/-- The page loop of `vq_map_desc_bufs` always ends; when it ends without a fault, the
16-bit `lidx` has been advanced once per page. -/
theorem vq_map_desc_bufs_loop_ends (gpa2kva : Nat → Nat) (ring : viona_vring_t) (n : Nat) :
    ∀ (gpa len lidx : Nat) (iov : Nat → iovec), lidx < 65536 →
      vq_map_desc_bufs_loop gpa2kva ring n gpa len lidx iov ≠ Outcome.timeout ∧
      ∀ st, vq_map_desc_bufs_loop gpa2kva ring n gpa len lidx iov = Outcome.done st →
        st.fault = false → st.lidx = (lidx + n) % 65536 := by
  induction n with
  | zero =>
    intro gpa len lidx iov hl
    refine ⟨(by intro h; cases h), ?_⟩
    intro st h _
    simp only [vq_map_desc_bufs_loop] at h
    cases h
    simp only [Nat.add_zero]
    exact (Nat.mod_eq_of_lt hl).symm
  | succ n ih =>
    intro gpa len lidx iov hl
    rw [vq_map_desc_bufs_loop]
    by_cases ha : gpa &&& PAGEOFFSET ≠ 0
    · rw [if_pos ha]
      exact ⟨(by intro h; cases h), (by intro st h; cases h)⟩
    rw [if_neg ha]
    have hh := viona_hold_page_ne_timeout gpa2kva ring gpa
    revert hh
    cases viona_hold_page gpa2kva ring gpa with
    | panic => intro _; exact ⟨(by intro h; cases h), (by intro st h; cases h)⟩
    | timeout => intro hh; exact absurd rfl hh
    | done buf =>
      intro _
      simp only
      by_cases hb : buf = 0
      · rw [if_pos hb]
        refine ⟨(by intro h; cases h), ?_⟩
        intro st h hf
        cases h
        cases hf
      · rw [if_neg hb]
        obtain ⟨i1, i2⟩ := ih ((gpa + min len PAGESIZE) % 2 ^ 64) (len - min len PAGESIZE)
          ((lidx + 1) % 65536) (iov_set iov lidx { iov_base := buf, iov_len := min len PAGESIZE })
          (Nat.mod_lt _ (by norm_num))
        refine ⟨i1, ?_⟩
        intro st h hf
        rw [i2 st h hf]
        omega

/-- The function `vq_map_desc_bufs` always ends; with a vector of at most 65535 entries,
a successful call on a descriptor with a 32-bit length advances `*idxp` by at least one
entry and not beyond `niov`. -/
theorem vq_map_desc_bufs_ends (gpa2kva : Nat → Nat) (ring : viona_vring_t)
    (desc : virtio_desc) (iov : Nat → iovec) (niov idx : Nat) :
    vq_map_desc_bufs gpa2kva ring desc iov niov idx ≠ Outcome.timeout ∧
    ∀ r, vq_map_desc_bufs gpa2kva ring desc iov niov idx = Outcome.done r → r.err = 0 →
      niov ≤ 65535 → desc.vd_len < 2 ^ 32 → idx < r.idx ∧ r.idx ≤ niov := by
  unfold vq_map_desc_bufs
  simp only
  by_cases c1 : ¬ idx < niov
  · rw [if_pos c1]
    exact ⟨(by intro h; cases h), (by intro r h; cases h)⟩
  rw [if_neg c1]
  by_cases c2 : desc.vd_len = 0
  · rw [if_pos c2]
    refine ⟨(by intro h; cases h), ?_⟩
    intro r h he
    cases h
    simp [EINVAL] at he
  rw [if_neg c2]
  by_cases c3 : desc_pages desc > (niov + 2 ^ 32 - idx) % 2 ^ 32
  · rw [if_pos c3]
    refine ⟨(by intro h; cases h), ?_⟩
    intro r h he
    cases h
    simp [E2BIG] at he
  rw [if_neg c3]
  have hh := viona_hold_page_ne_timeout gpa2kva ring (desc.vd_addr &&& PAGEMASK)
  revert hh
  cases viona_hold_page gpa2kva ring (desc.vd_addr &&& PAGEMASK) with
  | panic => intro _; exact ⟨(by intro h; cases h), (by intro r h; cases h)⟩
  | timeout => intro hh; exact absurd rfl hh
  | done buf =>
    intro _
    simp only
    by_cases hb : buf = 0
    · rw [if_pos hb]
      refine ⟨(by intro h; cases h), ?_⟩
      intro r h he
      cases h
      simp [EFAULT] at he
    rw [if_neg hb]
    have hidx : idx < niov := by simpa using c1
    obtain ⟨l1, l2⟩ := vq_map_desc_bufs_loop_ends gpa2kva ring (desc_pages desc - 1)
      ((desc.vd_addr + min desc.vd_len (PAGESIZE - (desc.vd_addr &&& PAGEOFFSET))) % 2 ^ 64)
      (desc.vd_len - min desc.vd_len (PAGESIZE - (desc.vd_addr &&& PAGEOFFSET)))
      ((idx + 1) % 65536)
      (iov_set iov idx
        { iov_base := buf + (desc.vd_addr &&& PAGEOFFSET),
          iov_len := min desc.vd_len (PAGESIZE - (desc.vd_addr &&& PAGEOFFSET)) })
      (Nat.mod_lt _ (by norm_num))
    revert l1 l2
    generalize vq_map_desc_bufs_loop gpa2kva ring _ _ _ _ _ = x
    intro l1 l2
    cases x with
    | panic => exact ⟨(by intro h; cases h), (by intro r h; cases h)⟩
    | timeout => exact absurd rfl l1
    | done st =>
      simp only
      by_cases f1 : st.fault = true
      · rw [if_pos f1]
        refine ⟨(by intro h; cases h), ?_⟩
        intro r h he
        cases h
        simp [EFAULT] at he
      rw [if_neg f1]
      by_cases f2 : st.len ≠ 0
      · rw [if_pos f2]
        exact ⟨(by intro h; cases h), (by intro r h; cases h)⟩
      rw [if_neg f2]
      by_cases f3 : st.gpa ≠ (desc.vd_addr + desc.vd_len) % 2 ^ 64
      · rw [if_pos f3]
        exact ⟨(by intro h; cases h), (by intro r h; cases h)⟩
      rw [if_neg f3]
      refine ⟨(by intro h; cases h), ?_⟩
      intro r h _ hn hlen
      cases h
      simp only
      have hst := l2 st rfl (by simpa using f1)
      have hp := desc_pages_eq desc (Nat.pos_of_ne_zero c2) hlen
      have e32 : (2 : Nat) ^ 32 = 4294967296 := by norm_num
      rw [e32] at c3 hlen
      rw [hst]
      have hp1 : 1 ≤ desc_pages desc := by rw [hp]; omega
      omega

theorem viona_ring_addr_ne_timeout (ring : viona_vring_t) (off : Nat) :
    viona_ring_addr ring off ≠ Outcome.timeout := by
  unfold viona_ring_addr
  intro h
  split at h
  · cases h
  · split at h
    · simp only at h
      split at h
      · cases h
      · cases h
    · cases h

theorem vq_read_desc_ne_timeout (mem : Mem) (ring : viona_vring_t) (idx : Nat) :
    vq_read_desc mem ring idx ≠ Outcome.timeout := by
  unfold vq_read_desc
  intro h
  simp only at h
  split at h
  · split at h
    · cases h
    · cases h
    · rename_i ha
      exact viona_ring_addr_ne_timeout _ _ ha
  · cases h

theorem vq_read_avail_ne_timeout (mem : Mem) (ring : viona_vring_t) (idx : Nat) :
    vq_read_avail mem ring idx ≠ Outcome.timeout := by
  unfold vq_read_avail
  intro h
  split at h
  · split at h
    · cases h
    · cases h
    · rename_i ha
      exact viona_ring_addr_ne_timeout _ _ ha
  · cases h

theorem viona_ring_num_avail_ne_timeout (mem : Mem) (ring : viona_vring_t) :
    viona_ring_num_avail mem ring ≠ Outcome.timeout := by
  unfold viona_ring_num_avail
  intro h
  split at h
  · cases h
  · cases h
  · rename_i ha
    exact viona_ring_addr_ne_timeout _ _ ha

/-- The loop of `vq_map_indir_desc_bufs` ends within `niov - idx` iterations when the
vector has at most 65535 entries, and a successful walk advances `*idxp` by at least one
entry and not beyond `niov`. -/
theorem vq_map_indir_desc_bufs_loop_ends (gpa2kva : Nat → Nat) (mem : Mem)
    (desc : virtio_desc) (niov indir_count : Nat) (hn : niov ≤ 65535) :
    ∀ (fuel : Nat) (ring : viona_vring_t) (iov : Nat → iovec)
      (idx indir_next buf buf_gpa : Nat), idx < niov → niov - idx ≤ fuel →
      vq_map_indir_desc_bufs_loop gpa2kva mem desc niov indir_count fuel ring iov idx
        indir_next buf buf_gpa ≠ Outcome.timeout ∧
      ∀ r, vq_map_indir_desc_bufs_loop gpa2kva mem desc niov indir_count fuel ring iov idx
        indir_next buf buf_gpa = Outcome.done r → r.err = 0 → idx < r.idx ∧ r.idx ≤ niov := by
  intro fuel
  induction fuel with
  | zero => intro ring iov idx indir_next buf buf_gpa hi hf; omega
  | succ fuel ih =>
    intro ring iov idx indir_next buf buf_gpa hi hf
    rw [vq_map_indir_desc_bufs_loop]
    simp only
    have hh := viona_hold_page_ne_timeout gpa2kva ring
      ((desc.vd_addr + indir_next * SIZEOF_virtio_desc) % 2 ^ 64 &&& PAGEMASK)
    have hsel : (if (desc.vd_addr + indir_next * SIZEOF_virtio_desc) % 2 ^ 64 &&& PAGEMASK ≠
        buf_gpa then viona_hold_page gpa2kva ring
          ((desc.vd_addr + indir_next * SIZEOF_virtio_desc) % 2 ^ 64 &&& PAGEMASK)
        else Outcome.done buf) ≠ Outcome.timeout := by
      split
      · exact hh
      · intro h; cases h
    revert hsel
    generalize (if (desc.vd_addr + indir_next * SIZEOF_virtio_desc) % 2 ^ 64 &&& PAGEMASK ≠
        buf_gpa then viona_hold_page gpa2kva ring
          ((desc.vd_addr + indir_next * SIZEOF_virtio_desc) % 2 ^ 64 &&& PAGEMASK)
        else Outcome.done buf) = x
    intro hsel
    cases x with
    | panic => exact ⟨(by intro h; cases h), (by intro r h; cases h)⟩
    | timeout => exact absurd rfl hsel
    | done buf1 =>
      simp only
      split
      · refine ⟨(by intro h; cases h), ?_⟩
        intro r h he
        cases h
        simp [EFAULT] at he
      split
      · refine ⟨(by intro h; cases h), ?_⟩
        intro r h he
        cases h
        simp [EINVAL] at he
      split
      · refine ⟨(by intro h; cases h), ?_⟩
        intro r h he
        cases h
        simp [EINVAL] at he
      generalize hvp : desc_at mem (buf1 + ((desc.vd_addr + indir_next * SIZEOF_virtio_desc) % 2 ^ 64 -
        ((desc.vd_addr + indir_next * SIZEOF_virtio_desc) % 2 ^ 64 &&& PAGEMASK))) = vp
      have hvl : vp.vd_len < 2 ^ 32 := by rw [← hvp]; exact (desc_at_bounds _ _).2
      obtain ⟨m1, m2⟩ := vq_map_desc_bufs_ends gpa2kva ring vp iov niov idx
      revert m1 m2
      generalize vq_map_desc_bufs gpa2kva ring vp iov niov idx = y
      intro m1 m2
      cases y with
      | panic => exact ⟨(by intro h; cases h), (by intro r h; cases h)⟩
      | timeout => exact absurd rfl m1
      | done r1 =>
        simp only
        split
        · refine ⟨(by intro h; cases h), ?_⟩
          intro r h he
          cases h
          rename_i hne
          exact absurd he hne
        have he1 : r1.err = 0 := by
          rename_i hne
          simpa using hne
        have hb := m2 r1 rfl he1 hn hvl
        split
        · refine ⟨(by intro h; cases h), ?_⟩
          intro r h _
          cases h
          exact hb
        split
        · refine ⟨(by intro h; cases h), ?_⟩
          intro r h he
          cases h
          simp [E2BIG] at he
        split
        · refine ⟨(by intro h; cases h), ?_⟩
          intro r h he
          cases h
          simp [EINVAL] at he
        rename_i _ hlt _
        have hlt2 : r1.idx < niov := by simpa using hlt
        obtain ⟨i1, i2⟩ := ih r1.ring r1.iov r1.idx vp.vd_next buf1
          ((desc.vd_addr + indir_next * SIZEOF_virtio_desc) % 2 ^ 64 &&& PAGEMASK) hlt2
          (by omega)
        refine ⟨i1, ?_⟩
        intro r h he
        have := i2 r h he
        omega

theorem vq_map_indir_desc_bufs_ends (gpa2kva : Nat → Nat) (mem : Mem) (fuel : Nat)
    (ring : viona_vring_t) (desc : virtio_desc) (iov : Nat → iovec) (niov idx : Nat)
    (hn : niov ≤ 65535) (hi : idx < niov) (hf : niov - idx ≤ fuel) :
    vq_map_indir_desc_bufs fuel gpa2kva mem ring desc iov niov idx ≠ Outcome.timeout ∧
    ∀ r, vq_map_indir_desc_bufs fuel gpa2kva mem ring desc iov niov idx = Outcome.done r →
      r.err = 0 → idx < r.idx ∧ r.idx ≤ niov := by
  unfold vq_map_indir_desc_bufs
  simp only
  split
  · refine ⟨(by intro h; cases h), ?_⟩
    intro r h he
    cases h
    simp [EINVAL] at he
  · exact vq_map_indir_desc_bufs_loop_ends gpa2kva mem desc niov _ hn fuel ring iov idx 0 0
      UINT64_MAX hi hf

theorem vq_popchain_map_ends (gpa2kva : Nat → Nat) (mem : Mem) (fuel : Nat)
    (ring : viona_vring_t) (vdir : virtio_desc) (iov : Nat → iovec) (niov i : Nat)
    (hn : niov ≤ 65535) (hi : i < niov) (hf : niov - i ≤ fuel) (hl : vdir.vd_len < 2 ^ 32) :
    vq_popchain_map fuel gpa2kva mem ring vdir iov niov i ≠ Outcome.timeout ∧
    ∀ r, vq_popchain_map fuel gpa2kva mem ring vdir iov niov i = Outcome.done r →
      r.err = 0 → i < r.idx ∧ r.idx ≤ niov := by
  unfold vq_popchain_map
  split
  · obtain ⟨m1, m2⟩ := vq_map_desc_bufs_ends gpa2kva ring vdir iov niov i
    exact ⟨m1, fun r h he => m2 r h he hn hl⟩
  split
  · refine ⟨(by intro h; cases h), ?_⟩
    intro r h he
    cases h
    simp [EINVAL] at he
  · exact vq_map_indir_desc_bufs_ends gpa2kva mem fuel ring vdir iov niov i hn hi hf

/-- The loop of `vq_popchain` ends within `niov - i + 1` iterations when the vector has at
most 65535 entries. -/
theorem vq_popchain_loop_ends (gpa2kva : Nat → Nat) (mem : Mem) (niov head cookie ifuel : Nat)
    (hn : niov ≤ 65535) (hif : niov ≤ ifuel) :
    ∀ (fuel : Nat) (ring : viona_vring_t) (iov : Nat → iovec) (i next : Nat),
      i ≤ niov → niov - i + 1 ≤ fuel →
      vq_popchain_loop ifuel gpa2kva mem niov head cookie fuel ring iov i next ≠
        Outcome.timeout := by
  intro fuel
  induction fuel with
  | zero => intro ring iov i next _ hf; omega
  | succ fuel ih =>
    intro ring iov i next hi hf
    rw [vq_popchain_loop]
    split
    · rename_i hlt
      split
      · intro h; cases h
      have hr := vq_read_desc_ne_timeout mem ring next
      revert hr
      cases hrd : vq_read_desc mem ring next with
      | panic => intro _ h; cases h
      | timeout => intro hr; exact absurd rfl hr
      | done vdir =>
        intro _
        simp only
        obtain ⟨m1, m2⟩ := vq_popchain_map_ends gpa2kva mem ifuel ring vdir iov niov i hn hlt
          (by omega) (vq_read_desc_bounds hrd).2.1
        revert m1 m2
        generalize vq_popchain_map ifuel gpa2kva mem ring vdir iov niov i = y
        intro m1 m2
        cases y with
        | panic => intro h; cases h
        | timeout => exact absurd rfl m1
        | done r =>
          simp only
          split
          · intro h; cases h
          rename_i hne
          have he : r.err = 0 := by simpa using hne
          have hb := m2 r rfl he
          split
          · intro h; cases h
          · exact ih r.ring r.iov r.idx vdir.vd_next hb.2 (by omega)
    · intro h; cases h

/-- For a vector of at most 65535 entries the walk of `vq_popchain` always ends: with
fuel `niov + 1` or more the call returns or fails an assertion, whatever the guest put in
the ring. -/
theorem vq_popchain_ends (gpa2kva : Nat → Nat) (mem : Mem) (ring : viona_vring_t)
    (iov : Nat → iovec) (niov cookie fuel : Nat) (hn : niov ≤ 65535) (hf : niov + 1 ≤ fuel) :
    vq_popchain fuel gpa2kva mem ring iov niov cookie ≠ Outcome.timeout := by
  unfold vq_popchain
  split
  · intro h; cases h
  simp only
  have ha := viona_ring_num_avail_ne_timeout mem ring
  revert ha
  cases viona_ring_num_avail mem ring with
  | panic => intro _ h; cases h
  | timeout => intro ha; exact absurd rfl ha
  | done ndesc =>
    intro _
    simp only
    split
    · intro h; cases h
    generalize (if ndesc > ring.vr_size then incr_ndesc_too_high ring else ring) = ring1
    have hv := vq_read_avail_ne_timeout mem ring1 ((ring.vr_cur_aidx &&& ring1.vr_mask) % 65536)
    revert hv
    cases vq_read_avail mem ring1 ((ring.vr_cur_aidx &&& ring1.vr_mask) % 65536) with
    | panic => intro _ h; cases h
    | timeout => intro hv; exact absurd rfl hv
    | done head =>
      intro _
      simp only
      exact vq_popchain_loop_ends gpa2kva mem niov head cookie fuel hn (by omega) fuel ring1
        iov 0 head (Nat.zero_le _) (by omega)

/-- A successful run of the mapping loop of `viona_ring_map` has translated every page it
went through and has stored the translation of page `t` in entry `i + t` of the page
table; the entries below `i` are as before. -/
theorem viona_ring_map_loop_pages (gpa2kva : Nat → Nat) (n : Nat) :
    ∀ (i pa : Nat) (ring r : viona_vring_t) (map : List Nat),
      ring.vr_map_pages = some map → pa < 2 ^ 64 →
      viona_ring_map_loop gpa2kva n i pa ring = Outcome.done (true, r) →
      ∃ l, r = { ring with vr_map_pages := some l } ∧ l.length = map.length ∧
        (∀ t, t < n → gpa2kva ((pa + t * 4096) % 2 ^ 64) ≠ 0 ∧
          l[i + t]? = some (gpa2kva ((pa + t * 4096) % 2 ^ 64))) ∧
        (∀ j, j < i → l[j]? = map[j]?) := by
  induction n with
  | zero =>
    intro i pa ring r map hm _ h
    simp only [viona_ring_map_loop] at h
    injection h with h
    injection h with _ h
    subst h
    refine ⟨map, ?_, rfl, ?_, fun _ _ => rfl⟩
    · cases ring
      simp only at hm
      subst hm
      rfl
    · intro t ht; omega
  | succ n ih =>
    intro i pa ring r map hm hp h
    have e64 : (2:Nat) ^ 64 = 18446744073709551616 := by norm_num
    unfold viona_ring_map_loop at h
    unfold viona_hold_page at h
    split at h
    · rename_i page hpage
      split at hpage
      · cases hpage
      split at hpage
      · cases hpage
      injection hpage with hpage
      subst hpage
      split at h
      · split at h
        · injection h with h
          injection h with h _
          cases h
        · cases h
        · cases h
      · rename_i h0
        rw [hm] at h
        simp only at h
        split at h
        · rename_i hi
          obtain ⟨l, hr, hl, ht, hj⟩ := ih (i + 1) ((pa + PAGESIZE) % 2 ^ 64) _ r _ rfl
            (Nat.mod_lt _ (by norm_num)) h
          refine ⟨l, by rw [hr], by rw [hl, List.length_set], ?_, ?_⟩
          · intro t htn
            cases t with
            | zero =>
              rw [Nat.zero_mul, Nat.add_zero, Nat.add_zero, Nat.mod_eq_of_lt hp]
              refine ⟨h0, ?_⟩
              rw [hj i (by omega)]
              simp [List.getElem?_set, hi]
            | succ t =>
              have e : ((pa + PAGESIZE) % 2 ^ 64 + t * 4096) % 2 ^ 64 =
                  (pa + (t + 1) * 4096) % 2 ^ 64 := by
                unfold PAGESIZE; rw [e64]; omega
              have := ht t (by omega)
              rw [e] at this
              have e2 : i + (t + 1) = i + 1 + t := by omega
              rw [e2]
              exact this
          · intro j hji
            rw [hj j (by omega)]
            simp [List.getElem?_set]
            intro hij
            omega
        · cases h
    · cases h
    · cases h

/-- C31: on a ring for which the assertions of `viona_ring_map` hold (a size in
1..32768, a page-aligned address other than 0, nothing mapped) and that holds its lease,
`viona_ring_map` returns `B_TRUE` exactly when each of the `LEGACY_VQ_PAGES(vr_size)`
guest pages `vr_pa + t * PAGESIZE` translates; then `vr_map_pages` has that many entries
and entry `t` is the translation of page `t`, and no other field is touched. If a page
does not translate it returns `B_FALSE` and the ring is as before the call, with
`vr_map_pages == NULL`. -/
theorem viona_ring_map_all_or_nothing (gpa2kva : Nat → Nat) (ring : viona_vring_t)
    (hq0 : ring.vr_size ≠ 0) (hq : ring.vr_size ≤ VRING_MAX_LEN) (hpa0 : ring.vr_pa ≠ 0)
    (hpa : ring.vr_pa % PAGESIZE = 0) (hp64 : ring.vr_pa < 2 ^ 64)
    (hm : ring.vr_map_pages = none) (hl : ring.vr_lease ≠ none) :
    ∃ ok r, viona_ring_map gpa2kva ring = Outcome.done (ok, r) ∧
      (ok = true ↔ ∀ t, t < LEGACY_VQ_PAGES ring.vr_size →
        gpa2kva ((ring.vr_pa + t * PAGESIZE) % 2 ^ 64) ≠ 0) ∧
      (ok = true → ∃ l, r = { ring with vr_map_pages := some l } ∧
        l.length = LEGACY_VQ_PAGES ring.vr_size ∧
        ∀ t, t < LEGACY_VQ_PAGES ring.vr_size →
          l[t]? = some (gpa2kva ((ring.vr_pa + t * PAGESIZE) % 2 ^ 64))) ∧
      (ok = false → r = ring ∧ r.vr_map_pages = none) := by
  have hq2 : ring.vr_size ≤ 32768 := hq
  have hpa2 : ring.vr_pa % 4096 = 0 := hpa
  have hsmall : LEGACY_VQ_PAGES ring.vr_size % 2 ^ 32 = LEGACY_VQ_PAGES ring.vr_size := by
    apply Nat.mod_eq_of_lt
    have h1 := LEGACY_VQ_PAGES_mul ring.vr_size (by omega)
    have h2 := LEGACY_VQ_SIZE_eq ring.vr_size (by omega)
    omega
  by_cases hall : ∀ t, t < LEGACY_VQ_PAGES ring.vr_size →
      gpa2kva ((ring.vr_pa + t * PAGESIZE) % 2 ^ 64) ≠ 0
  · obtain ⟨l, _, hmap⟩ := viona_ring_map_ok gpa2kva ring hq0 hq2 hpa0 hpa2 hp64 hm hl hall
    refine ⟨true, _, hmap, ⟨fun _ => hall, fun _ => rfl⟩, ?_, fun h => absurd h (by decide)⟩
    intro _
    have hloop := hmap
    rw [viona_ring_map_eq gpa2kva ring hq0 hq2 hpa0 hpa2 hm] at hloop
    obtain ⟨l1, hr, hlen, ht, _⟩ := viona_ring_map_loop_pages gpa2kva _ 0 ring.vr_pa _ _ _ rfl
      hp64 hloop
    refine ⟨l1, hr, by rw [hlen, List.length_replicate, hsmall], ?_⟩
    intro t htn
    have := (ht t (by rw [hsmall]; exact htn)).2
    rw [Nat.zero_add] at this
    exact this
  · have hb : ∃ t, t < LEGACY_VQ_PAGES ring.vr_size ∧
        gpa2kva ((ring.vr_pa + t * 4096) % 2 ^ 64) = 0 := by
      by_contra hne
      apply hall
      intro t ht hz
      exact hne ⟨t, ht, hz⟩
    have hmap := viona_ring_map_false gpa2kva ring hq0 hq2 hpa0 hpa2 hp64 hm hl hb
    exact ⟨false, ring, hmap, ⟨fun h => absurd h (by decide), fun h => absurd h hall⟩,
      fun h => absurd h (by decide), fun _ => ⟨rfl, hm⟩⟩

/-- Witness for C31 on a ring of 256 entries at guest address 65536 that holds a lease:
under `ex_kva` the three pages translate and the call returns `B_TRUE` with their
translations in the page table. -/
theorem viona_ring_map_all_or_nothing_witness :
    (∃ ok r, viona_ring_map ex_kva { vr_size := 256, vr_mask := 255, vr_pa := 65536,
                                     vr_lease := some 7 } = Outcome.done (ok, r) ∧
      (ok = true ↔ ∀ t, t < LEGACY_VQ_PAGES 256 →
        ex_kva ((65536 + t * PAGESIZE) % 2 ^ 64) ≠ 0) ∧
      (ok = true → ∃ l, r = { vr_size := 256, vr_mask := 255, vr_pa := 65536,
                              vr_lease := some 7, vr_map_pages := some l } ∧
        l.length = LEGACY_VQ_PAGES 256 ∧
        ∀ t, t < LEGACY_VQ_PAGES 256 →
          l[t]? = some (ex_kva ((65536 + t * PAGESIZE) % 2 ^ 64))) ∧
      (ok = false → r = { vr_size := 256, vr_mask := 255, vr_pa := 65536,
                          vr_lease := some 7 } ∧ r.vr_map_pages = none)) ∧
    viona_ring_map ex_kva { vr_size := 256, vr_mask := 255, vr_pa := 65536,
                            vr_lease := some 7 } =
      Outcome.done (true, { vr_size := 256, vr_mask := 255, vr_pa := 65536, vr_lease := some 7,
                            vr_map_pages := some [16842752, 16846848, 16850944] }) :=
  ⟨viona_ring_map_all_or_nothing ex_kva
    { vr_size := 256, vr_mask := 255, vr_pa := 65536, vr_lease := some 7 }
    (by decide) (by decide) (by decide) (by decide) (by decide) rfl (by decide), rfl⟩

/-- A successful `viona_ring_map`: the assertions held, every page of the ring
translates, entry `t` of the page table is the translation of page `t`, and no other
field is touched. -/
theorem viona_ring_map_true_pages {gpa2kva : Nat → Nat} {ring r : viona_vring_t}
    (hp64 : ring.vr_pa < 2 ^ 64)
    (h : viona_ring_map gpa2kva ring = Outcome.done (true, r)) :
    ring.vr_size ≠ 0 ∧ ring.vr_size ≤ 32768 ∧ ring.vr_pa ≠ 0 ∧ ring.vr_pa % 4096 = 0 ∧
    ring.vr_map_pages = none ∧
    ∃ l, r = { ring with vr_map_pages := some l } ∧ l.length = LEGACY_VQ_PAGES ring.vr_size ∧
      ∀ t, t < LEGACY_VQ_PAGES ring.vr_size →
        gpa2kva ((ring.vr_pa + t * 4096) % 2 ^ 64) ≠ 0 ∧
        l[t]? = some (gpa2kva ((ring.vr_pa + t * 4096) % 2 ^ 64)) := by
  unfold viona_ring_map at h
  simp only at h
  split at h
  · cases h
  split at h
  · cases h
  split at h
  · cases h
  split at h
  · cases h
  split at h
  · cases h
  split at h
  · cases h
  rename_i h0 h1 h2 h3 _ h5
  have hq : ring.vr_size ≤ 32768 := by unfold VRING_MAX_LEN at h1; omega
  have hsmall : LEGACY_VQ_PAGES ring.vr_size % 2 ^ 32 = LEGACY_VQ_PAGES ring.vr_size := by
    apply Nat.mod_eq_of_lt
    have h1 := LEGACY_VQ_PAGES_mul ring.vr_size (by omega)
    have h2 := LEGACY_VQ_SIZE_eq ring.vr_size (by omega)
    omega
  have hal : ring.vr_pa % 4096 = 0 := by
    rw [land_align] at h3
    simpa using h3
  have hmn : ring.vr_map_pages = none := by simpa using h5
  refine ⟨h0, hq, h2, hal, hmn, ?_⟩
  obtain ⟨l, hr, hlen, ht, _⟩ := viona_ring_map_loop_pages gpa2kva _ 0 ring.vr_pa _ r _ rfl
    hp64 h
  refine ⟨l, by rw [hr], by rw [hlen, List.length_replicate, hsmall], ?_⟩
  intro t htn
  have := ht t (by rw [hsmall]; exact htn)
  rw [Nat.zero_add] at this
  exact this

/-- What `viona_ring_lease_renew` leaves when it returns `B_TRUE`: the lease that was
signed; and when it returns `B_FALSE`: no lease. -/
theorem viona_ring_lease_renew_lease {sign : Option Nat} {gpa2kva : Nat → Nat}
    {hold : Option Nat} {ring r : viona_vring_t} {ok : Bool}
    (h : viona_ring_lease_renew sign gpa2kva hold ring = Outcome.done (ok, r)) :
    (ok = true → r.vr_lease = sign ∧ sign ≠ none) ∧ (ok = false → r.vr_lease = none) := by
  refine ⟨?_, (viona_ring_lease_renew_lease_map_only h).2⟩
  intro hok
  subst hok
  unfold viona_ring_lease_renew at h
  split at h
  · cases h
  split at h
  · rename_i r1 hd
    simp only at h
    split at h
    · rename_i hs
      split at h
      · split at h
        · rename_i ok3 r3 hmap
          split at h
          · split at h
            · injection h with h
              injection h with h _
              cases h
            · cases h
            · cases h
          · rename_i hok
            have hok3 : ok3 = true := by simpa using hok
            subst hok3
            injection h with h
            injection h with _ h
            subst h
            obtain ⟨l, _, hr, _⟩ := viona_ring_map_true hmap
            rw [hr]
            exact ⟨rfl, by simpa using hs⟩
        · cases h
        · cases h
      · injection h with h
        injection h with _ h
        subst h
        exact ⟨rfl, by simpa using hs⟩
    · rename_i hs
      injection h with h
      injection h with h1 h2
      subst h2
      have hn : sign = none := by simpa using hs
      rw [hn] at h1
      cases h1
  · cases h
  · cases h

/-- What a `viona_ring_init` that returns 0 has found and what it leaves in the addressed
ring: the ring was in `VRS_RESET` with no request pending, a lease was signed, every page
of the ring translates and a worker was created. -/
theorem viona_ring_init_ring_zero {sign : Option Nat} {gpa2kva : Nat → Nat}
    {thread hold : Option Nat} {ring r : viona_vring_t} {idx qsz pa : Nat} (hp64 : pa < 2 ^ 64)
    (h : viona_ring_init_ring sign gpa2kva thread hold ring idx qsz pa = Outcome.done (0, r)) :
    ring.vr_state = VRS_RESET ∧ ring.vr_state_flags = 0 ∧ hold ≠ none ∧ sign ≠ none ∧
    thread ≠ none ∧ qsz ≠ 0 ∧ qsz ≤ 32768 ∧ pa ≠ 0 ∧ pa % 4096 = 0 ∧
    ∃ l, l.length = LEGACY_VQ_PAGES qsz ∧
      (∀ t, t < LEGACY_VQ_PAGES qsz →
        gpa2kva ((pa + t * 4096) % 2 ^ 64) ≠ 0 ∧
        l[t]? = some (gpa2kva ((pa + t * 4096) % 2 ^ 64))) ∧
      r = { ring with
            vr_state := VRS_SETUP, vr_size := qsz, vr_mask := qsz - 1, vr_pa := pa,
            vr_cur_aidx := 0, vr_cur_uidx := 0, vr_lease := sign, vr_map_pages := some l,
            vr_msi_addr := 0, vr_msi_msg := 0, vr_worker_thread := thread,
            vr_txdesb := if idx = VIONA_VQ_TX then some 1 else ring.vr_txdesb,
            vr_stats := {} } := by
  unfold viona_ring_init_ring at h
  split at h
  · injection h with h
    injection h with h _
    cases h
  rename_i hst
  split at h
  · cases h
  rename_i hfl
  simp only at h
  split at h
  · rename_i ok ring2 hren
    split at h
    · split at h
      · injection h with h
        injection h with h _
        cases h
      · cases h
      · cases h
    rename_i hok
    have hok1 : ok = true := by simpa using hok
    subst hok1
    split at h
    · rename_i mapped ring4 hmap
      split at h
      · split at h
        · injection h with h
          injection h with h _
          cases h
        · cases h
        · cases h
      rename_i hmp
      have hmp1 : mapped = true := by simpa using hmp
      subst hmp1
      obtain ⟨hl1, hl2⟩ := (viona_ring_lease_renew_lease hren).1 rfl
      have hlm := (viona_ring_lease_renew_lease_map_only hren).1
      have hhold := viona_ring_lease_renew_hold hren
      obtain ⟨q0, q1, p0, p1, m0, l, hr4, hlen, hpages⟩ :=
        viona_ring_map_true_pages (by exact hp64) hmap
      simp only at q0 q1 p0 p1 m0 hlen hpages
      have hmask : (qsz + 65536 - 1) % 65536 = qsz - 1 := by omega
      unfold viona_create_worker at h
      have hst1 : ring.vr_state = VRS_RESET := by simpa using hst
      have hst2 : ring2.vr_state = VRS_RESET := by
        unfold lease_map_only at hlm
        rw [hlm]
        exact hst1
      unfold lease_map_only at hlm
      by_cases htx : idx = VIONA_VQ_TX
      · simp only [if_pos htx, viona_tx_ring_alloc] at h
        rw [hr4] at h
        simp only at h
        rw [if_neg (by simpa using hst2)] at h
        cases hth : thread with
        | none =>
          rw [hth] at h
          simp only at h
          split at h
          · injection h with h
            injection h with h _
            cases h
          · cases h
          · cases h
        | some t =>
          rw [hth] at h
          simp only at h
          injection h with h
          injection h with _ h
          refine ⟨hst1, by simpa using hfl, hhold, hl2, by simp, q0, q1, p0, p1, l, hlen,
            hpages, ?_⟩
          rw [← h, hmask, hlm, hl1, if_pos htx]
      · simp only [if_neg htx] at h
        rw [hr4] at h
        simp only at h
        rw [if_neg (by simpa using hst2)] at h
        cases hth : thread with
        | none =>
          rw [hth] at h
          simp only at h
          split at h
          · injection h with h
            injection h with h _
            cases h
          · cases h
          · cases h
        | some t =>
          rw [hth] at h
          simp only at h
          injection h with h
          injection h with _ h
          refine ⟨hst1, by simpa using hfl, hhold, hl2, by simp, q0, q1, p0, p1, l, hlen,
            hpages, ?_⟩
          rw [← h, hmask, hlm, hl1, if_neg htx]
    · cases h
    · cases h
  · cases h
  · cases h

/-- On a ring in `VRS_RESET` without size and mappings, `viona_ring_init` returns 0 when
a lease is signed, every page of the ring translates and the worker is created. -/
theorem viona_ring_init_ring_ok (l w : Nat) (gpa2kva : Nat → Nat) (hold : Option Nat)
    (ring : viona_vring_t) (idx qsz pa : Nat) (hh : hold ≠ none)
    (hst : ring.vr_state = VRS_RESET) (hfl : ring.vr_state_flags = 0)
    (hsz : ring.vr_size = 0) (hmap : ring.vr_map_pages = none)
    (hq0 : qsz ≠ 0) (hq : qsz ≤ 32768) (hpa0 : pa ≠ 0) (hpa : pa % 4096 = 0) (hp64 : pa < 2 ^ 64)
    (ht : ∀ t, t < LEGACY_VQ_PAGES qsz → gpa2kva ((pa + t * 4096) % 2 ^ 64) ≠ 0) :
    ∃ r, viona_ring_init_ring (some l) gpa2kva (some w) hold ring idx qsz pa =
        Outcome.done (0, r) := by
  unfold viona_ring_init_ring
  rw [if_neg (by simpa using hst), if_neg (by simpa using hfl)]
  simp only
  rw [viona_ring_lease_renew_fresh (some l) gpa2kva hold { ring with vr_lease := none } hh rfl
    hmap hsz]
  simp only [Option.isSome_some, not_true_eq_false, if_false]
  obtain ⟨pages, hlen, hok⟩ := viona_ring_map_ok gpa2kva
    { ring with vr_lease := some l, vr_size := qsz, vr_mask := (qsz + 65536 - 1) % 65536,
                vr_pa := pa }
    hq0 hq hpa0 hpa hp64 hmap (by simp) ht
  rw [hok]
  simp only [not_true_eq_false, if_false]
  unfold viona_create_worker
  by_cases htx : idx = VIONA_VQ_TX
  · simp only [if_pos htx, viona_tx_ring_alloc]
    rw [if_neg (by simpa using hst)]
    exact ⟨_, rfl⟩
  · simp only [if_neg htx]
    rw [if_neg (by simpa using hst)]
    exact ⟨_, rfl⟩

/-- C37: whenever `viona_ring_init` returns 0, the addressed ring is left with `vr_state
== VRS_SETUP`, `vr_size == qsz`, `vr_mask == qsz - 1`, `vr_pa == pa`, both cursors 0, the
MSI address and message 0, all statistics zero, the lease that was signed held, a page
table of `LEGACY_VQ_PAGES(qsz)` entries whose entry `t` is the translation of guest page
`pa + t * PAGESIZE`, and the worker thread recorded; the other rings and the hold of the
link are untouched. And the call does return 0 on arguments that pass validation with an
address other than 0, for a ring at rest in `VRS_RESET` of a link that holds its virtual
machine, when a lease is signed, every page of the ring translates and the worker is
created. -/
theorem viona_ring_init_success (sign : Option Nat) (gpa2kva : Nat → Nat) (thread : Option Nat)
    (link : viona_link_t) (idx qsz pa : Nat) (hp64 : pa < 2 ^ 64) :
    (∀ link1, viona_ring_init sign gpa2kva thread link idx qsz pa = Outcome.done (0, link1) →
      (link1.l_vrings idx).vr_state = VRS_SETUP ∧
      (link1.l_vrings idx).vr_size = qsz ∧
      (link1.l_vrings idx).vr_mask = qsz - 1 ∧
      (link1.l_vrings idx).vr_pa = pa ∧
      (link1.l_vrings idx).vr_cur_aidx = 0 ∧
      (link1.l_vrings idx).vr_cur_uidx = 0 ∧
      (link1.l_vrings idx).vr_msi_addr = 0 ∧
      (link1.l_vrings idx).vr_msi_msg = 0 ∧
      (link1.l_vrings idx).vr_stats = {} ∧
      (link1.l_vrings idx).vr_lease = sign ∧ (link1.l_vrings idx).vr_lease ≠ none ∧
      (∃ l, (link1.l_vrings idx).vr_map_pages = some l ∧ l.length = LEGACY_VQ_PAGES qsz ∧
        ∀ t, t < LEGACY_VQ_PAGES qsz →
          gpa2kva ((pa + t * PAGESIZE) % 2 ^ 64) ≠ 0 ∧
          l[t]? = some (gpa2kva ((pa + t * PAGESIZE) % 2 ^ 64))) ∧
      (link1.l_vrings idx).vr_worker_thread = thread ∧
      (link1.l_vrings idx).vr_worker_thread ≠ none ∧
      (∀ j, j ≠ idx → link1.l_vrings j = link.l_vrings j) ∧
      link1.l_vm_hold = link.l_vm_hold) ∧
    (idx < VIONA_VQ_MAX → qsz ≠ 0 → qsz ≤ VRING_MAX_LEN → (∃ k, qsz = 2 ^ k) →
      pa % PAGESIZE = 0 → pa ≠ 0 → link.l_vm_hold ≠ none →
      (link.l_vrings idx).vr_state = VRS_RESET → (link.l_vrings idx).vr_state_flags = 0 →
      (link.l_vrings idx).vr_size = 0 → (link.l_vrings idx).vr_map_pages = none →
      sign ≠ none → thread ≠ none →
      (∀ t, t < LEGACY_VQ_PAGES qsz → gpa2kva ((pa + t * PAGESIZE) % 2 ^ 64) ≠ 0) →
      ∃ link1, viona_ring_init sign gpa2kva thread link idx qsz pa =
        Outcome.done (0, link1)) := by
  constructor
  · intro link1 h
    unfold viona_ring_init at h
    split at h
    · injection h with h
      injection h with h _
      cases h
    split at h
    · injection h with h
      injection h with h _
      cases h
    split at h
    · injection h with h
      injection h with h _
      cases h
    split at h
    · rename_i err r hr
      injection h with h
      injection h with he hl
      subst he
      subst hl
      obtain ⟨_, _, _, hs, hth, hq0, hq, _, _, l, hlen, hpages, hreq⟩ :=
        viona_ring_init_ring_zero hp64 hr
      have hself : (link_set_ring link idx r).l_vrings idx = r := by
        simp [link_set_ring]
      rw [hself, hreq]
      refine ⟨rfl, rfl, rfl, rfl, rfl, rfl, rfl, rfl, rfl, rfl, hs, ⟨l, rfl, hlen, hpages⟩, rfl,
        hth, ?_, rfl⟩
      intro j hj
      simp [link_set_ring, hj]
    · cases h
    · cases h
  · intro hidx hq0 hq hpow hpa hpa0 hh hst hfl hsz hmap hs hth ht
    obtain ⟨l, hl⟩ := Option.ne_none_iff_exists'.1 hs
    obtain ⟨w, hw⟩ := Option.ne_none_iff_exists'.1 hth
    subst hl
    subst hw
    obtain ⟨r, hr⟩ := viona_ring_init_ring_ok l w gpa2kva link.l_vm_hold (link.l_vrings idx) idx
      qsz pa hh hst hfl hsz hmap hq0 hq hpa0 hpa hp64 ht
    exact ⟨_, viona_ring_init_valid (some l) gpa2kva (some w) link idx qsz pa hidx hq0 hq hpow
      hpa hr⟩

/-- Witness for C37: `viona_ring_init(link, 0, 256, 65536)` on the example link returns
0 and leaves the receive ring as `ex_ring_inited`. -/
theorem viona_ring_init_success_witness :
    viona_ring_init (some 7) ex_kva (some 9) ex_link 0 256 65536 =
      Outcome.done (0, link_set_ring ex_link 0 ex_ring_inited) ∧
    ((link_set_ring ex_link 0 ex_ring_inited).l_vrings 0).vr_state = VRS_SETUP ∧
    ((link_set_ring ex_link 0 ex_ring_inited).l_vrings 0).vr_size = 256 ∧
    ((link_set_ring ex_link 0 ex_ring_inited).l_vrings 0).vr_mask = 256 - 1 ∧
    ((link_set_ring ex_link 0 ex_ring_inited).l_vrings 0).vr_pa = 65536 :=
  ⟨rfl,
   ((viona_ring_init_success (some 7) ex_kva (some 9) ex_link 0 256 65536 (by decide)).1
      (link_set_ring ex_link 0 ex_ring_inited) rfl).1,
   ((viona_ring_init_success (some 7) ex_kva (some 9) ex_link 0 256 65536 (by decide)).1
      (link_set_ring ex_link 0 ex_ring_inited) rfl).2.1,
   ((viona_ring_init_success (some 7) ex_kva (some 9) ex_link 0 256 65536 (by decide)).1
      (link_set_ring ex_link 0 ex_ring_inited) rfl).2.2.1,
   ((viona_ring_init_success (some 7) ex_kva (some 9) ex_link 0 256 65536 (by decide)).1
      (link_set_ring ex_link 0 ex_ring_inited) rfl).2.2.2.1⟩

/-- The function `viona_ring_lease_renew` on a configured ring (a size in 1..32768 and a
page-aligned address other than 0) whose mappings are consistent: the held lease and the
mappings are released first; then the call returns `B_TRUE` with the signed lease held
and every page of the ring mapped again, or `B_FALSE` with neither lease nor mappings,
also when a lease was signed and a page did not translate. -/
theorem viona_ring_lease_renew_configured (sign : Option Nat) (gpa2kva : Nat → Nat)
    (hold : Option Nat) (ring : viona_vring_t) (hh : hold ≠ none)
    (hc : ring_map_consistent ring) (hq0 : ring.vr_size ≠ 0) (hq : ring.vr_size ≤ 32768)
    (hpa0 : ring.vr_pa ≠ 0) (hpa : ring.vr_pa % 4096 = 0) (hp64 : ring.vr_pa < 2 ^ 64) :
    ∃ ok r, viona_ring_lease_renew sign gpa2kva hold ring = Outcome.done (ok, r) ∧
      lease_map_only ring r ∧
      (ok = true ↔ sign ≠ none ∧ ∀ t, t < LEGACY_VQ_PAGES ring.vr_size →
        gpa2kva ((ring.vr_pa + t * 4096) % 2 ^ 64) ≠ 0) ∧
      (ok = true → r.vr_lease = sign ∧ r.vr_lease ≠ none ∧
        ∃ l, r.vr_map_pages = some l ∧ l.length = LEGACY_VQ_PAGES ring.vr_size ∧
          ∀ t, t < LEGACY_VQ_PAGES ring.vr_size →
            l[t]? = some (gpa2kva ((ring.vr_pa + t * 4096) % 2 ^ 64))) ∧
      (ok = false → r.vr_lease = none ∧ r.vr_map_pages = none) := by
  unfold viona_ring_lease_renew
  rw [if_neg (by simpa using hh), viona_ring_lease_drop_eq hold ring (fun _ => hh) hc]
  simp only
  cases sign with
  | none =>
    rw [if_neg (by simp)]
    refine ⟨_, _, rfl, lease_map_only_with ring none none, ?_, ?_, ?_⟩
    · simp
    · intro h; simp at h
    · intro _; exact ⟨rfl, rfl⟩
  | some s =>
    rw [if_pos (by simp), if_pos ⟨hpa0, hq0⟩]
    by_cases hall : ∀ t, t < LEGACY_VQ_PAGES ring.vr_size →
        gpa2kva ((ring.vr_pa + t * 4096) % 2 ^ 64) ≠ 0
    · obtain ⟨l, _, hmap⟩ := viona_ring_map_ok gpa2kva
        { ring with vr_lease := some s, vr_map_pages := none } hq0 hq hpa0 hpa hp64 rfl
        (by simp) hall
      obtain ⟨_, _, _, _, _, l1, hr, hlen, hpages⟩ :=
        viona_ring_map_true_pages (by exact hp64) hmap
      rw [hmap]
      simp only [not_true_eq_false, if_false]
      refine ⟨_, _, rfl, lease_map_only_with ring (some s) (some l), ?_, ?_, ?_⟩
      · simp only [Option.isSome_some, true_iff]
        exact ⟨by simp, hall⟩
      · intro _
        refine ⟨rfl, by simp, l1, ?_, hlen, fun t ht => (hpages t ht).2⟩
        have := congrArg viona_vring_t.vr_map_pages hr
        simpa using this
      · intro h; simp at h
    · have hb : ∃ t, t < LEGACY_VQ_PAGES ring.vr_size ∧
          gpa2kva ((ring.vr_pa + t * 4096) % 2 ^ 64) = 0 := by
        by_contra hne
        apply hall
        intro t ht hz
        exact hne ⟨t, ht, hz⟩
      rw [viona_ring_map_false gpa2kva { ring with vr_lease := some s, vr_map_pages := none }
        hq0 hq hpa0 hpa hp64 rfl (by simp) hb]
      simp only [Bool.false_eq_true, not_false_eq_true, if_true]
      rw [viona_ring_lease_drop_eq hold { ring with vr_lease := some s, vr_map_pages := none }
        (fun _ => hh) (by intro m hm; simp only at hm; cases hm)]
      refine ⟨_, _, rfl, lease_map_only_with ring none none, ?_, ?_, ?_⟩
      · simp only [Bool.false_eq_true, false_iff]
        intro hc2
        exact hall hc2.2
      · intro h; simp at h
      · intro _; exact ⟨rfl, rfl⟩

/-- For every ring that a `viona_ring_init` returning 0 has configured (in the model the
assertion `pa != 0` of `viona_ring_map` has held, so the address is not 0),
`viona_ring_lease_renew` returns `B_TRUE` with the signed lease held and every page of
the ring mapped again, or `B_FALSE` with neither lease nor mappings. -/
theorem viona_ring_lease_renew_after_init (sign sign1 : Option Nat) (gpa2kva kva1 : Nat → Nat)
    (thread : Option Nat) (link link1 : viona_link_t) (idx qsz pa : Nat) (hp64 : pa < 2 ^ 64)
    (h : viona_ring_init sign gpa2kva thread link idx qsz pa = Outcome.done (0, link1)) :
    pa ≠ 0 ∧
    ∃ ok r, viona_ring_lease_renew sign1 kva1 link1.l_vm_hold (link1.l_vrings idx) =
        Outcome.done (ok, r) ∧
      lease_map_only (link1.l_vrings idx) r ∧
      (ok = true ↔ sign1 ≠ none ∧ ∀ t, t < LEGACY_VQ_PAGES qsz →
        kva1 ((pa + t * 4096) % 2 ^ 64) ≠ 0) ∧
      (ok = true → r.vr_lease = sign1 ∧ r.vr_lease ≠ none ∧
        ∃ l, r.vr_map_pages = some l ∧ l.length = LEGACY_VQ_PAGES qsz ∧
          ∀ t, t < LEGACY_VQ_PAGES qsz → l[t]? = some (kva1 ((pa + t * 4096) % 2 ^ 64))) ∧
      (ok = false → r.vr_lease = none ∧ r.vr_map_pages = none) := by
  unfold viona_ring_init at h
  split at h
  · injection h with h
    injection h with h _
    cases h
  split at h
  · injection h with h
    injection h with h _
    cases h
  split at h
  · injection h with h
    injection h with h _
    cases h
  split at h
  · rename_i err r0 hr
    injection h with h
    injection h with he hl
    subst he
    subst hl
    obtain ⟨_, _, hh, hs, _, hq0, hq, hpa0, hpa, l, hlen, _, hreq⟩ :=
      viona_ring_init_ring_zero hp64 hr
    have hself : (link_set_ring link idx r0).l_vrings idx = r0 := by
      simp [link_set_ring]
    have hhold : (link_set_ring link idx r0).l_vm_hold = link.l_vm_hold := rfl
    rw [hself, hhold]
    have hsz : r0.vr_size = qsz := by rw [hreq]
    have hrpa : r0.vr_pa = pa := by rw [hreq]
    have hcons : ring_map_consistent r0 := by
      intro m hm
      rw [hreq] at hm ⊢
      simp only at hm ⊢
      injection hm with hm
      subst hm
      refine ⟨hs, ?_⟩
      rw [hlen]
      symm
      apply Nat.mod_eq_of_lt
      have h1 := LEGACY_VQ_PAGES_mul qsz (by omega)
      have h2 := LEGACY_VQ_SIZE_eq qsz (by omega)
      omega
    refine ⟨hpa0, ?_⟩
    have := viona_ring_lease_renew_configured sign1 kva1 link.l_vm_hold r0 hh hcons
      (by rw [hsz]; exact hq0) (by rw [hsz]; exact hq) (by rw [hrpa]; exact hpa0)
      (by rw [hrpa]; exact hpa) (by rw [hrpa]; exact hp64)
    rw [hsz, hrpa] at this
    exact this
  · cases h
  · cases h

/-- C32 fails at the address 0. `viona_ring_init(link, 0, 256, 0)` passes the validation
(0 is page-aligned) and trips over the assertion `pa != 0` of `viona_ring_map`; behind
the assertions, which a kernel built without `DEBUG` does not contain, the loop of
`viona_ring_map` maps the three pages at 0, 4096 and 8192, so that the ring is configured
as `ex_ring_zero_pa`. On that ring `viona_ring_lease_renew` breaks the lease and the
mappings, signs a new lease and, `vr_pa` being 0, maps nothing: it returns `B_TRUE` with
`vr_lease` non-`NULL` and `vr_map_pages == NULL`. -/
theorem viona_ring_lease_renew_skips_map_at_zero :
    viona_ring_init (some 7) ex_kva (some 9) ex_link 0 256 0 = Outcome.panic ∧
    viona_ring_map_loop ex_kva (LEGACY_VQ_PAGES 256 % 2 ^ 32) 0 0
        { vr_size := 256, vr_mask := 255, vr_pa := 0, vr_lease := some 7,
          vr_map_pages := some (List.replicate (LEGACY_VQ_PAGES 256 % 2 ^ 32) 0) } =
      Outcome.done (true, { vr_size := 256, vr_mask := 255, vr_pa := 0, vr_lease := some 7,
                            vr_map_pages := some [16777216, 16781312, 16785408] }) ∧
    viona_ring_lease_renew (some 8) ex_kva ex_link.l_vm_hold ex_ring_zero_pa =
      Outcome.done (true, { ex_ring_zero_pa with vr_lease := some 8, vr_map_pages := none }) :=
  ⟨rfl, rfl, rfl⟩

/-- C40: for every power-of-two `qsz <= 32768` and `idx < qsz`, each item that is fetched
through one `viona_ring_addr` lookup lies within one page of the ring: the 16 bytes of
descriptor `idx`, the two bytes of the available flags, index and entry `idx`, the two
bytes of the used flags and index, and the four bytes of each of the id and the length
of used entry `idx` (the offsets are those the accessors compute, as `uint_t`). On a
mapped ring the bytes of an item that lies within one page are consecutive in host
memory behind the address looked up. For `qsz >= 512` the id and the length of used
entry 511 lie on different pages of the ring: the id ends page `p` and the length starts
page `p + 1` of the page table, so the two fields are looked up separately. -/
theorem ring_items_within_page (qsz k idx : Nat) (hpow : qsz = 2 ^ k)
    (hq : qsz ≤ VRING_MAX_LEN) (hidx : idx < qsz) :
    ((idx * SIZEOF_virtio_desc) % 2 ^ 32) % PAGESIZE + SIZEOF_virtio_desc ≤ PAGESIZE ∧
    (LEGACY_AVAIL_FLAGS_OFF qsz % 2 ^ 32) % PAGESIZE + SIZEOF_uint16 ≤ PAGESIZE ∧
    (LEGACY_AVAIL_IDX_OFF qsz % 2 ^ 32) % PAGESIZE + SIZEOF_uint16 ≤ PAGESIZE ∧
    (LEGACY_AVAIL_ENT_OFF qsz idx % 2 ^ 32) % PAGESIZE + SIZEOF_uint16 ≤ PAGESIZE ∧
    (LEGACY_USED_FLAGS_OFF qsz % 2 ^ 32) % PAGESIZE + SIZEOF_uint16 ≤ PAGESIZE ∧
    (LEGACY_USED_IDX_OFF qsz % 2 ^ 32) % PAGESIZE + SIZEOF_uint16 ≤ PAGESIZE ∧
    (LEGACY_USED_ENT_OFF qsz idx % 2 ^ 32) % PAGESIZE + SIZEOF_uint32 ≤ PAGESIZE ∧
    ((LEGACY_USED_ENT_OFF qsz idx % 2 ^ 32 + SIZEOF_uint32) % 2 ^ 32) % PAGESIZE +
      SIZEOF_uint32 ≤ PAGESIZE ∧
    (∀ (ring : viona_vring_t) (off w a : Nat), ring_mapped ring →
      off < LEGACY_VQ_SIZE ring.vr_size → off % PAGESIZE + w ≤ PAGESIZE →
      viona_ring_addr ring off = Outcome.done a →
      ∀ b, b < w → viona_ring_addr ring (off + b) = Outcome.done (a + b)) ∧
    (512 ≤ qsz →
      LEGACY_USED_ENT_OFF qsz 511 / PAGESIZE + 1 =
        (LEGACY_USED_ENT_OFF qsz 511 + SIZEOF_uint32) / PAGESIZE ∧
      ∀ (ring : viona_vring_t) (pages : List Nat), ring_mapped ring → ring.vr_size = qsz →
        ring.vr_map_pages = some pages →
        ∃ p x y, pages[p]? = some x ∧ pages[p + 1]? = some y ∧
          viona_ring_addr ring (LEGACY_USED_ENT_OFF qsz 511 % 2 ^ 32) =
            Outcome.done (x + 4092) ∧
          viona_ring_addr ring ((LEGACY_USED_ENT_OFF qsz 511 % 2 ^ 32 + SIZEOF_uint32) % 2 ^ 32) =
            Outcome.done y) := by
  have e59 : (2:Nat) ^ 59 = 576460752303423488 := by norm_num
  have e32 : (2:Nat) ^ 32 = 4294967296 := by norm_num
  have hq2 : qsz ≤ 32768 := hq
  have h1 : 1 ≤ qsz := by rw [hpow]; exact Nat.one_le_two_pow
  have hq59 : qsz ≤ 2 ^ 59 := by rw [e59]; omega
  obtain ⟨_, s2, _, _⟩ := LEGACY_sizes_eq qsz hq59
  have s3 := LEGACY_AVAIL_IDX_OFF_eq qsz hq59
  have s4 := LEGACY_AVAIL_ENT_OFF_eq qsz idx hq59 (Nat.le_of_lt hidx)
  have s5 := LEGACY_USED_FLAGS_OFF_eq qsz hq59
  have s6 := LEGACY_USED_IDX_OFF_eq qsz hq59
  have s7 := LEGACY_USED_ENT_OFF_eq qsz idx hq59 (Nat.le_of_lt hidx)
  refine ⟨?_, ?_, ?_, ?_, ?_, ?_, ?_, ?_, ?_, ?_⟩
  · unfold SIZEOF_virtio_desc PAGESIZE; rw [e32]; omega
  · rw [s2]; unfold SIZEOF_uint16 PAGESIZE; rw [e32]; omega
  · rw [s3]; unfold SIZEOF_uint16 PAGESIZE; rw [e32]; omega
  · rw [s4]; unfold SIZEOF_uint16 PAGESIZE; rw [e32]; omega
  · rw [s5]; unfold SIZEOF_uint16 PAGESIZE; rw [e32]; omega
  · rw [s6]; unfold SIZEOF_uint16 PAGESIZE; rw [e32]; omega
  · rw [s7]; unfold SIZEOF_uint32 PAGESIZE; rw [e32]; omega
  · rw [s7]; unfold SIZEOF_uint32 PAGESIZE; rw [e32]; omega
  · intro ring off w a hm hoff hw ha b hb
    exact (viona_ring_addr_add hm hoff ha b (by unfold PAGESIZE at hw; omega)).2
  · intro h512
    have s8 := LEGACY_USED_ENT_OFF_eq qsz 511 hq59 (by omega)
    have s9 := LEGACY_VQ_SIZE_eq qsz hq59
    refine ⟨by rw [s8]; unfold SIZEOF_uint32 PAGESIZE; omega, ?_⟩
    intro ring pages hm hsz hp
    obtain ⟨_, hlt, _, pg, hpg, hlen, _, _⟩ := hm
    rw [hp] at hpg
    cases hpg
    rw [hsz] at hlen hlt
    have hc : (18 * qsz + 6 + 4095) / 4096 ≤ 145 := by omega
    have hd : 2 ≤ (8 * qsz + 6 + 4095) / 4096 := by omega
    have m1 : LEGACY_USED_ENT_OFF qsz 511 % 2 ^ 32 =
        (18 * qsz + 6 + 4095) / 4096 * 4096 + 4092 := by
      rw [s8, e32]; omega
    have m2 : (LEGACY_USED_ENT_OFF qsz 511 % 2 ^ 32 + SIZEOF_uint32) % 2 ^ 32 =
        (18 * qsz + 6 + 4095) / 4096 * 4096 + 4096 := by
      rw [m1, e32]; unfold SIZEOF_uint32; omega
    rw [m2, m1]
    have hoff1 : (18 * qsz + 6 + 4095) / 4096 * 4096 + 4092 < LEGACY_VQ_SIZE ring.vr_size := by
      rw [hsz, s9]; omega
    have hoff2 : (18 * qsz + 6 + 4095) / 4096 * 4096 + 4096 < LEGACY_VQ_SIZE ring.vr_size := by
      rw [hsz, s9]; omega
    obtain ⟨g1, a1⟩ := viona_ring_addr_mapped hp (by rw [hsz]; exact hlen) (by rw [hsz]; exact hlt)
      _ hoff1
    obtain ⟨g2, a2⟩ := viona_ring_addr_mapped hp (by rw [hsz]; exact hlen) (by rw [hsz]; exact hlt)
      _ hoff2
    have n1 : ((18 * qsz + 6 + 4095) / 4096 * 4096 + 4092) % 4096 = 4092 := by omega
    have n2 : ((18 * qsz + 6 + 4095) / 4096 * 4096 + 4096) % 4096 = 0 := by omega
    have n3 : ((18 * qsz + 6 + 4095) / 4096 * 4096 + 4096) / 4096 =
        ((18 * qsz + 6 + 4095) / 4096 * 4096 + 4092) / 4096 + 1 := by omega
    refine ⟨((18 * qsz + 6 + 4095) / 4096 * 4096 + 4092) / 4096, pages.get ⟨_, g1⟩,
      pages.get ⟨_, g2⟩, ?_, ?_, ?_, ?_⟩
    · exact List.getElem?_eq_getElem g1
    · rw [← n3]
      exact List.getElem?_eq_getElem g2
    · rw [a1, n1]
    · rw [a2, n2]
      rfl

/-- Witness for C40 at queue size 512 and index 511: the first part of the theorem, and
on a mapped ring of 512 entries whose host pages are not adjacent the id of used entry
511 is at the end of one host page and its length at the start of another. -/
theorem ring_items_within_page_witness :
    ((511 * SIZEOF_virtio_desc) % 2 ^ 32) % PAGESIZE + SIZEOF_virtio_desc ≤ PAGESIZE ∧
    viona_ring_addr { vr_size := 512, vr_mask := 511,
                      vr_map_pages := some [65536, 131072, 196608, 262144, 327680] }
        (LEGACY_USED_ENT_OFF 512 511 % 2 ^ 32) = Outcome.done 266236 ∧
    viona_ring_addr { vr_size := 512, vr_mask := 511,
                      vr_map_pages := some [65536, 131072, 196608, 262144, 327680] }
        ((LEGACY_USED_ENT_OFF 512 511 % 2 ^ 32 + SIZEOF_uint32) % 2 ^ 32) =
      Outcome.done 327680 :=
  ⟨(ring_items_within_page 512 9 511 (by decide) (by decide) (by decide)).1, rfl, rfl⟩

/-- The function `viona_ring_lease_drop` on a ring whose mappings are consistent, when it
returns: lease and page table are released and no other field is touched. -/
theorem viona_ring_lease_drop_result {hold : Option Nat} {ring r : viona_vring_t}
    (hc : ring_map_consistent ring)
    (h : viona_ring_lease_drop hold ring = Outcome.done r) :
    r = { ring with vr_lease := none, vr_map_pages := none } := by
  by_cases hh : ring.vr_lease ≠ none → hold ≠ none
  · rw [viona_ring_lease_drop_eq hold ring hh hc] at h
    injection h with h
    exact h.symm
  · exfalso
    have hl : ring.vr_lease ≠ none := by
      intro hn
      exact hh (fun c => absurd hn c)
    have hn : hold = none := by
      by_contra hn
      exact hh (fun _ => hn)
    unfold viona_ring_lease_drop at h
    rw [if_pos hl, if_pos hn] at h
    cases h

/-- The code of `viona_ring_init` behind the label `fail`, on a ring whose mappings are
consistent, when it returns. -/
theorem viona_ring_init_fail_result {hold : Option Nat} {ring r : viona_vring_t}
    (hc : ring_map_consistent ring)
    (h : viona_ring_init_fail hold ring = Outcome.done r) :
    r.vr_lease = none ∧ r.vr_map_pages = none ∧ r.vr_size = 0 ∧ r.vr_pa = 0 ∧
    r.vr_state = ring.vr_state := by
  unfold viona_ring_init_fail at h
  split at h
  · rename_i r1 hd
    rw [viona_ring_lease_drop_result hc hd] at h
    injection h with h
    subst h
    exact ⟨rfl, rfl, rfl, rfl, rfl⟩
  · cases h
  · cases h

/-- The function `viona_ring_lease_renew` on a configured ring whose mappings are
consistent, when it returns: it leaves lease and page table, or neither. -/
theorem viona_ring_lease_renew_both {sign : Option Nat} {gpa2kva : Nat → Nat}
    {hold : Option Nat} {ring r : viona_vring_t} {ok : Bool}
    (hc : ring_map_consistent ring) (hpa : ring.vr_pa ≠ 0) (hsz : ring.vr_size ≠ 0)
    (h : viona_ring_lease_renew sign gpa2kva hold ring = Outcome.done (ok, r)) :
    (ok = true → r.vr_lease ≠ none ∧ r.vr_map_pages ≠ none) ∧
    (ok = false → r.vr_lease = none ∧ r.vr_map_pages = none) := by
  unfold viona_ring_lease_renew at h
  split at h
  · cases h
  split at h
  · rename_i r1 hd
    rw [viona_ring_lease_drop_result hc hd] at h
    simp only at h
    split at h
    · rename_i hs
      rw [if_pos ⟨hpa, hsz⟩] at h
      split at h
      · rename_i ok3 r3 hmap
        split at h
        · split at h
          · rename_i r4 hd4
            have hm3 : r3.vr_map_pages = none := by
              cases ok3 with
              | false => exact (viona_ring_map_lease_map_only hmap).2 rfl
              | true => rename_i hok; simp at hok
            have hc3 : ring_map_consistent r3 := by
              intro m hm
              rw [hm3] at hm
              cases hm
            rw [viona_ring_lease_drop_result hc3 hd4] at h
            injection h with h
            injection h with h1 h2
            subst h1
            subst h2
            exact ⟨fun c => absurd c (by decide), fun _ => ⟨rfl, rfl⟩⟩
          · cases h
          · cases h
        · rename_i hok
          have hok3 : ok3 = true := by simpa using hok
          subst hok3
          obtain ⟨l, _, hr, _⟩ := viona_ring_map_true hmap
          injection h with h
          injection h with h1 h2
          subst h2
          rw [hr] at h1 ⊢
          simp only at h1 ⊢
          subst h1
          refine ⟨fun _ => ⟨by simpa using hs, by simp⟩, ?_⟩
          intro c
          have hs1 : sign ≠ none := by simpa using hs
          obtain ⟨s, hs2⟩ := Option.ne_none_iff_exists'.1 hs1
          rw [hs2] at c
          simp at c
      · cases h
      · cases h
    · rename_i hs
      have hs1 : sign = none := by simpa using hs
      subst hs1
      injection h with h
      injection h with h1 h2
      subst h2
      simp only [Option.isSome_none] at h1
      subst h1
      exact ⟨fun c => absurd c (by decide), fun _ => ⟨rfl, rfl⟩⟩
  · cases h
  · cases h

/-- The function `viona_ring_lease_renew` on a ring that is not configured and whose
mappings are consistent, when it returns: the lease is what was signed, nothing is
mapped, and the return value tells whether a lease was signed. -/
theorem viona_ring_lease_renew_unconfigured {sign : Option Nat} {gpa2kva : Nat → Nat}
    {hold : Option Nat} {ring r : viona_vring_t} {ok : Bool}
    (hc : ring_map_consistent ring) (hu : ring.vr_pa = 0 ∨ ring.vr_size = 0)
    (h : viona_ring_lease_renew sign gpa2kva hold ring = Outcome.done (ok, r)) :
    r = { ring with vr_lease := sign, vr_map_pages := none } ∧ ok = sign.isSome := by
  unfold viona_ring_lease_renew at h
  split at h
  · cases h
  split at h
  · rename_i r1 hd
    rw [viona_ring_lease_drop_result hc hd] at h
    simp only at h
    have hn : ¬ (ring.vr_pa ≠ 0 ∧ ring.vr_size ≠ 0) := by
      rintro ⟨h1, h2⟩
      rcases hu with hu | hu
      · exact h1 hu
      · exact h2 hu
    rw [if_neg hn] at h
    split at h
    · injection h with h
      injection h with h1 h2
      exact ⟨h2.symm, h1.symm⟩
    · injection h with h
      injection h with h1 h2
      exact ⟨h2.symm, h1.symm⟩
  · cases h
  · cases h

/-- The cleanup of the worker on a ring whose mappings are consistent, when it returns:
neither lease nor mappings, no size and no address, in `VRS_RESET`. -/
theorem viona_worker_cleanup_result {hold : Option Nat} {ring r : viona_vring_t}
    (hc : ring_map_consistent ring)
    (h : viona_worker_cleanup hold ring = Outcome.done r) :
    r.vr_lease = none ∧ r.vr_map_pages = none ∧ r.vr_size = 0 ∧ r.vr_pa = 0 ∧
    r.vr_state = VRS_RESET := by
  unfold viona_worker_cleanup at h
  split at h
  · cases h
  simp only at h
  split at h
  · rename_i r2 hd
    have hc1 : ring_map_consistent (viona_ring_misc_free ring) := hc
    rw [viona_ring_lease_drop_result hc1 hd] at h
    injection h with h
    subst h
    exact ⟨rfl, rfl, rfl, rfl, rfl⟩
  · cases h
  · cases h

theorem lease_inv_of_released {r : viona_vring_t} (hl : r.vr_lease = none)
    (hm : r.vr_map_pages = none) (hs : r.vr_size = 0) (hp : r.vr_pa = 0) : lease_inv r := by
  refine ⟨?_, ?_, fun _ => ⟨hs, hp, hl⟩⟩
  · rw [hl, hm]
    exact ⟨fun c => absurd rfl c, fun c => absurd rfl c⟩
  · intro m h
    rw [hm] at h
    cases h

/-- The part of `viona_ring_init` that runs on the addressed ring keeps `lease_inv`. -/
theorem viona_ring_init_ring_lease_inv {sign : Option Nat} {gpa2kva : Nat → Nat}
    {thread hold : Option Nat} {ring r : viona_vring_t} {idx qsz pa err : Nat}
    (hi : lease_inv ring)
    (h : viona_ring_init_ring sign gpa2kva thread hold ring idx qsz pa = Outcome.done (err, r)) :
    lease_inv r := by
  unfold viona_ring_init_ring at h
  split at h
  · injection h with h
    injection h with _ h
    subst h
    exact hi
  rename_i hst
  have hst1 : ring.vr_state = VRS_RESET := by simpa using hst
  obtain ⟨hiff, hcons, hres⟩ := hi
  obtain ⟨hsz, hpa, hls⟩ := hres hst1
  have hmp : ring.vr_map_pages = none := by
    by_contra hc
    exact (hiff.1 hc) hls
  split at h
  · cases h
  simp only at h
  have hc1 : ring_map_consistent { ring with vr_lease := none } := by
    intro m hm
    simp only at hm
    rw [hmp] at hm
    cases hm
  split at h
  · rename_i ok ring2 hren
    obtain ⟨hr2, hok⟩ := viona_ring_lease_renew_unconfigured hc1 (Or.inl hpa) hren
    simp only at hr2
    have hc2 : ring_map_consistent ring2 := by
      intro m hm
      rw [hr2] at hm
      cases hm
    split at h
    · split at h
      · rename_i r9 hf
        injection h with h
        injection h with _ h
        subst h
        obtain ⟨a, b, c, d, _⟩ := viona_ring_init_fail_result hc2 hf
        exact lease_inv_of_released a b c d
      · cases h
      · cases h
    rename_i hokt
    have hok1 : ok = true := by simpa using hokt
    have hsn : sign ≠ none := by
      intro hn
      rw [hn, hok1] at hok
      simp at hok
    split at h
    · rename_i mapped ring4 hmap
      split at h
      · rename_i hnm
        have hm4 : ring4.vr_map_pages = none :=
          (viona_ring_map_lease_map_only hmap).2 (by simpa using hnm)
        have hc4 : ring_map_consistent ring4 := by
          intro m hm
          rw [hm4] at hm
          cases hm
        split at h
        · rename_i r9 hf
          injection h with h
          injection h with _ h
          subst h
          obtain ⟨a, b, c, d, _⟩ := viona_ring_init_fail_result hc4 hf
          exact lease_inv_of_released a b c d
        · cases h
        · cases h
      rename_i hmt
      have hmt1 : mapped = true := by simpa using hmt
      subst hmt1
      obtain ⟨l, hlen, hr4, _, _⟩ := viona_ring_map_true hmap
      simp only at hlen
      rw [hr4, hr2] at h
      simp only at h
      unfold viona_create_worker at h
      by_cases htx : idx = VIONA_VQ_TX
      · simp only [if_pos htx, viona_tx_ring_alloc] at h
        rw [if_neg (by simpa using hst1)] at h
        cases hth : thread with
        | none =>
          rw [hth] at h
          simp only at h
          split at h
          · rename_i r9 hf
            injection h with h
            injection h with _ h
            subst h
            obtain ⟨a, b, c, d, _⟩ := viona_ring_init_fail_result
              (by intro m hm; simp only at hm ⊢; injection hm with hm; subst hm
                  exact ⟨hsn, hlen⟩) hf
            exact lease_inv_of_released a b c d
          · cases h
          · cases h
        | some t =>
          rw [hth] at h
          simp only at h
          injection h with h
          injection h with _ h
          subst h
          refine ⟨⟨fun _ => hsn, fun _ => by simp⟩, ?_, ?_⟩
          · intro m hm
            simp only at hm ⊢
            injection hm with hm
            subst hm
            exact ⟨hsn, hlen⟩
          · intro c
            simp [VRS_SETUP, VRS_RESET] at c
      · simp only [if_neg htx] at h
        rw [if_neg (by simpa using hst1)] at h
        cases hth : thread with
        | none =>
          rw [hth] at h
          simp only at h
          split at h
          · rename_i r9 hf
            injection h with h
            injection h with _ h
            subst h
            obtain ⟨a, b, c, d, _⟩ := viona_ring_init_fail_result
              (by intro m hm; simp only at hm ⊢; injection hm with hm; subst hm
                  exact ⟨hsn, hlen⟩) hf
            exact lease_inv_of_released a b c d
          · cases h
          · cases h
        | some t =>
          rw [hth] at h
          simp only at h
          injection h with h
          injection h with _ h
          subst h
          refine ⟨⟨fun _ => hsn, fun _ => by simp⟩, ?_, ?_⟩
          · intro m hm
            simp only at hm ⊢
            injection hm with hm
            subst hm
            exact ⟨hsn, hlen⟩
          · intro c
            simp [VRS_SETUP, VRS_RESET] at c
    · cases h
    · cases h
  · cases h
  · cases h

/-- Every ring that `viona_ring_init`, the cleanup of the worker and
`viona_ring_lease_renew` on a configured ring lead to from a zeroed ring satisfies
`lease_inv`. -/
theorem lease_reachable_inv {ring : viona_vring_t} (h : lease_reachable ring) :
    lease_inv ring := by
  induction h with
  | zeroed =>
    exact lease_inv_of_released rfl rfl rfl rfl
  | init sign gpa2kva thread link idx qsz pa err link1 _ hinit ih =>
    unfold viona_ring_init at hinit
    split at hinit
    · injection hinit with hinit
      injection hinit with _ hinit
      subst hinit
      exact ih
    split at hinit
    · injection hinit with hinit
      injection hinit with _ hinit
      subst hinit
      exact ih
    split at hinit
    · injection hinit with hinit
      injection hinit with _ hinit
      subst hinit
      exact ih
    split at hinit
    · rename_i e r hr
      injection hinit with hinit
      injection hinit with _ hinit
      subst hinit
      have hself : (link_set_ring link idx r).l_vrings idx = r := by
        simp [link_set_ring]
      rw [hself]
      exact viona_ring_init_ring_lease_inv ih hr
    · cases hinit
    · cases hinit
  | renew sign gpa2kva hold ring ring1 ok _ hpa hsz hren ih =>
    obtain ⟨_, hcons, hres⟩ := ih
    have hb := viona_ring_lease_renew_both hcons hpa hsz hren
    have hlm := (viona_ring_lease_renew_lease_map_only hren).1
    have hc1 := viona_ring_lease_renew_consistent hcons hren
    have hpa1 : ring1.vr_pa = ring.vr_pa := by
      unfold lease_map_only at hlm
      rw [hlm]
    refine ⟨?_, hc1, ?_⟩
    · cases ok with
      | true =>
        obtain ⟨a, b⟩ := hb.1 rfl
        exact ⟨fun _ => a, fun _ => b⟩
      | false =>
        obtain ⟨a, b⟩ := hb.2 rfl
        rw [a, b]
        exact ⟨fun c => absurd rfl c, fun c => absurd rfl c⟩
    · intro hst
      exfalso
      have hst0 : ring.vr_state = VRS_RESET := by
        unfold lease_map_only at hlm
        rw [hlm] at hst
        exact hst
      exact hpa (hres hst0).2.1
  | cleanup hold ring ring1 _ hcl ih =>
    obtain ⟨a, b, c, d, _⟩ := viona_worker_cleanup_result ih.2.1 hcl
    exact lease_inv_of_released a b c d
  | other ring ring1 _ hl hm hs hp hst ih =>
    obtain ⟨hiff, hcons, hres⟩ := ih
    refine ⟨by rw [hl, hm]; exact hiff, ?_, ?_⟩
    · intro m hmm
      rw [hm] at hmm
      rw [hl, hs]
      exact hcons m hmm
    · intro c
      rw [hl, hs, hp]
      exact hres (hst.1 c)

/-- C33 fails as stated: on a zeroed ring of a link that holds its virtual machine,
`viona_ring_lease_renew` (the call that `viona_ring_init` makes before it sets size and
address) signs a lease, maps nothing because the ring is not configured, and returns
`B_TRUE` in a state in which a lease is held and `vr_map_pages` is `NULL`. -/
theorem viona_ring_lease_renew_lease_without_map :
    ∃ r, viona_ring_lease_renew (some 7) ex_kva ex_link.l_vm_hold {} = Outcome.done (true, r) ∧
      r.vr_lease ≠ none ∧ r.vr_map_pages = none :=
  ⟨{ vr_lease := some 7 }, rfl, by decide, rfl⟩

/-- C33, amended: in every state in which `viona_ring_init` or the cleanup of the worker
returns, or `viona_ring_lease_renew` returns from a call on a configured ring (`vr_pa !=
0` and `vr_size != 0`), starting from a zeroed ring, `vr_map_pages` is non-`NULL` if and
only if a lease is held. A call of `viona_ring_lease_renew` on such a ring while it is not
configured returns with `vr_map_pages == NULL` and `vr_lease` set to what was signed: a
lease may then be held without a page table. -/
theorem lease_held_iff_mapped (ring : viona_vring_t) (h : lease_reachable ring) :
    (ring.vr_map_pages ≠ none ↔ ring.vr_lease ≠ none) ∧
    (∀ (sign : Option Nat) (gpa2kva : Nat → Nat) (hold : Option Nat) (ok : Bool)
        (r : viona_vring_t), (ring.vr_pa = 0 ∨ ring.vr_size = 0) →
      viona_ring_lease_renew sign gpa2kva hold ring = Outcome.done (ok, r) →
      r.vr_map_pages = none ∧ r.vr_lease = sign ∧ ok = sign.isSome) := by
  have hi := lease_reachable_inv h
  refine ⟨hi.1, ?_⟩
  intro sign gpa2kva hold ok r hu hren
  obtain ⟨hr, hok⟩ := viona_ring_lease_renew_unconfigured hi.2.1 hu hren
  rw [hr]
  exact ⟨rfl, rfl, hok⟩

/-- Witness for C33, amended: the receive ring of the example link after a successful
`viona_ring_init` holds a lease and is mapped. -/
theorem lease_held_iff_mapped_witness :
    lease_reachable ex_ring_inited ∧
    (ex_ring_inited.vr_map_pages ≠ none ↔ ex_ring_inited.vr_lease ≠ none) :=
  ⟨lease_reachable.init (some 7) ex_kva (some 9) ex_link 0 256 65536 0
      (link_set_ring ex_link 0 ex_ring_inited) lease_reachable.zeroed rfl,
   (lease_held_iff_mapped ex_ring_inited
      (lease_reachable.init (some 7) ex_kva (some 9) ex_link 0 256 65536 0
        (link_set_ring ex_link 0 ex_ring_inited) lease_reachable.zeroed rfl)).1⟩

theorem store_only_id (S : Nat → Prop) : store_only (fun m => m) S :=
  ⟨fun _ _ h => absurd rfl h, fun _ _ _ => Or.inr ⟨rfl, rfl⟩⟩

theorem store_only_comp {W1 W2 : Mem → Mem} {S : Nat → Prop} (h1 : store_only W1 S)
    (h2 : store_only W2 S) : store_only (fun m => W2 (W1 m)) S := by
  refine ⟨?_, ?_⟩
  · intro mem x hne
    by_cases hx : W1 mem x = mem x
    · apply h2.1 (W1 mem) x
      intro hc
      apply hne
      show W2 (W1 mem) x = mem x
      rw [hc, hx]
    · exact h1.1 mem x hx
  · intro mem1 mem2 x
    rcases h2.2 (W1 mem1) (W1 mem2) x with e | ⟨e1, e2⟩
    · exact Or.inl e
    · rcases h1.2 mem1 mem2 x with f | ⟨f1, f2⟩
      · left
        show W2 (W1 mem1) x = W2 (W1 mem2) x
        rw [e1, e2, f]
      · right
        exact ⟨by show W2 (W1 mem1) x = mem1 x; rw [e1, f1],
          by show W2 (W1 mem2) x = mem2 x; rw [e2, f2]⟩

theorem store_only_wr32 {S : Nat → Prop} (p v : Nat) (hs : ∀ k, k < 4 → S (p + k)) :
    store_only (fun m => wr32 m p v) S := by
  refine ⟨?_, ?_⟩
  · intro mem x hne
    by_contra hx
    apply hne
    apply wr32_other
    intro k hk he
    rw [he] at hx
    exact hx (hs k hk)
  · intro mem1 mem2 x
    simp only [wr32_apply]
    by_cases h0 : x = p
    · left; rw [if_pos h0, if_pos h0]
    by_cases h1 : x = p + 1
    · left; rw [if_neg h0, if_pos h1, if_neg h0, if_pos h1]
    by_cases h2 : x = p + 2
    · left; rw [if_neg h0, if_neg h1, if_pos h2, if_neg h0, if_neg h1, if_pos h2]
    by_cases h3 : x = p + 3
    · left
      rw [if_neg h0, if_neg h1, if_neg h2, if_pos h3, if_neg h0, if_neg h1, if_neg h2, if_pos h3]
    · right
      rw [if_neg h0, if_neg h1, if_neg h2, if_neg h3, if_neg h0, if_neg h1, if_neg h2, if_neg h3]
      exact ⟨rfl, rfl⟩

theorem store_only_wr16 {S : Nat → Prop} (p v : Nat) (hs : ∀ k, k < 2 → S (p + k)) :
    store_only (fun m => wr16 m p v) S := by
  refine ⟨?_, ?_⟩
  · intro mem x hne
    by_contra hx
    apply hne
    apply wr16_other
    intro k hk he
    rw [he] at hx
    exact hx (hs k hk)
  · intro mem1 mem2 x
    simp only [wr16_apply]
    by_cases h0 : x = p
    · left; rw [if_pos h0, if_pos h0]
    by_cases h1 : x = p + 1
    · left; rw [if_neg h0, if_pos h1, if_neg h0, if_pos h1]
    · right
      rw [if_neg h0, if_neg h1, if_neg h0, if_neg h1]
      exact ⟨rfl, rfl⟩

/-- What `vq_popchain` leaves of the ring: the fault counters and the available cursor
may have changed, every other field is as before. -/
theorem vq_popchain_frame {fuel : Nat} {gpa2kva : Nat → Nat} {mem : Mem}
    {ring : viona_vring_t} {iov : Nat → iovec} {niov cookie : Nat} {r : PopRes}
    (h : vq_popchain fuel gpa2kva mem ring iov niov cookie = Outcome.done r) :
    r.ring = { ring with vr_stats := r.ring.vr_stats, vr_cur_aidx := r.ring.vr_cur_aidx } := by
  unfold vq_popchain at h
  split at h
  · cases h
  simp only at h
  split at h
  · rename_i ndesc _
    split at h
    · cases h; rfl
    · split at h
      · have hbase : stats_only ring
            (if ndesc > ring.vr_size then incr_ndesc_too_high ring else ring) := by
          split
          · exact stats_only_with _ _
          · exact stats_only_refl _
        rcases vq_popchain_loop_exit fuel h with ⟨_, _, h3⟩ | ⟨_, _, h3⟩
        · have := stats_only_trans hbase h3
          unfold stats_only at this
          rw [this]
        · unfold stats_only at hbase
          rw [h3, hbase]
      · cases h
      · cases h
  · cases h
  · cases h

/-- On a mapped ring the four bytes of the id and of the length of a used entry are
bytes of the used ring. -/
theorem used_entry_bytes {ring : viona_vring_t} (hm : ring_mapped ring) {idx idp lenp : Nat}
    (hidx : idx < ring.vr_size)
    (h1 : viona_ring_addr ring (LEGACY_USED_ENT_OFF ring.vr_size idx) = Outcome.done idp)
    (h2 : viona_ring_addr ring (LEGACY_USED_ENT_OFF ring.vr_size idx + 4) = Outcome.done lenp) :
    (∀ k, k < 4 → used_ring_byte ring (idp + k)) ∧
    (∀ k, k < 4 → used_ring_byte ring (lenp + k)) := by
  obtain ⟨b1, b2, b3, b4, _⟩ := used_layout_bounds hm idx hidx
  constructor
  · intro k hk
    obtain ⟨c1, c2⟩ := viona_ring_addr_add hm (by omega) h1 k (by omega)
    exact ⟨_, by omega, c1, c2⟩
  · intro k hk
    obtain ⟨c1, c2⟩ := viona_ring_addr_add hm (by omega) h2 k (by omega)
    exact ⟨_, by omega, c1, c2⟩

/-- On a mapped ring `vq_write_used_ent` only stores into the used ring, and what it
does depends neither on the memory it finds nor on the available cursor or the fault
counters. -/
theorem vq_write_used_ent_store {ring : viona_vring_t} (hm : ring_mapped ring) (idx : Nat)
    (hidx : idx < ring.vr_size) (cookie len : Nat) :
    ∃ W, store_only W (used_ring_byte ring) ∧
      ∀ (mem : Mem) (a : Nat) (s : viona_ring_stats),
        vq_write_used_ent mem { ring with vr_cur_aidx := a, vr_stats := s } idx cookie len =
          Outcome.done (W mem) := by
  obtain ⟨idp, lenp, h1, h2, _⟩ := vq_write_used_ent_eq hm (fun _ => 0) idx cookie len hidx
  obtain ⟨u1, u2⟩ := used_entry_bytes hm hidx h1 h2
  refine ⟨fun m => wr32 (wr32 m idp (cookie % 65536)) lenp len,
    store_only_comp (store_only_wr32 idp _ u1) (store_only_wr32 lenp _ u2), ?_⟩
  intro mem a s
  have hm1 : ring_mapped { ring with vr_cur_aidx := a, vr_stats := s } := hm
  obtain ⟨idp1, lenp1, g1, g2, g3⟩ := vq_write_used_ent_eq hm1 mem idx cookie len hidx
  have e1 : idp1 = idp := by
    have : Outcome.done idp1 = Outcome.done idp := g1.symm.trans h1
    injection this
  have e2 : lenp1 = lenp := by
    have : Outcome.done lenp1 = Outcome.done lenp := g2.symm.trans h2
    injection this
  rw [g3, e1, e2]

/-- On a mapped ring `vq_write_used_idx` only stores into the used ring. -/
theorem vq_write_used_idx_store {ring : viona_vring_t} (hm : ring_mapped ring) (idx : Nat) :
    ∃ W, store_only W (used_ring_byte ring) ∧
      ∀ (mem : Mem) (a : Nat) (s : viona_ring_stats),
        vq_write_used_idx mem { ring with vr_cur_aidx := a, vr_stats := s } idx =
          Outcome.done (W mem) := by
  obtain ⟨uip, h1, _⟩ := vq_write_used_idx_eq hm (fun _ => 0) idx
  obtain ⟨b1, b2, b3, b4, _⟩ := used_layout_bounds hm 0 hm.1
  have u1 : ∀ k, k < 2 → used_ring_byte ring (uip + k) := by
    intro k hk
    obtain ⟨c1, c2⟩ := viona_ring_addr_add hm (by omega) h1 k (by omega)
    exact ⟨_, by omega, c1, c2⟩
  refine ⟨fun m => wr16 m uip (idx % 65536), store_only_wr16 uip _ u1, ?_⟩
  intro mem a s
  have hm1 : ring_mapped { ring with vr_cur_aidx := a, vr_stats := s } := hm
  obtain ⟨uip1, g1, g3⟩ := vq_write_used_idx_eq hm1 mem idx
  have e1 : uip1 = uip := by
    have : Outcome.done uip1 = Outcome.done uip := g1.symm.trans h1
    injection this
  rw [g3, e1]

/-- On a mapped ring the loop of `vq_pushchain_many` only stores into the used ring. -/
theorem vq_pushchain_many_loop_store {ring : viona_vring_t} (hm : ring_mapped ring)
    (uidx : Nat) (elem : Nat → used_elem_t) (n : Nat) :
    ∀ i, ∃ W, store_only W (used_ring_byte ring) ∧
      ∀ (mem : Mem) (a : Nat) (s : viona_ring_stats),
        vq_pushchain_many_loop { ring with vr_cur_aidx := a, vr_stats := s } uidx elem n i mem =
          Outcome.done (W mem) := by
  induction n with
  | zero =>
    intro i
    exact ⟨fun m => m, store_only_id _, fun _ _ _ => rfl⟩
  | succ n ih =>
    intro i
    obtain ⟨s1, s2⟩ := used_slot_lt hm uidx
    obtain ⟨W1, p1, q1⟩ := vq_write_used_ent_store hm ((uidx &&& ring.vr_mask) % 65536)
      (by rw [s1]; exact s2) (elem i).id (elem i).len
    obtain ⟨W2, p2, q2⟩ := ih (i + 1)
    refine ⟨fun m => W2 (W1 m), store_only_comp p1 p2, ?_⟩
    intro mem a s
    rw [vq_pushchain_many_loop]
    have := q1 mem a s
    simp only at this ⊢
    rw [this]
    exact q2 (W1 mem) a s

/-- On a mapped ring a call of the used-ring writer only stores into the used ring, and
what it stores and the cursor it leaves depend neither on the memory it finds nor on the
available cursor or the fault counters. -/
theorem push_op_run_store {ring : viona_vring_t} (hm : ring_mapped ring) (op : push_op) :
    ∃ W v, store_only W (used_ring_byte ring) ∧
      ∀ (mem : Mem) (a : Nat) (s : viona_ring_stats),
        op.run mem { ring with vr_cur_aidx := a, vr_stats := s } =
          Outcome.done (W mem, { ring with vr_cur_aidx := a, vr_stats := s,
                                           vr_cur_uidx := v }) := by
  obtain ⟨s1, s2⟩ := used_slot_lt hm ring.vr_cur_uidx
  cases op with
  | one len cookie =>
    obtain ⟨W1, p1, q1⟩ := vq_write_used_ent_store hm
      ((ring.vr_cur_uidx &&& ring.vr_mask) % 65536) (by rw [s1]; exact s2) cookie len
    obtain ⟨W2, p2, q2⟩ := vq_write_used_idx_store hm ((ring.vr_cur_uidx + 1) % 65536)
    refine ⟨fun m => W2 (W1 m), (ring.vr_cur_uidx + 1) % 65536, store_only_comp p1 p2, ?_⟩
    intro mem a s
    unfold push_op.run vq_pushchain
    have e1 := q1 mem a s
    have e2 := q2 (W1 mem) a s
    simp only at e1 e2 ⊢
    rw [e1]
    simp only
    rw [e2]
  | many num_bufs elem =>
    obtain ⟨W1, p1, q1⟩ := vq_pushchain_many_loop_store hm ring.vr_cur_uidx elem num_bufs 0
    obtain ⟨W2, p2, q2⟩ := vq_write_used_idx_store hm ((ring.vr_cur_uidx + num_bufs) % 65536)
    refine ⟨fun m => W2 (W1 m), (ring.vr_cur_uidx + num_bufs) % 65536, store_only_comp p1 p2,
      ?_⟩
    intro mem a s
    unfold push_op.run vq_pushchain_many
    have e1 := q1 mem a s
    have e2 := q2 (W1 mem) a s
    simp only at e1 e2 ⊢
    rw [e1]
    simp only
    rw [e2]

/-- C36: on a mapped ring, `vq_popchain` (which has no store to host memory: its model
takes the memory and returns none) leaves every field of the ring other than the fault
counters and `vr_cur_aidx` as it was, `vr_cur_uidx` among them. A call of `vq_pushchain`
or `vq_pushchain_many` changes no field of the ring but `vr_cur_uidx` and only stores:
every host byte it changes is a byte of the used ring behind the flags word, every byte
of the ring before the used index (the descriptor table, the available ring, the used
flags) is as before, and what it stores, the cursor it leaves and the bytes it leaves
alone are the same whatever the memory, the available cursor and the fault counters
are; in particular it does the same on the ring that a `vq_popchain` has left. -/
theorem vq_pop_push_frames (ring : viona_vring_t) (hm : ring_mapped ring) :
    (∀ (fuel : Nat) (gpa2kva : Nat → Nat) (mem : Mem) (iov : Nat → iovec) (niov cookie : Nat)
        (r : PopRes), vq_popchain fuel gpa2kva mem ring iov niov cookie = Outcome.done r →
      r.ring = { ring with vr_stats := r.ring.vr_stats, vr_cur_aidx := r.ring.vr_cur_aidx } ∧
      r.ring.vr_cur_uidx = ring.vr_cur_uidx) ∧
    (∀ op : push_op, ∃ W v, store_only W (used_ring_byte ring) ∧
      (∀ (mem : Mem) (a : Nat) (s : viona_ring_stats),
        op.run mem { ring with vr_cur_aidx := a, vr_stats := s } =
          Outcome.done (W mem, { ring with vr_cur_aidx := a, vr_stats := s,
                                           vr_cur_uidx := v })) ∧
      (∀ (mem : Mem) (off x : Nat), off < LEGACY_USED_IDX_OFF ring.vr_size →
        viona_ring_addr ring off = Outcome.done x → W mem x = mem x) ∧
      (∀ (fuel : Nat) (gpa2kva : Nat → Nat) (mem0 : Mem) (iov : Nat → iovec)
          (niov cookie : Nat) (r : PopRes) (mem : Mem),
        vq_popchain fuel gpa2kva mem0 ring iov niov cookie = Outcome.done r →
        op.run mem r.ring = Outcome.done (W mem, { r.ring with vr_cur_uidx := v }))) := by
  constructor
  · intro fuel gpa2kva mem iov niov cookie r h
    have hf := vq_popchain_frame h
    refine ⟨hf, ?_⟩
    rw [hf]
  · intro op
    obtain ⟨W, v, p, q⟩ := push_op_run_store hm op
    refine ⟨W, v, p, q, ?_, ?_⟩
    · intro mem off x hoff hx
      by_contra hne
      obtain ⟨off1, o1, o2, o3⟩ := p.1 mem x hne
      have := viona_ring_addr_inj hm (by omega) o2 hx o3
      omega
    · intro fuel gpa2kva mem0 iov niov cookie r mem h
      have hf := vq_popchain_frame h
      rw [hf]
      exact q mem r.ring.vr_cur_aidx r.ring.vr_stats

/-- Witness for C36 on the example ring: the chain of `ex_mem` is popped, and the frame
of `vq_pushchain(1514, 5)`. -/
theorem vq_pop_push_frames_witness :
    ring_mapped ex_ring ∧
    (∀ (fuel : Nat) (gpa2kva : Nat → Nat) (mem : Mem) (iov : Nat → iovec) (niov cookie : Nat)
        (r : PopRes), vq_popchain fuel gpa2kva mem ex_ring iov niov cookie = Outcome.done r →
      r.ring = { ex_ring with vr_stats := r.ring.vr_stats,
                              vr_cur_aidx := r.ring.vr_cur_aidx } ∧
      r.ring.vr_cur_uidx = ex_ring.vr_cur_uidx) ∧
    (∃ W v, store_only W (used_ring_byte ex_ring) ∧
      (∀ (mem : Mem) (a : Nat) (s : viona_ring_stats),
        (push_op.one 1514 5).run mem { ex_ring with vr_cur_aidx := a, vr_stats := s } =
          Outcome.done (W mem, { ex_ring with vr_cur_aidx := a, vr_stats := s,
                                              vr_cur_uidx := v })) ∧
      (∀ (mem : Mem) (off x : Nat), off < LEGACY_USED_IDX_OFF ex_ring.vr_size →
        viona_ring_addr ex_ring off = Outcome.done x → W mem x = mem x) ∧
      (∀ (fuel : Nat) (gpa2kva : Nat → Nat) (mem0 : Mem) (iov : Nat → iovec)
          (niov cookie : Nat) (r : PopRes) (mem : Mem),
        vq_popchain fuel gpa2kva mem0 ex_ring iov niov cookie = Outcome.done r →
        (push_op.one 1514 5).run mem r.ring =
          Outcome.done (W mem, { r.ring with vr_cur_uidx := v }))) ∧
    vq_popchain 10 ex_kva ex_mem ex_ring ex_iov 8 99 = Outcome.done ex_pop :=
  ⟨ex_ring_mapped, (vq_pop_push_frames ex_ring ex_ring_mapped).1,
    (vq_pop_push_frames ex_ring ex_ring_mapped).2 (push_op.one 1514 5), rfl⟩

/-- The page loop of `vq_map_desc_bufs` on `n = ceil(len / PAGESIZE)` pages from a
page-aligned address, with the lease held: no assertion fails; the loop is left through
`return (EFAULT)` exactly when one of the pages does not translate, and otherwise with
nothing left of the length, at the end of the range, after `n` increments of the 16-bit
`lidx`. -/
theorem vq_map_desc_bufs_loop_safe (gpa2kva : Nat → Nat) (ring : viona_vring_t)
    (hl : ring.vr_lease ≠ none) (n : Nat) :
    ∀ (gpa len lidx : Nat) (iov : Nat → iovec),
      n = (len + 4095) / 4096 → (0 < n → gpa % 4096 = 0) → gpa < 2 ^ 64 → lidx < 65536 →
      ∃ st, vq_map_desc_bufs_loop gpa2kva ring n gpa len lidx iov = Outcome.done st ∧
        (st.fault = true ↔ ∃ t, t < n ∧ gpa2kva ((gpa + t * 4096) % 2 ^ 64) = 0) ∧
        (st.fault = false → st.len = 0 ∧ st.gpa = (gpa + len) % 2 ^ 64 ∧
          st.lidx = (lidx + n) % 65536) := by
  induction n with
  | zero =>
    intro gpa len lidx iov hn _ hg hli
    have hlen : len = 0 := by omega
    subst hlen
    refine ⟨_, rfl, ?_, ?_⟩
    · constructor
      · intro h; cases h
      · rintro ⟨t, ht, _⟩; omega
    · intro _
      refine ⟨rfl, ?_, ?_⟩
      · show gpa = (gpa + 0) % 2 ^ 64
        rw [Nat.add_zero, Nat.mod_eq_of_lt hg]
      · show lidx = (lidx + 0) % 65536
        rw [Nat.add_zero, Nat.mod_eq_of_lt hli]
  | succ n ih =>
    intro gpa len lidx iov hn ha hg hli
    have e64 : (2:Nat) ^ 64 = 18446744073709551616 := by norm_num
    have ha1 : gpa % 4096 = 0 := ha (by omega)
    have hgm : (gpa + 0 * 4096) % 2 ^ 64 = gpa := by
      rw [Nat.zero_mul, Nat.add_zero, Nat.mod_eq_of_lt hg]
    rw [vq_map_desc_bufs_loop, land_PAGEOFFSET, ha1, viona_hold_page_ok gpa2kva ring gpa hl ha1]
    simp only [ne_eq, not_true_eq_false, if_false]
    by_cases hk0 : gpa2kva gpa = 0
    · rw [if_pos hk0]
      refine ⟨_, rfl, ?_, ?_⟩
      · constructor
        · intro _
          exact ⟨0, by omega, by rw [hgm]; exact hk0⟩
        · intro _; rfl
      · intro h; cases h
    · rw [if_neg hk0]
      obtain ⟨st, h1, h2, h3⟩ := ih ((gpa + min len PAGESIZE) % 2 ^ 64) (len - min len PAGESIZE)
        ((lidx + 1) % 65536)
        (iov_set iov lidx { iov_base := gpa2kva gpa, iov_len := min len PAGESIZE })
        (by unfold PAGESIZE; omega)
        (by intro hp; unfold PAGESIZE; rw [e64]; omega)
        (Nat.mod_lt _ (by norm_num)) (Nat.mod_lt _ (by norm_num))
      refine ⟨st, h1, ?_, ?_⟩
      · rw [h2]
        constructor
        · rintro ⟨t, ht, hz⟩
          refine ⟨t + 1, by omega, ?_⟩
          have e : ((gpa + min len PAGESIZE) % 2 ^ 64 + t * 4096) % 2 ^ 64
              = (gpa + (t + 1) * 4096) % 2 ^ 64 := by
            unfold PAGESIZE; rw [e64]; omega
          rw [← e]; exact hz
        · rintro ⟨t, ht, hz⟩
          cases t with
          | zero => rw [hgm] at hz; exact absurd hz hk0
          | succ t =>
            refine ⟨t, by omega, ?_⟩
            have e : ((gpa + min len PAGESIZE) % 2 ^ 64 + t * 4096) % 2 ^ 64
                = (gpa + (t + 1) * 4096) % 2 ^ 64 := by
              unfold PAGESIZE; rw [e64]; omega
            rw [e]; exact hz
      · intro hf
        obtain ⟨a, b, c⟩ := h3 hf
        refine ⟨a, ?_, ?_⟩
        · rw [b]
          unfold PAGESIZE; rw [e64]; omega
        · rw [c]; omega

/-- The function `vq_map_desc_bufs` with the lease held, on a descriptor as it is read
from memory (a 64-bit address and a 32-bit length) and an index below `niov`: no
assertion fails. It returns 0 exactly when the length is not 0, the pages fit the rest of
the vector and all of them translate; then `*idxp` has been incremented once per page,
as a 16-bit value. -/
theorem vq_map_desc_bufs_safe (gpa2kva : Nat → Nat) (ring : viona_vring_t) (desc : virtio_desc)
    (iov : Nat → iovec) (niov idx : Nat) (hl : ring.vr_lease ≠ none) (hidx : idx < niov)
    (haddr : desc.vd_addr < 2 ^ 64) (hlen : desc.vd_len < 2 ^ 32) :
    ∃ r, vq_map_desc_bufs gpa2kva ring desc iov niov idx = Outcome.done r ∧
      (r.err = 0 ↔ desc.vd_len ≠ 0 ∧
        ¬ desc_pages desc > (niov + 2 ^ 32 - idx) % 2 ^ 32 ∧
        ∀ t, t < desc_pages desc →
          gpa2kva (((desc.vd_addr &&& PAGEMASK) + t * 4096) % 2 ^ 64) ≠ 0) ∧
      (r.err = 0 → r.ring = ring ∧ r.idx = (idx + desc_pages desc) % 65536) := by
  have e64 : (2:Nat) ^ 64 = 18446744073709551616 := by norm_num
  have e32 : (2:Nat) ^ 32 = 4294967296 := by norm_num
  have hpm := land_PAGEMASK desc.vd_addr haddr
  unfold vq_map_desc_bufs
  simp only
  rw [if_neg (by simpa using hidx)]
  by_cases c2 : desc.vd_len = 0
  · rw [if_pos c2]
    refine ⟨_, rfl, ?_, ?_⟩
    · constructor
      · intro h; simp [EINVAL] at h
      · intro h; exact absurd c2 h.1
    · intro h; simp [EINVAL] at h
  rw [if_neg c2]
  by_cases c3 : desc_pages desc > (niov + 2 ^ 32 - idx) % 2 ^ 32
  · rw [if_pos c3]
    refine ⟨_, rfl, ?_, ?_⟩
    · constructor
      · intro h; simp [E2BIG] at h
      · intro h; exact absurd c3 h.2.1
    · intro h; simp [E2BIG] at h
  rw [if_neg c3]
  have hp := desc_pages_eq desc (Nat.pos_of_ne_zero c2) hlen
  have hal : (desc.vd_addr &&& PAGEMASK) % 4096 = 0 := by rw [hpm]; omega
  rw [viona_hold_page_ok gpa2kva ring _ hl hal]
  simp only
  have hz0 : ((desc.vd_addr &&& PAGEMASK) + 0 * 4096) % 2 ^ 64 = desc.vd_addr &&& PAGEMASK := by
    rw [Nat.zero_mul, Nat.add_zero, hpm, e64]
    rw [e64] at haddr
    omega
  by_cases hb : gpa2kva (desc.vd_addr &&& PAGEMASK) = 0
  · rw [if_pos hb]
    refine ⟨_, rfl, ?_, ?_⟩
    · constructor
      · intro h; simp [EFAULT] at h
      · intro h
        exfalso
        have := h.2.2 0 (by rw [hp]; omega)
        rw [hz0] at this
        exact this hb
    · intro h; simp [EFAULT] at h
  rw [if_neg hb]
  rw [e32] at hlen
  rw [e64] at haddr
  obtain ⟨st, h1, h2, h3⟩ := vq_map_desc_bufs_loop_safe gpa2kva ring hl (desc_pages desc - 1)
    ((desc.vd_addr + min desc.vd_len (PAGESIZE - (desc.vd_addr &&& PAGEOFFSET))) % 2 ^ 64)
    (desc.vd_len - min desc.vd_len (PAGESIZE - (desc.vd_addr &&& PAGEOFFSET)))
    ((idx + 1) % 65536)
    (iov_set iov idx
      { iov_base := gpa2kva (desc.vd_addr &&& PAGEMASK) + (desc.vd_addr &&& PAGEOFFSET),
        iov_len := min desc.vd_len (PAGESIZE - (desc.vd_addr &&& PAGEOFFSET)) })
    (by rw [hp, land_PAGEOFFSET]; unfold PAGESIZE; omega)
    (by intro hpos; rw [hp] at hpos; rw [land_PAGEOFFSET]; unfold PAGESIZE; rw [e64]; omega)
    (Nat.mod_lt _ (by norm_num)) (Nat.mod_lt _ (by norm_num))
  rw [h1]
  simp only
  have hshift : ∀ t, ((desc.vd_addr + min desc.vd_len (PAGESIZE - (desc.vd_addr &&& PAGEOFFSET)))
      % 2 ^ 64 + t * 4096) % 2 ^ 64 =
      ((desc.vd_addr &&& PAGEMASK) + (t + 1) * 4096) % 2 ^ 64 ∨ desc_pages desc - 1 = 0 := by
    intro t
    by_cases h1p : desc_pages desc - 1 = 0
    · exact Or.inr h1p
    · left
      rw [hp] at h1p
      rw [hpm, land_PAGEOFFSET]
      unfold PAGESIZE
      rw [e64]
      omega
  by_cases hf : st.fault = true
  · rw [if_pos hf]
    refine ⟨_, rfl, ?_, ?_⟩
    · constructor
      · intro h; simp [EFAULT] at h
      · intro h
        exfalso
        obtain ⟨t, ht, hz⟩ := h2.1 hf
        rcases hshift t with e | e
        · rw [e] at hz
          exact h.2.2 (t + 1) (by omega) hz
        · omega
    · intro h; simp [EFAULT] at h
  · rw [if_neg hf]
    have hf1 : st.fault = false := by simpa using hf
    obtain ⟨a, b, c⟩ := h3 hf1
    rw [if_neg (by simpa using a)]
    have hend : st.gpa = (desc.vd_addr + desc.vd_len) % 2 ^ 64 := by
      rw [b, land_PAGEOFFSET]
      unfold PAGESIZE
      rw [e64]
      omega
    rw [if_neg (by simpa using hend)]
    refine ⟨_, rfl, ?_, ?_⟩
    · simp only [true_iff]
      refine ⟨c2, c3, ?_⟩
      intro t ht hz
      cases t with
      | zero => rw [hz0] at hz; exact hb hz
      | succ t =>
        apply hf
        apply h2.2
        refine ⟨t, by omega, ?_⟩
        rcases hshift t with e | e
        · rw [e]; exact hz
        · omega
    · intro _
      refine ⟨rfl, ?_⟩
      show st.lidx = (idx + desc_pages desc) % 65536
      rw [c]
      clear h2 h3 hshift h1
      have hp1 : 1 ≤ desc_pages desc := by rw [hp]; omega
      omega

/-- One pass of the loop of `vq_popchain` that ends the chain: the descriptor at `next`
is read and mapped without error and has no successor, so the count is returned, the
cookie is the head and the available cursor is advanced. -/
theorem vq_popchain_loop_last (ifuel : Nat) (gpa2kva : Nat → Nat) (mem : Mem)
    (niov head cookie fuel : Nat) (ring : viona_vring_t) (iov : Nat → iovec) (i next : Nat)
    (vdir : virtio_desc) (r : MapRes) (hi : i < niov) (hn : next < ring.vr_size)
    (hrd : vq_read_desc mem ring next = Outcome.done vdir)
    (hm : vq_popchain_map ifuel gpa2kva mem ring vdir iov niov i = Outcome.done r)
    (he : r.err = 0) (hx : vdir.vd_flags &&& VRING_DESC_F_NEXT = 0) :
    vq_popchain_loop ifuel gpa2kva mem niov head cookie (fuel + 1) ring iov i next =
      Outcome.done
        { ret := (r.idx : Int),
          ring := { r.ring with vr_cur_aidx := (r.ring.vr_cur_aidx + 1) % 65536 },
          iov := r.iov, cookie := head } := by
  have hn1 : ¬ next ≥ ring.vr_size := by omega
  have he1 : ¬ r.err ≠ 0 := by simpa using he
  rw [vq_popchain_loop, if_pos hi, if_neg hn1, hrd]
  simp only
  rw [hm]
  simp only
  rw [if_neg he1, if_pos hx]

/-- The part of `vq_popchain` before its loop: with a capacity in the asserted range, a
count of available entries that is neither 0 nor above the ring size, and the head read
from the available ring, the result is that of the loop started at the head. -/
theorem vq_popchain_enters_loop (fuel : Nat) (gpa2kva : Nat → Nat) (mem : Mem)
    (ring : viona_vring_t) (iov : Nat → iovec) (niov cookie ndesc head : Nat)
    (hn : niov > 0 ∧ niov < INT_MAX)
    (ha : viona_ring_num_avail mem ring = Outcome.done ndesc) (h0 : ndesc ≠ 0)
    (hs : ¬ ndesc > ring.vr_size)
    (hh : vq_read_avail mem ring ((ring.vr_cur_aidx &&& ring.vr_mask) % 65536) =
      Outcome.done head) :
    vq_popchain fuel gpa2kva mem ring iov niov cookie =
      vq_popchain_loop fuel gpa2kva mem niov head cookie fuel ring iov 0 head := by
  have hn1 : ¬ ¬ (niov > 0 ∧ niov < INT_MAX) := fun c => c hn
  unfold vq_popchain
  rw [if_neg hn1, ha]
  simp only
  rw [if_neg h0, if_neg hs, hh]

/-- C38 fails on the code: the guest has published one descriptor of 256 MiB, which
spans 65536 pages, and `vq_popchain` is called with `niov = 65536`, which satisfies the
asserted `0 < niov < INT_MAX`. The pages fit the vector and all translate, so the chain
is accepted: the cookie is set to the head 5 and `vr_cur_aidx` is advanced. The counter
`i` is a `uint16_t`: after 65536 increments it is 0 again, and that is the value
returned. `vq_popchain` returns 0 although an entry was available and has been
consumed, and not the number of vector entries it filled. -/
theorem vq_popchain_returns_zero_after_wrap :
    (0 < 65536 ∧ 65536 < INT_MAX) ∧
    viona_ring_num_avail ex_mem_huge ex_ring = Outcome.done 1 ∧
    vq_read_desc ex_mem_huge ex_ring 5 = Outcome.done ex_desc_huge ∧
    desc_pages ex_desc_huge = 65536 ∧
    ∃ iov1, ∀ fuel, vq_popchain (fuel + 1) ex_kva_all ex_mem_huge ex_ring ex_iov 65536 99 =
      Outcome.done { ret := 0, ring := { ex_ring with vr_cur_aidx := 1 }, iov := iov1,
                     cookie := 5 } := by
  have hp : desc_pages ex_desc_huge = 65536 := by
    rw [desc_pages_eq ex_desc_huge (by decide) (by decide)]
    rfl
  refine ⟨by decide, rfl, rfl, hp, ?_⟩
  obtain ⟨r, h1, h2, h3⟩ := vq_map_desc_bufs_safe ex_kva_all ex_ring ex_desc_huge ex_iov 65536 0
    (by decide) (by decide) (by decide) (by decide)
  have he : r.err = 0 := by
    rw [h2]
    refine ⟨by decide, ?_, ?_⟩
    · rw [hp]; decide
    · intro t _
      unfold ex_kva_all
      omega
  obtain ⟨h4, h5⟩ := h3 he
  rw [hp] at h5
  refine ⟨r.iov, ?_⟩
  intro fuel
  have hm : vq_popchain_map (fuel + 1) ex_kva_all ex_mem_huge ex_ring ex_desc_huge ex_iov 65536 0
      = Outcome.done r := by
    unfold vq_popchain_map
    rw [if_pos (by decide), h1]
  rw [vq_popchain_enters_loop (fuel + 1) ex_kva_all ex_mem_huge ex_ring ex_iov 65536 99 1 5
    (by decide) rfl (by decide) (by decide) rfl]
  rw [vq_popchain_loop_last (fuel + 1) ex_kva_all ex_mem_huge 65536 5 99 fuel ex_ring ex_iov 0 5
    ex_desc_huge r (by decide) (by decide) rfl hm he (by decide)]
  rw [h4, h5]
  rfl

/-- With a vector of at most 65535 entries, what the loop of `vq_popchain` returns is -1
or a count above the `i` it started with and not above `niov`. -/
theorem vq_popchain_loop_count (gpa2kva : Nat → Nat) (mem : Mem) (niov head cookie ifuel : Nat)
    (hn : niov ≤ 65535) (hif : niov ≤ ifuel) :
    ∀ (fuel : Nat) (ring : viona_vring_t) (iov : Nat → iovec) (i next : Nat) (r : PopRes),
      vq_popchain_loop ifuel gpa2kva mem niov head cookie fuel ring iov i next =
        Outcome.done r →
      r.ret = -1 ∨ ((i : Int) < r.ret ∧ r.ret ≤ (niov : Int)) := by
  intro fuel
  induction fuel with
  | zero => intro ring iov i next r h; cases h
  | succ fuel ih =>
    intro ring iov i next r h
    rw [vq_popchain_loop] at h
    split at h
    · rename_i hlt
      split at h
      · cases h; exact Or.inl rfl
      split at h
      · rename_i vdir hrd
        split at h
        · rename_i r1 hmap
          obtain ⟨_, m2⟩ := vq_popchain_map_ends gpa2kva mem ifuel ring vdir iov niov i hn hlt
            (by omega) (vq_read_desc_bounds hrd).2.1
          split at h
          · cases h; exact Or.inl rfl
          rename_i hne
          have he : r1.err = 0 := by simpa using hne
          have hb := m2 r1 hmap he
          split at h
          · cases h
            right
            simp only
            omega
          · rcases ih _ _ _ _ r h with h1 | ⟨h1, h2⟩
            · exact Or.inl h1
            · right
              omega
        · cases h
        · cases h
      · cases h
      · cases h
    · cases h; exact Or.inl rfl

/-- With a vector of at most 65535 entries and fuel for `niov` passes, `vq_popchain`
returns -1, or 0 with nothing available and ring, vector and cookie untouched, or a count
`n` with `1 <= n <= niov`. -/
theorem vq_popchain_count_in_range (fuel : Nat) (gpa2kva : Nat → Nat) (mem : Mem)
    (ring : viona_vring_t) (iov : Nat → iovec) (niov cookie : Nat) (r : PopRes)
    (hn : niov ≤ 65535) (hf : niov ≤ fuel)
    (h : vq_popchain fuel gpa2kva mem ring iov niov cookie = Outcome.done r) :
    r.ret = -1 ∨
    (r.ret = 0 ∧ viona_ring_num_avail mem ring = Outcome.done 0 ∧ r.ring = ring ∧
      r.iov = iov ∧ r.cookie = cookie) ∨
    (1 ≤ r.ret ∧ r.ret ≤ (niov : Int)) := by
  unfold vq_popchain at h
  split at h
  · cases h
  simp only at h
  split at h
  · rename_i ndesc hnd
    split at h
    · rename_i h0
      cases h
      rw [h0] at hnd
      exact Or.inr (Or.inl ⟨rfl, hnd, rfl, rfl, rfl⟩)
    · split at h
      · rcases vq_popchain_loop_count gpa2kva mem niov _ cookie fuel hn hf fuel _ _ _ _ r h with
          h1 | ⟨h1, h2⟩
        · exact Or.inl h1
        · right; right
          constructor
          · omega
          · exact h2
      · cases h
      · cases h
  · cases h
  · cases h

theorem ring_mapped_stats_only {r1 r2 : viona_vring_t} (h : stats_only r1 r2)
    (hm : ring_mapped r1) : ring_mapped r2 := by
  unfold stats_only at h
  rw [h]
  exact hm

theorem stats_only_lease {r1 r2 : viona_vring_t} (h : stats_only r1 r2) :
    r2.vr_lease = r1.vr_lease := by
  unfold stats_only at h
  rw [h]

/-- On a mapped ring the bounds assertion and the address lookup of `vq_read_desc` hold
for every index below `vr_size`. -/
theorem vq_read_desc_ok (mem : Mem) {ring : viona_vring_t} (hm : ring_mapped ring) (idx : Nat)
    (hi : idx < ring.vr_size) : ∃ v, vq_read_desc mem ring idx = Outcome.done v := by
  have h59 := ring_mapped_size59 hm
  have hq := hm.2.1
  have hs := LEGACY_VQ_SIZE_eq ring.vr_size h59
  have e : (idx * SIZEOF_virtio_desc) % 2 ^ 32 = 16 * idx := by
    unfold SIZEOF_virtio_desc; norm_num; omega
  obtain ⟨a, ha⟩ := viona_ring_addr_ok hm ((idx * SIZEOF_virtio_desc) % 2 ^ 32)
    (by rw [e, hs]; omega)
  exact ⟨_, vq_read_desc_eq_desc_at hi ha⟩

/-- On a mapped ring the bounds assertion and the address lookup of `vq_read_avail` hold
for every slot below `vr_size`. -/
theorem vq_read_avail_ok (mem : Mem) {ring : viona_vring_t} (hm : ring_mapped ring) (idx : Nat)
    (hi : idx < ring.vr_size) : ∃ v, vq_read_avail mem ring idx = Outcome.done v := by
  have h59 := ring_mapped_size59 hm
  have hq := hm.2.1
  have hs := LEGACY_VQ_SIZE_eq ring.vr_size h59
  have he := LEGACY_AVAIL_ENT_OFF_eq ring.vr_size idx h59 (Nat.le_of_lt hi)
  have e : (LEGACY_AVAIL_ENT_OFF ring.vr_size idx) % 2 ^ 32 = 16 * ring.vr_size + 4 + 2 * idx := by
    rw [he]; norm_num; omega
  obtain ⟨a, ha⟩ := viona_ring_addr_ok hm ((LEGACY_AVAIL_ENT_OFF ring.vr_size idx) % 2 ^ 32)
    (by rw [e, hs]; omega)
  unfold vq_read_avail
  rw [if_pos hi, ha]
  exact ⟨_, rfl⟩

/-- On a mapped ring the address lookup of `viona_ring_num_avail` holds. -/
theorem viona_ring_num_avail_ok (mem : Mem) {ring : viona_vring_t} (hm : ring_mapped ring) :
    ∃ n, viona_ring_num_avail mem ring = Outcome.done n := by
  have h59 := ring_mapped_size59 hm
  have hq := hm.2.1
  have hs := LEGACY_VQ_SIZE_eq ring.vr_size h59
  have he := LEGACY_AVAIL_IDX_OFF_eq ring.vr_size h59
  have e : (LEGACY_AVAIL_IDX_OFF ring.vr_size) % 2 ^ 32 = 16 * ring.vr_size + 2 := by
    rw [he]; norm_num; omega
  obtain ⟨a, ha⟩ := viona_ring_addr_ok hm ((LEGACY_AVAIL_IDX_OFF ring.vr_size) % 2 ^ 32)
    (by rw [e, hs]; omega)
  unfold viona_ring_num_avail
  rw [ha]
  exact ⟨_, rfl⟩

/-- With the lease held and room in the vector, no assertion fails in the loop of
`vq_map_indir_desc_bufs`, whatever the guest has put in the table. -/
theorem vq_map_indir_desc_bufs_loop_no_panic (gpa2kva : Nat → Nat) (mem : Mem)
    (desc : virtio_desc) (niov indir_count : Nat) :
    ∀ (fuel : Nat) (ring : viona_vring_t) (iov : Nat → iovec)
      (idx indir_next buf buf_gpa : Nat), ring.vr_lease ≠ none → idx < niov →
      vq_map_indir_desc_bufs_loop gpa2kva mem desc niov indir_count fuel ring iov idx
        indir_next buf buf_gpa ≠ Outcome.panic := by
  intro fuel
  induction fuel with
  | zero => intro ring iov idx indir_next buf buf_gpa _ _ h; cases h
  | succ fuel ih =>
    intro ring iov idx indir_next buf buf_gpa hl hi
    rw [vq_map_indir_desc_bufs_loop]
    simp only
    have hal : ((desc.vd_addr + indir_next * SIZEOF_virtio_desc) % 2 ^ 64 &&& PAGEMASK) % 4096
        = 0 := by
      rw [land_PAGEMASK _ (Nat.mod_lt _ (by norm_num))]
      omega
    have hsel : ∃ b, (if (desc.vd_addr + indir_next * SIZEOF_virtio_desc) % 2 ^ 64 &&& PAGEMASK ≠
        buf_gpa then viona_hold_page gpa2kva ring
          ((desc.vd_addr + indir_next * SIZEOF_virtio_desc) % 2 ^ 64 &&& PAGEMASK)
        else Outcome.done buf) = Outcome.done b := by
      split
      · exact ⟨_, viona_hold_page_ok gpa2kva ring _ hl hal⟩
      · exact ⟨_, rfl⟩
    obtain ⟨buf1, hb⟩ := hsel
    rw [hb]
    simp only
    split
    · intro h; cases h
    split
    · intro h; cases h
    split
    · intro h; cases h
    generalize hvp : desc_at mem (buf1 + ((desc.vd_addr + indir_next * SIZEOF_virtio_desc) % 2 ^ 64 -
      ((desc.vd_addr + indir_next * SIZEOF_virtio_desc) % 2 ^ 64 &&& PAGEMASK))) = vp
    have hvb : vp.vd_addr < 2 ^ 64 ∧ vp.vd_len < 2 ^ 32 := by
      rw [← hvp]; exact desc_at_bounds _ _
    obtain ⟨r, hr, _, _⟩ := vq_map_desc_bufs_safe gpa2kva ring vp iov niov idx hl hi hvb.1 hvb.2
    rw [hr]
    simp only
    split
    · intro h; cases h
    split
    · intro h; cases h
    split
    · intro h; cases h
    split
    · intro h; cases h
    rename_i _ hlt _
    have hl1 : r.ring.vr_lease ≠ none := by
      rw [stats_only_lease (vq_map_desc_bufs_stats_only hr)]
      exact hl
    exact ih r.ring r.iov r.idx vp.vd_next buf1 _ hl1 (by simpa using hlt)

/-- With the lease held and room in the vector, no assertion fails in the mapping of a
descriptor read from the ring. -/
theorem vq_popchain_map_no_panic (fuel : Nat) (gpa2kva : Nat → Nat) (mem : Mem)
    (ring : viona_vring_t) (vdir : virtio_desc) (iov : Nat → iovec) (niov i : Nat)
    (hl : ring.vr_lease ≠ none) (hi : i < niov) (ha : vdir.vd_addr < 2 ^ 64)
    (hlen : vdir.vd_len < 2 ^ 32) :
    vq_popchain_map fuel gpa2kva mem ring vdir iov niov i ≠ Outcome.panic := by
  unfold vq_popchain_map
  split
  · obtain ⟨r, hr, _, _⟩ := vq_map_desc_bufs_safe gpa2kva ring vdir iov niov i hl hi ha hlen
    rw [hr]
    intro h; cases h
  split
  · intro h; cases h
  · unfold vq_map_indir_desc_bufs
    simp only
    split
    · intro h; cases h
    · exact vq_map_indir_desc_bufs_loop_no_panic gpa2kva mem vdir niov _ fuel ring iov i 0 0
        UINT64_MAX hl hi

/-- On a mapped ring that holds its lease no assertion fails in the loop of
`vq_popchain`. -/
theorem vq_popchain_loop_no_panic (ifuel : Nat) (gpa2kva : Nat → Nat) (mem : Mem)
    (niov head cookie : Nat) :
    ∀ (fuel : Nat) (ring : viona_vring_t) (iov : Nat → iovec) (i next : Nat),
      ring_mapped ring → ring.vr_lease ≠ none →
      vq_popchain_loop ifuel gpa2kva mem niov head cookie fuel ring iov i next ≠
        Outcome.panic := by
  intro fuel
  induction fuel with
  | zero => intro ring iov i next _ _ h; cases h
  | succ fuel ih =>
    intro ring iov i next hm hl
    rw [vq_popchain_loop]
    split
    · rename_i hi
      split
      · intro h; cases h
      rename_i hnext
      obtain ⟨vdir, hrd⟩ := vq_read_desc_ok mem hm next (by omega)
      rw [hrd]
      simp only
      obtain ⟨b1, b2, _, _⟩ := vq_read_desc_bounds hrd
      have hmp := vq_popchain_map_no_panic ifuel gpa2kva mem ring vdir iov niov i hl hi b1 b2
      revert hmp
      cases hmap : vq_popchain_map ifuel gpa2kva mem ring vdir iov niov i with
      | panic => intro hmp; exact absurd rfl hmp
      | timeout => intro _ h; cases h
      | done r =>
        intro _
        simp only
        split
        · intro h; cases h
        split
        · intro h; cases h
        have hso := vq_popchain_map_stats_only hmap
        exact ih r.ring r.iov r.idx vdir.vd_next (ring_mapped_stats_only hso hm)
          (by rw [stats_only_lease hso]; exact hl)
    · intro h; cases h

/-- On a mapped ring that holds its lease, with a capacity in the asserted range, no
assertion fails in `vq_popchain`, whatever the guest has put in the ring and in its
memory: the call returns, or the fuel of the model runs out. -/
theorem vq_popchain_no_panic (fuel : Nat) (gpa2kva : Nat → Nat) (mem : Mem)
    (ring : viona_vring_t) (iov : Nat → iovec) (niov cookie : Nat) (hm : ring_mapped ring)
    (hl : ring.vr_lease ≠ none) (hn : niov > 0 ∧ niov < INT_MAX) :
    vq_popchain fuel gpa2kva mem ring iov niov cookie ≠ Outcome.panic := by
  unfold vq_popchain
  rw [if_neg (by simpa using hn)]
  simp only
  obtain ⟨ndesc, hnd⟩ := viona_ring_num_avail_ok mem hm
  rw [hnd]
  simp only
  split
  · intro h; cases h
  have hso : stats_only ring (if ndesc > ring.vr_size then incr_ndesc_too_high ring else ring) := by
    split
    · exact stats_only_with _ _
    · exact stats_only_refl _
  have hm1 := ring_mapped_stats_only hso hm
  obtain ⟨s1, s2⟩ := used_slot_lt hm1 ring.vr_cur_aidx
  obtain ⟨head, hh⟩ := vq_read_avail_ok mem hm1
    ((ring.vr_cur_aidx &&& (if ndesc > ring.vr_size then incr_ndesc_too_high ring
      else ring).vr_mask) % 65536) (by rw [s1]; exact s2)
  rw [hh]
  simp only
  exact vq_popchain_loop_no_panic fuel gpa2kva mem niov head cookie fuel _ iov 0 head hm1
    (by rw [stats_only_lease hso]; exact hl)

/-- When the walk of `vq_popchain` reaches a pass, the loop continues from the locals of
that pass. -/
theorem vq_popchain_of_reach {fuel : Nat} {gpa2kva : Nat → Nat} {mem : Mem}
    {ring : viona_vring_t} {iov : Nat → iovec} {niov cookie n : Nat} {s : PopState}
    (hv : pop_reaches fuel gpa2kva mem ring iov niov cookie n s) (f : Nat)
    (hf : fuel = n + (f + 1)) :
    ∃ head, vq_popchain fuel gpa2kva mem ring iov niov cookie =
      (match vq_popchain_pass fuel gpa2kva mem niov head cookie s with
       | Outcome.done (Pass.ret r) => Outcome.done r
       | Outcome.done (Pass.again s1) =>
         vq_popchain_loop fuel gpa2kva mem niov head cookie f s1.ring s1.iov s1.i s1.next
       | Outcome.panic => Outcome.panic
       | Outcome.timeout => Outcome.timeout) ∧
      stats_only ring s.ring := by
  obtain ⟨hn, ndesc, head, h1, h2, h3, h4⟩ := hv
  have hring := vq_popchain_walk_ring _ _ _ _ _ _ _ _ _ h4
  simp only at hring
  refine ⟨head, ?_, ?_⟩
  · unfold vq_popchain
    rw [if_neg (by simpa using hn), h1]
    simp only [if_neg h2]
    unfold pop_ring at h3 h4
    rw [h3]
    simp only
    subst hf
    have := vq_popchain_loop_walk (n + (f + 1)) gpa2kva mem niov head cookie n _ _ (f + 1) h4
    simp only at this
    rw [this]
    exact vq_popchain_loop_pass (n + (f + 1)) gpa2kva mem niov head cookie f s
  · rw [hring]
    rcases pop_ring_cases ring ndesc with e | e
    · rw [e]; exact stats_only_refl _
    · rw [e]; exact stats_only_with _ _

/-- C34 fails as stated: the guest has published descriptor 5, a valid buffer of 100
bytes with has-next whose `vd_next` is 300, beyond the 256 entries of the ring, and
`vq_popchain` is called with a vector of one entry. Descriptor 5 fills the vector, the
loop ends on its condition `i < niov` before `vd_next` is examined, and -1 is returned
with every fault counter, `bad_idx` among them, as it was. -/
theorem vq_popchain_full_vector_skips_bad_idx :
    vq_read_desc (ex_mem_top 5 ex_desc_far) ex_ring 5 = Outcome.done ex_desc_far ∧
    ex_desc_far.vd_flags &&& VRING_DESC_F_NEXT ≠ 0 ∧ ex_desc_far.vd_next ≥ ex_ring.vr_size ∧
    vq_popchain 10 ex_kva (ex_mem_top 5 ex_desc_far) ex_ring ex_iov 1 99 =
      Outcome.done { ret := -1, ring := ex_ring,
                     iov := iov_set ex_iov 0 { iov_base := 16797712, iov_len := 100 },
                     cookie := 99 } :=
  ⟨rfl, by decide, by decide, rfl⟩

/-- C34, amended: on a mapped ring that holds its lease and for a capacity in the
asserted range, no assertion fails in `vq_popchain` whatever the guest has put in the ring
and in its memory, the bounds assertions of `vq_read_desc` and `vq_read_avail` among
them: the available-ring slot `vr_cur_aidx & vr_mask` is below `vr_size`, and in every
pass that the walk reaches with room in the vector (`i < niov`) the index `next` (the
head in the first pass, the `vd_next` of the descriptor before in the others) is either
below `vr_size`, and then descriptor `next` is read, or it is not, and then `vq_popchain`
returns -1 and counts `bad_idx` once, with vector and cookie as they are. When the walk
reaches a pass with the vector full, `vq_popchain` returns -1 without examining `next`
and without counting anything. -/
theorem vq_popchain_index_bounds (fuel : Nat) (gpa2kva : Nat → Nat) (mem : Mem)
    (ring : viona_vring_t) (iov : Nat → iovec) (niov cookie : Nat) (hm : ring_mapped ring)
    (hl : ring.vr_lease ≠ none) (hn : niov > 0 ∧ niov < INT_MAX) :
    vq_popchain fuel gpa2kva mem ring iov niov cookie ≠ Outcome.panic ∧
    (ring.vr_cur_aidx &&& ring.vr_mask) % 65536 < ring.vr_size ∧
    (∃ head, vq_read_avail mem ring ((ring.vr_cur_aidx &&& ring.vr_mask) % 65536) =
      Outcome.done head) ∧
    ∀ (n : Nat) (s : PopState), pop_reaches fuel gpa2kva mem ring iov niov cookie n s →
      n + 1 ≤ fuel →
      (s.i < niov → s.next ≥ s.ring.vr_size →
        vq_popchain fuel gpa2kva mem ring iov niov cookie =
          Outcome.done { ret := -1, ring := incr_bad_idx s.ring, iov := s.iov,
                         cookie := cookie }) ∧
      (s.i < niov → s.next < s.ring.vr_size →
        ∃ vdir, vq_read_desc mem s.ring s.next = Outcome.done vdir) ∧
      (¬ s.i < niov →
        vq_popchain fuel gpa2kva mem ring iov niov cookie =
          Outcome.done { ret := -1, ring := s.ring, iov := s.iov, cookie := cookie }) := by
  obtain ⟨s1, s2⟩ := used_slot_lt hm ring.vr_cur_aidx
  refine ⟨vq_popchain_no_panic fuel gpa2kva mem ring iov niov cookie hm hl hn,
    by rw [s1]; exact s2, vq_read_avail_ok mem hm _ (by rw [s1]; exact s2), ?_⟩
  intro n s hv hf
  obtain ⟨f, hfe⟩ : ∃ f, fuel = n + (f + 1) := ⟨fuel - n - 1, by omega⟩
  obtain ⟨head, hp, hso⟩ := vq_popchain_of_reach hv f hfe
  refine ⟨?_, ?_, ?_⟩
  · intro hi hnext
    rw [hp]
    unfold vq_popchain_pass
    rw [if_pos hi, if_pos hnext]
  · intro _ hnext
    exact vq_read_desc_ok mem (ring_mapped_stats_only hso hm) s.next hnext
  · intro hi
    rw [hp]
    unfold vq_popchain_pass
    rw [if_neg hi]

/-- Witness for C34, amended: on `ex_mem_top 5 ex_desc_far` with a vector of eight
entries the walk reaches its second pass with `next = 300` and room in the vector, so
`vq_popchain` returns -1 and counts `bad_idx`. -/
theorem vq_popchain_index_bounds_witness :
    pop_reaches 10 ex_kva (ex_mem_top 5 ex_desc_far) ex_ring ex_iov 8 99 1 ex_pop_state_far ∧
    vq_popchain 10 ex_kva (ex_mem_top 5 ex_desc_far) ex_ring ex_iov 8 99 =
      Outcome.done { ret := -1, ring := incr_bad_idx ex_ring,
                     iov := iov_set ex_iov 0 { iov_base := 16797712, iov_len := 100 },
                     cookie := 99 } :=
  ⟨⟨by decide, 1, 5, rfl, by decide, rfl, rfl⟩,
   ((vq_popchain_index_bounds 10 ex_kva (ex_mem_top 5 ex_desc_far) ex_ring ex_iov 8 99
      ex_ring_mapped (by decide) (by decide)).2.2.2 1 ex_pop_state_far
      ⟨by decide, 1, 5, rfl, by decide, rfl, rfl⟩ (by decide)).1 (by decide) (by decide)⟩

/-- A pass of the loop of `vq_map_indir_desc_bufs` that goes round again leaves an
`indir_next` below `indir_count`. -/
theorem vq_map_indir_pass_next {gpa2kva : Nat → Nat} {mem : Mem} {desc : virtio_desc}
    {niov indir_count : Nat} {t t1 : IndirState}
    (h : vq_map_indir_pass gpa2kva mem desc niov indir_count t = Outcome.done (Pass.again t1)) :
    t1.indir_next < indir_count := by
  unfold vq_map_indir_pass at h
  split at h
  · split at h
    · cases h
    · simp only at h
      split at h
      · cases h
      · split at h
        · cases h
        · split at h
          · rename_i r hm
            split at h
            · cases h
            · rename_i he
              split at h
              · cases h
              · split at h
                · cases h
                · rename_i hlt
                  split at h
                  · cases h
                  · rename_i hnx
                    cases h
                    simpa using hnx
          · cases h
          · cases h
  · cases h
  · cases h

theorem vq_map_indir_walk_next (gpa2kva : Nat → Nat) (mem : Mem) (desc : virtio_desc)
    (niov indir_count : Nat) (m : Nat) :
    ∀ (t t1 : IndirState), t.indir_next < indir_count →
      vq_map_indir_walk gpa2kva mem desc niov indir_count m t = Outcome.done (Pass.again t1) →
      t1.indir_next < indir_count := by
  induction m with
  | zero =>
    intro t t1 h0 h
    simp only [vq_map_indir_walk] at h
    injection h with h
    injection h with h
    rw [← h]; exact h0
  | succ m ih =>
    intro t t1 h0 h
    unfold vq_map_indir_walk at h
    split at h
    · rename_i t2 hp
      exact ih t2 t1 (vq_map_indir_pass_next hp) h
    · cases h
    · cases h
    · cases h

/-- The pass of the loop of `vq_map_indir_desc_bufs` that visits a direct sub-descriptor
of non-zero length which is mapped: what follows the mapping when the pass returns. -/
theorem vq_map_indir_pass_mapped {gpa2kva : Nat → Nat} {mem : Mem} {ring : viona_vring_t}
    {desc : virtio_desc} {iov : Nat → iovec} {niov idx m : Nat} {t : IndirState}
    {vp : virtio_desc} {mr : MapRes}
    (hv : indir_visits gpa2kva mem ring desc iov niov idx m t vp)
    (hind : vp.vd_flags &&& VRING_DESC_F_INDIRECT = 0) (hlen : vp.vd_len ≠ 0)
    (hm : vq_map_desc_bufs gpa2kva t.ring vp t.iov niov t.idx = Outcome.done mr)
    (he : mr.err = 0) (indir_count : Nat) :
    (vp.vd_flags &&& VRING_DESC_F_NEXT = 0 →
      vq_map_indir_pass gpa2kva mem desc niov indir_count t = Outcome.done (Pass.ret mr)) ∧
    (vp.vd_flags &&& VRING_DESC_F_NEXT ≠ 0 → mr.idx ≥ niov →
      vq_map_indir_pass gpa2kva mem desc niov indir_count t =
        Outcome.done
          (Pass.ret
            { err := E2BIG, ring := incr_too_many_desc mr.ring, iov := mr.iov,
              idx := mr.idx })) ∧
    (vp.vd_flags &&& VRING_DESC_F_NEXT ≠ 0 → mr.idx < niov → vp.vd_next ≥ indir_count →
      vq_map_indir_pass gpa2kva mem desc niov indir_count t =
        Outcome.done
          (Pass.ret
            { err := EINVAL, ring := incr_indir_bad_next mr.ring, iov := mr.iov,
              idx := mr.idx })) := by
  obtain ⟨_, buf1, h1, h2, h3⟩ := hv
  unfold vq_map_indir_pass
  rw [h1]
  simp only
  rw [if_neg h2, ← h3, if_neg (by simpa using hind), if_neg hlen, hm]
  simp only
  rw [if_neg (by simpa using he)]
  refine ⟨?_, ?_, ?_⟩
  · intro hnx
    rw [if_pos hnx]
  · intro hnx hfull
    rw [if_neg hnx, if_pos hfull]
  · intro hnx hroom hfar
    rw [if_neg hnx, if_neg (by omega), if_pos hfar]

/-- C35 fails as stated: the table of the indirect descriptor 9 has one entry, a valid
buffer of 100 bytes with has-next whose `vd_next` is 5, beyond the one entry of the
table, and the vector has one entry. The sub-descriptor fills the vector; the test of the
vector comes before the test of `vd_next`, so `vq_map_indir_desc_bufs` returns `E2BIG`
and counts `too_many_desc`, while `indir_bad_next` stays as it was. -/
theorem vq_map_indir_full_vector_before_next :
    indir_visits ex_kva (ex_mem_indir 16 ex_sub_far ex_sub_far) ex_ring (ex_indir_desc 16)
      ex_iov 1 0 0 ex_indir_state_first ex_sub_far ∧
    ex_sub_far.vd_flags &&& VRING_DESC_F_NEXT ≠ 0 ∧
    ex_sub_far.vd_next ≥ (ex_indir_desc 16).vd_len / SIZEOF_virtio_desc ∧
    vq_map_indir_desc_bufs 10 ex_kva (ex_mem_indir 16 ex_sub_far ex_sub_far) ex_ring
        (ex_indir_desc 16) ex_iov 1 0 =
      Outcome.done
        { err := E2BIG, ring := incr_too_many_desc ex_ring,
          iov := iov_set ex_iov 0 { iov_base := 16797712, iov_len := 100 }, idx := 1 } ∧
    (incr_too_many_desc ex_ring).vr_stats.rs_indir_bad_next =
      ex_ring.vr_stats.rs_indir_bad_next :=
  ⟨⟨⟨by decide, rfl⟩, 16809984, rfl, by decide, rfl⟩, by decide, by decide, rfl, rfl⟩

/-- C35, amended: for every indirect descriptor (a 64-bit address and a 32-bit length)
that passes the validation of `vq_map_indir_desc_bufs`, the table range `[vd_addr,
vd_addr + vd_len)` does not wrap past 2^64, and the sub-descriptor that a pass of the walk
reads is at guest address `vd_addr + 16 * k` with `k = indir_next` below the entry count
and `16 * k + 16 <= vd_len`: inside the table the guest declared. When a visited direct
sub-descriptor of non-zero length has been mapped and has has-next set with a `vd_next`
not below the entry count of the table, `vq_map_indir_desc_bufs` rejects it: with
`EINVAL` and `indir_bad_next` counted when the vector still has room, with `E2BIG` and
`too_many_desc` counted when the vector is full. Without has-next the `vd_next` of a
sub-descriptor is not examined. -/
theorem vq_map_indir_reads_inside_table (ring : viona_vring_t) (desc : virtio_desc)
    (hv : indir_valid ring desc) (ha : desc.vd_addr < 2 ^ 64) (hlen : desc.vd_len < 2 ^ 32) :
    desc.vd_addr + desc.vd_len < 2 ^ 64 ∧
    (∀ (gpa2kva : Nat → Nat) (mem : Mem) (iov : Nat → iovec) (niov idx m : Nat)
        (t : IndirState), indir_reaches gpa2kva mem ring desc iov niov idx m t →
      t.indir_next < desc.vd_len / SIZEOF_virtio_desc ∧
      indir_gpa desc t = desc.vd_addr + SIZEOF_virtio_desc * t.indir_next ∧
      SIZEOF_virtio_desc * t.indir_next + SIZEOF_virtio_desc ≤ desc.vd_len) ∧
    (∀ (fuel : Nat) (gpa2kva : Nat → Nat) (mem : Mem) (iov : Nat → iovec) (niov idx m : Nat)
        (t : IndirState) (vp : virtio_desc) (mr : MapRes),
      indir_visits gpa2kva mem ring desc iov niov idx m t vp → m + 1 ≤ fuel →
      vp.vd_flags &&& VRING_DESC_F_INDIRECT = 0 → vp.vd_len ≠ 0 →
      vq_map_desc_bufs gpa2kva t.ring vp t.iov niov t.idx = Outcome.done mr → mr.err = 0 →
      (vp.vd_flags &&& VRING_DESC_F_NEXT ≠ 0 →
        vp.vd_next ≥ desc.vd_len / SIZEOF_virtio_desc →
        (mr.idx < niov →
          vq_map_indir_desc_bufs fuel gpa2kva mem ring desc iov niov idx =
            Outcome.done { err := EINVAL, ring := incr_indir_bad_next mr.ring, iov := mr.iov,
                           idx := mr.idx }) ∧
        (mr.idx ≥ niov →
          vq_map_indir_desc_bufs fuel gpa2kva mem ring desc iov niov idx =
            Outcome.done { err := E2BIG, ring := incr_too_many_desc mr.ring, iov := mr.iov,
                           idx := mr.idx })) ∧
      (vp.vd_flags &&& VRING_DESC_F_NEXT = 0 →
        vq_map_indir_desc_bufs fuel gpa2kva mem ring desc iov niov idx = Outcome.done mr)) := by
  have e64 : (2:Nat) ^ 64 = 18446744073709551616 := by norm_num
  have e32 : (2:Nat) ^ 32 = 4294967296 := by norm_num
  have hv0 := hv
  unfold indir_valid at hv0
  simp only [not_or, not_lt] at hv0
  obtain ⟨_, hc0, _, hw⟩ := hv0
  unfold SIZEOF_virtio_desc at hc0 ⊢
  rw [e64] at ha hw ⊢
  rw [e32] at hlen
  have hnowrap : desc.vd_addr + desc.vd_len < 18446744073709551616 := by
    by_contra hc
    omega
  refine ⟨hnowrap, ?_, ?_⟩
  · intro gpa2kva mem iov niov idx m t hr
    obtain ⟨_, hw2⟩ := hr
    have hlt := vq_map_indir_walk_next gpa2kva mem desc niov _ m _ t
      (by show 0 < desc.vd_len / SIZEOF_virtio_desc % 65536
          unfold SIZEOF_virtio_desc; omega) hw2
    unfold SIZEOF_virtio_desc at hlt
    have hk : t.indir_next < desc.vd_len / 16 :=
      lt_of_lt_of_le hlt (Nat.mod_le _ _)
    refine ⟨hk, ?_, by omega⟩
    unfold indir_gpa SIZEOF_virtio_desc
    rw [e64]
    omega
  · intro fuel gpa2kva mem iov niov idx m t vp mr hvis hf hind hl0 hmap he
    have hpass := vq_map_indir_pass_mapped hvis hind hl0 hmap he
      ((desc.vd_len / SIZEOF_virtio_desc) % 65536)
    obtain ⟨p1, p2, p3⟩ := hpass
    refine ⟨?_, ?_⟩
    · intro hnx hfar
      have hfar2 : vp.vd_next ≥ (desc.vd_len / SIZEOF_virtio_desc) % 65536 := by
        unfold SIZEOF_virtio_desc
        exact le_trans (Nat.mod_le _ _) hfar
      constructor
      · intro hroom
        exact (vq_map_indir_desc_bufs_of_reach hvis.1 hf (p3 hnx hroom hfar2)).1
      · intro hfull
        exact (vq_map_indir_desc_bufs_of_reach hvis.1 hf (p2 hnx hfull)).1
    · intro hnx
      exact (vq_map_indir_desc_bufs_of_reach hvis.1 hf (p1 hnx)).1

/-- Witness for C35, amended: the table of one entry of the example with a vector of
eight entries: the sub-descriptor with `vd_next = 5` is rejected with `EINVAL` and
`indir_bad_next` counted. -/
theorem vq_map_indir_reads_inside_table_witness :
    indir_valid ex_ring (ex_indir_desc 16) ∧
    (ex_indir_desc 16).vd_addr + (ex_indir_desc 16).vd_len < 2 ^ 64 ∧
    vq_map_indir_desc_bufs 10 ex_kva (ex_mem_indir 16 ex_sub_far ex_sub_far) ex_ring
        (ex_indir_desc 16) ex_iov 8 0 =
      Outcome.done
        { err := EINVAL, ring := incr_indir_bad_next ex_ring,
          iov := iov_set ex_iov 0 { iov_base := 16797712, iov_len := 100 }, idx := 1 } :=
  ⟨by decide,
   (vq_map_indir_reads_inside_table ex_ring (ex_indir_desc 16) (by decide) (by decide)
      (by decide)).1,
   (((vq_map_indir_reads_inside_table ex_ring (ex_indir_desc 16) (by decide) (by decide)
      (by decide)).2.2 10 ex_kva (ex_mem_indir 16 ex_sub_far ex_sub_far) ex_iov 8 0 0
      ex_indir_state_first ex_sub_far
      { err := 0, ring := ex_ring,
        iov := iov_set ex_iov 0 { iov_base := 16797712, iov_len := 100 }, idx := 1 }
      ⟨⟨by decide, rfl⟩, 16809984, rfl, by decide, rfl⟩ (by decide) (by decide) (by decide)
      rfl rfl).1 (by decide) (by decide)).1 (by decide)⟩

/-- C39 fails on the code: the validation of an indirect descriptor does not look at the
alignment of `vd_addr`. The table of the indirect descriptor 9 has one entry at guest
address 36856, which is 4088 bytes into its page, so the 16 bytes copied end eight bytes
behind the page that `viona_hold_page` translated (host bytes 16809984 to 16814079): the
fields `vd_len`, `vd_flags` and `vd_next` of the private copy come from host bytes that
belong to no page the walk holds, here behind a guest page that is not even backed. The
descriptor is accepted and `vq_popchain` returns 1; with the four bytes behind the page
set to 0, and the page itself unchanged, the same call returns -1 and counts
`desc_bad_len`. -/
theorem vq_map_indir_reads_past_page :
    indir_valid ex_ring ex_indir_unaligned ∧
    indir_visits ex_kva_two ex_mem_unaligned ex_ring ex_indir_unaligned ex_iov 8 0 0
      ex_indir_state_first { vd_addr := 20496, vd_len := 100, vd_flags := 0, vd_next := 0 } ∧
    indir_hold ex_kva_two ex_indir_unaligned ex_indir_state_first = Outcome.done 16809984 ∧
    indir_gpa ex_indir_unaligned ex_indir_state_first % PAGESIZE + SIZEOF_virtio_desc >
      PAGESIZE ∧
    ex_kva_two (indir_page ex_indir_unaligned ex_indir_state_first + PAGESIZE) = 0 ∧
    (∀ x, x < 16809984 + PAGESIZE → ex_mem_unaligned_zero x = ex_mem_unaligned x) ∧
    vq_popchain 10 ex_kva_two ex_mem_unaligned ex_ring ex_iov 8 99 =
      Outcome.done { ret := 1, ring := { ex_ring with vr_cur_aidx := 1 },
                     iov := iov_set ex_iov 0 { iov_base := 16797712, iov_len := 100 },
                     cookie := 9 } ∧
    vq_popchain 10 ex_kva_two ex_mem_unaligned_zero ex_ring ex_iov 8 99 =
      Outcome.done { ret := -1, ring := incr_desc_bad_len ex_ring, iov := ex_iov,
                     cookie := 99 } := by
  refine ⟨by decide, ⟨⟨by decide, rfl⟩, 16809984, rfl, by decide, rfl⟩, rfl, by decide,
    by decide, ?_, rfl, rfl⟩
  intro x hx
  unfold ex_mem_unaligned_zero
  apply wr32_other
  intro k _ he
  unfold PAGESIZE at hx
  omega

/-- The page loop of `vq_map_desc_bufs` writes the vector only at `lidx` and at the up to
`n - 1` following indices. -/
theorem vq_map_desc_bufs_loop_iov (gpa2kva : Nat → Nat) (ring : viona_vring_t) (bound : Nat)
    (n : Nat) :
    ∀ (gpa len lidx : Nat) (iov : Nat → iovec) (st : MapLoop),
      vq_map_desc_bufs_loop gpa2kva ring n gpa len lidx iov = Outcome.done st →
      lidx + n ≤ bound → ∀ j, bound ≤ j → st.iov j = iov j := by
  induction n with
  | zero =>
    intro gpa len lidx iov st h _ j _
    simp only [vq_map_desc_bufs_loop] at h
    cases h
    rfl
  | succ n ih =>
    intro gpa len lidx iov st h hb j hj
    rw [vq_map_desc_bufs_loop] at h
    split at h
    · cases h
    · split at h
      · split at h
        · cases h; rfl
        · have hl : (lidx + 1) % 65536 + n ≤ bound := by omega
          rw [ih _ _ _ _ _ h hl j hj]
          unfold iov_set
          rw [if_neg (by omega)]
      · cases h
      · cases h

/-- Whatever `vq_map_desc_bufs` returns, the vector entries from `niov` on are as they
were: every index it writes is below `niov`. -/
theorem vq_map_desc_bufs_iov {gpa2kva : Nat → Nat} {ring : viona_vring_t}
    {desc : virtio_desc} {iov : Nat → iovec} {niov idx : Nat} {r : MapRes}
    (hn : niov < 2 ^ 32)
    (h : vq_map_desc_bufs gpa2kva ring desc iov niov idx = Outcome.done r) :
    ∀ j, niov ≤ j → r.iov j = iov j := by
  have e32 : (2:Nat) ^ 32 = 4294967296 := by norm_num
  rw [e32] at hn
  intro j hj
  unfold vq_map_desc_bufs at h
  simp only at h
  split at h
  · cases h
  rename_i hidx
  have hidx1 : idx < niov := by simpa using hidx
  split at h
  · cases h; rfl
  split at h
  · cases h; rfl
  rename_i hpg
  have hpg1 : desc_pages desc ≤ niov - idx := by
    rw [e32] at hpg
    omega
  split at h
  · split at h
    · cases h; rfl
    · split at h
      · rename_i st hst
        have hl : (idx + 1) % 65536 + (desc_pages desc - 1) ≤ niov := by omega
        have hf := vq_map_desc_bufs_loop_iov gpa2kva ring niov _ _ _ _ _ _ hst hl j hj
        have hs : ∀ v, iov_set iov idx v j = iov j := by
          intro v
          unfold iov_set
          rw [if_neg (by omega)]
        split at h
        · cases h
          show st.iov j = iov j
          rw [hf]
          exact hs _
        · split at h
          · cases h
          · split at h
            · cases h
            · cases h
              show st.iov j = iov j
              rw [hf]
              exact hs _
      · cases h
      · cases h
  · cases h
  · cases h

theorem vq_map_indir_desc_bufs_loop_iov {gpa2kva : Nat → Nat} {mem : Mem}
    {desc : virtio_desc} {niov indir_count : Nat} (hn : niov < 2 ^ 32) (fuel : Nat) :
    ∀ {ring : viona_vring_t} {iov : Nat → iovec} {idx indir_next buf buf_gpa : Nat} {r : MapRes},
      vq_map_indir_desc_bufs_loop gpa2kva mem desc niov indir_count fuel ring iov idx indir_next
        buf buf_gpa = Outcome.done r → ∀ j, niov ≤ j → r.iov j = iov j := by
  induction fuel with
  | zero => intro ring iov idx indir_next buf buf_gpa r h; simp [vq_map_indir_desc_bufs_loop] at h
  | succ n ih =>
    intro ring iov idx indir_next buf buf_gpa r h j hj
    unfold vq_map_indir_desc_bufs_loop at h
    simp only at h
    split at h
    · split at h
      · cases h; rfl
      · split at h
        · cases h; rfl
        · split at h
          · cases h; rfl
          · split at h
            · rename_i r1 hm
              have f1 := vq_map_desc_bufs_iov hn hm j hj
              split at h
              · cases h; exact f1
              · split at h
                · cases h; exact f1
                · split at h
                  · cases h; exact f1
                  · split at h
                    · cases h; exact f1
                    · rw [ih h j hj]; exact f1
            · cases h
            · cases h
    · cases h
    · cases h

theorem vq_map_indir_desc_bufs_iov {fuel : Nat} {gpa2kva : Nat → Nat} {mem : Mem}
    {ring : viona_vring_t} {desc : virtio_desc} {iov : Nat → iovec} {niov idx : Nat} {r : MapRes}
    (hn : niov < 2 ^ 32)
    (h : vq_map_indir_desc_bufs fuel gpa2kva mem ring desc iov niov idx = Outcome.done r) :
    ∀ j, niov ≤ j → r.iov j = iov j := by
  intro j hj
  unfold vq_map_indir_desc_bufs at h
  simp only at h
  split at h
  · cases h; rfl
  · exact vq_map_indir_desc_bufs_loop_iov hn _ h j hj

theorem vq_popchain_map_iov {fuel : Nat} {gpa2kva : Nat → Nat} {mem : Mem}
    {ring : viona_vring_t} {vdir : virtio_desc} {iov : Nat → iovec} {niov i : Nat} {r : MapRes}
    (hn : niov < 2 ^ 32)
    (h : vq_popchain_map fuel gpa2kva mem ring vdir iov niov i = Outcome.done r) :
    ∀ j, niov ≤ j → r.iov j = iov j := by
  intro j hj
  unfold vq_popchain_map at h
  split at h
  · exact vq_map_desc_bufs_iov hn h j hj
  · split at h
    · cases h; rfl
    · exact vq_map_indir_desc_bufs_iov hn h j hj

theorem vq_popchain_loop_iov {ifuel : Nat} {gpa2kva : Nat → Nat} {mem : Mem}
    {niov head cookie : Nat} (hn : niov < 2 ^ 32) (fuel : Nat) :
    ∀ {ring : viona_vring_t} {iov : Nat → iovec} {i next : Nat} {r : PopRes},
      vq_popchain_loop ifuel gpa2kva mem niov head cookie fuel ring iov i next = Outcome.done r →
      ∀ j, niov ≤ j → r.iov j = iov j := by
  induction fuel with
  | zero => intro ring iov i next r h; simp [vq_popchain_loop] at h
  | succ n ih =>
    intro ring iov i next r h j hj
    unfold vq_popchain_loop at h
    split at h
    · split at h
      · cases h; rfl
      · split at h
        · split at h
          · rename_i vdir _ r1 hm
            have f1 := vq_popchain_map_iov hn hm j hj
            split at h
            · cases h; exact f1
            · split at h
              · cases h; exact f1
              · rw [ih h j hj]; exact f1
          · cases h
          · cases h
        · cases h
        · cases h
    · cases h; rfl

/-- Every vector index that `vq_popchain` writes is below `niov`, on successful and on
failing runs alike (this part of C38 holds for every capacity in the asserted range): the
entries of the vector from `niov` on are after the call what they were before. -/
theorem vq_popchain_iov_in_range {fuel : Nat} {gpa2kva : Nat → Nat} {mem : Mem}
    {ring : viona_vring_t} {iov : Nat → iovec} {niov cookie : Nat} {r : PopRes}
    (h : vq_popchain fuel gpa2kva mem ring iov niov cookie = Outcome.done r) :
    ∀ j, niov ≤ j → r.iov j = iov j := by
  intro j hj
  unfold vq_popchain at h
  split at h
  · cases h
  rename_i hn
  have hn1 : niov < 2 ^ 32 := by
    have e32 : (2:Nat) ^ 32 = 4294967296 := by norm_num
    have := (not_not.mp hn).2
    unfold INT_MAX at this
    rw [e32]
    omega
  simp only at h
  split at h
  · split at h
    · cases h; rfl
    · split at h
      · exact vq_popchain_loop_iov hn1 _ h j hj
      · cases h
      · cases h
  · cases h
  · cases h

end Viona
